import Mathlib

/-!
# libfirm: SSA destruction (`ir/be/bessadestr.c`), PBQP back-propagation
(`ir/kaps/heuristical_co_ld.c`) and the parser of asm constraints (`ir/be/bemain.c`)

A shallow embedding of the two passes and of the parser, and the properties
proved about them.

Conventions of the embedding

* C arrays of `unsigned` are `List Nat`; `rd a i` is `a[i]` and `List.set` is the
  store `a[i] = v`.  Reads outside the array (undefined in C) yield `0`/`false`;
  the theorems assume the indices are in range.
* `unsigned` arithmetic that can wrap is written with `% 2^32` (`u32_inc`, `u32_dec`);
  `(unsigned) -1` is `UINT_MAX`.
* An `assert` that fails ends the run with `Fault.assertion line`, where `line` is the
  line of the assertion in the source file; dereferencing `NULL` ends it with
  `Fault.null_deref`.
* `while` loops and `for` loops without an unconditional increment run under a step
  budget; a run that exhausts the budget ends with `Fault.out_of_fuel`.
  `for (i = 0; i < n; ++i)` loops are `for_loop`.
-/

namespace Firm

/-! ## Execution model -/

/-- Ways in which a run ends without a result. -/
inductive Fault where
  | assertion (line : Nat)
  | null_deref
  | out_of_fuel
deriving DecidableEq, Repr

/-- The loop `while (cond) body`, run for at most `fuel` iterations. -/
def while_loop {σ : Type} (cond : σ → Bool) (body : σ → Except Fault σ) :
    Nat → σ → Except Fault σ
  | 0, _ => .error .out_of_fuel
  | fuel + 1, s =>
    if cond s then
      match body s with
      | .ok s' => while_loop cond body fuel s'
      | .error e => .error e
    else .ok s

/-- The loop `for (i = 0; i < n; ++i) body(i)`. -/
def for_loop {σ : Type} (body : Nat → σ → Except Fault σ) : Nat → σ → Except Fault σ
  | 0, s => .ok s
  | n + 1, s =>
    match for_loop body n s with
    | .ok s' => body n s'
    | .error e => .error e

/-- Value of `(unsigned) -1`. -/
def UINT_MAX : Nat := 4294967295

/-- Unsigned increment `++x`. -/
def u32_inc (x : Nat) : Nat := (x + 1) % 4294967296

/-- Unsigned decrement `--x`. -/
def u32_dec (x : Nat) : Nat := (x + 4294967295) % 4294967296

/-- Array read `a[i]` of an `unsigned` array. -/
def rd (a : List Nat) (i : Nat) : Nat := a.getD i 0

/-- Array read `a[i]` of a `bool` array. -/
def rdb (a : List Bool) (i : Nat) : Bool := a.getD i false

/-! ## `bessadestr.c`: the parallel-copy realizer -/

/-- Local state of the two loops of `mark_cycle_parts` and `print_parcopy`:
the loop variable (`r` in the outer loops, `s` in the chain walks), and the
arrays `part_of_cycle`, `permutation` and `n_used` (the latter two are the
copies made by `memcpy`); `out` collects the components that `print_parcopy`
prints. -/
structure cyc_state where
  i : Nat
  part_of_cycle : List Bool
  permutation : List Nat
  n_used : List Nat
  out : List (List Nat)

/-- Condition of the chain walk `while (n_used[s] == 0 && permutation[s] != s)`. -/
def chain_walk_cond (st : cyc_state) : Bool :=
  decide (rd st.n_used st.i = 0) && decide (rd st.permutation st.i ≠ st.i)

/-- Body of the chain walk of `mark_cycle_parts` (lines 156-162). -/
def mark_cycle_parts_chain_body (st : cyc_state) : Except Fault cyc_state :=
  let s := st.i
  let part_of_cycle := st.part_of_cycle.set s false
  let src := rd st.permutation s
  let permutation := st.permutation.set s s
  if rd st.n_used src > 0 then
    .ok { i := src, part_of_cycle := part_of_cycle, permutation := permutation,
          n_used := st.n_used.set src (u32_dec (rd st.n_used src)), out := st.out }
  else .error (.assertion 160)

/-- Body of the first loop of `mark_cycle_parts` (lines 147-164); `r` is only
incremented on the `continue` path. -/
def mark_cycle_parts_drain_body (B : Nat) (st : cyc_state) : Except Fault cyc_state :=
  let r := st.i
  if rd st.permutation r = r ∨ rd st.n_used r > 0 then
    .ok { st with i := r + 1 }
  else
    match while_loop chain_walk_cond mark_cycle_parts_chain_body B st with
    | .ok t => .ok { t with i := r }
    | .error e => .error e

/-- Condition of the cycle walk `while (permutation[s] != s)`. -/
def cycle_walk_cond (st : cyc_state) : Bool :=
  decide (rd st.permutation st.i ≠ st.i)

/-- Body of the cycle walk of `mark_cycle_parts` (lines 179-182). -/
def mark_cycle_parts_cycle_body (st : cyc_state) : Except Fault cyc_state :=
  let s := st.i
  let part_of_cycle := st.part_of_cycle.set s true
  let src := rd st.permutation s
  .ok { st with i := src, part_of_cycle := part_of_cycle,
                permutation := st.permutation.set s s }

/-- Body of the second loop of `mark_cycle_parts` (lines 167-184). -/
def mark_cycle_parts_rest_body (B : Nat) (st : cyc_state) : Except Fault cyc_state :=
  let r := st.i
  if rd st.permutation r = r then
    .ok { st with
      part_of_cycle := if rd st.n_used r > 0 then st.part_of_cycle.set r true
                       else st.part_of_cycle,
      i := r + 1 }
  else if rd st.n_used r = 1 then
    match while_loop cycle_walk_cond mark_cycle_parts_cycle_body B st with
    | .ok t => .ok { t with i := r }
    | .error e => .error e
  else .error (.assertion 175)

/-- The function `mark_cycle_parts`: returns the array `part_of_cycle`.  `B` is
the step budget of every loop, `n_regs` is `the_env->cls->n_regs`. -/
def mark_cycle_parts (B n_regs : Nat) (permutation_orig n_used_orig : List Nat) :
    Except Fault (List Bool) :=
  let st0 : cyc_state :=
    { i := 0, part_of_cycle := List.replicate n_regs false,
      permutation := permutation_orig, n_used := n_used_orig, out := [] }
  match while_loop (fun st => decide (st.i < n_regs)) (mark_cycle_parts_drain_body B) B st0 with
  | .error e => .error e
  | .ok st1 =>
    match while_loop (fun st => decide (st.i < n_regs)) (mark_cycle_parts_rest_body B) B
        { st1 with i := 0 } with
    | .error e => .error e
    | .ok st2 => .ok st2.part_of_cycle

/-- Body of the chain walk of `print_parcopy` (lines 87-92); the component
`comp[0..len)` is the head of `out`. -/
def print_parcopy_chain_body (st : cyc_state) : Except Fault cyc_state :=
  let s := st.i
  let src := rd st.permutation s
  let permutation := st.permutation.set s s
  let out := (st.out.headD [] ++ [src]) :: st.out.tail
  if rd st.n_used src > 0 then
    .ok { st with i := src, permutation := permutation,
                  n_used := st.n_used.set src (u32_dec (rd st.n_used src)), out := out }
  else .error (.assertion 90)

/-- Body of the first loop of `print_parcopy` (lines 76-105).  The printed
chain is the reversed component. -/
def print_parcopy_drain_body (B : Nat) (st : cyc_state) : Except Fault cyc_state :=
  let r := st.i
  if rd st.permutation r = r ∨ rd st.n_used r > 0 then
    .ok { st with i := r + 1 }
  else
    match while_loop chain_walk_cond print_parcopy_chain_body B
        { st with out := [r] :: st.out } with
    | .ok t => .ok { t with i := r, out := (t.out.headD []).reverse :: t.out.tail }
    | .error e => .error e

/-- Body of the cycle walk of `print_parcopy` (lines 119-122). -/
def print_parcopy_cycle_body (st : cyc_state) : Except Fault cyc_state :=
  let s := st.i
  let src := rd st.permutation s
  .ok { st with i := src, permutation := st.permutation.set s s,
                out := (st.out.headD [] ++ [s]) :: st.out.tail }

/-- Body of the second loop of `print_parcopy` (lines 108-134). -/
def print_parcopy_rest_body (B : Nat) (st : cyc_state) : Except Fault cyc_state :=
  let r := st.i
  if rd st.permutation r = r then
    .ok { st with i := r + 1 }
  else if rd st.n_used r = 1 then
    match while_loop cycle_walk_cond print_parcopy_cycle_body B
        { st with out := [] :: st.out } with
    | .ok t => .ok { t with i := r, out := (t.out.headD []).reverse :: t.out.tail }
    | .error e => .error e
  else .error (.assertion 114)

/-- The function `print_parcopy`: works on copies of its arguments and returns
the printed components (latest first). -/
def print_parcopy (B n_regs : Nat) (permutation_orig n_used_orig : List Nat) :
    Except Fault (List (List Nat)) :=
  let st0 : cyc_state :=
    { i := 0, part_of_cycle := [], permutation := permutation_orig,
      n_used := n_used_orig, out := [] }
  match while_loop (fun st => decide (st.i < n_regs)) (print_parcopy_drain_body B) B st0 with
  | .error e => .error e
  | .ok st1 =>
    match while_loop (fun st => decide (st.i < n_regs)) (print_parcopy_rest_body B) B
        { st1 with i := 0 } with
    | .error e => .error e
    | .ok st2 => .ok st2.out

/-- Local state of `find_longest_chain`: the walk variables `r`, `len`, the
running maximum `max_len`, `max_dst`, and whether the walk has hit `break`. -/
structure flc_state where
  r : Nat
  len : Nat
  max_len : Nat
  max_dst : Nat
  broke : Bool

/-- Condition of the walk `while (r != parcopy[r])` of `find_longest_chain`,
left early through `break`. -/
def find_longest_chain_cond (parcopy : List Nat) (st : flc_state) : Bool :=
  !st.broke && decide (st.r ≠ rd parcopy st.r)

/-- Body of the walk of `find_longest_chain` (lines 212-220). -/
def find_longest_chain_walk_body (parcopy : List Nat) (fork_reg : Nat) (st : flc_state) :
    Except Fault flc_state :=
  let src := rd parcopy st.r
  let len := u32_inc st.len
  if src = fork_reg ∧ len > st.max_len then
    .ok { st with len := len, max_len := len, max_dst := st.r, broke := true }
  else
    .ok { st with len := len, r := src }

/-- Body of the loop over `to_reg` of `find_longest_chain` (lines 200-224). -/
def find_longest_chain_body (B : Nat) (parcopy n_used : List Nat) (fork_reg : Nat)
    (to_reg : Nat) (st : flc_state) : Except Fault flc_state :=
  let from_reg := rd parcopy to_reg
  if from_reg = to_reg ∨ rd n_used to_reg > 0 then .ok st
  else
    while_loop (find_longest_chain_cond parcopy) (find_longest_chain_walk_body parcopy fork_reg) B
      { st with r := to_reg, len := 0, broke := false }

/-- The function `find_longest_chain`. -/
def find_longest_chain (B n_regs : Nat) (parcopy n_used : List Nat) (fork_reg : Nat) :
    Except Fault Nat :=
  if rd n_used fork_reg > 1 then
    match for_loop (find_longest_chain_body B parcopy n_used fork_reg) n_regs
        { r := 0, len := 0, max_len := 0, max_dst := UINT_MAX, broke := false } with
    | .ok st => .ok st.max_dst
    | .error e => .error e
  else .error (.assertion 191)

/-- State of `impl_parallel_copy`: the arrays `parcopy` and `n_used` (modified in
place) and the recorded restores; entry `i` of `restores` is the pair
`(restore_srcs[i], restore_dsts[i])`, so `num_restores` is its length.  `r` is
the walk variable of the fork phase. -/
structure pc_state where
  parcopy : List Nat
  n_used : List Nat
  restores : List (Nat × Nat)
  r : Nat

/-- Search for `new_src` (lines 251-258): the first `src` with
`parcopy[src] == from_reg && is_part_of_cycle[src]`, else `(unsigned) -1`. -/
def find_new_src (n_regs : Nat) (parcopy : List Nat) (is_part_of_cycle : List Bool)
    (from_reg : Nat) : Nat :=
  match (List.range n_regs).find?
      (fun src => decide (rd parcopy src = from_reg) && rdb is_part_of_cycle src) with
  | some src => src
  | none => UINT_MAX

/-- Body of the out-of-cycle loop of `impl_parallel_copy` (lines 241-270). -/
def out_of_cycle_body (n_regs : Nat) (is_part_of_cycle : List Bool) (to_reg : Nat)
    (st : pc_state) : Except Fault pc_state :=
  let from_reg := rd st.parcopy to_reg
  if from_reg = to_reg then .ok st
  else if rdb is_part_of_cycle from_reg && !rdb is_part_of_cycle to_reg then
    let new_src := find_new_src n_regs st.parcopy is_part_of_cycle from_reg
    if new_src ≠ UINT_MAX then
      .ok { st with
        restores := st.restores ++ [(new_src, to_reg)],
        n_used := st.n_used.set from_reg (u32_dec (rd st.n_used from_reg)),
        parcopy := st.parcopy.set to_reg to_reg }
    else .error (.assertion 259)
  else .ok st

/-- Body of the rerouting loop at a fork `r` (lines 293-302). -/
def reroute_body (longest_next r : Nat) (dst : Nat) (st : pc_state) : Except Fault pc_state :=
  if dst ≠ longest_next ∧ dst ≠ r ∧ rd st.parcopy dst = r then
    .ok { st with
      restores := st.restores ++ [(longest_next, dst)],
      n_used := st.n_used.set r (u32_dec (rd st.n_used r)),
      parcopy := st.parcopy.set dst dst }
  else .ok st

/-- Body of the chain walk of the fork phase (lines 285-303). -/
def fork_walk_body (B n_regs : Nat) (st : pc_state) : Except Fault pc_state :=
  let r := rd st.parcopy st.r
  if rd st.n_used r > 1 then
    match find_longest_chain B n_regs st.parcopy st.n_used r with
    | .ok longest_next => for_loop (reroute_body longest_next r) n_regs { st with r := r }
    | .error e => .error e
  else .ok { st with r := r }

/-- Body of the fork loop of `impl_parallel_copy` (lines 274-307). -/
def fork_body (B n_regs : Nat) (to_reg : Nat) (st : pc_state) : Except Fault pc_state :=
  let from_reg := rd st.parcopy to_reg
  if from_reg = to_reg ∨ rd st.n_used to_reg > 0 then .ok st
  else
    while_loop (fun t => decide (t.r ≠ rd t.parcopy t.r)) (fork_walk_body B n_regs) B
      { st with r := to_reg }

/-- The function `impl_parallel_copy` (the part that is compiled: lines 229-311;
the emission of the `Perm` and of the restore copies is under `#if 0`).
Returns `parcopy`, `n_used` and the restore arrays as they are at line 311. -/
def impl_parallel_copy (B n_regs : Nat) (parcopy n_used : List Nat) : Except Fault pc_state :=
  match mark_cycle_parts B n_regs parcopy n_used with
  | .error e => .error e
  | .ok is_part_of_cycle =>
    match for_loop (out_of_cycle_body n_regs is_part_of_cycle) n_regs
        { parcopy := parcopy, n_used := n_used, restores := [], r := 0 } with
    | .error e => .error e
    | .ok st1 =>
      match for_loop (fork_body B n_regs) n_regs st1 with
      | .error e => .error e
      | .ok st2 =>
        match print_parcopy B n_regs st2.parcopy st2.n_used with
        | .error e => .error e
        | .ok _ => .ok st2

/-- Modelled from the spec: the single atomic permutation node of step 4 (its
emission is disabled in the source), "as if all sources were read before any
destination is written": register `r` receives the old content of `parcopy[r]`. -/
def exec_parcopy {α : Type} (parcopy : List Nat) (σ : Nat → α) : Nat → α :=
  fun r => if r < parcopy.length then σ (rd parcopy r) else σ r

/-- Modelled from the spec: the restore copies of step 5 (their emission is
disabled in the source), plain moves `src -> dst` executed in recorded order. -/
def exec_restores {α : Type} (restores : List (Nat × Nat)) (σ : Nat → α) : Nat → α :=
  restores.foldl (fun τ p => Function.update τ p.2 (τ p.1)) σ

/-! ## `bessadestr.c`: the IR the walkers work on

Only the fields the pass reads or writes are modelled.  Node pointers are
indices into `ir_graph.nodes`; a new node is appended.  A register pointer
`const arch_register_t *` of the current class is identified with the index of
the register in the class (`arch_register_for_index`), `none` is `NULL`.
The schedule (`sched_add_before`, `sched_add_after`, `sched_prev`,
`sched_next`) and the liveness bookkeeping (`be_liveness_introduce`,
`be_liveness_update`) belong to the collaborators and are not part of the
state; the liveness queries are oracles that may depend on the current graph. -/

/-- Opcodes the pass distinguishes. -/
inductive ir_opcode where
  | Block | Phi | Proj | Perm | Copy | Other
deriving DecidableEq, Repr

/-- An IR node: opcode, `get_nodes_block`, the `in` array (`get_irn_n`), the
assigned register (`arch_get_irn_register`), the `link` slot (`get_irn_link`)
and the number of a `Proj`. -/
structure ir_node where
  op : ir_opcode
  block : Nat
  ins : List Nat
  reg : Option Nat
  link : Option Nat
  proj : Nat
deriving DecidableEq, Repr

instance : Inhabited ir_node := ⟨⟨.Other, 0, [], none, none, 0⟩⟩

/-- The graph of a procedure. -/
structure ir_graph where
  nodes : List ir_node
deriving DecidableEq, Repr

/-- Dereference of a node pointer. -/
def get_node (g : ir_graph) (n : Nat) : ir_node := g.nodes.getD n default

/-- Store to the node behind a pointer. -/
def set_node (g : ir_graph) (n : Nat) (v : ir_node) : ir_graph := { nodes := g.nodes.set n v }

def get_irn_link (g : ir_graph) (n : Nat) : Option Nat := (get_node g n).link

def set_irn_link (g : ir_graph) (n : Nat) (l : Option Nat) : ir_graph :=
  set_node g n { get_node g n with link := l }

def get_nodes_block (g : ir_graph) (n : Nat) : Nat := (get_node g n).block

def get_irn_arity (g : ir_graph) (n : Nat) : Nat := (get_node g n).ins.length

def get_irn_n (g : ir_graph) (n i : Nat) : Nat := (get_node g n).ins.getD i 0

def set_irn_n (g : ir_graph) (n i v : Nat) : ir_graph :=
  set_node g n { get_node g n with ins := (get_node g n).ins.set i v }

def arch_get_irn_register (g : ir_graph) (n : Nat) : Option Nat := (get_node g n).reg

def arch_set_irn_register (g : ir_graph) (n : Nat) (r : Option Nat) : ir_graph :=
  set_node g n { get_node g n with reg := r }

def is_Block (g : ir_graph) (n : Nat) : Bool := decide ((get_node g n).op = .Block)

def is_Phi (g : ir_graph) (n : Nat) : Bool := decide ((get_node g n).op = .Phi)

def is_Proj (g : ir_graph) (n : Nat) : Bool := decide ((get_node g n).op = .Proj)

/-- Modelled from the spec: `get_Block_cfgpred_block`, the block of the `i`-th
control-flow predecessor of a block ("predecessor block"). -/
def get_Block_cfgpred_block (g : ir_graph) (bl i : Nat) : Nat :=
  get_nodes_block g (get_irn_n g bl i)

/-- Modelled from the spec: the node factory ("factory for copy nodes and
permutation nodes"): appends a node without register and with empty link, and
returns the graph together with the pointer to the new node. -/
def new_ir_node (g : ir_graph) (op : ir_opcode) (block : Nat) (ins : List Nat) (proj : Nat) :
    ir_graph × Nat :=
  ({ nodes := g.nodes ++ [⟨op, block, ins, none, none, proj⟩] }, g.nodes.length)

def be_new_Copy (g : ir_graph) (block op : Nat) : ir_graph × Nat :=
  new_ir_node g .Copy block [op] 0

def be_new_Perm (g : ir_graph) (block : Nat) (ins : List Nat) : ir_graph × Nat :=
  new_ir_node g .Perm block ins 0

def new_r_Proj (g : ir_graph) (pred : Nat) (num : Nat) : ir_graph × Nat :=
  new_ir_node g .Proj (get_nodes_block g pred) [pred] num

/-- Modelled from the spec: the register class, "a closed set of N registers";
each register has a type flag set including `joker` and `virtual`
(`arch_register_type_joker`, `arch_register_type_virtual`). -/
structure arch_register_class_t where
  n_regs : Nat
  is_joker : Nat → Bool
  is_virtual : Nat → Bool

/-- The environment `be_chordal_env_t` as far as the pass uses it: the register
class, `chordal_has_class`, the liveness oracle (`be_is_live_in`,
`be_values_interfere`) and the `ignore` flag of a node's register requirement. -/
structure be_chordal_env_t where
  cls : arch_register_class_t
  has_class : ir_graph → Nat → Bool
  is_live_in : ir_graph → Nat → Nat → Bool
  values_interfere : ir_graph → Nat → Nat → Bool
  req_ignore : ir_graph → Nat → Bool

/-! ## `bessadestr.c`: the parallel-copy planner -/

/-- State of the loop over the phi list in `analyze_parallel_copies_walker`. -/
structure plan_state where
  phi : Option Nat
  parcopy : List Nat
  n_used : List Nat

/-- The test of lines 418-420: the phi is skipped for predecessor `i`. -/
def phi_is_skipped (env : be_chordal_env_t) (phi_reg arg_reg : Nat) : Bool :=
  decide (phi_reg = arg_reg) || env.cls.is_joker arg_reg || env.cls.is_virtual arg_reg

/-- Body of the loop over the phis (lines 413-431), including the step
`phi = get_irn_link(phi)`.  Dereferencing a `NULL` register is
`Fault.null_deref`. -/
def analyze_phi_body (env : be_chordal_env_t) (g : ir_graph) (block i : Nat)
    (st : plan_state) : Except Fault plan_state :=
  match st.phi with
  | none => .ok st
  | some phi =>
    let next := get_irn_link g phi
    let phi_reg := arch_get_irn_register g phi
    let arg := get_irn_n g phi i
    let arg_reg := arch_get_irn_register g arg
    if phi_reg = arg_reg then .ok { st with phi := next }
    else
      match arg_reg with
      | none => .error .null_deref
      | some ar =>
        if env.cls.is_joker ar || env.cls.is_virtual ar then .ok { st with phi := next }
        else
          match phi_reg with
          | none => .error .null_deref
          | some pr =>
            if rd st.parcopy pr = pr then
              let parcopy := st.parcopy.set pr ar
              let n_used := st.n_used.set ar (u32_inc (rd st.n_used ar))
              let n_used :=
                if env.is_live_in g block arg then n_used.set ar (u32_inc (rd n_used ar))
                else n_used
              .ok { phi := next, parcopy := parcopy, n_used := n_used }
            else .error (.assertion 424)

/-- Lines 404-431 of `analyze_parallel_copies_walker`: the specification
`(parcopy, n_used)` built for predecessor `i` of `block`. -/
def analyze_parallel_copies_build (B : Nat) (env : be_chordal_env_t) (g : ir_graph)
    (block i : Nat) : Except Fault (List Nat × List Nat) :=
  let n_regs := env.cls.n_regs
  match while_loop (fun st => st.phi.isSome) (analyze_phi_body env g block i) B
      { phi := get_irn_link g block, parcopy := List.range n_regs,
        n_used := List.replicate n_regs 0 } with
  | .ok st => .ok (st.parcopy, st.n_used)
  | .error e => .error e

/-- Body of the loop over the predecessors in `analyze_parallel_copies_walker`
(lines 403-438). -/
def analyze_parallel_copies_pred (B : Nat) (env : be_chordal_env_t) (g : ir_graph)
    (block i : Nat) (_u : Unit) : Except Fault Unit :=
  match analyze_parallel_copies_build B env g block i with
  | .error e => .error e
  | .ok (parcopy, n_used) =>
    match print_parcopy B env.cls.n_regs parcopy n_used with
    | .error e => .error e
    | .ok _ =>
      match impl_parallel_copy B env.cls.n_regs parcopy n_used with
      | .error e => .error e
      | .ok _ => .ok ()

/-- The function `analyze_parallel_copies_walker`; it leaves the graph as it is. -/
def analyze_parallel_copies_walker (B : Nat) (env : be_chordal_env_t) (g : ir_graph)
    (block : Nat) : Except Fault Unit :=
  if is_Block g block then
    if (get_irn_link g block).isNone then .ok ()
    else for_loop (analyze_parallel_copies_pred B env g block) (get_irn_arity g block) ()
  else .error (.assertion 394)

/-! ## `bessadestr.c`: the walkers over the IR -/

/-- The function `clear_link`. -/
def clear_link (g : ir_graph) (irn : Nat) : ir_graph := set_irn_link g irn none

/-- The function `collect_phis_walker`: prepends a phi of the current class to
the list rooted at the link of its block. -/
def collect_phis_walker (env : be_chordal_env_t) (g : ir_graph) (irn : Nat) : ir_graph :=
  if is_Phi g irn && env.has_class g irn then
    let bl := get_nodes_block g irn
    let g1 := set_irn_link g irn (get_irn_link g bl)
    set_irn_link g1 bl (some irn)
  else g

/-- The macro `is_pinned`. -/
def is_pinned (g : ir_graph) (irn : Nat) : Bool := (get_irn_link g irn).isSome

/-- The macro `pin_irn`. -/
def pin_irn (g : ir_graph) (irn lock : Nat) : ir_graph := set_irn_link g irn (some lock)

/-- The struct `perm_proj_t`. -/
structure perm_proj_t where
  arg : Nat
  pos : Nat
  proj : Nat
deriving DecidableEq, Repr

/-- State of the loops over the phi list in `insert_all_perms_walker`: the loop
variable `phi`, the set `arg_set` (in insertion order), `n_projs` and the graph. -/
structure perms_state where
  phi : Option Nat
  arg_set : List perm_proj_t
  n_projs : Nat
  g : ir_graph

/-- Lookup `set_find` in `arg_set`; `cmp_perm_proj` compares the `arg` fields. -/
def arg_set_find (arg_set : List perm_proj_t) (arg : Nat) : Option perm_proj_t :=
  arg_set.find? (fun p => decide (p.arg = arg))

/-- Body of the loop that collects the arguments (lines 511-532). -/
def collect_args_body (env : be_chordal_env_t) (bl i : Nat) (st : perms_state) :
    Except Fault perms_state :=
  match st.phi with
  | none => .ok st
  | some phi =>
    let arg := get_irn_n st.g phi i
    let pp := arg_set_find st.arg_set arg
    if pp.isNone && !env.is_live_in st.g bl arg then
      .ok { st with phi := get_irn_link st.g phi,
                    arg_set := st.arg_set ++ [⟨arg, st.n_projs, 0⟩],
                    n_projs := st.n_projs + 1 }
    else .ok { st with phi := get_irn_link st.g phi }

/-- The loop that makes the Projs of the Perm (lines 560-567), in insertion
order of `arg_set` (the iteration order of the hash set only decides which
pointer a new Proj gets). -/
def make_projs (perm : Nat) : List perm_proj_t → ir_graph →
    Except Fault (List perm_proj_t × ir_graph)
  | [], g => .ok ([], g)
  | pp :: rest, g =>
    let (g1, proj) := new_r_Proj g perm pp.pos
    match arch_get_irn_register g1 pp.arg with
    | none => .error (.assertion 563)
    | some r =>
      match make_projs perm rest (arch_set_irn_register g1 proj (some r)) with
      | .ok (pps, g2) => .ok ({ pp with proj := proj } :: pps, g2)
      | .error e => .error e

/-- Body of the loop that sets the phis to their new arguments (lines 572-584). -/
def rewire_body (i : Nat) (st : perms_state) : Except Fault perms_state :=
  match st.phi with
  | none => .ok st
  | some phi =>
    match arg_set_find st.arg_set (get_irn_n st.g phi i) with
    | some pp =>
      let g1 := set_irn_n st.g phi i pp.proj
      .ok { st with phi := get_irn_link g1 phi, g := g1 }
    | none => .ok { st with phi := get_irn_link st.g phi }

/-- Body of the loop over the predecessors in `insert_all_perms_walker` (lines
501-596).  The array `in` holds the collected arguments by position. -/
def insert_all_perms_pred (B : Nat) (env : be_chordal_env_t) (bl : Nat) (i : Nat)
    (g : ir_graph) : Except Fault ir_graph :=
  let pred_bl := get_Block_cfgpred_block g bl i
  match while_loop (fun st => st.phi.isSome) (collect_args_body env bl i) B
      { phi := get_irn_link g bl, arg_set := [], n_projs := 0, g := g } with
  | .error e => .error e
  | .ok st =>
    if st.n_projs ≠ 0 then
      let (g1, perm) := be_new_Perm st.g pred_bl (st.arg_set.map (fun pp => pp.arg))
      match make_projs perm st.arg_set g1 with
      | .error e => .error e
      | .ok (arg_set, g2) =>
        match while_loop (fun st => st.phi.isSome) (rewire_body i) B
            { phi := get_irn_link g2 bl, arg_set := arg_set, n_projs := st.n_projs, g := g2 } with
        | .error e => .error e
        | .ok st' => .ok st'.g
    else .ok st.g

/-- The function `insert_all_perms_walker`. -/
def insert_all_perms_walker (B : Nat) (env : be_chordal_env_t) (g : ir_graph) (bl : Nat) :
    Except Fault ir_graph :=
  if is_Block g bl then
    if (get_irn_link g bl).isNone then .ok g
    else for_loop (insert_all_perms_pred B env bl) (get_irn_arity g bl) g
  else .error (.assertion 494)

/-- State of the loops over the phi list in `set_regs_or_place_dupls_walker`
and `ssa_destruction_check_walker`: the loop variable and the graph. -/
structure dupl_state where
  phi : Option Nat
  g : ir_graph

/-- Body of the search for another phi with the same argument and the register
of the argument (lines 686-699); `break` ends the loop by clearing the loop
variable. -/
def other_phi_body (i arg : Nat) (arg_reg : Option Nat) (phi phi_block : Nat)
    (st : dupl_state) : Except Fault dupl_state :=
  match st.phi with
  | none => .ok st
  | some other_phi =>
    if is_Phi st.g other_phi &&
        decide (get_nodes_block st.g phi = get_nodes_block st.g other_phi) then
      if get_irn_n st.g other_phi i = arg ∧ arch_get_irn_register st.g other_phi = arg_reg then
        .ok { phi := none, g := pin_irn st.g arg phi_block }
      else .ok { st with phi := get_irn_link st.g other_phi }
    else .error (.assertion 690)

/-- Insertion of a duplicate (lines 655-666 and 710-722): a copy of `arg` in
`arg_block` becomes the `i`-th input of `phi`, gets the register of the phi and
is pinned. -/
def place_dupl (g : ir_graph) (phi i arg arg_block : Nat) (phi_reg : Option Nat)
    (phi_block : Nat) : ir_graph :=
  let (g1, dupl) := be_new_Copy g arg_block arg
  let g2 := set_irn_n g1 phi i dupl
  let g3 := arch_set_irn_register g2 dupl phi_reg
  pin_irn g3 dupl phi_block

/-- Body of the loop over the arguments of a phi in
`set_regs_or_place_dupls_walker` (lines 625-732); `phi_block` and `phi_reg` are
read before the loop. -/
def set_regs_arg_body (B : Nat) (env : be_chordal_env_t) (phi phi_block : Nat)
    (phi_reg : Option Nat) (i : Nat) (g : ir_graph) : Except Fault ir_graph :=
  let arg := get_irn_n g phi i
  let arg_block := get_Block_cfgpred_block g phi_block i
  match arch_get_irn_register g arg with
  | none => .error (.assertion 632)
  | some ar =>
    if phi_reg = some ar ∨ env.cls.is_joker ar ∨ env.cls.is_virtual ar then
      .ok (pin_irn g arg phi_block)
    else if env.values_interfere g phi arg then
      .ok (place_dupl g phi i arg arg_block phi_reg phi_block)
    else if is_Proj g arg then
      let searched :=
        if !is_pinned g arg then
          while_loop (fun st => st.phi.isSome) (other_phi_body i arg (some ar) phi phi_block) B
            { phi := get_irn_link g phi_block, g := g }
        else .ok { phi := none, g := g }
      match searched with
      | .error e => .error e
      | .ok st =>
        if is_pinned st.g arg then
          .ok (place_dupl st.g phi i arg arg_block phi_reg phi_block)
        else
          .ok (pin_irn (arch_set_irn_register st.g arg phi_reg) arg phi_block)
    else .error (.assertion 672)

/-- Body of the loop over the phis in `set_regs_or_place_dupls_walker` (lines
614-734), including the step `phi = get_irn_link(phi)`. -/
def set_regs_phi_body (B : Nat) (env : be_chordal_env_t) (st : dupl_state) :
    Except Fault dupl_state :=
  match st.phi with
  | none => .ok st
  | some phi =>
    let phi_block := get_nodes_block st.g phi
    let phi_reg := arch_get_irn_register st.g phi
    if is_Phi st.g phi then
      match for_loop (set_regs_arg_body B env phi phi_block phi_reg) (get_irn_arity st.g phi)
          st.g with
      | .error e => .error e
      | .ok g1 => .ok { phi := get_irn_link g1 phi, g := g1 }
    else .error (.assertion 621)

/-- The function `set_regs_or_place_dupls_walker`. -/
def set_regs_or_place_dupls_walker (B : Nat) (env : be_chordal_env_t) (g : ir_graph)
    (bl : Nat) : Except Fault ir_graph :=
  match while_loop (fun st => st.phi.isSome) (set_regs_phi_body B env) B
      { phi := get_irn_link g bl, g := g } with
  | .error e => .error e
  | .ok st => .ok st.g

/-- Body of the loop over the arguments in `ssa_destruction_check_walker`
(lines 789-805). -/
def check_arg_body (env : be_chordal_env_t) (g : ir_graph) (phi : Nat)
    (phi_reg : Option Nat) (i : Nat) (_u : Unit) : Except Fault Unit :=
  let arg := get_irn_n g phi i
  if env.req_ignore g arg then .ok ()
  else if phi_reg ≠ arch_get_irn_register g arg then .error (.assertion 799)
  else if !is_pinned g arg then .error (.assertion 804)
  else .ok ()

/-- Body of the loop over the phis in `ssa_destruction_check_walker`. -/
def check_phi_body (env : be_chordal_env_t) (st : dupl_state) : Except Fault dupl_state :=
  match st.phi with
  | none => .ok st
  | some phi =>
    match for_loop (check_arg_body env st.g phi (arch_get_irn_register st.g phi))
        (get_irn_arity st.g phi) () with
    | .error e => .error e
    | .ok _ => .ok { st with phi := get_irn_link st.g phi }

/-- The function `ssa_destruction_check_walker`. -/
def ssa_destruction_check_walker (B : Nat) (env : be_chordal_env_t) (g : ir_graph)
    (bl : Nat) : Except Fault Unit :=
  match while_loop (fun st => st.phi.isSome) (check_phi_body env) B
      { phi := get_irn_link g bl, g := g } with
  | .error e => .error e
  | .ok _ => .ok ()

/-- A visit of the graph walker: `pre` before the predecessors of a node are
walked, `post` after. -/
inductive walk_event where
  | pre (irn : Nat)
  | post (irn : Nat)
deriving DecidableEq, Repr

/-- Modelled from the spec: `irg_walk_graph`, the walk over all nodes of the
procedure; the sequence of visits it makes is the parameter `visits`. -/
def irg_walk_graph (visits : List walk_event) (pre post : ir_graph → Nat → ir_graph)
    (g : ir_graph) : ir_graph :=
  visits.foldl (fun h ev => match ev with
    | .pre irn => pre h irn
    | .post irn => post h irn) g

/-- Modelled from the spec: `irg_block_walk_graph` with a pre-walker only: the
walker is called on the blocks of the procedure "in an order determined by the
block walker"; the order is the parameter `blocks`. -/
def irg_block_walk_graph (blocks : List Nat) (walker : ir_graph → Nat → Except Fault ir_graph)
    (g : ir_graph) : Except Fault ir_graph :=
  blocks.foldlM walker g

/-- The function `be_ssa_destruction`.  Dumps and the invalidation of the
liveness information have no effect on the modelled state. -/
def be_ssa_destruction (B : Nat) (env : be_chordal_env_t) (visits : List walk_event)
    (blocks : List Nat) (g : ir_graph) : Except Fault ir_graph :=
  let g1 := irg_walk_graph visits clear_link (collect_phis_walker env) g
  let use_paper_method := true
  let analyzed :=
    if use_paper_method then
      irg_block_walk_graph blocks
        (fun h bl => match analyze_parallel_copies_walker B env h bl with
          | .ok _ => .ok h
          | .error e => .error e) g1
    else .ok g1
  match analyzed with
  | .error e => .error e
  | .ok g2 =>
    match irg_block_walk_graph blocks (insert_all_perms_walker B env) g2 with
    | .error e => .error e
    | .ok g3 => irg_block_walk_graph blocks (set_regs_or_place_dupls_walker B env) g3

/-- The function `be_ssa_destruction_check`. -/
def be_ssa_destruction_check (B : Nat) (env : be_chordal_env_t) (blocks : List Nat)
    (g : ir_graph) : Except Fault Unit :=
  match irg_block_walk_graph blocks
      (fun h bl => match ssa_destruction_check_walker B env h bl with
        | .ok _ => .ok h
        | .error e => .error e) g with
  | .ok _ => .ok ()
  | .error e => .error e

/-! ## `heuristical_co_ld.c`: PBQP back-propagation

The vector and matrix primitives (`vector.c`, `matrix.c`) and the node
accessors are not part of the sources at hand. -/

/-- Modelled from the spec: a cost value `num`, a natural number or `+∞`
(`INF_COSTS`). -/
abbrev num := WithTop Nat

/-- Modelled from the spec: the constant `INF_COSTS`, the cost `+∞`. -/
def INF_COSTS : num := ⊤

/-- Modelled from the spec: a cost matrix of shape `rows × cols`; `entries r c`
is the entry in row `r` and column `c`. -/
structure pbqp_matrix_t where
  rows : Nat
  cols : Nat
  entries : Nat → Nat → num

/-- A cost vector `vector_t`, one entry per choice. -/
abbrev vector_t := List num

/-- Entry `vec->entries[i].data`. -/
def vector_get (vec : vector_t) (i : Nat) : num := vec.getD i 0

/-- A PBQP node: `index`, cost vector, the array `edges` of edge pointers and
`solution`. -/
structure pbqp_node_t where
  index : Nat
  costs : vector_t
  edges : List Nat
  solution : Nat

/-- A PBQP edge: the `src` and `tgt` node pointers and the cost matrix. -/
structure pbqp_edge_t where
  src : Nat
  tgt : Nat
  costs : pbqp_matrix_t

/-- The memory the solver works on: nodes and edges by pointer. -/
structure pbqp_t where
  nodes : Nat → pbqp_node_t
  edges : Nat → pbqp_edge_t

/-- Modelled from the spec: `vector_add_matrix_col`, "add the appropriate
column of its matrix": `vec[i] += mat[i][col_index]` for every choice `i`. -/
def vector_add_matrix_col (vec : vector_t) (mat : pbqp_matrix_t) (col_index : Nat) : vector_t :=
  vec.mapIdx (fun i v => v + mat.entries i col_index)

/-- Modelled from the spec: `vector_add_matrix_row`, "add the appropriate row
of its matrix": `vec[i] += mat[row_index][i]` for every choice `i`. -/
def vector_add_matrix_row (vec : vector_t) (mat : pbqp_matrix_t) (row_index : Nat) : vector_t :=
  vec.mapIdx (fun i v => v + mat.entries row_index i)

/-- One step of the scan for the minimum: `(min_index, min)` after looking at
entry `index`. -/
def vector_min_step (vec : vector_t) (acc : Nat × num) (index : Nat) : Nat × num :=
  if vector_get vec index < acc.2 then (index, vector_get vec index) else acc

/-- Modelled from the spec: `vector_get_min_index`, the "argmin of the
resulting vector": a left-to-right scan that keeps the first smallest entry,
starting from `(0, INF_COSTS)`. -/
def vector_get_min_index (vec : vector_t) : Nat :=
  ((List.range vec.length).foldl (vector_min_step vec) (0, INF_COSTS)).1

/-- Modelled from the spec: `vector_get_min`, "the minimum cost" of a vector. -/
def vector_get_min (vec : vector_t) : num :=
  ((List.range vec.length).foldl (vector_min_step vec) (0, INF_COSTS)).2

/-- Modelled from the spec: `pbqp_matrix_get_col_min_index(mat, j, vec)`, the
`argmin_i (cost[i] + M[i][j])` of rule R1 for a node on the `src` side. -/
def pbqp_matrix_get_col_min_index (mat : pbqp_matrix_t) (col_index : Nat) (flags : vector_t) :
    Nat :=
  vector_get_min_index (vector_add_matrix_col flags mat col_index)

/-- Modelled from the spec: `pbqp_matrix_get_row_min_index(mat, j, vec)`, the
`argmin_i (cost[i] + M[j][i])` of rule R1 for a node on the `tgt` side. -/
def pbqp_matrix_get_row_min_index (mat : pbqp_matrix_t) (row_index : Nat) (flags : vector_t) :
    Nat :=
  vector_get_min_index (vector_add_matrix_row flags mat row_index)

/-- Modelled from the spec: `pbqp_node_get_degree`, the number of entries of
the neighbor-edge list. -/
def pbqp_node_get_degree (pbqp : pbqp_t) (node : Nat) : Nat := (pbqp.nodes node).edges.length

/-- Edge pointer `node->edges[k]`. -/
def node_edge (pbqp : pbqp_t) (node k : Nat) : Nat := (pbqp.nodes node).edges.getD k 0

/-- Store `node->solution = v`. -/
def set_solution (pbqp : pbqp_t) (node v : Nat) : pbqp_t :=
  { pbqp with nodes := Function.update pbqp.nodes node { pbqp.nodes node with solution := v } }

/-- The function `back_propagate_RI`. -/
def back_propagate_RI (pbqp : pbqp_t) (node : Nat) : pbqp_t :=
  let edge := pbqp.edges (node_edge pbqp node 0)
  let mat := edge.costs
  let is_src := decide (edge.src = node)
  let vec := (pbqp.nodes node).costs
  if is_src then
    let other := edge.tgt
    set_solution pbqp node (pbqp_matrix_get_col_min_index mat (pbqp.nodes other).solution vec)
  else
    let other := edge.src
    set_solution pbqp node (pbqp_matrix_get_row_min_index mat (pbqp.nodes other).solution vec)

/-- The function `back_propagate_RII`. -/
def back_propagate_RII (pbqp : pbqp_t) (node : Nat) : pbqp_t :=
  let src_edge := node_edge pbqp node 0
  let tgt_edge := node_edge pbqp node 1
  let src_is_src := decide ((pbqp.edges src_edge).src = node)
  let tgt_is_src := decide ((pbqp.edges tgt_edge).src = node)
  let src_node := if src_is_src then (pbqp.edges src_edge).tgt else (pbqp.edges src_edge).src
  let tgt_node := if tgt_is_src then (pbqp.edges tgt_edge).tgt else (pbqp.edges tgt_edge).src
  /- Swap nodes if necessary. -/
  let swap := decide ((pbqp.nodes tgt_node).index < (pbqp.nodes src_node).index)
  let src_node' := if swap then tgt_node else src_node
  let tgt_node' := if swap then src_node else tgt_node
  let src_edge' := if swap then tgt_edge else src_edge
  let tgt_edge' := if swap then src_edge else tgt_edge
  let src_is_src' := if swap then decide ((pbqp.edges src_edge').src = node) else src_is_src
  let tgt_is_src' := if swap then decide ((pbqp.edges tgt_edge').src = node) else tgt_is_src
  let src_mat := (pbqp.edges src_edge').costs
  let tgt_mat := (pbqp.edges tgt_edge').costs
  let node_vec := (pbqp.nodes node).costs
  let row_index := (pbqp.nodes src_node').solution
  let col_index := (pbqp.nodes tgt_node').solution
  let vec := node_vec
  let vec := if src_is_src' then vector_add_matrix_col vec src_mat row_index
             else vector_add_matrix_row vec src_mat row_index
  let vec := if tgt_is_src' then vector_add_matrix_col vec tgt_mat col_index
             else vector_add_matrix_row vec tgt_mat col_index
  set_solution pbqp node (vector_get_min_index vec)

/-- Body of the loop over the edges in `back_propagate_RN` (lines 150-159); the
state is the working vector `vec`. -/
def back_propagate_RN_body (pbqp : pbqp_t) (node : Nat) (edge_index : Nat) (vec : vector_t) :
    Except Fault vector_t :=
  let edge := pbqp.edges (node_edge pbqp node edge_index)
  let neighbor := if edge.src = node then edge.tgt else edge.src
  if edge.src = node then
    .ok (vector_add_matrix_col vec edge.costs (pbqp.nodes neighbor).solution)
  else
    .ok (vector_add_matrix_row vec edge.costs (pbqp.nodes neighbor).solution)

/-- The function `back_propagate_RN`. -/
def back_propagate_RN (pbqp : pbqp_t) (node : Nat) : Except Fault pbqp_t :=
  match for_loop (back_propagate_RN_body pbqp node) (pbqp_node_get_degree pbqp node)
      (pbqp.nodes node).costs with
  | .error e => .error e
  | .ok vec =>
    if vector_get_min vec ≠ INF_COSTS then
      .ok (set_solution pbqp node (vector_get_min_index vec))
    else .error (.assertion 162)

/-- The `switch` of `back_propagate_ld` (lines 190-200). -/
def back_propagate_node (pbqp : pbqp_t) (node : Nat) : Except Fault pbqp_t :=
  match pbqp_node_get_degree pbqp node with
  | 1 => .ok (back_propagate_RI pbqp node)
  | 2 => .ok (back_propagate_RII pbqp node)
  | _ => back_propagate_RN pbqp node

/-- The loop of `back_propagate_ld` (lines 187-201), `node_index` counting down
to `0`. -/
def back_propagate_ld_loop (reduced_bucket : List Nat) : Nat → pbqp_t → Except Fault pbqp_t
  | 0, pbqp => .ok pbqp
  | node_index + 1, pbqp =>
    let node := reduced_bucket.getD node_index 0
    match back_propagate_node pbqp node with
    | .ok pbqp' => back_propagate_ld_loop reduced_bucket node_index pbqp'
    | .error e => .error e

/-- The function `back_propagate_ld`; `reduced_bucket` is the global bucket. -/
def back_propagate_ld (reduced_bucket : List Nat) (pbqp : pbqp_t) : Except Fault pbqp_t :=
  let node_len := reduced_bucket.length
  back_propagate_ld_loop reduced_bucket node_len pbqp

/-! ### Vocabulary of the back-propagation properties -/

/-- The node at the other end of edge `e` of `node`. -/
def edge_neighbor (pbqp : pbqp_t) (node e : Nat) : Nat :=
  if (pbqp.edges e).src = node then (pbqp.edges e).tgt else (pbqp.edges e).src

/-- The entry of the matrix of edge `e` selected by choice `i` of `node` and the
solution of the neighbour: row `i` when `node` is the source of the edge,
column `i` when it is the target. -/
def edge_cost (pbqp : pbqp_t) (node i e : Nat) : num :=
  if (pbqp.edges e).src = node then
    (pbqp.edges e).costs.entries i (pbqp.nodes (pbqp.edges e).tgt).solution
  else
    (pbqp.edges e).costs.entries (pbqp.nodes (pbqp.edges e).src).solution i

/-- Cost of choice `i` of `node` given the solutions of its neighbours. -/
def local_cost (pbqp : pbqp_t) (node i : Nat) : num :=
  vector_get (pbqp.nodes node).costs i
    + (((pbqp.nodes node).edges.map (edge_cost pbqp node i)).sum)

/-- Everything but the solutions of the nodes in `S` agrees in `p` and `q`. -/
def same_but_solutions (p q : pbqp_t) (S : Nat → Prop) : Prop :=
  q.edges = p.edges ∧
  ∀ m, (q.nodes m).costs = (p.nodes m).costs ∧ (q.nodes m).edges = (p.nodes m).edges ∧
    (q.nodes m).index = (p.nodes m).index ∧ (¬ S m → (q.nodes m).solution = (p.nodes m).solution)

/-- The working vector after adding the row or column of edge `e` selected by
the solution of the neighbour of `node` on `e`. -/
def vector_add_edge (p : pbqp_t) (node : Nat) (vec : vector_t) (e : Nat) : vector_t :=
  if (p.edges e).src = node then
    vector_add_matrix_col vec (p.edges e).costs (p.nodes (p.edges e).tgt).solution
  else
    vector_add_matrix_row vec (p.edges e).costs (p.nodes (p.edges e).src).solution

/-! ### Scenario F -/

/-- Scenario F: the three-node chain `A — B — C` (nodes `0`, `1`, `2`), with
`A` and `B` reduced by R1 in this order and `C` solved to `0`. -/
def scenario_F : pbqp_t :=
  { nodes := fun n =>
      if n = 0 then { index := 0, costs := [0, 0], edges := [0], solution := 7 }
      else if n = 1 then { index := 1, costs := [0, 0], edges := [1], solution := 7 }
      else { index := 2, costs := [0, 0], edges := [], solution := 0 },
    edges := fun e =>
      if e = 0 then { src := 0, tgt := 1, costs := ⟨2, 2, fun r c => if r = c then 0 else 1⟩ }
      else { src := 1, tgt := 2, costs := ⟨2, 2, fun r c => if r = c then 0 else 1⟩ } }

/-- Scenario F: the reduction trace, `A` first. -/
def scenario_F_bucket : List Nat := [0, 1]

/-! ### Vocabulary of the parallel-copy properties -/

/-- Number of registers `d != r` of the class with `parcopy[d] == r`: how often
register `r` is read as a source. -/
def readers (n_regs : Nat) (parcopy : List Nat) (r : Nat) : Nat :=
  ((Finset.range n_regs).filter (fun d => d ≠ r ∧ rd parcopy d = r)).card

/-- The `link` slots lead from `start` through the nodes of `l`, in this order,
and on to `stop`. -/
def phi_seg (g : ir_graph) : Option Nat → List Nat → Option Nat → Prop
  | start, [], stop => start = stop
  | start, phi :: rest, stop => start = some phi ∧ phi_seg g (get_irn_link g phi) rest stop

/-- The phi list rooted at `start` consists of the nodes of `phis`, in this order. -/
def phi_chain (g : ir_graph) (start : Option Nat) (phis : List Nat) : Prop :=
  phi_seg g start phis none

/-- Register of the `i`-th argument of `phi`. -/
def phi_arg_register (g : ir_graph) (phi i : Nat) : Option Nat :=
  arch_get_irn_register g (get_irn_n g phi i)

/-- Index of the register of `phi` (when one is assigned). -/
def phi_reg_index (g : ir_graph) (phi : Nat) : Nat := (arch_get_irn_register g phi).getD 0

/-- Index of the register of the `i`-th argument of `phi` (when one is assigned). -/
def arg_reg_index (g : ir_graph) (phi i : Nat) : Nat := (phi_arg_register g phi i).getD 0

/-- The planner skips `phi` for predecessor `i` (lines 418-422): the argument
has the register of the phi, or a joker or virtual register. -/
def planner_skips (env : be_chordal_env_t) (g : ir_graph) (i phi : Nat) : Bool :=
  decide (arch_get_irn_register g phi = phi_arg_register g phi i) ||
  match phi_arg_register g phi i with
  | some ar => env.cls.is_joker ar || env.cls.is_virtual ar
  | none => false

/-- Every phi of the list and its `i`-th argument have a register of the class. -/
def registers_assigned (env : be_chordal_env_t) (g : ir_graph) (i : Nat) (phis : List Nat) :
    Prop :=
  ∀ phi ∈ phis, (∃ pr, arch_get_irn_register g phi = some pr ∧ pr < env.cls.n_regs) ∧
    (∃ ar, phi_arg_register g phi i = some ar ∧ ar < env.cls.n_regs)

/-- No two phis of the list that the planner does not skip have the same register. -/
def distinct_destinations (env : be_chordal_env_t) (g : ir_graph) (i : Nat) (phis : List Nat) :
    Prop :=
  phis.Pairwise (fun a b => planner_skips env g i a = false → planner_skips env g i b = false →
    phi_reg_index g a ≠ phi_reg_index g b)

/-- The phis of the list that are not skipped and whose `i`-th argument is in
register `r`. -/
def planner_demands (env : be_chordal_env_t) (g : ir_graph) (i : Nat) (phis : List Nat)
    (r : Nat) : List Nat :=
  phis.filter (fun phi => !planner_skips env g i phi && decide (arg_reg_index g phi i = r))

/-- Whether the `i`-th argument of `phi` is live-in to `block`. -/
def arg_live_in (env : be_chordal_env_t) (g : ir_graph) (block i phi : Nat) : Bool :=
  env.is_live_in g block (get_irn_n g phi i)

/-- What the planner has built after the phis of `done`: `parcopy` maps the
register of every phi that is not skipped to the register of its argument and
every other register to itself, `n_used[r]` is the sum over the demands on `r`
of 2 for a live-in argument and 1 otherwise (as an `unsigned`), and the demands
on `r` are its readers. -/
def plan_inv (env : be_chordal_env_t) (g : ir_graph) (block i : Nat) (done : List Nat)
    (parcopy n_used : List Nat) : Prop :=
  parcopy.length = env.cls.n_regs ∧ n_used.length = env.cls.n_regs ∧
  (∀ phi ∈ done, planner_skips env g i phi = false →
    rd parcopy (phi_reg_index g phi) = arg_reg_index g phi i) ∧
  (∀ r < env.cls.n_regs,
    (∀ phi ∈ done, planner_skips env g i phi = false → phi_reg_index g phi ≠ r) →
    rd parcopy r = r) ∧
  (∀ r < env.cls.n_regs, rd n_used r =
    ((planner_demands env g i done r).map
      (fun phi => if arg_live_in env g block i phi then 2 else 1)).sum % 4294967296) ∧
  (∀ r, readers env.cls.n_regs parcopy r = (planner_demands env g i done r).length)

/-! ### Example procedures for the planner -/

/-- A register class of three registers without joker or virtual registers. -/
def three_regs : arch_register_class_t :=
  { n_regs := 3, is_joker := fun _ => false, is_virtual := fun _ => false }

/-- An environment over `three_regs` in which exactly node `3` is live-in to
every block and nothing interferes. -/
def env_live3 : be_chordal_env_t :=
  { cls := three_regs, has_class := fun _ _ => true,
    is_live_in := fun _ _ arg => decide (arg = 3),
    values_interfere := fun _ _ _ => false, req_ignore := fun _ _ => false }

/-- A procedure with a block `0` (one predecessor, block `5`) holding the phis
`1` (register 1) and `2` (register 2), which both have the value `3`
(register 0) as argument; the phi list of the block is linked `0 -> 1 -> 2`. -/
def graph_shared_arg : ir_graph :=
  { nodes := [
      ⟨.Block, 0, [4], none, some 1, 0⟩,
      ⟨.Phi, 0, [3], some 1, some 2, 0⟩,
      ⟨.Phi, 0, [3], some 2, none, 0⟩,
      ⟨.Other, 5, [], some 0, none, 0⟩,
      ⟨.Other, 5, [], none, none, 0⟩,
      ⟨.Block, 5, [], none, none, 0⟩] }

/-- A procedure with a block `0` holding the phis `1` and `2`, both in
register 0; the argument of phi `1` (node `3`) is in register 0 as well, the
argument of phi `2` (node `6`) is in register 1. -/
def graph_same_dest : ir_graph :=
  { nodes := [
      ⟨.Block, 0, [4], none, some 1, 0⟩,
      ⟨.Phi, 0, [3], some 0, some 2, 0⟩,
      ⟨.Phi, 0, [6], some 0, none, 0⟩,
      ⟨.Other, 5, [], some 0, none, 0⟩,
      ⟨.Other, 5, [], none, none, 0⟩,
      ⟨.Block, 5, [], none, none, 0⟩,
      ⟨.Other, 5, [], some 1, none, 0⟩] }

/-- Scenario E: a procedure with a block `0` holding the single phi `1`
(register 1) whose argument, node `3` (register 0), is live-in to the block. -/
def graph_scenario_E : ir_graph :=
  { nodes := [
      ⟨.Block, 0, [4], none, some 1, 0⟩,
      ⟨.Phi, 0, [3], some 1, none, 0⟩,
      ⟨.Other, 5, [], none, none, 0⟩,
      ⟨.Other, 5, [], some 0, none, 0⟩,
      ⟨.Other, 5, [], none, none, 0⟩,
      ⟨.Block, 5, [], none, none, 0⟩] }

/-- Number of distinct values among the `i`-th arguments of the phis that are
live-in to `block` and held in register `r`. -/
def live_in_sources (env : be_chordal_env_t) (g : ir_graph) (block i : Nat) (phis : List Nat)
    (r : Nat) : Nat :=
  (((phis.map (fun phi => get_irn_n g phi i)).dedup).filter
    (fun arg => env.is_live_in g block arg && decide (arch_get_irn_register g arg = some r))).length

/-! ### Vocabulary and examples of the walker properties -/

/-- The graph `h` extends `g`: it has the nodes of `g`, with their opcodes and
blocks, and possibly further nodes behind them. -/
def graph_ext (g h : ir_graph) : Prop :=
  g.nodes.length ≤ h.nodes.length ∧
  ∀ n < g.nodes.length, (get_node h n).op = (get_node g n).op ∧
    (get_node h n).block = (get_node g n).block

/-- The graph `h` arises from `g` by appending Perm, Proj and Copy nodes and by
rewriting inputs, registers and links: it has the nodes of `g` with their
opcodes, blocks and Proj numbers, and every further node is a Perm, a Proj or a
Copy. -/
def graph_grows (g h : ir_graph) : Prop :=
  g.nodes.length ≤ h.nodes.length ∧
  (∀ n < g.nodes.length, (get_node h n).op = (get_node g n).op ∧
    (get_node h n).block = (get_node g n).block ∧
    (get_node h n).proj = (get_node g n).proj) ∧
  ∀ n, g.nodes.length ≤ n → n < h.nodes.length →
    (get_node h n).op = .Perm ∨ (get_node h n).op = .Proj ∨ (get_node h n).op = .Copy

/-- Scenario E as an environment: node `3` is live-in to the phi block and
interferes with the phi. -/
def env_scenario_E : be_chordal_env_t :=
  { cls := three_regs, has_class := fun _ _ => true,
    is_live_in := fun _ _ arg => decide (arg = 3),
    values_interfere := fun _ _ arg => decide (arg = 3), req_ignore := fun _ _ => false }

/-- A walk over the six nodes of `graph_scenario_E`. -/
def visits_scenario_E : List walk_event :=
  [.pre 0, .pre 4, .pre 5, .post 5, .post 4, .post 0, .pre 1, .pre 3, .post 3, .post 1,
   .pre 2, .post 2]

/-- An environment in which register 2 is a joker register, nothing is live-in
and nothing interferes. -/
def env_joker2 : be_chordal_env_t :=
  { cls := { n_regs := 3, is_joker := fun r => decide (r = 2), is_virtual := fun _ => false },
    has_class := fun _ _ => true,
    is_live_in := fun _ _ _ => false,
    values_interfere := fun _ _ _ => false, req_ignore := fun _ _ => false }

/-- A procedure with a block `0` holding the single phi `1` (register 1) whose
argument, node `3`, is in the joker register 2. -/
def graph_joker_arg : ir_graph :=
  { nodes := [
      ⟨.Block, 0, [4], none, some 1, 0⟩,
      ⟨.Phi, 0, [3], some 1, none, 0⟩,
      ⟨.Other, 5, [], none, none, 0⟩,
      ⟨.Other, 5, [], some 2, none, 0⟩,
      ⟨.Other, 5, [], none, none, 0⟩,
      ⟨.Block, 5, [], none, none, 0⟩] }

/-- The `i`-th argument of `phi` is pinned and has the register of the phi, or a
joker or virtual register. -/
def arg_is_settled (env : be_chordal_env_t) (g : ir_graph) (phi i : Nat) : Prop :=
  is_pinned g (get_irn_n g phi i) = true ∧
  (arch_get_irn_register g (get_irn_n g phi i) = arch_get_irn_register g phi ∨
   ∃ ar, arch_get_irn_register g (get_irn_n g phi i) = some ar ∧
     (env.cls.is_joker ar = true ∨ env.cls.is_virtual ar = true))

/-- What `set_regs_or_place_dupls_walker` expects of the phi list of block `bl`:
the links from the block enumerate the pairwise distinct nodes `phis`, which
are phis of the block with a register; every argument is a node of the graph
with a register, is neither the block nor a phi of the list, and is a Proj (as
left by `insert_all_perms_walker`) unless it interferes with its phi. -/
structure phis_ready (env : be_chordal_env_t) (g0 : ir_graph) (bl : Nat) (phis : List Nat) :
    Prop where
  chain : phi_chain g0 (get_irn_link g0 bl) phis
  nodup : phis.Nodup
  bl_lt : bl < g0.nodes.length
  phi_ok : ∀ phi ∈ phis, is_Phi g0 phi = true ∧ get_nodes_block g0 phi = bl ∧
    (arch_get_irn_register g0 phi).isSome = true
  arg_ok : ∀ phi ∈ phis, ∀ i < get_irn_arity g0 phi,
    get_irn_n g0 phi i < g0.nodes.length ∧ get_irn_n g0 phi i ∉ phis ∧
    get_irn_n g0 phi i ≠ bl ∧
    (arch_get_irn_register g0 (get_irn_n g0 phi i)).isSome = true ∧
    (is_Proj g0 (get_irn_n g0 phi i) = true ∨
      ∀ g, env.values_interfere g phi (get_irn_n g0 phi i) = true)

/-- State of the graph while `set_regs_or_place_dupls_walker` works on the phi
list `phis` of block `bl`, started on `g0`; `Pr phi i` says that argument `i` of
`phi` has been processed. -/
structure dupl_inv (env : be_chordal_env_t) (g0 : ir_graph) (bl : Nat) (phis : List Nat)
    (Pr : Nat → Nat → Prop) (g : ir_graph) : Prop where
  ext : graph_ext g0 g
  phi_same : ∀ phi ∈ phis, get_irn_link g phi = get_irn_link g0 phi ∧
    arch_get_irn_register g phi = arch_get_irn_register g0 phi ∧
    get_irn_arity g phi = get_irn_arity g0 phi
  bl_same : get_irn_link g bl = get_irn_link g0 bl
  todo : ∀ phi ∈ phis, ∀ i < get_irn_arity g0 phi, ¬ Pr phi i →
    get_irn_n g phi i = get_irn_n g0 phi i
  regs : ∀ n < g0.nodes.length, (arch_get_irn_register g0 n).isSome = true →
    (arch_get_irn_register g n).isSome = true
  settled : ∀ phi ∈ phis, ∀ i < get_irn_arity g0 phi, Pr phi i →
    get_irn_n g phi i ∉ phis ∧ get_irn_n g phi i ≠ bl ∧
    get_irn_n g phi i < g.nodes.length ∧ arg_is_settled env g phi i

/-- The data-model invariant of a parallel-copy specification over `n_regs`
registers: `parcopy` is a total function on `[0, n_regs)` and `n_used[r]` is
the number of readers of `r` plus `extra r`, the extra counts of the live-in
sources held in `r`; the entries are `unsigned` values. -/
def parcopy_spec (n_regs : Nat) (parcopy n_used : List Nat) (extra : Nat → Nat) : Prop :=
  n_regs < 4294967296 ∧ parcopy.length = n_regs ∧ n_used.length = n_regs ∧
  (∀ r < n_regs, rd parcopy r < n_regs) ∧
  (∀ r < n_regs, rd n_used r = readers n_regs parcopy r + extra r) ∧
  (∀ r < n_regs, rd n_used r < 4294967296)

/-- Every register that holds a live-in source is a fixpoint of `parcopy`: no
phi overwrites a value that stays live. -/
def live_in_fixpoints (n_regs : Nat) (parcopy : List Nat) (extra : Nat → Nat) : Prop :=
  ∀ r < n_regs, 0 < extra r → rd parcopy r = r

/-- Register `r` lies on a cycle of length at least 2 of the functional graph
`r -> parcopy[r]`. -/
def on_cycle (parcopy : List Nat) (r : Nat) : Prop :=
  rd parcopy r ≠ r ∧ ∃ k, 0 < k ∧ (rd parcopy)^[k] r = r

/-- Number of registers that are not fixpoints of `permutation`. -/
def nonfix (n_regs : Nat) (permutation : List Nat) : Nat :=
  ((Finset.range n_regs).filter (fun x => rd permutation x ≠ x)).card

/-- State of the chain-draining loops of `mark_cycle_parts` run on the
specification `(P, n_used)` with extra counts `extra`: entries of `permutation`
are as in `P` or drained to the identity, `n_used` counts the readers that are
left, registers on a cycle are not drained and drained registers have no reader
left. -/
structure drain_inv (n : Nat) (P : List Nat) (extra : Nat → Nat) (st : cyc_state) : Prop where
  len_perm : st.permutation.length = n
  len_nu : st.n_used.length = n
  perm_cases : ∀ x < n, rd st.permutation x = rd P x ∨ rd st.permutation x = x
  exact : ∀ x < n, rd st.n_used x = readers n st.permutation x + extra x
  small : ∀ x < n, rd st.n_used x < 4294967296
  cyc_kept : ∀ x < n, on_cycle P x → rd st.permutation x = rd P x
  drained : ∀ x < n, rd st.permutation x = x → rd P x ≠ x → rd st.n_used x = 0

/-- State of the cycle-marking loops of `mark_cycle_parts` once the chains are
drained: an entry of `permutation` is as in `P` only on a cycle, `n_used` is 1
on a cycle, the extra count on a fixpoint of `P` and 0 on a drained register,
and only registers on a cycle or with a positive extra count are marked. -/
structure rest_inv (n : Nat) (P : List Nat) (extra : Nat → Nat) (st : cyc_state) : Prop where
  len_perm : st.permutation.length = n
  len_poc : st.part_of_cycle.length = n
  perm_cases : ∀ x < n, rd st.permutation x = x ∨ (rd st.permutation x = rd P x ∧ on_cycle P x)
  cyc_one : ∀ x < n, on_cycle P x → rd st.n_used x = 1
  fix_extra : ∀ x < n, rd P x = x → rd st.n_used x = extra x
  chain_zero : ∀ x < n, rd P x ≠ x → ¬ on_cycle P x → rd st.n_used x = 0
  poc_sound : ∀ x < n, rdb st.part_of_cycle x = true → on_cycle P x ∨ 0 < extra x

/-- The states of a loop of `mark_cycle_parts` and of the same loop of
`print_parcopy` agree on what the loops read: the loop variable and the arrays
`permutation` and `n_used`. -/
def same_walk (s t : cyc_state) : Prop :=
  s.i = t.i ∧ s.permutation = t.permutation ∧ s.n_used = t.n_used

/-- Register `x` is marked by `mark_cycle_parts` run on `(P, n_used)`: it lies
on a cycle of `P` or holds a live-in source. -/
def in_cycle_part (P : List Nat) (extra : Nat → Nat) (x : Nat) : Prop :=
  on_cycle P x ∨ 0 < extra x

/-- State of `impl_parallel_copy` between two steps of its phases, run on the
specification `(P, n_used)` with extra counts `extra`.  Entries of `parcopy` are
as in `P` or rerouted to the identity, marked registers are not rerouted,
`n_used` counts the readers that are left, the source of a restore is a marked
register or a register that still reads from a register with one reader
(`ln` is the source of the reroutes in progress), and the permutation followed
by the restores gives every register the value the specification demands. -/
structure pc_inv (n : Nat) (P : List Nat) (extra : Nat → Nat) (ln : Nat) (st : pc_state) :
    Prop where
  len_Q : st.parcopy.length = n
  len_V : st.n_used.length = n
  cases : ∀ x < n, rd st.parcopy x = rd P x ∨ rd st.parcopy x = x
  kept : ∀ x < n, in_cycle_part P extra x → rd st.parcopy x = rd P x
  exact : ∀ x < n, rd st.n_used x = readers n st.parcopy x + extra x
  small : ∀ x < n, rd st.n_used x < 4294967296
  src_lt : ∀ p ∈ st.restores, p.1 < n
  src_ok : ∀ p ∈ st.restores, in_cycle_part P extra p.1 ∨
    (rd st.parcopy p.1 ≠ p.1 ∧ (rd st.n_used (rd st.parcopy p.1) ≤ 1 ∨ p.1 = ln))
  sem : ∀ (α : Type) (σ : Nat → α) (r : Nat), r < n →
    exec_restores st.restores (exec_parcopy st.parcopy σ) r = σ (rd P r)

/-- No unmarked register below `k` reads from a marked register. -/
def cut_off (P : List Nat) (extra : Nat → Nat) (k : Nat) (Q : List Nat) : Prop :=
  ∀ x < k, ¬ in_cycle_part P extra x → rd Q x ≠ x → ¬ in_cycle_part P extra (rd Q x)

/-- The unmarked registers form a forest under `Q`: following `Q` from an
unmarked register stays among the unmarked registers and lowers the rank `rk`,
a register without readers that is not a fixpoint is unmarked, and an unmarked
register with a positive count has an unmarked reader. -/
structure forest (n : Nat) (P : List Nat) (extra : Nat → Nat) (Q V : List Nat)
    (rk : Nat → Nat) : Prop where
  n_lt : n < 4294967296
  lt : ∀ x < n, rd Q x < n
  down : ∀ x < n, ¬ in_cycle_part P extra x → rd Q x ≠ x →
    ¬ in_cycle_part P extra (rd Q x) ∧ rk (rd Q x) < rk x
  rk_le : ∀ x < n, rk x ≤ n
  leaf : ∀ x < n, rd Q x ≠ x → rd V x = 0 → ¬ in_cycle_part P extra x
  reader : ∀ x < n, ¬ in_cycle_part P extra x → 0 < rd V x →
    ∃ y, y < n ∧ y ≠ x ∧ rd Q y = x ∧ ¬ in_cycle_part P extra y

/-- The running maximum of `find_longest_chain` at fork `f`: nothing found yet, or
`max_dst` is a register other than `f` that reads from `f`. -/
def flc_good (n : Nat) (Q : List Nat) (f : Nat) (st : flc_state) : Prop :=
  (st.max_len = 0 ∧ st.max_dst = UINT_MAX) ∨
  (0 < st.max_len ∧ st.max_dst < n ∧ rd Q st.max_dst = f ∧ st.max_dst ≠ f)

/-- An environment over `three_regs` in which nothing is live-in and nothing
interferes. -/
def env_quiet : be_chordal_env_t :=
  { cls := three_regs, has_class := fun _ _ => true,
    is_live_in := fun _ _ _ => false,
    values_interfere := fun _ _ _ => false, req_ignore := fun _ _ => false }

/-- The walk of `analyze_parallel_copies_walker` over the blocks as
`be_ssa_destruction` runs it (lines 751-754): the planner and the realizer work
on their own arrays and hand the graph on as it is. -/
def run_planner (B : Nat) (env : be_chordal_env_t) (blocks : List Nat) (g : ir_graph) :
    Except Fault ir_graph :=
  irg_block_walk_graph blocks
    (fun h bl => match analyze_parallel_copies_walker B env h bl with
      | .ok _ => .ok h
      | .error e => .error e) g

/-- Steps 1 and 2 of `impl_parallel_copy` (lines 238-271): the state after
`mark_cycle_parts` and the loop over the out-of-cycle propagations. -/
def out_of_cycle_phase (B n_regs : Nat) (parcopy n_used : List Nat) : Except Fault pc_state :=
  match mark_cycle_parts B n_regs parcopy n_used with
  | .error e => .error e
  | .ok is_part_of_cycle =>
    for_loop (out_of_cycle_body n_regs is_part_of_cycle) n_regs
      { parcopy := parcopy, n_used := n_used, restores := [], r := 0 }

/-- Step 3 of `impl_parallel_copy` (lines 273-308): the loop over the forks, run
on the state `st` that the out-of-cycle propagations left. -/
def fork_phase (B n_regs : Nat) (st : pc_state) : Except Fault pc_state :=
  for_loop (fork_body B n_regs) n_regs st

/-- State of the out-of-cycle loop of `impl_parallel_copy` before it looks at
register `k`: the entries from `k` on are as in `P`; an entry below `k` is as
in `P` or belongs to a removed demand from a marked register to an unmarked
one, for which a restore from a marked reader of the same register is
recorded; every restore belongs to such a demand, and no destination is
recorded twice. -/
structure ooc_inv (n : Nat) (P : List Nat) (extra : Nat → Nat) (k : Nat) (st : pc_state) :
    Prop where
  inv : pc_inv n P extra n st
  cut : cut_off P extra k st.parcopy
  srcK : ∀ p ∈ st.restores, in_cycle_part P extra p.1
  later : ∀ d, k ≤ d → rd st.parcopy d = rd P d
  done : ∀ d < k, rd st.parcopy d = rd P d ∨
    (rd P d ≠ d ∧ rd st.parcopy d = d ∧ in_cycle_part P extra (rd P d) ∧
      ¬ in_cycle_part P extra d ∧ ∃ s, (s, d) ∈ st.restores ∧ rd P s = rd P d)
  dsts : ∀ p ∈ st.restores, p.2 < k ∧ rd P p.2 ≠ p.2 ∧ rd st.parcopy p.2 = p.2
  nodup : (st.restores.map Prod.snd).Nodup

/-- Register `b` is reached from register `a` by following `Q`. -/
def reaches (Q : List Nat) (a b : Nat) : Prop := ∃ j, (rd Q)^[j] a = b

/-- The state `st'` arises from `st` by reroutes at forks: entries of `parcopy`
are kept or set to the identity, and a count in `n_used` is lowered but not
to 0. -/
structure cut_rel (st st' : pc_state) : Prop where
  perm : ∀ x, rd st'.parcopy x = rd st.parcopy x ∨ rd st'.parcopy x = x
  used_le : ∀ x, rd st'.n_used x ≤ rd st.n_used x
  used_zero : ∀ x, rd st'.n_used x = 0 → rd st.n_used x = 0

/-- The state `st'` arises from `st` by the reroutes at the fork `r`: only
readers of `r` are rerouted, only the count of `r` changes, and `r` is left
with one reader. -/
structure reroute_rel (r : Nat) (st st' : pc_state) : Prop where
  perm : ∀ x, rd st'.parcopy x = rd st.parcopy x ∨
    (rd st'.parcopy x = x ∧ rd st.parcopy x = r ∧ x ≠ r)
  used : ∀ x, x ≠ r → rd st'.n_used x = rd st.n_used x
  one : rd st'.n_used r = 1
  pos : 0 < rd st.n_used r

/-- The chains that end in a register below `k` have no fork left: no register
reached from a chain end `e < k` is read more than once. -/
def forks_done (k : Nat) (st : pc_state) : Prop :=
  ∀ e < k, rd st.parcopy e ≠ e → rd st.n_used e = 0 →
    ∀ u, reaches st.parcopy e u → rd st.n_used u ≤ 1

/-- State of the chain walk of the fork phase started at the chain end `k`:
every register on the chain of `k` that is still read more than once lies
ahead of the walk variable. -/
def forks_ahead (k : Nat) (st : pc_state) : Prop :=
  ∀ u, reaches st.parcopy k u → 1 < rd st.n_used u →
    u ≠ st.r ∧ reaches st.parcopy st.r u

/-- Register `e` is the end of a chain: it is not a fixpoint of `Q` and no
register reads from it. -/
def chain_end (n : Nat) (Q V : List Nat) (e : Nat) : Prop :=
  e < n ∧ rd Q e ≠ e ∧ rd V e = 0

/-- The chain that ends in `e` reaches register `f` after `L` demands, and not
before. -/
def chain_length (Q : List Nat) (e f L : Nat) : Prop :=
  (rd Q)^[L] e = f ∧ ∀ i < L, (rd Q)^[i] e ≠ f

/-- State of the walk of `find_longest_chain` from the chain end `j` towards
the fork `f`; `m0` and `d0` are `max_len` and `max_dst` at the start of the
walk.  Before the `break`, `r` is `len` demands from `j`, the ranks fall along
the walk and `f` was only met at a distance of at most `m0`; after the `break`
the chain of `j` reaches `f` after `max_len > m0` demands through `max_dst`. -/
structure flc_walk_inv (n : Nat) (P : List Nat) (extra : Nat → Nat) (Q : List Nat)
    (rk : Nat → Nat) (f j m0 d0 : Nat) (t : flc_state) : Prop where
  r_lt : t.r < n
  r_un : ¬ in_cycle_part P extra t.r
  pos : t.broke = false → t.r = (rd Q)^[t.len] j
  len_le : t.broke = false → t.len + rk t.r ≤ n
  ranks : t.broke = false → ∀ i < t.len, rk t.r < rk ((rd Q)^[i] j)
  nohit : t.broke = false →
    t.max_len = m0 ∧ t.max_dst = d0 ∧ ∀ i ≤ t.len, (rd Q)^[i] j = f → i ≤ m0
  hit : t.broke = true →
    m0 < t.max_len ∧ chain_length Q j f t.max_len ∧
      (rd Q)^[t.max_len - 1] j = t.max_dst ∧ t.max_dst < n ∧ rd Q t.max_dst = f ∧
      t.max_dst ≠ f

/-- State of the loop of `find_longest_chain` before it looks at register `j`:
either no chain end below `j` reaches the fork `f` and nothing is recorded, or
`max_dst` is the reader of `f` on the chain of a chain end `e < j`, which
reaches `f` after `max_len` demands; no chain end below `j` is further from
`f`, and none below `e` is as far. -/
def flc_inv (n : Nat) (Q V : List Nat) (f j : Nat) (st : flc_state) : Prop :=
  (st.max_len = 0 ∧ st.max_dst = UINT_MAX ∧
    ∀ e < j, chain_end n Q V e → ∀ L, ¬ chain_length Q e f L) ∨
  (∃ e < j, chain_end n Q V e ∧ chain_length Q e f st.max_len ∧
    (rd Q)^[st.max_len - 1] e = st.max_dst ∧ st.max_dst < n ∧ rd Q st.max_dst = f ∧
    st.max_dst ≠ f ∧
    ∀ e' < j, chain_end n Q V e' → ∀ L', chain_length Q e' f L' →
      L' ≤ st.max_len ∧ (L' = st.max_len → e ≤ e'))

/-- The problem `pbqp` with the entries `edges[0]` and `edges[1]` of `node`
exchanged. -/
def exchange_edges (pbqp : pbqp_t) (node : Nat) : pbqp_t :=
  { pbqp with
    nodes := Function.update pbqp.nodes node
      { pbqp.nodes node with edges := [node_edge pbqp node 1, node_edge pbqp node 0] } }

/-! ## `bemain.c`: parsing of asm constraints

The constraint string is read through the pointer `c`; `mem k` is the
character `constraint[k]`, for the characters of the string, its terminating
`NUL` and whatever lies behind it.  The values of the flag constants and the
contents of the table `be_asm_constraint_flags`, which `initialize_isa` and the
backends fill, are parameters; `flags |= x` is the bitwise or of naturals. -/

/-- The flag constants that `be_parse_asm_constraints` uses and the table
`be_asm_constraint_flags`. -/
structure asm_constraint_env where
  ASM_CONSTRAINT_FLAG_MODIFIER_READ : Nat
  ASM_CONSTRAINT_FLAG_MODIFIER_WRITE : Nat
  be_asm_constraint_flags : Nat → Nat

/-- State of the scan of `be_parse_asm_constraints`: the offset of the pointer
`c` from `constraint`, the flags, and the offsets at which a character was read
so far, in the order of the reads. -/
structure parse_state where
  c : Nat
  flags : Nat
  reads : List Nat

/-- Condition of the comment loop `while (*c != 0 && *c != ',')` (line 174). -/
def comment_cond (mem : Nat → Nat) (st : parse_state) : Bool :=
  decide (mem st.c ≠ 0) && decide (mem st.c ≠ 44)

/-- Body of the comment loop, `++c` (line 175); the read of `*c` by the
condition that let the body run is recorded. -/
def comment_body (st : parse_state) : Except Fault parse_state :=
  .ok { st with c := st.c + 1, reads := st.reads ++ [st.c] }

/-- Condition of the loop `for (; *c != '\0'; ++c)` (line 170). -/
def parse_cond (mem : Nat → Nat) (st : parse_state) : Bool :=
  decide (mem st.c ≠ 0)

/-- Body of the loop of `be_parse_asm_constraints` (lines 171-182) followed by
the `++c` of the `for`.  The `break` of `case '#'` leaves the `switch`, not the
loop, so `++c` also runs after the comment loop. -/
def parse_body (B : Nat) (env : asm_constraint_env) (mem : Nat → Nat) (st : parse_state) :
    Except Fault parse_state :=
  let st1 : parse_state := { st with reads := st.reads ++ [st.c] }
  if mem st1.c = 35 then
    /- text until comma is a comment -/
    match while_loop (comment_cond mem) comment_body B st1 with
    | .ok t => .ok { t with c := t.c + 1, reads := t.reads ++ [t.c] }
    | .error e => .error e
  else
    .ok { st1 with flags := st1.flags ||| env.be_asm_constraint_flags (mem st1.c),
                   c := st1.c + 1 }

/-- The function `be_parse_asm_constraints`: returns the flags and the offsets
it has read, in order.  The modifier `=` is the character 61, `+` is 43, `#`
is 35 and `,` is 44. -/
def be_parse_asm_constraints (B : Nat) (env : asm_constraint_env) (mem : Nat → Nat) :
    Except Fault (Nat × List Nat) :=
  let st0 : parse_state :=
    if mem 0 = 61 then
      { c := 1, flags := env.ASM_CONSTRAINT_FLAG_MODIFIER_WRITE, reads := [0] }
    else if mem 0 = 43 then
      { c := 1, flags := env.ASM_CONSTRAINT_FLAG_MODIFIER_READ |||
          env.ASM_CONSTRAINT_FLAG_MODIFIER_WRITE, reads := [0] }
    else { c := 0, flags := env.ASM_CONSTRAINT_FLAG_MODIFIER_READ, reads := [0] }
  match while_loop (parse_cond mem) (parse_body B env mem) B st0 with
  | .ok t => .ok (t.flags, t.reads ++ [t.c])
  | .error e => .error e

/-- The memory that holds the characters `s` from offset 0 on and `NUL`
behind them. -/
def string_mem (s : List Nat) : Nat → Nat := fun k => s.getD k 0

/-- Offset of the first `NUL` in `mem`, searched below `bound`. -/
def first_nul (mem : Nat → Nat) (bound : Nat) : Option Nat :=
  (List.range bound).find? (fun k => decide (mem k = 0))

/-- An instance of the flags: `READ = 1`, `WRITE = 2`, and a table in which
only the constraint letter `r` (114) has a flag, `4`. -/
def asm_env_r : asm_constraint_env :=
  { ASM_CONSTRAINT_FLAG_MODIFIER_READ := 1, ASM_CONSTRAINT_FLAG_MODIFIER_WRITE := 2,
    be_asm_constraint_flags := fun ch => if ch = 114 then 4 else 0 }

/-! ## Vocabulary of the restore buffers and of the walkers -/

/-- The array `parcopy` after the restores `restores` were recorded one after
the other: recording a restore sets the entry of its destination to the
identity (lines 264 and 299). -/
def apply_restores (parcopy : List Nat) (restores : List (Nat × Nat)) : List Nat :=
  restores.foldl (fun Q p => Q.set p.2 p.2) parcopy

/-- State of `impl_parallel_copy` run on the array `P` of `n` entries, as far as
the restore buffers are concerned: `parcopy` is `P` with the recorded restores
replayed, the destination of a restore was not a fixpoint when the restore was
recorded and is one now, no destination is recorded twice, and every restore
has lowered the number of entries that are not the identity by one. -/
structure restore_log (n : Nat) (P : List Nat) (st : pc_state) : Prop where
  len : st.parcopy.length = n
  replay : st.parcopy = apply_restores P st.restores
  fresh : ∀ i p, st.restores[i]? = some p → p.2 < n ∧
    rd (apply_restores P (st.restores.take i)) p.2 ≠ p.2
  fixed : ∀ p ∈ st.restores, rd st.parcopy p.2 = p.2
  nodup : (st.restores.map Prod.snd).Nodup
  count : st.restores.length + nonfix n st.parcopy = nonfix n P

/-- Every node that is pinned in `g` is pinned in `h` and has in `h` the
register it has in `g`. -/
def pin_frame (g h : ir_graph) : Prop :=
  ∀ irn, is_pinned g irn = true →
    is_pinned h irn = true ∧ arch_get_irn_register h irn = arch_get_irn_register g irn

/-- The graph `h` arises from `g` by pinning nodes: the two graphs have the same
nodes, which differ in their `link` slots only, and a node that is pinned in `g`
is pinned in `h`. -/
def pinned_more (g h : ir_graph) : Prop :=
  h.nodes.length = g.nodes.length ∧
  ∀ n, (∃ l, get_node h n = { get_node g n with link := l }) ∧
    (is_pinned g n = true → is_pinned h n = true)

/-- A procedure with a block `0` (one predecessor, block `5`) holding the phis
`1` (register 1) and `2` (register 2), which both have the Proj `3` (register
0) of the Perm `6` as argument; the phi list of the block is linked
`0 -> 1 -> 2`. -/
def graph_shared_proj : ir_graph :=
  { nodes := [
      ⟨.Block, 0, [4], none, some 1, 0⟩,
      ⟨.Phi, 0, [3], some 1, some 2, 0⟩,
      ⟨.Phi, 0, [3], some 2, none, 0⟩,
      ⟨.Proj, 5, [6], some 0, none, 0⟩,
      ⟨.Other, 5, [], none, none, 0⟩,
      ⟨.Block, 5, [], none, none, 0⟩,
      ⟨.Perm, 5, [7], none, none, 0⟩,
      ⟨.Other, 5, [], some 0, none, 0⟩] }

/-- State of the graph while `set_regs_or_place_dupls_walker` works on the
arguments of `phi`, started on `g0`, before it looks at argument `k`; `pr` is the
register of the phi.  The phi keeps its register and its arity, and every node
that was added is a pinned copy in the register of the phi that is one of the
first `k` inputs of the phi. -/
structure copies_inv (g0 : ir_graph) (phi : Nat) (pr : Option Nat) (k : Nat) (g : ir_graph) :
    Prop where
  len : g0.nodes.length ≤ g.nodes.length
  phi_lt : phi < g0.nodes.length
  phi_op : is_Phi g phi = true
  phi_reg : arch_get_irn_register g phi = pr
  arity : get_irn_arity g phi = get_irn_arity g0 phi
  copies : ∀ c, g0.nodes.length ≤ c → c < g.nodes.length →
    (get_node g c).op = .Copy ∧ arch_get_irn_register g c = pr ∧ is_pinned g c = true ∧
      ∃ j < k, get_irn_n g phi j = c

/-- The arguments that the collecting loop of `insert_all_perms_walker` puts
into `arg_set` for predecessor `i` of block `bl`, in the order of insertion:
`acc` holds the arguments collected so far, `phis` the phis still to be
looked at. -/
def perm_args (env : be_chordal_env_t) (g : ir_graph) (bl i : Nat) :
    List Nat → List Nat → List Nat
  | acc, [] => acc
  | acc, phi :: rest =>
    if get_irn_n g phi i ∉ acc ∧ env.is_live_in g bl (get_irn_n g phi i) = false then
      perm_args env g bl i (acc ++ [get_irn_n g phi i]) rest
    else perm_args env g bl i acc rest

/-- The set `arg_set` that holds the arguments `l` at the positions `k`,
`k + 1`, ..., before the Projs are made. -/
def arg_set_from : Nat → List Nat → List perm_proj_t
  | _, [] => []
  | k, a :: l => ⟨a, k, 0⟩ :: arg_set_from (k + 1) l

/-- The set `arg_set` that holds the arguments `l` at the positions `k`,
`k + 1`, ... with the Projs `base`, `base + 1`, ... -/
def proj_set_from : Nat → Nat → List Nat → List perm_proj_t
  | _, _, [] => []
  | k, base, a :: l => ⟨a, k, base⟩ :: proj_set_from (k + 1) (base + 1) l

/-- The Projs of the Perm `perm` in block `pb` for the arguments `l` at the
positions `k`, `k + 1`, ...; `rg` gives the registers of the arguments. -/
def proj_nodes (pb perm : Nat) (rg : Nat → Option Nat) : Nat → List Nat → List ir_node
  | _, [] => []
  | k, a :: l => ⟨.Proj, pb, [perm], rg a, none, k⟩ :: proj_nodes pb perm rg (k + 1) l

/-! # Properties -/

/-! ## Loops -/

theorem while_loop_total {σ : Type} (cond : σ → Bool) (body : σ → Except Fault σ)
    (I : σ → Prop) (μ : σ → Nat)
    (hstep : ∀ s, I s → cond s = true → ∃ s', body s = .ok s' ∧ I s' ∧ μ s' < μ s) :
    ∀ fuel s, I s → μ s < fuel →
      ∃ s', while_loop cond body fuel s = .ok s' ∧ I s' ∧ cond s' = false := by
  intro fuel
  induction fuel with
  | zero => intro s _ h; exact absurd h (Nat.not_lt_zero _)
  | succ fuel ih =>
    intro s hI hμ
    unfold while_loop
    by_cases hc : cond s = true
    · obtain ⟨s', hb, hI', hlt⟩ := hstep s hI hc
      simp only [hc, if_true, hb]
      exact ih s' hI' (by omega)
    · simp only [hc]
      exact ⟨s, rfl, hI, by simpa using hc⟩

theorem while_loop_inv {σ : Type} (cond : σ → Bool) (body : σ → Except Fault σ)
    (I : σ → Prop)
    (hstep : ∀ s s', I s → cond s = true → body s = .ok s' → I s') :
    ∀ fuel s s', I s → while_loop cond body fuel s = .ok s' → I s' ∧ cond s' = false := by
  intro fuel
  induction fuel with
  | zero => intro s s' _ h; simp [while_loop] at h
  | succ fuel ih =>
    intro s s' hI h
    unfold while_loop at h
    by_cases hc : cond s = true
    · simp only [hc, if_true] at h
      cases hb : body s with
      | error e => rw [hb] at h; simp at h
      | ok s1 =>
        rw [hb] at h
        exact ih s1 s' (hstep s s1 hI hc hb) h
    · simp only [hc] at h
      injection h with h
      subst h
      exact ⟨hI, by simpa using hc⟩

theorem for_loop_total {σ : Type} (body : Nat → σ → Except Fault σ) (I : Nat → σ → Prop)
    (n : Nat) (hstep : ∀ k s, k < n → I k s → ∃ s', body k s = .ok s' ∧ I (k + 1) s') :
    ∀ s, I 0 s → ∃ s', for_loop body n s = .ok s' ∧ I n s' := by
  induction n with
  | zero => intro s h; exact ⟨s, rfl, h⟩
  | succ n ih =>
    intro s h
    obtain ⟨s1, h1, hI1⟩ := ih (fun k s hk hI => hstep k s (Nat.lt_succ_of_lt hk) hI) s h
    obtain ⟨s2, h2, hI2⟩ := hstep n s1 (Nat.lt_succ_self n) hI1
    exact ⟨s2, by simp only [for_loop, h1, h2], hI2⟩

theorem for_loop_inv {σ : Type} (body : Nat → σ → Except Fault σ) (I : Nat → σ → Prop)
    (n : Nat) (hstep : ∀ k s s', k < n → I k s → body k s = .ok s' → I (k + 1) s') :
    ∀ s s', I 0 s → for_loop body n s = .ok s' → I n s' := by
  induction n with
  | zero => intro s s' h hr; simp only [for_loop] at hr; injection hr with hr; subst hr; exact h
  | succ n ih =>
    intro s s' h hr
    simp only [for_loop] at hr
    cases h1 : for_loop body n s with
    | error e => rw [h1] at hr; simp at hr
    | ok s1 =>
      rw [h1] at hr
      exact hstep n s1 s' (Nat.lt_succ_self n)
        (ih (fun k s s' hk hI hb => hstep k s s' (Nat.lt_succ_of_lt hk) hI hb) s s1 h h1) hr

/-! ## Arrays -/

theorem rd_set_same (a : List Nat) (i v : Nat) (h : i < a.length) : rd (a.set i v) i = v := by
  simp [rd, List.getD_eq_getElem?_getD, List.getElem?_set, h]

theorem rd_set_other (a : List Nat) (i j v : Nat) (h : i ≠ j) : rd (a.set i v) j = rd a j := by
  simp [rd, List.getD_eq_getElem?_getD, List.getElem?_set, h]

theorem rd_set (a : List Nat) (i j v : Nat) (h : i < a.length) :
    rd (a.set i v) j = if j = i then v else rd a j := by
  by_cases hj : j = i
  · subst hj; simp [rd_set_same _ _ _ h]
  · simp [hj, rd_set_other _ _ _ _ (Ne.symm hj)]

theorem rdb_set_same (a : List Bool) (i : Nat) (v : Bool) (h : i < a.length) :
    rdb (a.set i v) i = v := by
  simp [rdb, List.getD_eq_getElem?_getD, List.getElem?_set, h]

theorem rdb_set_other (a : List Bool) (i j : Nat) (v : Bool) (h : i ≠ j) :
    rdb (a.set i v) j = rdb a j := by
  simp [rdb, List.getD_eq_getElem?_getD, List.getElem?_set, h]

theorem rd_range (n i : Nat) (h : i < n) : rd (List.range n) i = i := by
  simp [rd, List.getD_eq_getElem?_getD, List.getElem?_range h]

theorem rd_replicate (n i v : Nat) : rd (List.replicate n v) i = if i < n then v else 0 := by
  by_cases h : i < n
  · simp [rd, List.getD_eq_getElem?_getD, List.getElem?_replicate, h]
  · simp [rd, List.getD_eq_getElem?_getD, List.getElem?_replicate, h]

theorem rdb_replicate_false (n i : Nat) : rdb (List.replicate n false) i = false := by
  by_cases h : i < n
  · simp [rdb, List.getD_eq_getElem?_getD, List.getElem?_replicate, h]
  · simp [rdb, List.getD_eq_getElem?_getD, List.getElem?_replicate, h]

theorem u32_dec_pos (x : Nat) (h0 : 0 < x) (h : x < 4294967296) : u32_dec x = x - 1 := by
  unfold u32_dec; omega

theorem u32_inc_lt (x : Nat) (h : x + 1 < 4294967296) : u32_inc x = x + 1 := by
  unfold u32_inc; omega

theorem readers_pos_iff (n : Nat) (P : List Nat) (r : Nat) :
    0 < readers n P r ↔ ∃ d, d < n ∧ d ≠ r ∧ rd P d = r := by
  unfold readers
  rw [Finset.card_pos]
  constructor
  · rintro ⟨d, hd⟩
    simp only [Finset.mem_filter, Finset.mem_range] at hd
    exact ⟨d, hd.1, hd.2.1, hd.2.2⟩
  · rintro ⟨d, h1, h2, h3⟩
    exact ⟨d, by simp only [Finset.mem_filter, Finset.mem_range]; exact ⟨h1, h2, h3⟩⟩

theorem readers_set_cut (n : Nat) (P : List Nat) (d r0 r : Nat) (hd : d < n)
    (hlen : d < P.length) (hP : rd P d = r0) (hne : r0 ≠ d) :
    readers n (P.set d d) r = if r = r0 then readers n P r - 1 else readers n P r := by
  unfold readers
  by_cases hr : r = r0
  · subst hr
    rw [if_pos rfl]
    have : (Finset.range n).filter (fun x => x ≠ r ∧ rd (P.set d d) x = r)
        = ((Finset.range n).filter (fun x => x ≠ r ∧ rd P x = r)).erase d := by
      ext x
      simp only [Finset.mem_filter, Finset.mem_range, Finset.mem_erase]
      by_cases hx : x = d
      · subst hx
        rw [rd_set_same _ _ _ hlen]
        constructor
        · rintro ⟨_, h1, h2⟩; exact absurd h2.symm hne
        · rintro ⟨h, _⟩; exact absurd rfl h
      · rw [rd_set_other _ _ _ _ (Ne.symm hx)]
        tauto
    rw [this, Finset.card_erase_of_mem]
    simp only [Finset.mem_filter, Finset.mem_range]
    exact ⟨hd, Ne.symm hne, hP⟩
  · rw [if_neg hr]
    congr 1
    ext x
    simp only [Finset.mem_filter, Finset.mem_range]
    by_cases hx : x = d
    · subst hx
      rw [rd_set_same _ _ _ hlen, hP]
      constructor
      · rintro ⟨_, h1, h2⟩; exact absurd h2 h1
      · rintro ⟨_, _, h2⟩; exact absurd h2.symm hr
    · rw [rd_set_other _ _ _ _ (Ne.symm hx)]

theorem readers_set_add (n : Nat) (P : List Nat) (d a r : Nat) (hd : d < n)
    (hlen : d < P.length) (hP : rd P d = d) (hne : a ≠ d) :
    readers n (P.set d a) r = if r = a then readers n P r + 1 else readers n P r := by
  unfold readers
  by_cases hr : r = a
  · subst hr
    rw [if_pos rfl]
    have : (Finset.range n).filter (fun x => x ≠ r ∧ rd (P.set d r) x = r)
        = insert d ((Finset.range n).filter (fun x => x ≠ r ∧ rd P x = r)) := by
      ext x
      simp only [Finset.mem_filter, Finset.mem_range, Finset.mem_insert]
      by_cases hx : x = d
      · subst hx
        rw [rd_set_same _ _ _ hlen]
        constructor
        · intro _; exact Or.inl rfl
        · intro _; exact ⟨hd, Ne.symm hne, rfl⟩
      · rw [rd_set_other _ _ _ _ (Ne.symm hx)]
        tauto
    rw [this, Finset.card_insert_of_not_mem]
    simp only [Finset.mem_filter, Finset.mem_range, not_and]
    intro _ _ h
    rw [hP] at h
    exact hne h.symm
  · rw [if_neg hr]
    congr 1
    ext x
    simp only [Finset.mem_filter, Finset.mem_range]
    by_cases hx : x = d
    · subst hx
      rw [rd_set_same _ _ _ hlen, hP]
      constructor
      · rintro ⟨_, _, h2⟩; exact absurd h2.symm hr
      · rintro ⟨_, h1, h2⟩; exact absurd h2 h1
    · rw [rd_set_other _ _ _ _ (Ne.symm hx)]

theorem readers_range (n r : Nat) : readers n (List.range n) r = 0 := by
  unfold readers
  rw [Finset.card_eq_zero]
  ext x
  simp only [Finset.mem_filter, Finset.mem_range, Finset.not_mem_empty, iff_false, not_and]
  intro hx hne
  simp [rd, List.getD_eq_getElem?_getD, List.getElem?_range hx, hne]

/-! ## PBQP back-propagation -/

theorem vector_get_add_col (vec : vector_t) (mat : pbqp_matrix_t) (c i : Nat)
    (hi : i < vec.length) :
    vector_get (vector_add_matrix_col vec mat c) i = vector_get vec i + mat.entries i c := by
  simp [vector_get, vector_add_matrix_col, List.getD_eq_getElem?_getD, List.getElem?_mapIdx, hi]

theorem vector_get_add_row (vec : vector_t) (mat : pbqp_matrix_t) (c i : Nat)
    (hi : i < vec.length) :
    vector_get (vector_add_matrix_row vec mat c) i = vector_get vec i + mat.entries c i := by
  simp [vector_get, vector_add_matrix_row, List.getD_eq_getElem?_getD, List.getElem?_mapIdx, hi]

theorem vector_add_col_length (vec : vector_t) (mat : pbqp_matrix_t) (c : Nat) :
    (vector_add_matrix_col vec mat c).length = vec.length := by
  simp [vector_add_matrix_col]

theorem vector_add_row_length (vec : vector_t) (mat : pbqp_matrix_t) (c : Nat) :
    (vector_add_matrix_row vec mat c).length = vec.length := by
  simp [vector_add_matrix_row]

theorem vector_min_fold_spec (vec : vector_t) (k : Nat) :
    (∀ j < k, ((List.range k).foldl (vector_min_step vec) (0, INF_COSTS)).2 ≤ vector_get vec j) ∧
    ((((List.range k).foldl (vector_min_step vec) (0, INF_COSTS)).1 < k ∧
      vector_get vec ((List.range k).foldl (vector_min_step vec) (0, INF_COSTS)).1
        = ((List.range k).foldl (vector_min_step vec) (0, INF_COSTS)).2) ∨
     (((List.range k).foldl (vector_min_step vec) (0, INF_COSTS)).2 = ⊤ ∧
      ((List.range k).foldl (vector_min_step vec) (0, INF_COSTS)).1 = 0)) := by
  induction k with
  | zero => simp [INF_COSTS]
  | succ k ih =>
    rw [List.range_succ, List.foldl_append]
    simp only [List.foldl_cons, List.foldl_nil]
    generalize (List.range k).foldl (vector_min_step vec) (0, INF_COSTS) = acc at ih ⊢
    obtain ⟨h1, h2⟩ := ih
    unfold vector_min_step
    by_cases hlt : vector_get vec k < acc.2
    · simp only [hlt, if_true]
      refine ⟨?_, Or.inl ⟨Nat.lt_succ_self k, trivial⟩⟩
      intro j hj
      rcases Nat.lt_succ_iff_lt_or_eq.mp hj with h | h
      · exact le_trans (le_of_lt hlt) (h1 j h)
      · subst h; exact le_refl _
    · simp only [hlt, if_false]
      refine ⟨?_, ?_⟩
      · intro j hj
        rcases Nat.lt_succ_iff_lt_or_eq.mp hj with h | h
        · exact h1 j h
        · subst h; exact not_lt.mp hlt
      · rcases h2 with ⟨h, h'⟩ | h
        · exact Or.inl ⟨Nat.lt_succ_of_lt h, h'⟩
        · exact Or.inr h

theorem vector_get_min_index_le (vec : vector_t) (j : Nat) (hj : j < vec.length) :
    vector_get vec (vector_get_min_index vec) ≤ vector_get vec j := by
  obtain ⟨h1, h2⟩ := vector_min_fold_spec vec vec.length
  unfold vector_get_min_index
  rcases h2 with ⟨_, h⟩ | ⟨h, _⟩
  · rw [h]; exact h1 j hj
  · have := h1 j hj
    rw [h] at this
    rw [top_le_iff.mp this]; exact le_top

theorem vector_get_min_index_lt (vec : vector_t) (hne : vec ≠ []) :
    vector_get_min_index vec < vec.length := by
  obtain ⟨_, h2⟩ := vector_min_fold_spec vec vec.length
  unfold vector_get_min_index
  rcases h2 with ⟨h, _⟩ | ⟨_, h⟩
  · exact h
  · rw [h]; exact List.length_pos.mpr hne

theorem vector_get_min_eq (vec : vector_t) (hne : vec ≠ []) :
    vector_get_min vec = vector_get vec (vector_get_min_index vec) := by
  obtain ⟨h1, h2⟩ := vector_min_fold_spec vec vec.length
  unfold vector_get_min_index vector_get_min
  rcases h2 with ⟨_, h⟩ | ⟨h, h0⟩
  · rw [h]
  · rw [h, h0]
    have := h1 0 (List.length_pos.mpr hne)
    rw [h] at this
    exact (top_le_iff.mp this).symm

theorem set_solution_same (p : pbqp_t) (n v : Nat) :
    same_but_solutions p (set_solution p n v) (fun m => m = n) := by
  refine ⟨rfl, fun m => ?_⟩
  by_cases h : m = n
  · subst h; simp [set_solution]
  · simp [set_solution, Function.update_noteq h]

theorem set_solution_sol (p : pbqp_t) (n v : Nat) :
    ((set_solution p n v).nodes n).solution = v := by
  simp [set_solution]

theorem back_propagate_RN_body_get (pbqp : pbqp_t) (node k : Nat) (vec : vector_t) :
    ∃ vec', back_propagate_RN_body pbqp node k vec = .ok vec' ∧ vec'.length = vec.length ∧
      ∀ i < vec.length,
        vector_get vec' i = vector_get vec i + edge_cost pbqp node i (node_edge pbqp node k) := by
  unfold back_propagate_RN_body edge_cost
  by_cases h : (pbqp.edges (node_edge pbqp node k)).src = node
  · simp only [h, if_true]
    exact ⟨_, rfl, vector_add_col_length _ _ _, fun i hi => vector_get_add_col _ _ _ _ hi⟩
  · simp only [h, if_false]
    exact ⟨_, rfl, vector_add_row_length _ _ _, fun i hi => vector_get_add_row _ _ _ _ hi⟩

theorem back_propagate_RN_vec (pbqp : pbqp_t) (node : Nat) (k : Nat)
    (hk : k ≤ (pbqp.nodes node).edges.length) :
    ∃ vec, for_loop (back_propagate_RN_body pbqp node) k (pbqp.nodes node).costs = .ok vec ∧
      vec.length = (pbqp.nodes node).costs.length ∧
      ∀ i < (pbqp.nodes node).costs.length,
        vector_get vec i = vector_get (pbqp.nodes node).costs i
          + ((((pbqp.nodes node).edges.take k).map (edge_cost pbqp node i)).sum) := by
  induction k with
  | zero => exact ⟨_, rfl, rfl, fun i _ => by simp⟩
  | succ k ih =>
    obtain ⟨vec, h1, h2, h3⟩ := ih (Nat.le_of_succ_le hk)
    obtain ⟨vec', g1, g2, g3⟩ := back_propagate_RN_body_get pbqp node k vec
    refine ⟨vec', ?_, by rw [g2, h2], ?_⟩
    · simp only [for_loop, h1, g1]
    · intro i hi
      have hk' : k < (pbqp.nodes node).edges.length := hk
      have hne : node_edge pbqp node k = (pbqp.nodes node).edges[k] := by
        simp [node_edge, List.getD_eq_getElem?_getD, List.getElem?_eq_getElem hk']
      rw [g3 i (by rw [h2]; exact hi), h3 i hi, List.take_succ, List.map_append, List.sum_append,
        List.getElem?_eq_getElem hk', hne]
      simp [add_assoc]

theorem argmin_add_col (vec : vector_t) (mat : pbqp_matrix_t) (c : Nat) (hne : vec ≠ []) :
    vector_get_min_index (vector_add_matrix_col vec mat c) < vec.length ∧
    ∀ i < vec.length,
      vector_get vec (vector_get_min_index (vector_add_matrix_col vec mat c))
          + mat.entries (vector_get_min_index (vector_add_matrix_col vec mat c)) c
        ≤ vector_get vec i + mat.entries i c := by
  have hlen := vector_add_col_length vec mat c
  have hne' : vector_add_matrix_col vec mat c ≠ [] := by
    intro h0; rw [h0] at hlen; exact hne (List.length_eq_zero.mp hlen.symm)
  have hlt := vector_get_min_index_lt _ hne'
  rw [hlen] at hlt
  refine ⟨hlt, fun i hi => ?_⟩
  have hm := vector_get_min_index_le (vector_add_matrix_col vec mat c) i (by rw [hlen]; exact hi)
  rw [vector_get_add_col _ _ _ _ hi, vector_get_add_col _ _ _ _ hlt] at hm
  exact hm

theorem argmin_add_row (vec : vector_t) (mat : pbqp_matrix_t) (c : Nat) (hne : vec ≠ []) :
    vector_get_min_index (vector_add_matrix_row vec mat c) < vec.length ∧
    ∀ i < vec.length,
      vector_get vec (vector_get_min_index (vector_add_matrix_row vec mat c))
          + mat.entries c (vector_get_min_index (vector_add_matrix_row vec mat c))
        ≤ vector_get vec i + mat.entries c i := by
  have hlen := vector_add_row_length vec mat c
  have hne' : vector_add_matrix_row vec mat c ≠ [] := by
    intro h0; rw [h0] at hlen; exact hne (List.length_eq_zero.mp hlen.symm)
  have hlt := vector_get_min_index_lt _ hne'
  rw [hlen] at hlt
  refine ⟨hlt, fun i hi => ?_⟩
  have hm := vector_get_min_index_le (vector_add_matrix_row vec mat c) i (by rw [hlen]; exact hi)
  rw [vector_get_add_row _ _ _ _ hi, vector_get_add_row _ _ _ _ hlt] at hm
  exact hm

theorem back_propagate_RI_solution (p : pbqp_t) (n : Nat) :
    ((back_propagate_RI p n).nodes n).solution =
      if (p.edges (node_edge p n 0)).src = n then
        pbqp_matrix_get_col_min_index (p.edges (node_edge p n 0)).costs
          (p.nodes (p.edges (node_edge p n 0)).tgt).solution (p.nodes n).costs
      else
        pbqp_matrix_get_row_min_index (p.edges (node_edge p n 0)).costs
          (p.nodes (p.edges (node_edge p n 0)).src).solution (p.nodes n).costs := by
  unfold back_propagate_RI
  by_cases hs : (p.edges (node_edge p n 0)).src = n
  · simp [hs, set_solution_sol]
  · simp [hs, set_solution_sol]

theorem vector_add_edge_length (p : pbqp_t) (node : Nat) (vec : vector_t) (e : Nat) :
    (vector_add_edge p node vec e).length = vec.length := by
  unfold vector_add_edge
  split
  · exact vector_add_col_length _ _ _
  · exact vector_add_row_length _ _ _

theorem vector_add_edge_get (p : pbqp_t) (node : Nat) (vec : vector_t) (e i : Nat)
    (hi : i < vec.length) :
    vector_get (vector_add_edge p node vec e) i = vector_get vec i + edge_cost p node i e := by
  unfold vector_add_edge edge_cost
  split
  · exact vector_get_add_col _ _ _ _ hi
  · exact vector_get_add_row _ _ _ _ hi

theorem back_propagate_RII_solution (p : pbqp_t) (n : Nat) :
    ((back_propagate_RII p n).nodes n).solution =
      if (p.nodes (edge_neighbor p n (node_edge p n 1))).index
          < (p.nodes (edge_neighbor p n (node_edge p n 0))).index then
        vector_get_min_index (vector_add_edge p n
          (vector_add_edge p n (p.nodes n).costs (node_edge p n 1)) (node_edge p n 0))
      else
        vector_get_min_index (vector_add_edge p n
          (vector_add_edge p n (p.nodes n).costs (node_edge p n 0)) (node_edge p n 1)) := by
  unfold back_propagate_RII vector_add_edge edge_neighbor
  simp only [set_solution_sol]
  by_cases h0 : (p.edges (node_edge p n 0)).src = n <;>
  by_cases h1 : (p.edges (node_edge p n 1)).src = n <;>
  simp only [h0, h1, decide_True, decide_False, if_true, if_false, decide_eq_true_eq,
    Bool.false_eq_true] <;>
  split_ifs <;> first | rfl | omega | simp_all

theorem local_cost_congr (p q : pbqp_t) (n i : Nat)
    (hs : same_but_solutions p q (fun m => m = n))
    (hnb : ∀ e ∈ (p.nodes n).edges, edge_neighbor p n e ≠ n) :
    local_cost q n i = local_cost p n i := by
  obtain ⟨he, hn⟩ := hs
  unfold local_cost
  rw [(hn n).1, (hn n).2.1]
  congr 1
  congr 1
  apply List.map_congr_left
  intro e hmem
  have hne := hnb e hmem
  unfold edge_neighbor at hne
  unfold edge_cost
  rw [he]
  by_cases h : (p.edges e).src = n
  · simp only [h, if_true] at hne ⊢
    rw [(hn _).2.2.2 hne]
  · simp only [h, if_false] at hne ⊢
    rw [(hn _).2.2.2 hne]

theorem back_propagate_node_same (p q : pbqp_t) (n : Nat) (h : back_propagate_node p n = .ok q) :
    same_but_solutions p q (fun m => m = n) := by
  unfold back_propagate_node at h
  split at h
  · injection h with h; subst h
    unfold back_propagate_RI; simp only []
    split <;> exact set_solution_same _ _ _
  · injection h with h; subst h
    unfold back_propagate_RII
    exact set_solution_same _ _ _
  · unfold back_propagate_RN at h
    split at h
    · exact absurd h (by simp)
    · split at h
      · injection h with h; subst h
        exact set_solution_same _ _ _
      · exact absurd h (by simp)

theorem back_propagate_node_opt_pre (p q : pbqp_t) (n : Nat)
    (h : back_propagate_node p n = .ok q) :
    ∀ i < (p.nodes n).costs.length,
      local_cost p n (q.nodes n).solution ≤ local_cost p n i := by
  intro i hi
  have hne : (p.nodes n).costs ≠ [] := by
    intro h0; rw [h0] at hi; exact absurd hi (by simp)
  unfold back_propagate_node at h
  split at h
  · -- R1
    rename_i hdeg
    injection h with h; subst h
    obtain ⟨e, he⟩ : ∃ e, (p.nodes n).edges = [e] := by
      unfold pbqp_node_get_degree at hdeg
      exact List.length_eq_one.mp hdeg
    have hlc : ∀ j, local_cost p n j = vector_get (p.nodes n).costs j + edge_cost p n j e := by
      intro j; simp [local_cost, he]
    have hne0 : node_edge p n 0 = e := by simp [node_edge, he]
    rw [hlc, hlc, back_propagate_RI_solution, hne0]
    unfold edge_cost
    by_cases hs : (p.edges e).src = n
    · simp only [hs, if_true]
      exact (argmin_add_col _ _ _ hne).2 i hi
    · simp only [hs, if_false]
      exact (argmin_add_row _ _ _ hne).2 i hi
  · -- R2
    rename_i hdeg
    injection h with h; subst h
    obtain ⟨e0, e1, he⟩ : ∃ e0 e1, (p.nodes n).edges = [e0, e1] := by
      unfold pbqp_node_get_degree at hdeg
      exact List.length_eq_two.mp hdeg
    have hlc : ∀ j, local_cost p n j
        = vector_get (p.nodes n).costs j + edge_cost p n j e0 + edge_cost p n j e1 := by
      intro j; simp [local_cost, he, add_assoc]
    have hne0 : node_edge p n 0 = e0 := by simp [node_edge, he]
    have hne1 : node_edge p n 1 = e1 := by simp [node_edge, he]
    rw [hlc, hlc, back_propagate_RII_solution, hne0, hne1]
    have key : ∀ a b : Nat, ∀ j < (p.nodes n).costs.length,
        vector_get (vector_add_edge p n (vector_add_edge p n (p.nodes n).costs a) b) j
          = vector_get (p.nodes n).costs j + edge_cost p n j a + edge_cost p n j b := by
      intro a b j hj
      rw [vector_add_edge_get _ _ _ _ _ (by rw [vector_add_edge_length]; exact hj),
        vector_add_edge_get _ _ _ _ _ hj]
    have hl : ∀ a b : Nat,
        (vector_add_edge p n (vector_add_edge p n (p.nodes n).costs a) b).length
          = (p.nodes n).costs.length := by
      intro a b; rw [vector_add_edge_length, vector_add_edge_length]
    have hnn : ∀ a b : Nat,
        vector_add_edge p n (vector_add_edge p n (p.nodes n).costs a) b ≠ [] := by
      intro a b h0
      have := hl a b
      rw [h0] at this
      exact hne (List.length_eq_zero.mp this.symm)
    split
    · have hm := vector_get_min_index_le _ i (by rw [hl e1 e0]; exact hi)
      have hlt := vector_get_min_index_lt _ (hnn e1 e0)
      rw [hl] at hlt
      rw [key e1 e0 i hi, key e1 e0 _ hlt] at hm
      rw [add_right_comm _ (edge_cost p n _ e0), add_right_comm _ (edge_cost p n i e0)]
      exact hm
    · have hm := vector_get_min_index_le _ i (by rw [hl e0 e1]; exact hi)
      have hlt := vector_get_min_index_lt _ (hnn e0 e1)
      rw [hl] at hlt
      rw [key e0 e1 i hi, key e0 e1 _ hlt] at hm
      exact hm
  · -- RN
    unfold back_propagate_RN at h
    obtain ⟨vec, h1, h2, h3⟩ := back_propagate_RN_vec p n (pbqp_node_get_degree p n) (le_refl _)
    rw [h1] at h
    simp only [] at h
    split at h
    · injection h with h; subst h
      rw [set_solution_sol]
      have hm := vector_get_min_index_le vec i (by rw [h2]; exact hi)
      have hlt := vector_get_min_index_lt vec (by
        intro h0; rw [h0] at h2; exact hne (List.length_eq_zero.mp h2.symm))
      rw [h3 i hi, h3 _ (by rw [← h2]; exact hlt)] at hm
      simpa [local_cost, pbqp_node_get_degree] using hm
    · exact absurd h (by simp)

theorem back_propagate_ld_loop_eq (bucket : List Nat) (k : Nat) (hk : k ≤ bucket.length)
    (p : pbqp_t) :
    back_propagate_ld_loop bucket k p
      = (bucket.take k).reverse.foldlM (fun q n => back_propagate_node q n) p := by
  induction k generalizing p with
  | zero => simp [back_propagate_ld_loop, pure, Except.pure]
  | succ k ih =>
    have hk' : k < bucket.length := hk
    rw [List.take_succ, List.getElem?_eq_getElem hk']
    simp only [Option.toList, List.reverse_append, List.reverse_cons, List.reverse_nil,
      List.nil_append, List.singleton_append, List.foldlM_cons]
    unfold back_propagate_ld_loop
    simp only [List.getD_eq_getElem?_getD, List.getElem?_eq_getElem hk', Option.getD_some]
    cases hb : back_propagate_node p bucket[k] with
    | error e => simp [bind, Except.bind]
    | ok q => simp [bind, Except.bind, ih (Nat.le_of_succ_le hk) q]

theorem same_but_solutions_trans (p q r : pbqp_t) (S T : Nat → Prop)
    (h1 : same_but_solutions p q S) (h2 : same_but_solutions q r T) :
    same_but_solutions p r (fun m => S m ∨ T m) := by
  obtain ⟨e1, n1⟩ := h1
  obtain ⟨e2, n2⟩ := h2
  refine ⟨e2.trans e1, fun m => ⟨(n2 m).1.trans (n1 m).1, (n2 m).2.1.trans (n1 m).2.1,
    (n2 m).2.2.1.trans (n1 m).2.2.1, fun hm => ?_⟩⟩
  rw [(n2 m).2.2.2 (fun h => hm (Or.inr h)), (n1 m).2.2.2 (fun h => hm (Or.inl h))]

theorem back_propagate_ld_loop_same (bucket : List Nat) (k : Nat) (hk : k ≤ bucket.length)
    (p q : pbqp_t) (h : back_propagate_ld_loop bucket k p = .ok q) :
    same_but_solutions p q (fun m => m ∈ bucket.take k) := by
  induction k generalizing p with
  | zero =>
    simp only [back_propagate_ld_loop] at h
    injection h with h; subst h
    exact ⟨rfl, fun m => ⟨rfl, rfl, rfl, fun _ => rfl⟩⟩
  | succ k ih =>
    have hk' : k < bucket.length := hk
    unfold back_propagate_ld_loop at h
    simp only [List.getD_eq_getElem?_getD, List.getElem?_eq_getElem hk', Option.getD_some] at h
    cases hb : back_propagate_node p bucket[k] with
    | error e => rw [hb] at h; exact absurd h (by simp)
    | ok p1 =>
      simp only [hb] at h
      have h1 := back_propagate_node_same p p1 _ hb
      have h2 := ih (Nat.le_of_succ_le hk) p1 h
      obtain ⟨e, n⟩ := same_but_solutions_trans _ _ _ _ _ h1 h2
      refine ⟨e, fun m => ⟨(n m).1, (n m).2.1, (n m).2.2.1, fun hm => (n m).2.2.2 ?_⟩⟩
      rintro (h | h)
      · apply hm
        show m ∈ List.take (k + 1) bucket
        rw [h]
        exact List.mem_take_iff_getElem.mpr ⟨k, by simp; omega, rfl⟩
      · apply hm
        show m ∈ List.take (k + 1) bucket
        rw [List.take_succ]
        exact List.mem_append_left _ h

theorem local_cost_congr_set (p q : pbqp_t) (S : Nat → Prop) (n i : Nat)
    (hs : same_but_solutions p q S)
    (hnb : ∀ e ∈ (p.nodes n).edges, ¬ S (edge_neighbor p n e)) :
    local_cost q n i = local_cost p n i := by
  obtain ⟨he, hn⟩ := hs
  unfold local_cost
  rw [(hn n).1, (hn n).2.1]
  congr 1
  congr 1
  apply List.map_congr_left
  intro e hmem
  have hne := hnb e hmem
  unfold edge_neighbor at hne
  unfold edge_cost
  rw [he]
  by_cases h : (p.edges e).src = n
  · simp only [h, if_true] at hne ⊢
    rw [(hn _).2.2.2 hne]
  · simp only [h, if_false] at hne ⊢
    rw [(hn _).2.2.2 hne]

theorem back_propagate_ld_loop_opt (bucket : List Nat) (hnd : bucket.Nodup) (k : Nat)
    (hk : k ≤ bucket.length) (p q : pbqp_t)
    (hnb : ∀ j, (hj : j < bucket.length) → ∀ e ∈ (p.nodes bucket[j]).edges,
      ∀ j', (hj' : j' < bucket.length) → bucket[j'] = edge_neighbor p bucket[j] e → j < j')
    (h : back_propagate_ld_loop bucket k p = .ok q) :
    ∀ j, (hj : j < k) → ∀ i < (q.nodes (bucket.getD j 0)).costs.length,
      local_cost q (bucket.getD j 0) (q.nodes (bucket.getD j 0)).solution
        ≤ local_cost q (bucket.getD j 0) i := by
  induction k generalizing p with
  | zero => intro j hj; exact absurd hj (Nat.not_lt_zero _)
  | succ k ih =>
    have hk' : k < bucket.length := hk
    unfold back_propagate_ld_loop at h
    simp only [List.getD_eq_getElem?_getD, List.getElem?_eq_getElem hk', Option.getD_some] at h
    cases hb : back_propagate_node p bucket[k] with
    | error e => rw [hb] at h; exact absurd h (by simp)
    | ok p1 =>
      simp only [hb] at h
      have h1 := back_propagate_node_same p p1 _ hb
      have h2 := back_propagate_ld_loop_same bucket k (Nat.le_of_succ_le hk) p1 q h
      have hnb1 : ∀ j, (hj : j < bucket.length) → ∀ e ∈ (p1.nodes bucket[j]).edges,
          ∀ j', (hj' : j' < bucket.length) → bucket[j'] = edge_neighbor p1 bucket[j] e → j < j' := by
        intro j hj e he j' hj' heq
        rw [(h1.2 _).2.1] at he
        have : edge_neighbor p1 bucket[j] e = edge_neighbor p bucket[j] e := by
          unfold edge_neighbor; rw [h1.1]
        rw [this] at heq
        exact hnb j hj e he j' hj' heq
      intro j hj i hi
      rcases Nat.lt_succ_iff_lt_or_eq.mp hj with hlt | heq
      · exact ih (Nat.le_of_succ_le hk) p1 hnb1 h j hlt i hi
      · subst heq
        simp only [List.getD_eq_getElem?_getD, List.getElem?_eq_getElem hk', Option.getD_some]
          at hi ⊢
        -- neighbours of bucket[j] are not among the first j entries, nor bucket[j] itself
        have hnot : ∀ e ∈ (p1.nodes bucket[j]).edges,
            ¬ (edge_neighbor p1 bucket[j] e ∈ bucket.take j) := by
          intro e he hmem
          obtain ⟨j', hj', hj'eq⟩ := List.mem_take_iff_getElem.mp hmem
          have hlt := hnb1 j hk' e he j' (by omega) hj'eq
          omega
        have hself : ¬ (bucket[j] ∈ bucket.take j) := by
          intro hmem
          obtain ⟨j', hj', hj'eq⟩ := List.mem_take_iff_getElem.mp hmem
          have := (List.Nodup.getElem_inj_iff hnd).mp hj'eq
          omega
        have hnot0 : ∀ e ∈ (p.nodes bucket[j]).edges, edge_neighbor p bucket[j] e ≠ bucket[j] := by
          intro e he heq
          have := hnb j hk' e he j hk' heq.symm
          omega
        have hc1 : ∀ i, local_cost q bucket[j] i = local_cost p1 bucket[j] i :=
          fun i => local_cost_congr_set p1 q _ _ i h2 hnot
        have hc0 : ∀ i, local_cost p1 bucket[j] i = local_cost p bucket[j] i :=
          fun i => local_cost_congr p p1 _ i h1 hnot0
        have hsol : (q.nodes bucket[j]).solution = (p1.nodes bucket[j]).solution :=
          (h2.2 _).2.2.2 hself
        rw [hc1, hc1, hc0, hc0, hsol]
        have hcl : (q.nodes bucket[j]).costs.length = (p.nodes bucket[j]).costs.length := by
          rw [(h2.2 _).1, (h1.2 _).1]
        exact back_propagate_node_opt_pre p p1 _ hb i (by rw [← hcl]; exact hi)


theorem back_propagate_node_sol_lt (p q : pbqp_t) (n : Nat)
    (h : back_propagate_node p n = .ok q) (hne : (p.nodes n).costs ≠ []) :
    (q.nodes n).solution < (p.nodes n).costs.length := by
  unfold back_propagate_node at h
  split at h
  · injection h with h; subst h
    rw [back_propagate_RI_solution]
    split
    · exact (argmin_add_col _ _ _ hne).1
    · exact (argmin_add_row _ _ _ hne).1
  · injection h with h; subst h
    rw [back_propagate_RII_solution]
    have hl : ∀ a b : Nat,
        (vector_add_edge p n (vector_add_edge p n (p.nodes n).costs a) b).length
          = (p.nodes n).costs.length := by
      intro a b; rw [vector_add_edge_length, vector_add_edge_length]
    have hnn : ∀ a b : Nat,
        vector_add_edge p n (vector_add_edge p n (p.nodes n).costs a) b ≠ [] := by
      intro a b h0
      have := hl a b
      rw [h0] at this
      exact hne (List.length_eq_zero.mp this.symm)
    split
    · have := vector_get_min_index_lt _ (hnn (node_edge p n 1) (node_edge p n 0))
      rwa [hl] at this
    · have := vector_get_min_index_lt _ (hnn (node_edge p n 0) (node_edge p n 1))
      rwa [hl] at this
  · unfold back_propagate_RN at h
    obtain ⟨vec, h1, h2, _⟩ := back_propagate_RN_vec p n (pbqp_node_get_degree p n) (le_refl _)
    rw [h1] at h
    simp only [] at h
    split at h
    · injection h with h; subst h
      rw [set_solution_sol]
      have hlt := vector_get_min_index_lt vec (by
        intro h0; rw [h0] at h2; exact hne (List.length_eq_zero.mp h2.symm))
      rwa [h2] at hlt
    · exact absurd h (by simp)

theorem back_propagate_ld_loop_sol_lt (bucket : List Nat) (hnd : bucket.Nodup) (k : Nat)
    (hk : k ≤ bucket.length) (p q : pbqp_t)
    (h : back_propagate_ld_loop bucket k p = .ok q) :
    ∀ j, (hj : j < k) → (q.nodes (bucket.getD j 0)).costs ≠ [] →
      (q.nodes (bucket.getD j 0)).solution < (q.nodes (bucket.getD j 0)).costs.length := by
  induction k generalizing p with
  | zero => intro j hj; exact absurd hj (Nat.not_lt_zero _)
  | succ k ih =>
    have hk' : k < bucket.length := hk
    unfold back_propagate_ld_loop at h
    simp only [List.getD_eq_getElem?_getD, List.getElem?_eq_getElem hk', Option.getD_some] at h
    cases hb : back_propagate_node p bucket[k] with
    | error e => rw [hb] at h; exact absurd h (by simp)
    | ok p1 =>
      simp only [hb] at h
      have h1 := back_propagate_node_same p p1 _ hb
      have h2 := back_propagate_ld_loop_same bucket k (Nat.le_of_succ_le hk) p1 q h
      intro j hj hne
      rcases Nat.lt_succ_iff_lt_or_eq.mp hj with hlt | heq
      · exact ih (Nat.le_of_succ_le hk) p1 h j hlt hne
      · subst heq
        simp only [List.getD_eq_getElem?_getD, List.getElem?_eq_getElem hk', Option.getD_some]
          at hne ⊢
        have hself : ¬ (bucket[j] ∈ bucket.take j) := by
          intro hmem
          obtain ⟨j', hj', hj'eq⟩ := List.mem_take_iff_getElem.mp hmem
          have := (List.Nodup.getElem_inj_iff hnd).mp hj'eq
          omega
        have hcl : (q.nodes bucket[j]).costs = (p.nodes bucket[j]).costs := by
          rw [(h2.2 _).1, (h1.2 _).1]
        rw [(h2.2 _).2.2.2 hself, hcl]
        exact back_propagate_node_sol_lt p p1 _ hb (by rw [← hcl]; exact hne)

/-- C9 (R1 rule): `back_propagate_RI` stores in `node->solution` a choice of the
node that minimises `cost[i] + M[i][j]` when the node is the source of its edge
`edges[0]`, and `cost[i] + M[j][i]` when it is the target, where `M` is the matrix
of the edge and `j` the solution of the neighbour at the other end. -/
theorem back_propagate_RI_argmin (pbqp : pbqp_t) (node : Nat) :
    ((pbqp.nodes node).costs ≠ [] →
      ((back_propagate_RI pbqp node).nodes node).solution < (pbqp.nodes node).costs.length) ∧
    ((pbqp.edges (node_edge pbqp node 0)).src = node →
      ∀ i < (pbqp.nodes node).costs.length,
        vector_get (pbqp.nodes node).costs ((back_propagate_RI pbqp node).nodes node).solution
          + (pbqp.edges (node_edge pbqp node 0)).costs.entries
              ((back_propagate_RI pbqp node).nodes node).solution
              (pbqp.nodes (pbqp.edges (node_edge pbqp node 0)).tgt).solution
        ≤ vector_get (pbqp.nodes node).costs i
          + (pbqp.edges (node_edge pbqp node 0)).costs.entries i
              (pbqp.nodes (pbqp.edges (node_edge pbqp node 0)).tgt).solution) ∧
    ((pbqp.edges (node_edge pbqp node 0)).src ≠ node →
      ∀ i < (pbqp.nodes node).costs.length,
        vector_get (pbqp.nodes node).costs ((back_propagate_RI pbqp node).nodes node).solution
          + (pbqp.edges (node_edge pbqp node 0)).costs.entries
              (pbqp.nodes (pbqp.edges (node_edge pbqp node 0)).src).solution
              ((back_propagate_RI pbqp node).nodes node).solution
        ≤ vector_get (pbqp.nodes node).costs i
          + (pbqp.edges (node_edge pbqp node 0)).costs.entries
              (pbqp.nodes (pbqp.edges (node_edge pbqp node 0)).src).solution i) := by
  refine ⟨fun hne => ?_, fun hs i hi => ?_, fun hs i hi => ?_⟩
  · rw [back_propagate_RI_solution]
    split
    · exact (argmin_add_col _ _ _ hne).1
    · exact (argmin_add_row _ _ _ hne).1
  · have hne : (pbqp.nodes node).costs ≠ [] := by
      intro h0; rw [h0] at hi; exact absurd hi (by simp)
    rw [back_propagate_RI_solution, if_pos hs]
    exact (argmin_add_col _ _ _ hne).2 i hi
  · have hne : (pbqp.nodes node).costs ≠ [] := by
      intro h0; rw [h0] at hi; exact absurd hi (by simp)
    rw [back_propagate_RI_solution, if_neg hs]
    exact (argmin_add_row _ _ _ hne).2 i hi

/-- C10 (order and dispatch): `back_propagate_ld` applies the rule selected by
the degree to the entries of `reduced_bucket` one after the other, each entry
once, from the last entry down to the entry at index `0`, that is in the reverse
of the insertion order (a failing assertion of RN ends the run); the rule is
R1 for degree 1, R2 for degree 2 and RN for degree 3 or more. -/
theorem back_propagate_ld_order_dispatch (reduced_bucket : List Nat) (pbqp : pbqp_t) :
    back_propagate_ld reduced_bucket pbqp
        = reduced_bucket.reverse.foldlM (fun q node => back_propagate_node q node) pbqp ∧
    (∀ q node, pbqp_node_get_degree q node = 1 →
        back_propagate_node q node = .ok (back_propagate_RI q node)) ∧
    (∀ q node, pbqp_node_get_degree q node = 2 →
        back_propagate_node q node = .ok (back_propagate_RII q node)) ∧
    (∀ q node, 3 ≤ pbqp_node_get_degree q node →
        back_propagate_node q node = back_propagate_RN q node) := by
  refine ⟨?_, ?_, ?_, ?_⟩
  · unfold back_propagate_ld
    simp only []
    rw [back_propagate_ld_loop_eq _ _ (le_refl _), List.take_length]
  · intro q node h; unfold back_propagate_node; rw [h]
  · intro q node h; unfold back_propagate_node; rw [h]
  · intro q node h; unfold back_propagate_node
    split
    · rename_i h1; omega
    · rename_i h1; omega
    · rfl

/-- C2 (PBQP local optimality): if the nodes of `reduced_bucket` are pairwise
distinct and every neighbour of the node at index `k` lies at an index greater
than `k` or outside the bucket, then after `back_propagate_ld` the solution of
every node of the bucket is a choice of the node and minimises
`cost[i] + Σ matrix entry selected by (i, neighbour solution)` over the incident
edges, evaluated with the final solutions of the neighbours. -/
theorem back_propagate_ld_local_optimality (reduced_bucket : List Nat) (pbqp pbqp' : pbqp_t)
    (hnd : reduced_bucket.Nodup)
    (hnb : ∀ k, (hk : k < reduced_bucket.length) → ∀ e ∈ (pbqp.nodes reduced_bucket[k]).edges,
      (∃ j, ∃ hj : j < reduced_bucket.length,
          k < j ∧ reduced_bucket[j] = edge_neighbor pbqp reduced_bucket[k] e)
        ∨ edge_neighbor pbqp reduced_bucket[k] e ∉ reduced_bucket)
    (hrun : back_propagate_ld reduced_bucket pbqp = .ok pbqp') :
    ∀ n ∈ reduced_bucket,
      ((pbqp'.nodes n).costs ≠ [] → (pbqp'.nodes n).solution < (pbqp'.nodes n).costs.length) ∧
      ∀ i < (pbqp'.nodes n).costs.length,
        local_cost pbqp' n (pbqp'.nodes n).solution ≤ local_cost pbqp' n i := by
  intro n hn
  obtain ⟨j, hj, rfl⟩ := List.getElem_of_mem hn
  have hg : reduced_bucket.getD j 0 = reduced_bucket[j] := by
    simp [List.getD_eq_getElem?_getD, List.getElem?_eq_getElem hj]
  unfold back_propagate_ld at hrun
  refine ⟨?_, ?_⟩
  · have := back_propagate_ld_loop_sol_lt reduced_bucket hnd _ (le_refl _) pbqp pbqp' hrun j hj
    rw [hg] at this
    exact this
  · have := back_propagate_ld_loop_opt reduced_bucket hnd _ (le_refl _) pbqp pbqp' (by
      intro k hk e he j' hj' heq
      rcases hnb k hk e he with ⟨j0, hj0, hlt, hj0eq⟩ | hout
      · have := (List.Nodup.getElem_inj_iff hnd).mp (heq.trans hj0eq.symm)
        omega
      · exact absurd (heq ▸ List.getElem_mem hj') hout) hrun j hj
    rw [hg] at this
    exact this

theorem back_propagate_ld_local_optimality_witness :
    ∃ q, back_propagate_ld scenario_F_bucket scenario_F = .ok q ∧
      ∀ n ∈ scenario_F_bucket,
        ((q.nodes n).costs ≠ [] → (q.nodes n).solution < (q.nodes n).costs.length) ∧
        ∀ i < (q.nodes n).costs.length,
          local_cost q n (q.nodes n).solution ≤ local_cost q n i :=
  match h : back_propagate_ld scenario_F_bucket scenario_F with
  | .ok q =>
    ⟨q, rfl, back_propagate_ld_local_optimality scenario_F_bucket scenario_F q (by decide)
      (by
        intro k hk e he
        have hk2 : k < 2 := hk
        interval_cases k
        · left; exact ⟨1, by decide, by decide, by
            simp [scenario_F_bucket, scenario_F] at he
            subst he
            simp [scenario_F_bucket, scenario_F, edge_neighbor]⟩
        · right
          simp [scenario_F_bucket, scenario_F] at he
          subst he
          simp [scenario_F_bucket, scenario_F, edge_neighbor]) h⟩
  | .error e => by
    have hok : (match back_propagate_ld scenario_F_bucket scenario_F with
      | .ok _ => true | .error _ => false) = true := by decide
    rw [h] at hok
    exact absurd hok (by simp)

/-! ## The parallel-copy planner -/

theorem planner_demands_append (env : be_chordal_env_t) (g : ir_graph) (i : Nat)
    (l1 l2 : List Nat) (r : Nat) :
    planner_demands env g i (l1 ++ l2) r
      = planner_demands env g i l1 r ++ planner_demands env g i l2 r := by
  simp [planner_demands, List.filter_append]

theorem planner_demands_single (env : be_chordal_env_t) (g : ir_graph) (i phi r : Nat) :
    planner_demands env g i [phi] r
      = if planner_skips env g i phi = false ∧ arg_reg_index g phi i = r then [phi] else [] := by
  unfold planner_demands
  by_cases h1 : planner_skips env g i phi = false <;> by_cases h2 : arg_reg_index g phi i = r <;>
    simp [List.filter, h1, h2]

theorem planner_weight_sum_le (env : be_chordal_env_t) (g : ir_graph) (block i : Nat)
    (l : List Nat) :
    (l.map (fun phi => if arg_live_in env g block i phi then 2 else 1)).sum ≤ 2 * l.length := by
  induction l with
  | nil => simp
  | cons a l ih =>
    simp only [List.map_cons, List.sum_cons, List.length_cons]
    split <;> omega

theorem planner_demands_length_le (env : be_chordal_env_t) (g : ir_graph) (i : Nat)
    (l : List Nat) (r : Nat) : (planner_demands env g i l r).length ≤ l.length := by
  unfold planner_demands
  exact List.length_filter_le _ _

theorem plan_inv_init (env : be_chordal_env_t) (g : ir_graph) (block i : Nat) :
    plan_inv env g block i [] (List.range env.cls.n_regs) (List.replicate env.cls.n_regs 0) := by
  refine ⟨by simp, by simp, ?_, ?_, ?_, ?_⟩
  · intro phi h; exact absurd h (List.not_mem_nil _)
  · intro r hr _; exact rd_range _ _ hr
  · intro r hr; simp [planner_demands, rd_replicate]
  · intro r; simp [planner_demands, readers_range]

theorem planner_skips_false (env : be_chordal_env_t) (g : ir_graph) (i phi pr ar : Nat)
    (hp : arch_get_irn_register g phi = some pr) (ha : phi_arg_register g phi i = some ar)
    (hs : planner_skips env g i phi = false) :
    pr ≠ ar ∧ env.cls.is_joker ar = false ∧ env.cls.is_virtual ar = false := by
  unfold planner_skips at hs
  rw [hp, ha] at hs
  simp only [Bool.or_eq_false_iff, decide_eq_false_iff_not, Option.some.injEq] at hs
  exact ⟨hs.1, hs.2.1, hs.2.2⟩

theorem analyze_phi_body_skip (env : be_chordal_env_t) (g : ir_graph) (block i phi : Nat)
    (st : plan_state) (hphi : st.phi = some phi) (hs : planner_skips env g i phi = true) :
    analyze_phi_body env g block i st
      = .ok { phi := get_irn_link g phi, parcopy := st.parcopy, n_used := st.n_used } := by
  unfold analyze_phi_body
  simp only [hphi]
  unfold planner_skips phi_arg_register at hs
  by_cases h : arch_get_irn_register g phi = arch_get_irn_register g (get_irn_n g phi i)
  · simp [h]
  · simp only [h, decide_False, Bool.false_or] at hs
    simp only [h, if_false]
    cases ha : arch_get_irn_register g (get_irn_n g phi i) with
    | none => rw [ha] at hs; simp at hs
    | some ar =>
      rw [ha] at hs
      simp only [] at hs
      simp [hs]

theorem analyze_phi_body_conflict (env : be_chordal_env_t) (g : ir_graph) (block i phi : Nat)
    (st : plan_state) (pr ar : Nat) (hphi : st.phi = some phi)
    (hp : arch_get_irn_register g phi = some pr) (ha : phi_arg_register g phi i = some ar)
    (hs : planner_skips env g i phi = false) (hc : rd st.parcopy pr ≠ pr) :
    analyze_phi_body env g block i st = .error (.assertion 424) := by
  obtain ⟨h1, h2, h3⟩ := planner_skips_false env g i phi pr ar hp ha hs
  unfold analyze_phi_body
  unfold phi_arg_register at ha
  simp only [hphi, hp, ha, Option.some.injEq, h1, if_false, h2, h3, Bool.or_self,
    Bool.false_eq_true, hc]

theorem analyze_phi_body_demand (env : be_chordal_env_t) (g : ir_graph) (block i phi : Nat)
    (st : plan_state) (pr ar : Nat) (hphi : st.phi = some phi)
    (hp : arch_get_irn_register g phi = some pr) (ha : phi_arg_register g phi i = some ar)
    (hs : planner_skips env g i phi = false) (hc : rd st.parcopy pr = pr) :
    analyze_phi_body env g block i st
      = .ok { phi := get_irn_link g phi, parcopy := st.parcopy.set pr ar,
              n_used :=
                if arg_live_in env g block i phi then
                  (st.n_used.set ar (u32_inc (rd st.n_used ar))).set ar
                    (u32_inc (rd (st.n_used.set ar (u32_inc (rd st.n_used ar))) ar))
                else st.n_used.set ar (u32_inc (rd st.n_used ar)) } := by
  obtain ⟨h1, h2, h3⟩ := planner_skips_false env g i phi pr ar hp ha hs
  unfold analyze_phi_body arg_live_in
  unfold phi_arg_register at ha
  simp only [hphi, hp, ha, Option.some.injEq, h1, if_false, h2, h3, Bool.or_self,
    Bool.false_eq_true, hc, if_true]

theorem plan_inv_skip (env : be_chordal_env_t) (g : ir_graph) (block i : Nat)
    (done : List Nat) (phi : Nat) (P U : List Nat)
    (hs : planner_skips env g i phi = true) (h : plan_inv env g block i done P U) :
    plan_inv env g block i (done ++ [phi]) P U := by
  obtain ⟨h1, h2, h3, h4, h5, h6⟩ := h
  have hd : ∀ r, planner_demands env g i (done ++ [phi]) r = planner_demands env g i done r := by
    intro r
    rw [planner_demands_append, planner_demands_single]
    simp [hs]
  refine ⟨h1, h2, ?_, ?_, ?_, ?_⟩
  · intro a ha hsa
    rcases List.mem_append.mp ha with ha | ha
    · exact h3 a ha hsa
    · rw [List.mem_singleton.mp ha, hs] at hsa; exact absurd hsa (by simp)
  · intro r hr hall
    exact h4 r hr (fun a ha hsa => hall a (List.mem_append_left _ ha) hsa)
  · intro r hr; rw [hd]; exact h5 r hr
  · intro r; rw [hd]; exact h6 r

theorem plan_inv_demand (env : be_chordal_env_t) (g : ir_graph) (block i : Nat)
    (done : List Nat) (phi : Nat) (P U : List Nat) (pr ar : Nat)
    (hp : arch_get_irn_register g phi = some pr) (ha : phi_arg_register g phi i = some ar)
    (hpr : pr < env.cls.n_regs) (har : ar < env.cls.n_regs)
    (hs : planner_skips env g i phi = false)
    (hnew : ∀ a ∈ done, planner_skips env g i a = false → phi_reg_index g a ≠ pr)
    (h : plan_inv env g block i done P U) :
    plan_inv env g block i (done ++ [phi]) (P.set pr ar)
      (if arg_live_in env g block i phi then
        (U.set ar (u32_inc (rd U ar))).set ar (u32_inc (rd (U.set ar (u32_inc (rd U ar))) ar))
       else U.set ar (u32_inc (rd U ar))) := by
  obtain ⟨h1, h2, h3, h4, h5, h6⟩ := h
  obtain ⟨hne, _, _⟩ := planner_skips_false env g i phi pr ar hp ha hs
  have hpi : phi_reg_index g phi = pr := by simp [phi_reg_index, hp]
  have hai : arg_reg_index g phi i = ar := by simp [arg_reg_index, ha]
  have hPpr : rd P pr = pr := h4 pr hpr hnew
  have hd : ∀ r, planner_demands env g i (done ++ [phi]) r
      = planner_demands env g i done r ++ (if ar = r then [phi] else []) := by
    intro r
    rw [planner_demands_append, planner_demands_single, hai]
    simp [hs]
  refine ⟨by simp [h1], by split <;> simp [h2], ?_, ?_, ?_, ?_⟩
  · intro a hmem hsa
    rcases List.mem_append.mp hmem with hmem | hmem
    · rw [rd_set_other _ _ _ _ (Ne.symm (hnew a hmem hsa))]
      exact h3 a hmem hsa
    · rw [List.mem_singleton.mp hmem, hpi, hai]
      exact rd_set_same _ _ _ (by rw [h1]; exact hpr)
  · intro r hr hall
    have hrne : pr ≠ r := by
      have := hall phi (List.mem_append_right _ (List.mem_singleton.mpr rfl)) hs
      rwa [hpi] at this
    rw [rd_set_other _ _ _ _ hrne]
    exact h4 r hr (fun a hmem hsa => hall a (List.mem_append_left _ hmem) hsa)
  · intro r hr
    rw [hd, List.map_append, List.sum_append]
    have h5r := h5 r hr
    generalize ((planner_demands env g i done r).map
      (fun phi => if arg_live_in env g block i phi then 2 else 1)).sum = S at h5r ⊢
    have hlenU : ar < U.length := by rw [h2]; exact har
    by_cases hr' : ar = r
    · subst hr'
      simp only [if_true, List.map_cons, List.map_nil, List.sum_cons, List.sum_nil, add_zero]
      by_cases hl : arg_live_in env g block i phi = true
      · simp only [hl, if_true]
        rw [rd_set_same _ _ _ (by simp [hlenU]), rd_set_same _ _ _ hlenU, h5r]
        unfold u32_inc; omega
      · simp only [hl, if_false, Bool.false_eq_true]
        rw [rd_set_same _ _ _ hlenU, h5r]
        unfold u32_inc; omega
    · simp only [hr', if_false, List.map_nil, List.sum_nil, add_zero]
      split
      · rw [rd_set_other _ _ _ _ hr', rd_set_other _ _ _ _ hr', h5r]
      · rw [rd_set_other _ _ _ _ hr', h5r]
  · intro r
    rw [hd, List.length_append, ← h6 r,
      readers_set_add _ _ _ _ _ hpr (by rw [h1]; exact hpr) hPpr (Ne.symm hne)]
    by_cases hr' : ar = r
    · subst hr'; simp
    · simp [hr', Ne.symm hr']

theorem distinct_destinations_snoc (env : be_chordal_env_t) (g : ir_graph) (i : Nat)
    (done : List Nat) (phi : Nat) :
    distinct_destinations env g i (done ++ [phi]) ↔
      distinct_destinations env g i done ∧
      ∀ a ∈ done, planner_skips env g i a = false → planner_skips env g i phi = false →
        phi_reg_index g a ≠ phi_reg_index g phi := by
  unfold distinct_destinations
  rw [List.pairwise_append]
  simp

theorem distinct_destinations_left (env : be_chordal_env_t) (g : ir_graph) (i : Nat)
    (l1 l2 : List Nat) (h : distinct_destinations env g i (l1 ++ l2)) :
    distinct_destinations env g i l1 := by
  unfold distinct_destinations at h ⊢
  exact (List.pairwise_append.mp h).1

theorem plan_loop_spec (env : be_chordal_env_t) (g : ir_graph) (block i : Nat) :
    ∀ (rest done : List Nat) (st : plan_state) (fuel : Nat),
      phi_chain g st.phi rest → plan_inv env g block i done st.parcopy st.n_used →
      distinct_destinations env g i done → registers_assigned env g i (done ++ rest) →
      rest.length < fuel →
      (distinct_destinations env g i (done ++ rest) →
        ∃ st', while_loop (fun st => st.phi.isSome) (analyze_phi_body env g block i) fuel st
            = .ok st' ∧
          plan_inv env g block i (done ++ rest) st'.parcopy st'.n_used) ∧
      (¬ distinct_destinations env g i (done ++ rest) →
        while_loop (fun st => st.phi.isSome) (analyze_phi_body env g block i) fuel st
          = .error (.assertion 424)) := by
  intro rest
  induction rest with
  | nil =>
    intro done st fuel hch hinv hdist _ hfuel
    have hnone : st.phi = none := hch
    obtain ⟨fuel', rfl⟩ : ∃ f, fuel = f + 1 := ⟨fuel - 1, by omega⟩
    rw [List.append_nil]
    refine ⟨fun _ => ⟨st, ?_, hinv⟩, fun h => absurd hdist h⟩
    unfold while_loop
    simp [hnone]
  | cons phi rest ih =>
    intro done st fuel hch hinv hdist hreg hfuel
    obtain ⟨hphi, hch'⟩ : st.phi = some phi ∧ phi_chain g (get_irn_link g phi) rest := hch
    obtain ⟨fuel', rfl⟩ : ∃ f, fuel = f + 1 := ⟨fuel - 1, by omega⟩
    have happ : done ++ phi :: rest = (done ++ [phi]) ++ rest := by simp
    by_cases hs : planner_skips env g i phi = true
    · -- the phi is skipped
      have hb := analyze_phi_body_skip env g block i phi st hphi hs
      have hd' : distinct_destinations env g i (done ++ [phi]) := by
        rw [distinct_destinations_snoc]
        refine ⟨hdist, fun a _ _ h => ?_⟩
        rw [hs] at h; exact absurd h (by simp)
      have := ih (done ++ [phi])
        { phi := get_irn_link g phi, parcopy := st.parcopy, n_used := st.n_used } fuel' hch'
        (plan_inv_skip env g block i done phi _ _ hs hinv) hd' (by rw [← happ]; exact hreg)
        (by simp at hfuel; omega)
      rw [← happ] at this
      unfold while_loop
      simp only [hphi, Option.isSome_some, if_true, hb]
      exact this
    · have hs' : planner_skips env g i phi = false := by simpa using hs
      obtain ⟨⟨pr, hp, hpr⟩, ⟨ar, ha, har⟩⟩ := hreg phi (by simp)
      have hpi : phi_reg_index g phi = pr := by simp [phi_reg_index, hp]
      by_cases hc : ∃ a ∈ done, planner_skips env g i a = false ∧ phi_reg_index g a = pr
      · -- an earlier phi claims the same register
        obtain ⟨a, hmem, hsa, hpa⟩ := hc
        obtain ⟨⟨pa, hpa1, _⟩, ⟨aa, haa1, _⟩⟩ := hreg a (List.mem_append_left _ hmem)
        have hne := (planner_skips_false env g i a pa aa hpa1 haa1 hsa).1
        have hrd : rd st.parcopy pr ≠ pr := by
          have h3 := hinv.2.2.1 a hmem hsa
          rw [hpa] at h3
          rw [h3]
          have e1 : phi_reg_index g a = pa := by simp [phi_reg_index, hpa1]
          have e2 : arg_reg_index g a i = aa := by simp [arg_reg_index, haa1]
          rw [e2]; rw [e1] at hpa; rw [← hpa]; exact Ne.symm hne
        have hb := analyze_phi_body_conflict env g block i phi st pr ar hphi hp ha hs' hrd
        have hnd : ¬ distinct_destinations env g i (done ++ phi :: rest) := by
          intro h
          rw [happ] at h
          have := ((distinct_destinations_snoc env g i done phi).mp
            (distinct_destinations_left env g i _ _ h)).2 a hmem hsa hs'
          rw [hpi] at this
          exact this hpa
        refine ⟨fun h => absurd h hnd, fun _ => ?_⟩
        unfold while_loop
        simp only [hphi, Option.isSome_some, if_true, hb]
      · -- a new demand
        have hnew : ∀ a ∈ done, planner_skips env g i a = false → phi_reg_index g a ≠ pr :=
          fun a hmem hsa h => hc ⟨a, hmem, hsa, h⟩
        have hrd : rd st.parcopy pr = pr := hinv.2.2.2.1 pr hpr hnew
        have hb := analyze_phi_body_demand env g block i phi st pr ar hphi hp ha hs' hrd
        have hd' : distinct_destinations env g i (done ++ [phi]) := by
          rw [distinct_destinations_snoc]
          refine ⟨hdist, fun a hmem hsa _ => ?_⟩
          rw [hpi]; exact hnew a hmem hsa
        have hinv' := plan_inv_demand env g block i done phi st.parcopy st.n_used pr ar hp ha
          hpr har hs' hnew hinv
        have := ih (done ++ [phi])
          { phi := get_irn_link g phi, parcopy := st.parcopy.set pr ar,
            n_used :=
              if arg_live_in env g block i phi then
                (st.n_used.set ar (u32_inc (rd st.n_used ar))).set ar
                  (u32_inc (rd (st.n_used.set ar (u32_inc (rd st.n_used ar))) ar))
              else st.n_used.set ar (u32_inc (rd st.n_used ar)) }
          fuel' hch' hinv' hd' (by rw [← happ]; exact hreg)
          (by simp at hfuel; omega)
        rw [← happ] at this
        unfold while_loop
        simp only [hphi, Option.isSome_some, if_true, hb]
        exact this

theorem build_spec (B : Nat) (env : be_chordal_env_t) (g : ir_graph) (block i : Nat)
    (phis : List Nat) (hch : phi_chain g (get_irn_link g block) phis)
    (hreg : registers_assigned env g i phis) (hB : phis.length < B) :
    (distinct_destinations env g i phis →
      ∃ P U, analyze_parallel_copies_build B env g block i = .ok (P, U) ∧
        plan_inv env g block i phis P U) ∧
    (¬ distinct_destinations env g i phis →
      analyze_parallel_copies_build B env g block i = .error (.assertion 424)) := by
  have h := plan_loop_spec env g block i phis []
    { phi := get_irn_link g block, parcopy := List.range env.cls.n_regs,
      n_used := List.replicate env.cls.n_regs 0 } B hch (plan_inv_init env g block i)
    List.Pairwise.nil (by simpa using hreg) hB
  simp only [List.nil_append] at h
  refine ⟨fun hd => ?_, fun hd => ?_⟩
  · obtain ⟨st', h1, h2⟩ := h.1 hd
    exact ⟨st'.parcopy, st'.n_used, by unfold analyze_parallel_copies_build; simp only [h1], h2⟩
  · unfold analyze_parallel_copies_build
    simp only [h.2 hd]

theorem planner_weight_sum_eq (env : be_chordal_env_t) (g : ir_graph) (block i : Nat)
    (l : List Nat) :
    (l.map (fun phi => if arg_live_in env g block i phi then 2 else 1)).sum
      = l.length + (l.filter (arg_live_in env g block i)).length := by
  induction l with
  | nil => simp
  | cons a l ih =>
    simp only [List.map_cons, List.sum_cons, List.length_cons, List.filter_cons, ih]
    by_cases h : arg_live_in env g block i a = true
    · simp only [h, if_true, List.length_cons]; omega
    · simp only [h, if_false, Bool.false_eq_true]; omega

/-- C5 (planner output): when all registers are assigned and the phis that are
not skipped have pairwise distinct registers, the specification built for
predecessor `i` has `parcopy[phi_reg] == arg_reg` for every phi that is not
skipped and `parcopy[r] == r` for every other register; a phi whose `i`-th
argument has the register of the phi, or a joker or virtual register, changes
neither `parcopy` nor `n_used`. -/
theorem analyze_parallel_copies_build_parcopy (B : Nat) (env : be_chordal_env_t) (g : ir_graph)
    (block i : Nat) (phis : List Nat) (hch : phi_chain g (get_irn_link g block) phis)
    (hreg : registers_assigned env g i phis) (hB : phis.length < B)
    (hdist : distinct_destinations env g i phis) :
    (∃ P U, analyze_parallel_copies_build B env g block i = .ok (P, U) ∧
      P.length = env.cls.n_regs ∧
      (∀ phi ∈ phis, planner_skips env g i phi = false →
        rd P (phi_reg_index g phi) = arg_reg_index g phi i) ∧
      (∀ r < env.cls.n_regs,
        (∀ phi ∈ phis, planner_skips env g i phi = false → phi_reg_index g phi ≠ r) →
        rd P r = r)) ∧
    (∀ phi, planner_skips env g i phi = true → ∀ st : plan_state, st.phi = some phi →
      analyze_phi_body env g block i st
        = .ok { phi := get_irn_link g phi, parcopy := st.parcopy, n_used := st.n_used }) := by
  refine ⟨?_, fun phi hs st hphi => analyze_phi_body_skip env g block i phi st hphi hs⟩
  obtain ⟨P, U, h1, h2⟩ := (build_spec B env g block i phis hch hreg hB).1 hdist
  exact ⟨P, U, h1, h2.1, h2.2.2.1, h2.2.2.2.1⟩

theorem analyze_parallel_copies_build_parcopy_witness :
    (∃ P U, analyze_parallel_copies_build 3 env_live3 graph_shared_arg 0 0 = .ok (P, U) ∧
      P.length = env_live3.cls.n_regs ∧
      (∀ phi ∈ [1, 2], planner_skips env_live3 graph_shared_arg 0 phi = false →
        rd P (phi_reg_index graph_shared_arg phi) = arg_reg_index graph_shared_arg phi 0) ∧
      (∀ r < env_live3.cls.n_regs,
        (∀ phi ∈ [1, 2], planner_skips env_live3 graph_shared_arg 0 phi = false →
          phi_reg_index graph_shared_arg phi ≠ r) →
        rd P r = r)) ∧
    (∀ phi, planner_skips env_live3 graph_shared_arg 0 phi = true → ∀ st : plan_state,
      st.phi = some phi →
      analyze_phi_body env_live3 graph_shared_arg 0 0 st
        = .ok { phi := get_irn_link graph_shared_arg phi, parcopy := st.parcopy,
                n_used := st.n_used }) :=
  analyze_parallel_copies_build_parcopy 3 env_live3 graph_shared_arg 0 0 [1, 2]
    ⟨rfl, rfl, rfl⟩
    (by
      intro phi h
      simp only [List.mem_cons, List.mem_singleton, List.not_mem_nil, or_false] at h
      rcases h with rfl | rfl
      · exact ⟨⟨1, rfl, by decide⟩, ⟨0, rfl, by decide⟩⟩
      · exact ⟨⟨2, rfl, by decide⟩, ⟨0, rfl, by decide⟩⟩)
    (by decide) (by unfold distinct_destinations; decide)

/-- C6 (corrected; `n_used` invariant of the planner): when all registers are
assigned, the phis that are not skipped have pairwise distinct registers and
the counts do not wrap, `n_used[r]` is the number of registers `d != r` with
`parcopy[d] == r` plus one extra count for every phi that is not skipped and
whose argument is live-in and held in `r` (one per phi, not one per distinct
argument value). -/
theorem analyze_parallel_copies_build_n_used_readers (B : Nat) (env : be_chordal_env_t)
    (g : ir_graph) (block i : Nat) (phis : List Nat)
    (hch : phi_chain g (get_irn_link g block) phis)
    (hreg : registers_assigned env g i phis) (hB : phis.length < B)
    (hdist : distinct_destinations env g i phis) (hsmall : 2 * phis.length < 4294967296) :
    ∃ P U, analyze_parallel_copies_build B env g block i = .ok (P, U) ∧
      ∀ r < env.cls.n_regs, rd U r = readers env.cls.n_regs P r
        + ((planner_demands env g i phis r).filter (arg_live_in env g block i)).length := by
  obtain ⟨P, U, h1, h2⟩ := (build_spec B env g block i phis hch hreg hB).1 hdist
  refine ⟨P, U, h1, fun r hr => ?_⟩
  rw [h2.2.2.2.2.1 r hr, h2.2.2.2.2.2 r, ← planner_weight_sum_eq]
  apply Nat.mod_eq_of_lt
  have h3 := planner_weight_sum_le env g block i (planner_demands env g i phis r)
  have h4 := planner_demands_length_le env g i phis r
  omega

theorem analyze_parallel_copies_build_n_used_readers_witness :
    ∃ P U, analyze_parallel_copies_build 3 env_live3 graph_shared_arg 0 0 = .ok (P, U) ∧
      ∀ r < env_live3.cls.n_regs, rd U r = readers env_live3.cls.n_regs P r
        + ((planner_demands env_live3 graph_shared_arg 0 [1, 2] r).filter
            (arg_live_in env_live3 graph_shared_arg 0 0)).length :=
  analyze_parallel_copies_build_n_used_readers 3 env_live3 graph_shared_arg 0 0 [1, 2]
    ⟨rfl, rfl, rfl⟩
    (by
      intro phi h
      simp only [List.mem_cons, List.mem_singleton, List.not_mem_nil, or_false] at h
      rcases h with rfl | rfl
      · exact ⟨⟨1, rfl, by decide⟩, ⟨0, rfl, by decide⟩⟩
      · exact ⟨⟨2, rfl, by decide⟩, ⟨0, rfl, by decide⟩⟩)
    (by decide) (by unfold distinct_destinations; decide) (by decide)

/-- C6, counterexample: two phis (registers 1 and 2) share one live-in argument
held in register 0.  The planner leaves `n_used[0] == 4`, but register 0 has two
readers and holds one distinct live-in argument value, which makes 3. -/
theorem planner_n_used_shared_live_in_argument :
    analyze_parallel_copies_build 3 env_live3 graph_shared_arg 0 0
      = .ok ([0, 0, 0], [4, 0, 0]) ∧
    rd [4, 0, 0] 0 ≠
      readers 3 [0, 0, 0] 0 + live_in_sources env_live3 graph_shared_arg 0 0 [1, 2] 0 :=
  ⟨rfl, by decide⟩

/-- C7 (live-in key rule): for every phi that is not skipped the planner
increments `n_used[arg_reg]` twice when the argument is live-in to the block and
once otherwise, and touches no other entry; hence (all registers assigned,
distinct destinations, no wrap-around) `n_used[r]` is the sum over the demands
on `r` of 2 for a live-in argument and 1 otherwise, and a single phi with a
live-in argument in another register yields `n_used[arg_reg] == 2`. -/
theorem analyze_parallel_copies_build_n_used (B : Nat) (env : be_chordal_env_t)
    (g : ir_graph) (block i : Nat) (phis : List Nat)
    (hch : phi_chain g (get_irn_link g block) phis)
    (hreg : registers_assigned env g i phis) (hB : phis.length < B)
    (hdist : distinct_destinations env g i phis) (hsmall : 2 * phis.length < 4294967296) :
    (∃ P U, analyze_parallel_copies_build B env g block i = .ok (P, U) ∧
      (∀ r < env.cls.n_regs, rd U r =
        ((planner_demands env g i phis r).map
          (fun phi => if arg_live_in env g block i phi then 2 else 1)).sum) ∧
      (∀ phi, phis = [phi] → planner_skips env g i phi = false →
        arg_live_in env g block i phi = true → rd U (arg_reg_index g phi i) = 2)) ∧
    (∀ phi pr ar, ∀ st : plan_state, st.phi = some phi →
      arch_get_irn_register g phi = some pr → phi_arg_register g phi i = some ar →
      planner_skips env g i phi = false → rd st.parcopy pr = pr → ar < st.n_used.length →
      ∃ st', analyze_phi_body env g block i st = .ok st' ∧
        rd st'.n_used ar = (if arg_live_in env g block i phi then
            u32_inc (u32_inc (rd st.n_used ar)) else u32_inc (rd st.n_used ar)) ∧
        ∀ r, r ≠ ar → rd st'.n_used r = rd st.n_used r) := by
  refine ⟨?_, ?_⟩
  · obtain ⟨P, U, h1, h2⟩ := (build_spec B env g block i phis hch hreg hB).1 hdist
    have hsum : ∀ r < env.cls.n_regs, rd U r =
        ((planner_demands env g i phis r).map
          (fun phi => if arg_live_in env g block i phi then 2 else 1)).sum := by
      intro r hr
      rw [h2.2.2.2.2.1 r hr]
      apply Nat.mod_eq_of_lt
      have h3 := planner_weight_sum_le env g block i (planner_demands env g i phis r)
      have h4 := planner_demands_length_le env g i phis r
      omega
    refine ⟨P, U, h1, hsum, ?_⟩
    intro phi hphis hs hl
    obtain ⟨_, ⟨ar, ha, har⟩⟩ := hreg phi (by rw [hphis]; simp)
    have hai : arg_reg_index g phi i = ar := by simp [arg_reg_index, ha]
    rw [hai, hsum ar har, hphis, planner_demands_single, hai]
    simp [hs, hl]
  · intro phi pr ar st hphi hp ha hs hc hlen
    refine ⟨_, analyze_phi_body_demand env g block i phi st pr ar hphi hp ha hs hc, ?_, ?_⟩
    · by_cases hl : arg_live_in env g block i phi = true
      · simp only [hl, if_true]
        rw [rd_set_same _ _ _ (by simp [hlen]), rd_set_same _ _ _ hlen]
      · simp only [hl, if_false, Bool.false_eq_true]
        rw [rd_set_same _ _ _ hlen]
    · intro r hr
      simp only []
      split
      · rw [rd_set_other _ _ _ _ (Ne.symm hr), rd_set_other _ _ _ _ (Ne.symm hr)]
      · rw [rd_set_other _ _ _ _ (Ne.symm hr)]

theorem analyze_parallel_copies_build_n_used_witness :
    ∃ P U, analyze_parallel_copies_build 2 env_live3 graph_scenario_E 0 0 = .ok (P, U) ∧
      (∀ r < env_live3.cls.n_regs, rd U r =
        ((planner_demands env_live3 graph_scenario_E 0 [1] r).map
          (fun phi => if arg_live_in env_live3 graph_scenario_E 0 0 phi then 2 else 1)).sum) ∧
      (∀ phi, [1] = [phi] → planner_skips env_live3 graph_scenario_E 0 phi = false →
        arg_live_in env_live3 graph_scenario_E 0 0 phi = true →
        rd U (arg_reg_index graph_scenario_E phi 0) = 2) :=
  (analyze_parallel_copies_build_n_used 2 env_live3 graph_scenario_E 0 0 [1]
    ⟨rfl, rfl⟩
    (by
      intro phi h
      simp only [List.mem_singleton] at h
      subst h
      exact ⟨⟨1, rfl, by decide⟩, ⟨0, rfl, by decide⟩⟩)
    (by decide) (by unfold distinct_destinations; decide) (by decide)).1

/-- C8 (corrected; duplicate-destination detection): when all registers are
assigned, the assertion `parcopy[phi_reg] == phi_reg` fails if and only if two
phis of the list that are not skipped for this predecessor have the same
register; when the phis that are not skipped have pairwise distinct registers
the planner completes. -/
theorem analyze_parallel_copies_build_assertion (B : Nat) (env : be_chordal_env_t)
    (g : ir_graph) (block i : Nat) (phis : List Nat)
    (hch : phi_chain g (get_irn_link g block) phis)
    (hreg : registers_assigned env g i phis) (hB : phis.length < B) :
    (analyze_parallel_copies_build B env g block i = .error (.assertion 424)
      ↔ ¬ distinct_destinations env g i phis) ∧
    (distinct_destinations env g i phis →
      ∃ P U, analyze_parallel_copies_build B env g block i = .ok (P, U)) := by
  have h := build_spec B env g block i phis hch hreg hB
  refine ⟨⟨fun he hd => ?_, h.2⟩, fun hd => ?_⟩
  · obtain ⟨P, U, h1, _⟩ := h.1 hd
    rw [h1] at he
    exact absurd he (by simp)
  · obtain ⟨P, U, h1, _⟩ := h.1 hd
    exact ⟨P, U, h1⟩

theorem analyze_parallel_copies_build_assertion_witness :
    (analyze_parallel_copies_build 3 env_live3 graph_shared_arg 0 0 = .error (.assertion 424)
      ↔ ¬ distinct_destinations env_live3 graph_shared_arg 0 [1, 2]) ∧
    (distinct_destinations env_live3 graph_shared_arg 0 [1, 2] →
      ∃ P U, analyze_parallel_copies_build 3 env_live3 graph_shared_arg 0 0 = .ok (P, U)) :=
  analyze_parallel_copies_build_assertion 3 env_live3 graph_shared_arg 0 0 [1, 2]
    ⟨rfl, rfl, rfl⟩
    (by
      intro phi h
      simp only [List.mem_cons, List.mem_singleton, List.not_mem_nil, or_false] at h
      rcases h with rfl | rfl
      · exact ⟨⟨1, rfl, by decide⟩, ⟨0, rfl, by decide⟩⟩
      · exact ⟨⟨2, rfl, by decide⟩, ⟨0, rfl, by decide⟩⟩)
    (by decide)

/-- C8, counterexample: the phis `1` and `2` both have register 0, so two phis
claim the same destination register; the argument of phi `1` is in register 0
as well, the phi is skipped, and the planner completes without tripping the
assertion. -/
theorem planner_same_destination_no_assertion :
    arch_get_irn_register graph_same_dest 1 = arch_get_irn_register graph_same_dest 2 ∧
    phi_chain graph_same_dest (get_irn_link graph_same_dest 0) [1, 2] ∧
    analyze_parallel_copies_build 3 env_live3 graph_same_dest 0 0
      = .ok ([1, 1, 2], [0, 1, 0]) :=
  ⟨rfl, ⟨rfl, rfl, rfl⟩, rfl⟩

/-! ## The IR -/

theorem set_node_length (g : ir_graph) (n : Nat) (v : ir_node) :
    (set_node g n v).nodes.length = g.nodes.length := by
  simp [set_node]

theorem get_node_set_node (g : ir_graph) (n m : Nat) (v : ir_node) :
    get_node (set_node g n v) m
      = if m = n ∧ n < g.nodes.length then v else get_node g m := by
  unfold get_node set_node
  simp only [List.getD_eq_getElem?_getD, List.getElem?_set]
  by_cases h : n = m
  · subst h
    by_cases hl : n < g.nodes.length
    · simp [hl]
    · simp [hl, List.getElem?_eq_none (Nat.le_of_not_lt hl)]
  · simp [h, Ne.symm h]

theorem get_node_set_node_other (g : ir_graph) (n m : Nat) (v : ir_node) (h : m ≠ n) :
    get_node (set_node g n v) m = get_node g m := by
  rw [get_node_set_node]; simp [h]

theorem get_node_set_node_same (g : ir_graph) (n : Nat) (v : ir_node)
    (h : n < g.nodes.length) : get_node (set_node g n v) n = v := by
  rw [get_node_set_node]; simp [h]

theorem get_node_default (g : ir_graph) (n : Nat) (h : g.nodes.length ≤ n) :
    get_node g n = default := by
  simp [get_node, List.getD_eq_getElem?_getD, List.getElem?_eq_none h]

theorem new_ir_node_length (g : ir_graph) (op : ir_opcode) (b : Nat) (ins : List Nat)
    (pj : Nat) : (new_ir_node g op b ins pj).1.nodes.length = g.nodes.length + 1 := by
  simp [new_ir_node]

theorem new_ir_node_snd (g : ir_graph) (op : ir_opcode) (b : Nat) (ins : List Nat)
    (pj : Nat) : (new_ir_node g op b ins pj).2 = g.nodes.length := rfl

theorem get_node_new_old (g : ir_graph) (op : ir_opcode) (b : Nat) (ins : List Nat)
    (pj : Nat) (n : Nat) (h : n < g.nodes.length) :
    get_node (new_ir_node g op b ins pj).1 n = get_node g n := by
  simp [get_node, new_ir_node, List.getD_eq_getElem?_getD, List.getElem?_append_left h]

theorem get_node_new_new (g : ir_graph) (op : ir_opcode) (b : Nat) (ins : List Nat)
    (pj : Nat) :
    get_node (new_ir_node g op b ins pj).1 g.nodes.length = ⟨op, b, ins, none, none, pj⟩ := by
  simp [get_node, new_ir_node, List.getD_eq_getElem?_getD]

theorem graph_ext_refl (g : ir_graph) : graph_ext g g :=
  ⟨le_refl _, fun _ _ => ⟨rfl, rfl⟩⟩

theorem graph_ext_trans (g h k : ir_graph) (h1 : graph_ext g h) (h2 : graph_ext h k) :
    graph_ext g k :=
  ⟨le_trans h1.1 h2.1, fun n hn =>
    ⟨((h2.2 n (lt_of_lt_of_le hn h1.1)).1).trans (h1.2 n hn).1,
     ((h2.2 n (lt_of_lt_of_le hn h1.1)).2).trans (h1.2 n hn).2⟩⟩

theorem graph_ext_set_node (g : ir_graph) (n : Nat) (v : ir_node)
    (hop : v.op = (get_node g n).op) (hbl : v.block = (get_node g n).block) :
    graph_ext g (set_node g n v) := by
  refine ⟨by rw [set_node_length], fun m _ => ?_⟩
  rw [get_node_set_node]
  by_cases h : m = n ∧ n < g.nodes.length
  · rw [if_pos h, h.1]; exact ⟨hop, hbl⟩
  · rw [if_neg h]; exact ⟨rfl, rfl⟩

theorem graph_ext_set_irn_link (g : ir_graph) (n : Nat) (l : Option Nat) :
    graph_ext g (set_irn_link g n l) :=
  graph_ext_set_node g n _ rfl rfl

theorem graph_ext_set_irn_n (g : ir_graph) (n i v : Nat) : graph_ext g (set_irn_n g n i v) :=
  graph_ext_set_node g n _ rfl rfl

theorem graph_ext_set_register (g : ir_graph) (n : Nat) (r : Option Nat) :
    graph_ext g (arch_set_irn_register g n r) :=
  graph_ext_set_node g n _ rfl rfl

theorem graph_ext_new (g : ir_graph) (op : ir_opcode) (b : Nat) (ins : List Nat) (pj : Nat) :
    graph_ext g (new_ir_node g op b ins pj).1 := by
  refine ⟨by rw [new_ir_node_length]; omega, fun n hn => ?_⟩
  rw [get_node_new_old _ _ _ _ _ _ hn]
  exact ⟨rfl, rfl⟩

theorem graph_ext_pin (g : ir_graph) (n l : Nat) : graph_ext g (pin_irn g n l) :=
  graph_ext_set_irn_link g n _

theorem graph_ext_place_dupl (g : ir_graph) (phi i arg arg_block : Nat) (phi_reg : Option Nat)
    (phi_block : Nat) : graph_ext g (place_dupl g phi i arg arg_block phi_reg phi_block) := by
  unfold place_dupl be_new_Copy
  exact graph_ext_trans _ _ _ (graph_ext_new _ _ _ _ _)
    (graph_ext_trans _ _ _ (graph_ext_set_irn_n _ _ _ _)
      (graph_ext_trans _ _ _ (graph_ext_set_register _ _ _) (graph_ext_pin _ _ _)))

theorem graph_ext_is_Phi (g h : ir_graph) (hx : graph_ext g h) (n : Nat)
    (hp : is_Phi g n = true) : is_Phi h n = true := by
  have hn : n < g.nodes.length := by
    by_contra hc
    rw [is_Phi, get_node_default g n (Nat.le_of_not_lt hc)] at hp
    exact absurd hp (by decide)
  unfold is_Phi at hp ⊢
  rw [(hx.2 n hn).1]
  exact hp

/-! ## No walker removes a node -/

theorem graph_ext_collect_phis (env : be_chordal_env_t) (g : ir_graph) (irn : Nat) :
    graph_ext g (collect_phis_walker env g irn) := by
  unfold collect_phis_walker
  split
  · exact graph_ext_trans _ _ _ (graph_ext_set_irn_link _ _ _) (graph_ext_set_irn_link _ _ _)
  · exact graph_ext_refl g

theorem graph_ext_irg_walk_graph (env : be_chordal_env_t) (visits : List walk_event)
    (g : ir_graph) :
    graph_ext g (irg_walk_graph visits clear_link (collect_phis_walker env) g) := by
  unfold irg_walk_graph
  induction visits generalizing g with
  | nil => exact graph_ext_refl g
  | cons ev rest ih =>
    simp only [List.foldl_cons]
    cases ev with
    | pre irn => exact graph_ext_trans _ _ _ (graph_ext_set_irn_link g irn none) (ih _)
    | post irn => exact graph_ext_trans _ _ _ (graph_ext_collect_phis env g irn) (ih _)

theorem graph_ext_block_walk (blocks : List Nat)
    (walker : ir_graph → Nat → Except Fault ir_graph)
    (hw : ∀ g bl g', walker g bl = .ok g' → graph_ext g g') :
    ∀ g g', irg_block_walk_graph blocks walker g = .ok g' → graph_ext g g' := by
  unfold irg_block_walk_graph
  induction blocks with
  | nil =>
    intro g g' h
    simp only [List.foldlM_nil, pure, Except.pure] at h
    injection h with h; subst h; exact graph_ext_refl g
  | cons bl rest ih =>
    intro g g' h
    simp only [List.foldlM_cons, bind, Except.bind] at h
    cases h1 : walker g bl with
    | error e => rw [h1] at h; exact absurd h (by simp)
    | ok g1 =>
      rw [h1] at h
      exact graph_ext_trans _ _ _ (hw g bl g1 h1) (ih g1 g' h)

theorem graph_ext_make_projs (perm : Nat) (l : List perm_proj_t) :
    ∀ g l' g', make_projs perm l g = .ok (l', g') → graph_ext g g' := by
  induction l with
  | nil =>
    intro g l' g' h
    simp only [make_projs] at h
    injection h with h
    injection h with h1 h2
    subst h2; exact graph_ext_refl g
  | cons pp rest ih =>
    intro g l' g' h
    simp only [make_projs, new_r_Proj] at h
    split at h
    · exact absurd h (by simp)
    · rename_i r hr
      split at h
      · rename_i pps g2 hm
        injection h with h
        injection h with h1 h2
        subst h2
        exact graph_ext_trans _ _ _ (graph_ext_new _ _ _ _ _)
          (graph_ext_trans _ _ _ (graph_ext_set_register _ _ _) (ih _ _ _ hm))
      · exact absurd h (by simp)

theorem graph_ext_insert_all_perms_pred (B : Nat) (env : be_chordal_env_t) (bl i : Nat)
    (g g' : ir_graph) (h : insert_all_perms_pred B env bl i g = .ok g') : graph_ext g g' := by
  unfold insert_all_perms_pred at h
  simp only [] at h
  split at h
  · exact absurd h (by simp)
  · rename_i st hst
    have h1 : graph_ext g st.g :=
      (while_loop_inv _ _ (fun s => graph_ext g s.g) (by
        intro s s' hI _ hb
        unfold collect_args_body at hb
        split at hb
        · injection hb with hb; subst hb; exact hI
        · simp only [] at hb
          split at hb <;> (injection hb with hb; subst hb; exact hI)) B _ st
        (graph_ext_refl g) hst).1
    split at h
    · simp only [be_new_Perm] at h
      split at h
      · exact absurd h (by simp)
      · rename_i arg_set g2 hm
        split at h
        · exact absurd h (by simp)
        · rename_i st' hst'
          injection h with h; subst h
          have h2 := graph_ext_make_projs _ _ _ _ _ hm
          have h3 : graph_ext g2 st'.g :=
            (while_loop_inv _ _ (fun s => graph_ext g2 s.g) (by
              intro s s' hI _ hb
              unfold rewire_body at hb
              split at hb
              · injection hb with hb; subst hb; exact hI
              · split at hb
                · injection hb with hb; subst hb
                  exact graph_ext_trans _ _ _ hI (graph_ext_set_irn_n _ _ _ _)
                · injection hb with hb; subst hb; exact hI) B _ st'
              (graph_ext_refl g2) hst').1
          exact graph_ext_trans _ _ _ h1
            (graph_ext_trans _ _ _ (graph_ext_new _ _ _ _ _) (graph_ext_trans _ _ _ h2 h3))
    · injection h with h; subst h; exact h1

theorem graph_ext_insert_all_perms_walker (B : Nat) (env : be_chordal_env_t) (g : ir_graph)
    (bl : Nat) (g' : ir_graph) (h : insert_all_perms_walker B env g bl = .ok g') :
    graph_ext g g' := by
  unfold insert_all_perms_walker at h
  split at h
  · split at h
    · injection h with h; subst h; exact graph_ext_refl g
    · exact for_loop_inv _ (fun _ s => graph_ext g s) _
        (fun k s s' _ hI hb => graph_ext_trans _ _ _ hI
          (graph_ext_insert_all_perms_pred B env bl k s s' hb)) g g' (graph_ext_refl g) h
  · exact absurd h (by simp)

theorem graph_ext_set_regs_arg_body (B : Nat) (env : be_chordal_env_t) (phi phi_block : Nat)
    (phi_reg : Option Nat) (i : Nat) (g g' : ir_graph)
    (h : set_regs_arg_body B env phi phi_block phi_reg i g = .ok g') : graph_ext g g' := by
  unfold set_regs_arg_body at h
  simp only [] at h
  split at h
  · exact absurd h (by simp)
  · split at h
    · injection h with h; subst h; exact graph_ext_pin _ _ _
    · split at h
      · injection h with h; subst h; exact graph_ext_place_dupl _ _ _ _ _ _ _
      · split at h
        · split at h
          · exact absurd h (by simp)
          · rename_i st hst
            have h1 : graph_ext g st.g := by
              split at hst
              · exact (while_loop_inv _ _ (fun s => graph_ext g s.g) (by
                  intro s s' hI _ hb
                  unfold other_phi_body at hb
                  split at hb
                  · injection hb with hb; subst hb; exact hI
                  · split at hb
                    · split at hb
                      · injection hb with hb; subst hb
                        exact graph_ext_trans _ _ _ hI (graph_ext_pin _ _ _)
                      · injection hb with hb; subst hb; exact hI
                    · exact absurd hb (by simp)) B _ st (graph_ext_refl g) hst).1
              · injection hst with hst; subst hst; exact graph_ext_refl g
            split at h
            · injection h with h; subst h
              exact graph_ext_trans _ _ _ h1 (graph_ext_place_dupl _ _ _ _ _ _ _)
            · injection h with h; subst h
              exact graph_ext_trans _ _ _ h1
                (graph_ext_trans _ _ _ (graph_ext_set_register _ _ _) (graph_ext_pin _ _ _))
        · exact absurd h (by simp)

theorem graph_ext_set_regs_walker (B : Nat) (env : be_chordal_env_t) (g : ir_graph)
    (bl : Nat) (g' : ir_graph) (h : set_regs_or_place_dupls_walker B env g bl = .ok g') :
    graph_ext g g' := by
  unfold set_regs_or_place_dupls_walker at h
  split at h
  · exact absurd h (by simp)
  · rename_i st hst
    injection h with h; subst h
    exact (while_loop_inv _ _ (fun s => graph_ext g s.g) (by
      intro s s' hI _ hb
      unfold set_regs_phi_body at hb
      split at hb
      · injection hb with hb; subst hb; exact hI
      · rename_i phi hphi
        simp only [] at hb
        split at hb
        · split at hb
          · exact absurd hb (by simp)
          · rename_i g1 hg1
            injection hb with hb; subst hb
            exact graph_ext_trans _ _ _ hI
              (for_loop_inv _ (fun _ t => graph_ext s.g t) _
                (fun k t t' _ hJ hk => graph_ext_trans _ _ _ hJ
                  (graph_ext_set_regs_arg_body B env _ _ _ k t t' hk)) s.g g1
                (graph_ext_refl _) hg1)
        · exact absurd hb (by simp)) B _ st (graph_ext_refl g) hst).1

theorem graph_ext_be_ssa_destruction (B : Nat) (env : be_chordal_env_t)
    (visits : List walk_event) (blocks : List Nat) (g g' : ir_graph)
    (h : be_ssa_destruction B env visits blocks g = .ok g') : graph_ext g g' := by
  unfold be_ssa_destruction at h
  simp only [if_true] at h
  split at h
  · exact absurd h (by simp)
  · rename_i g2 hg2
    split at h
    · exact absurd h (by simp)
    · rename_i g3 hg3
      have h1 := graph_ext_irg_walk_graph env visits g
      have h2 := graph_ext_block_walk blocks _ (by
        intro a bl a' ha
        split at ha
        · injection ha with ha; subst ha; exact graph_ext_refl a
        · exact absurd ha (by simp)) _ _ hg2
      have h3 := graph_ext_block_walk blocks _ (graph_ext_insert_all_perms_walker B env) _ _ hg3
      have h4 := graph_ext_block_walk blocks _ (graph_ext_set_regs_walker B env) _ _ h
      exact graph_ext_trans _ _ _ h1 (graph_ext_trans _ _ _ h2 (graph_ext_trans _ _ _ h3 h4))

theorem graph_grows_refl (g : ir_graph) : graph_grows g g :=
  ⟨le_refl _, fun _ _ => ⟨rfl, rfl, rfl⟩, fun _ h1 h2 => absurd h2 (Nat.not_lt.mpr h1)⟩

theorem graph_grows_trans (g h k : ir_graph) (h1 : graph_grows g h) (h2 : graph_grows h k) :
    graph_grows g k := by
  obtain ⟨a1, b1, c1⟩ := h1
  obtain ⟨a2, b2, c2⟩ := h2
  refine ⟨le_trans a1 a2, fun n hn => ?_, fun n hn1 hn2 => ?_⟩
  · obtain ⟨x1, y1, z1⟩ := b1 n hn
    obtain ⟨x2, y2, z2⟩ := b2 n (lt_of_lt_of_le hn a1)
    exact ⟨x2.trans x1, y2.trans y1, z2.trans z1⟩
  · by_cases hh : n < h.nodes.length
    · rw [(b2 n hh).1]
      exact c1 n hn1 hh
    · exact c2 n (Nat.le_of_not_lt hh) hn2

theorem graph_grows_set_node (g : ir_graph) (n : Nat) (v : ir_node)
    (hop : v.op = (get_node g n).op) (hbl : v.block = (get_node g n).block)
    (hpj : v.proj = (get_node g n).proj) :
    graph_grows g (set_node g n v) := by
  refine ⟨by rw [set_node_length], fun m _ => ?_, fun m h1 h2 => ?_⟩
  · rw [get_node_set_node]
    by_cases h : m = n ∧ n < g.nodes.length
    · rw [if_pos h, h.1]; exact ⟨hop, hbl, hpj⟩
    · rw [if_neg h]; exact ⟨rfl, rfl, rfl⟩
  · rw [set_node_length] at h2
    omega

theorem graph_grows_set_irn_link (g : ir_graph) (n : Nat) (l : Option Nat) :
    graph_grows g (set_irn_link g n l) :=
  graph_grows_set_node g n _ rfl rfl rfl

theorem graph_grows_set_irn_n (g : ir_graph) (n i v : Nat) :
    graph_grows g (set_irn_n g n i v) :=
  graph_grows_set_node g n _ rfl rfl rfl

theorem graph_grows_set_register (g : ir_graph) (n : Nat) (r : Option Nat) :
    graph_grows g (arch_set_irn_register g n r) :=
  graph_grows_set_node g n _ rfl rfl rfl

theorem graph_grows_new (g : ir_graph) (op : ir_opcode) (b : Nat) (ins : List Nat) (pj : Nat)
    (hop : op = .Perm ∨ op = .Proj ∨ op = .Copy) :
    graph_grows g (new_ir_node g op b ins pj).1 := by
  refine ⟨by rw [new_ir_node_length]; omega, fun n hn => ?_, fun n h1 h2 => ?_⟩
  · rw [get_node_new_old _ _ _ _ _ _ hn]
    exact ⟨rfl, rfl, rfl⟩
  · rw [new_ir_node_length] at h2
    have hn : n = g.nodes.length := by omega
    rw [hn, get_node_new_new]
    exact hop

theorem graph_grows_pin (g : ir_graph) (n l : Nat) : graph_grows g (pin_irn g n l) :=
  graph_grows_set_irn_link g n _

theorem graph_grows_place_dupl (g : ir_graph) (phi i arg arg_block : Nat)
    (phi_reg : Option Nat) (phi_block : Nat) :
    graph_grows g (place_dupl g phi i arg arg_block phi_reg phi_block) := by
  unfold place_dupl be_new_Copy
  exact graph_grows_trans _ _ _ (graph_grows_new _ _ _ _ _ (by decide))
    (graph_grows_trans _ _ _ (graph_grows_set_irn_n _ _ _ _)
      (graph_grows_trans _ _ _ (graph_grows_set_register _ _ _) (graph_grows_pin _ _ _)))

/-! ## The pass appends Perm, Proj and Copy nodes only -/

theorem graph_grows_collect_phis (env : be_chordal_env_t) (g : ir_graph) (irn : Nat) :
    graph_grows g (collect_phis_walker env g irn) := by
  unfold collect_phis_walker
  split
  · exact graph_grows_trans _ _ _ (graph_grows_set_irn_link _ _ _) (graph_grows_set_irn_link _ _ _)
  · exact graph_grows_refl g

theorem graph_grows_irg_walk_graph (env : be_chordal_env_t) (visits : List walk_event)
    (g : ir_graph) :
    graph_grows g (irg_walk_graph visits clear_link (collect_phis_walker env) g) := by
  unfold irg_walk_graph
  induction visits generalizing g with
  | nil => exact graph_grows_refl g
  | cons ev rest ih =>
    simp only [List.foldl_cons]
    cases ev with
    | pre irn => exact graph_grows_trans _ _ _ (graph_grows_set_irn_link g irn none) (ih _)
    | post irn => exact graph_grows_trans _ _ _ (graph_grows_collect_phis env g irn) (ih _)

theorem graph_grows_block_walk (blocks : List Nat)
    (walker : ir_graph → Nat → Except Fault ir_graph)
    (hw : ∀ g bl g', walker g bl = .ok g' → graph_grows g g') :
    ∀ g g', irg_block_walk_graph blocks walker g = .ok g' → graph_grows g g' := by
  unfold irg_block_walk_graph
  induction blocks with
  | nil =>
    intro g g' h
    simp only [List.foldlM_nil, pure, Except.pure] at h
    injection h with h; subst h; exact graph_grows_refl g
  | cons bl rest ih =>
    intro g g' h
    simp only [List.foldlM_cons, bind, Except.bind] at h
    cases h1 : walker g bl with
    | error e => rw [h1] at h; exact absurd h (by simp)
    | ok g1 =>
      rw [h1] at h
      exact graph_grows_trans _ _ _ (hw g bl g1 h1) (ih g1 g' h)

theorem graph_grows_make_projs (perm : Nat) (l : List perm_proj_t) :
    ∀ g l' g', make_projs perm l g = .ok (l', g') → graph_grows g g' := by
  induction l with
  | nil =>
    intro g l' g' h
    simp only [make_projs] at h
    injection h with h
    injection h with h1 h2
    subst h2; exact graph_grows_refl g
  | cons pp rest ih =>
    intro g l' g' h
    simp only [make_projs, new_r_Proj] at h
    split at h
    · exact absurd h (by simp)
    · rename_i r hr
      split at h
      · rename_i pps g2 hm
        injection h with h
        injection h with h1 h2
        subst h2
        exact graph_grows_trans _ _ _ (graph_grows_new _ _ _ _ _ (by decide))
          (graph_grows_trans _ _ _ (graph_grows_set_register _ _ _) (ih _ _ _ hm))
      · exact absurd h (by simp)

theorem graph_grows_insert_all_perms_pred (B : Nat) (env : be_chordal_env_t) (bl i : Nat)
    (g g' : ir_graph) (h : insert_all_perms_pred B env bl i g = .ok g') : graph_grows g g' := by
  unfold insert_all_perms_pred at h
  simp only [] at h
  split at h
  · exact absurd h (by simp)
  · rename_i st hst
    have h1 : graph_grows g st.g :=
      (while_loop_inv _ _ (fun s => graph_grows g s.g) (by
        intro s s' hI _ hb
        unfold collect_args_body at hb
        split at hb
        · injection hb with hb; subst hb; exact hI
        · simp only [] at hb
          split at hb <;> (injection hb with hb; subst hb; exact hI)) B _ st
        (graph_grows_refl g) hst).1
    split at h
    · simp only [be_new_Perm] at h
      split at h
      · exact absurd h (by simp)
      · rename_i arg_set g2 hm
        split at h
        · exact absurd h (by simp)
        · rename_i st' hst'
          injection h with h; subst h
          have h2 := graph_grows_make_projs _ _ _ _ _ hm
          have h3 : graph_grows g2 st'.g :=
            (while_loop_inv _ _ (fun s => graph_grows g2 s.g) (by
              intro s s' hI _ hb
              unfold rewire_body at hb
              split at hb
              · injection hb with hb; subst hb; exact hI
              · split at hb
                · injection hb with hb; subst hb
                  exact graph_grows_trans _ _ _ hI (graph_grows_set_irn_n _ _ _ _)
                · injection hb with hb; subst hb; exact hI) B _ st'
              (graph_grows_refl g2) hst').1
          exact graph_grows_trans _ _ _ h1
            (graph_grows_trans _ _ _ (graph_grows_new _ _ _ _ _ (by decide)) (graph_grows_trans _ _ _ h2 h3))
    · injection h with h; subst h; exact h1

theorem graph_grows_insert_all_perms_walker (B : Nat) (env : be_chordal_env_t) (g : ir_graph)
    (bl : Nat) (g' : ir_graph) (h : insert_all_perms_walker B env g bl = .ok g') :
    graph_grows g g' := by
  unfold insert_all_perms_walker at h
  split at h
  · split at h
    · injection h with h; subst h; exact graph_grows_refl g
    · exact for_loop_inv _ (fun _ s => graph_grows g s) _
        (fun k s s' _ hI hb => graph_grows_trans _ _ _ hI
          (graph_grows_insert_all_perms_pred B env bl k s s' hb)) g g' (graph_grows_refl g) h
  · exact absurd h (by simp)

theorem graph_grows_set_regs_arg_body (B : Nat) (env : be_chordal_env_t) (phi phi_block : Nat)
    (phi_reg : Option Nat) (i : Nat) (g g' : ir_graph)
    (h : set_regs_arg_body B env phi phi_block phi_reg i g = .ok g') : graph_grows g g' := by
  unfold set_regs_arg_body at h
  simp only [] at h
  split at h
  · exact absurd h (by simp)
  · split at h
    · injection h with h; subst h; exact graph_grows_pin _ _ _
    · split at h
      · injection h with h; subst h; exact graph_grows_place_dupl _ _ _ _ _ _ _
      · split at h
        · split at h
          · exact absurd h (by simp)
          · rename_i st hst
            have h1 : graph_grows g st.g := by
              split at hst
              · exact (while_loop_inv _ _ (fun s => graph_grows g s.g) (by
                  intro s s' hI _ hb
                  unfold other_phi_body at hb
                  split at hb
                  · injection hb with hb; subst hb; exact hI
                  · split at hb
                    · split at hb
                      · injection hb with hb; subst hb
                        exact graph_grows_trans _ _ _ hI (graph_grows_pin _ _ _)
                      · injection hb with hb; subst hb; exact hI
                    · exact absurd hb (by simp)) B _ st (graph_grows_refl g) hst).1
              · injection hst with hst; subst hst; exact graph_grows_refl g
            split at h
            · injection h with h; subst h
              exact graph_grows_trans _ _ _ h1 (graph_grows_place_dupl _ _ _ _ _ _ _)
            · injection h with h; subst h
              exact graph_grows_trans _ _ _ h1
                (graph_grows_trans _ _ _ (graph_grows_set_register _ _ _) (graph_grows_pin _ _ _))
        · exact absurd h (by simp)

theorem graph_grows_set_regs_walker (B : Nat) (env : be_chordal_env_t) (g : ir_graph)
    (bl : Nat) (g' : ir_graph) (h : set_regs_or_place_dupls_walker B env g bl = .ok g') :
    graph_grows g g' := by
  unfold set_regs_or_place_dupls_walker at h
  split at h
  · exact absurd h (by simp)
  · rename_i st hst
    injection h with h; subst h
    exact (while_loop_inv _ _ (fun s => graph_grows g s.g) (by
      intro s s' hI _ hb
      unfold set_regs_phi_body at hb
      split at hb
      · injection hb with hb; subst hb; exact hI
      · rename_i phi hphi
        simp only [] at hb
        split at hb
        · split at hb
          · exact absurd hb (by simp)
          · rename_i g1 hg1
            injection hb with hb; subst hb
            exact graph_grows_trans _ _ _ hI
              (for_loop_inv _ (fun _ t => graph_grows s.g t) _
                (fun k t t' _ hJ hk => graph_grows_trans _ _ _ hJ
                  (graph_grows_set_regs_arg_body B env _ _ _ k t t' hk)) s.g g1
                (graph_grows_refl _) hg1)
        · exact absurd hb (by simp)) B _ st (graph_grows_refl g) hst).1

theorem graph_grows_be_ssa_destruction (B : Nat) (env : be_chordal_env_t)
    (visits : List walk_event) (blocks : List Nat) (g g' : ir_graph)
    (h : be_ssa_destruction B env visits blocks g = .ok g') : graph_grows g g' := by
  unfold be_ssa_destruction at h
  simp only [if_true] at h
  split at h
  · exact absurd h (by simp)
  · rename_i g2 hg2
    split at h
    · exact absurd h (by simp)
    · rename_i g3 hg3
      have h1 := graph_grows_irg_walk_graph env visits g
      have h2 := graph_grows_block_walk blocks _ (by
        intro a bl a' ha
        split at ha
        · injection ha with ha; subst ha; exact graph_grows_refl a
        · exact absurd ha (by simp)) _ _ hg2
      have h3 := graph_grows_block_walk blocks _ (graph_grows_insert_all_perms_walker B env) _ _ hg3
      have h4 := graph_grows_block_walk blocks _ (graph_grows_set_regs_walker B env) _ _ h
      exact graph_grows_trans _ _ _ h1 (graph_grows_trans _ _ _ h2 (graph_grows_trans _ _ _ h3 h4))

/-- C3 (corrected; the phis stay): `be_ssa_destruction` removes no node and
changes neither the opcode, the block nor the Proj number of a node, so every
phi-function that is in the procedure before the pass is still a phi-function
of the procedure after it; every node the pass adds is a Perm, a Proj or a
Copy, and what it rewrites of the nodes it finds are inputs, registers and
links. -/
theorem be_ssa_destruction_keeps_phis (B : Nat) (env : be_chordal_env_t)
    (visits : List walk_event) (blocks : List Nat) (g g' : ir_graph)
    (h : be_ssa_destruction B env visits blocks g = .ok g') :
    g.nodes.length ≤ g'.nodes.length ∧
    (∀ n, is_Phi g n = true → is_Phi g' n = true) ∧
    (∀ n < g.nodes.length, (get_node g' n).op = (get_node g n).op ∧
      (get_node g' n).block = (get_node g n).block ∧
      (get_node g' n).proj = (get_node g n).proj) ∧
    (∀ n, g.nodes.length ≤ n → n < g'.nodes.length →
      (get_node g' n).op = .Perm ∨ (get_node g' n).op = .Proj ∨
        (get_node g' n).op = .Copy) :=
  ⟨(graph_ext_be_ssa_destruction B env visits blocks g g' h).1,
   fun n hn => graph_ext_is_Phi g g' (graph_ext_be_ssa_destruction B env visits blocks g g' h) n hn,
   (graph_grows_be_ssa_destruction B env visits blocks g g' h).2.1,
   (graph_grows_be_ssa_destruction B env visits blocks g g' h).2.2⟩

theorem be_ssa_destruction_keeps_phis_witness :
    ∃ g', be_ssa_destruction 10 env_scenario_E visits_scenario_E [0, 5] graph_scenario_E
        = .ok g' ∧
      graph_scenario_E.nodes.length ≤ g'.nodes.length ∧
      (∀ n, is_Phi graph_scenario_E n = true → is_Phi g' n = true) ∧
      (∀ n < graph_scenario_E.nodes.length,
        (get_node g' n).op = (get_node graph_scenario_E n).op ∧
        (get_node g' n).block = (get_node graph_scenario_E n).block ∧
        (get_node g' n).proj = (get_node graph_scenario_E n).proj) ∧
      (∀ n, graph_scenario_E.nodes.length ≤ n → n < g'.nodes.length →
        (get_node g' n).op = .Perm ∨ (get_node g' n).op = .Proj ∨
          (get_node g' n).op = .Copy) :=
  ⟨_, rfl, be_ssa_destruction_keeps_phis 10 env_scenario_E visits_scenario_E [0, 5]
    graph_scenario_E _ rfl⟩

/-- C3, counterexample: on the procedure of Scenario E the pass completes and
node `1`, a phi-function of the processed register class, is still a
phi-function of the procedure. -/
theorem be_ssa_destruction_phi_remains :
    ∃ g', be_ssa_destruction 10 env_scenario_E visits_scenario_E [0, 5] graph_scenario_E
        = .ok g' ∧
      is_Phi g' 1 = true ∧ env_scenario_E.has_class g' 1 = true :=
  ⟨_, rfl, rfl, rfl⟩

/-! ## Phi destruction: `set_regs_or_place_dupls_walker` -/

theorem phi_seg_congr (g h : ir_graph) (l : List Nat)
    (hl : ∀ p ∈ l, get_irn_link h p = get_irn_link g p) :
    ∀ s t, phi_seg g s l t → phi_seg h s l t := by
  induction l with
  | nil => intro s t hs; exact hs
  | cons p rest ih =>
    intro s t hs
    obtain ⟨h1, h2⟩ := hs
    refine ⟨h1, ?_⟩
    rw [hl p (List.mem_cons_self _ _)]
    exact ih (fun q hq => hl q (List.mem_cons_of_mem _ hq)) _ _ h2

theorem place_dupl_length (g : ir_graph) (phi i arg ab : Nat) (pr : Option Nat) (pb : Nat) :
    (place_dupl g phi i arg ab pr pb).nodes.length = g.nodes.length + 1 := by
  simp [place_dupl, be_new_Copy, pin_irn, set_irn_link, arch_set_irn_register, set_irn_n,
    set_node_length, new_ir_node]

theorem place_dupl_new (g : ir_graph) (phi i arg ab : Nat) (pr : Option Nat) (pb : Nat)
    (hphi : phi < g.nodes.length) :
    get_node (place_dupl g phi i arg ab pr pb) g.nodes.length
      = ⟨.Copy, ab, [arg], pr, some pb, 0⟩ := by
  have hne : g.nodes.length ≠ phi := Nat.ne_of_gt hphi
  simp only [place_dupl, be_new_Copy, pin_irn, set_irn_link, arch_set_irn_register, set_irn_n,
    new_ir_node_snd]
  rw [get_node_set_node_same _ _ _ (by simp [set_node_length, new_ir_node_length]),
    get_node_set_node_same _ _ _ (by simp [set_node_length, new_ir_node_length]),
    get_node_set_node_other _ _ _ _ hne, get_node_new_new]

theorem place_dupl_old (g : ir_graph) (phi i arg ab : Nat) (pr : Option Nat) (pb : Nat)
    (n : Nat) (hn : n < g.nodes.length) :
    get_node (place_dupl g phi i arg ab pr pb) n
      = if n = phi then { get_node g phi with ins := (get_node g phi).ins.set i g.nodes.length }
        else get_node g n := by
  have hne : n ≠ g.nodes.length := Nat.ne_of_lt hn
  simp only [place_dupl, be_new_Copy, pin_irn, set_irn_link, arch_set_irn_register, set_irn_n,
    new_ir_node_snd]
  rw [get_node_set_node_other _ _ _ _ hne, get_node_set_node_other _ _ _ _ hne,
    get_node_set_node]
  by_cases h : n = phi
  · subst h
    simp [new_ir_node_length, Nat.lt_succ_of_lt hn, get_node_new_old _ _ _ _ _ _ hn]
  · simp [h, get_node_new_old _ _ _ _ _ _ hn]

theorem pin_irn_length (g : ir_graph) (a l : Nat) :
    (pin_irn g a l).nodes.length = g.nodes.length := by
  simp [pin_irn, set_irn_link, set_node_length]

theorem get_node_pin (g : ir_graph) (a l n : Nat) :
    get_node (pin_irn g a l) n
      = if n = a ∧ a < g.nodes.length then { get_node g a with link := some l }
        else get_node g n := by
  simp only [pin_irn, set_irn_link, get_node_set_node]

theorem set_register_length (g : ir_graph) (a : Nat) (r : Option Nat) :
    (arch_set_irn_register g a r).nodes.length = g.nodes.length := by
  simp [arch_set_irn_register, set_node_length]

theorem get_node_set_register (g : ir_graph) (a : Nat) (r : Option Nat) (n : Nat) :
    get_node (arch_set_irn_register g a r) n
      = if n = a ∧ a < g.nodes.length then { get_node g a with reg := r }
        else get_node g n := by
  simp only [arch_set_irn_register, get_node_set_node]

theorem is_Phi_lt (g : ir_graph) (n : Nat) (h : is_Phi g n = true) : n < g.nodes.length := by
  by_contra hc
  rw [is_Phi, get_node_default g n (Nat.le_of_not_lt hc)] at h
  exact absurd h (by decide)

theorem dupl_inv_init (env : be_chordal_env_t) (g0 : ir_graph) (bl : Nat) (phis : List Nat) :
    dupl_inv env g0 bl phis (fun _ _ => False) g0 :=
  { ext := graph_ext_refl g0
    phi_same := fun _ _ => ⟨rfl, rfl, rfl⟩
    bl_same := rfl
    todo := fun _ _ _ _ _ => rfl
    regs := fun _ _ h => h
    settled := fun _ _ _ _ h => absurd h id }

theorem dupl_inv_weaken (env : be_chordal_env_t) (g0 : ir_graph) (bl : Nat) (phis : List Nat)
    (Pr Pr' : Nat → Nat → Prop) (g : ir_graph) (h : dupl_inv env g0 bl phis Pr g)
    (hiff : ∀ p ∈ phis, ∀ j < get_irn_arity g0 p, (Pr p j ↔ Pr' p j)) :
    dupl_inv env g0 bl phis Pr' g :=
  { ext := h.ext
    phi_same := h.phi_same
    bl_same := h.bl_same
    todo := fun p hp j hj hn => h.todo p hp j hj (fun hpr => hn ((hiff p hp j hj).mp hpr))
    regs := h.regs
    settled := fun p hp j hj hpr => h.settled p hp j hj ((hiff p hp j hj).mpr hpr) }

/-- Pinning a node that is neither the block nor a phi of the list. -/
theorem dupl_inv_pin (env : be_chordal_env_t) (g0 : ir_graph) (bl : Nat) (phis : List Nat)
    (Pr : Nat → Nat → Prop) (g : ir_graph) (h : dupl_inv env g0 bl phis Pr g) (a l : Nat)
    (ha : a ∉ phis) (hab : a ≠ bl) : dupl_inv env g0 bl phis Pr (pin_irn g a l) := by
  have hnode : ∀ n, n ≠ a → get_node (pin_irn g a l) n = get_node g n := by
    intro n hn; rw [get_node_pin]; simp [hn]
  have hreg : ∀ n, arch_get_irn_register (pin_irn g a l) n = arch_get_irn_register g n := by
    intro n; unfold arch_get_irn_register; rw [get_node_pin]; split <;> simp_all
  have hins : ∀ n, (get_node (pin_irn g a l) n).ins = (get_node g n).ins := by
    intro n; rw [get_node_pin]; split <;> simp_all
  have hn : ∀ n j, get_irn_n (pin_irn g a l) n j = get_irn_n g n j := by
    intro n j; unfold get_irn_n; rw [hins]
  have hpinned : ∀ n, is_pinned g n = true → is_pinned (pin_irn g a l) n = true := by
    intro n hp
    unfold is_pinned get_irn_link at hp ⊢
    rw [get_node_pin]; split
    · rfl
    · exact hp
  refine
    { ext := graph_ext_trans _ _ _ h.ext (graph_ext_pin _ _ _)
      phi_same := fun p hp => ?_
      bl_same := ?_
      todo := fun p hp j hj hpr => by rw [hn]; exact h.todo p hp j hj hpr
      regs := fun n hn0 hs => by rw [hreg]; exact h.regs n hn0 hs
      settled := fun p hp j hj hpr => ?_ }
  · have hpa : p ≠ a := fun e => ha (e ▸ hp)
    obtain ⟨h1, h2, h3⟩ := h.phi_same p hp
    refine ⟨?_, by rw [hreg]; exact h2, ?_⟩
    · unfold get_irn_link; rw [hnode p hpa]; exact h1
    · unfold get_irn_arity; rw [hins]; exact h3
  · unfold get_irn_link; rw [hnode bl (Ne.symm hab)]; exact h.bl_same
  · obtain ⟨h1, h2, h3, h4, h5⟩ := h.settled p hp j hj hpr
    rw [hn]
    refine ⟨h1, h2, by rw [pin_irn_length]; exact h3, ?_⟩
    unfold arg_is_settled
    rw [hn, hreg, hreg]
    exact ⟨hpinned _ h4, h5⟩

/-- Giving a register to a node that is not pinned and not a phi of the list. -/
theorem dupl_inv_set_register (env : be_chordal_env_t) (g0 : ir_graph) (bl : Nat)
    (phis : List Nat) (Pr : Nat → Nat → Prop) (g : ir_graph)
    (h : dupl_inv env g0 bl phis Pr g) (a : Nat) (r : Option Nat)
    (ha : a ∉ phis) (hunp : is_pinned g a = false) (hr : r.isSome = true) :
    dupl_inv env g0 bl phis Pr (arch_set_irn_register g a r) := by
  have hnode : ∀ n, n ≠ a → get_node (arch_set_irn_register g a r) n = get_node g n := by
    intro n hn; rw [get_node_set_register]; simp [hn]
  have hlink : ∀ n, get_irn_link (arch_set_irn_register g a r) n = get_irn_link g n := by
    intro n; unfold get_irn_link; rw [get_node_set_register]; split <;> simp_all
  have hins : ∀ n, (get_node (arch_set_irn_register g a r) n).ins = (get_node g n).ins := by
    intro n; rw [get_node_set_register]; split <;> simp_all
  have hn : ∀ n j, get_irn_n (arch_set_irn_register g a r) n j = get_irn_n g n j := by
    intro n j; unfold get_irn_n; rw [hins]
  have hreg : ∀ n, n ≠ a →
      arch_get_irn_register (arch_set_irn_register g a r) n = arch_get_irn_register g n := by
    intro n hna; unfold arch_get_irn_register; rw [hnode n hna]
  refine
    { ext := graph_ext_trans _ _ _ h.ext (graph_ext_set_register _ _ _)
      phi_same := fun p hp => ?_
      bl_same := by rw [hlink]; exact h.bl_same
      todo := fun p hp j hj hpr => by rw [hn]; exact h.todo p hp j hj hpr
      regs := fun n hn0 hs => ?_
      settled := fun p hp j hj hpr => ?_ }
  · have hpa : p ≠ a := fun e => ha (e ▸ hp)
    obtain ⟨h1, h2, h3⟩ := h.phi_same p hp
    refine ⟨by rw [hlink]; exact h1, by rw [hreg p hpa]; exact h2, ?_⟩
    unfold get_irn_arity; rw [hins]; exact h3
  · by_cases hna : n = a
    · subst hna
      unfold arch_get_irn_register
      rw [get_node_set_register]
      have : n < g.nodes.length := lt_of_lt_of_le hn0 h.ext.1
      simp [this, hr]
    · rw [hreg n hna]; exact h.regs n hn0 hs
  · obtain ⟨h1, h2, h3, h4, h5⟩ := h.settled p hp j hj hpr
    have hne : get_irn_n g p j ≠ a := by
      intro e; rw [e, hunp] at h4; exact absurd h4 (by simp)
    have hpa : p ≠ a := fun e => ha (e ▸ hp)
    rw [hn]
    refine ⟨h1, h2, by rw [set_register_length]; exact h3, ?_⟩
    unfold arg_is_settled
    rw [hn, hreg _ hne, hreg _ hpa]
    refine ⟨?_, h5⟩
    unfold is_pinned; rw [hlink]; exact h4

/-- Marking a position as processed once its argument is settled. -/
theorem dupl_inv_mark (env : be_chordal_env_t) (g0 : ir_graph) (bl : Nat) (phis : List Nat)
    (Pr : Nat → Nat → Prop) (g : ir_graph) (h : dupl_inv env g0 bl phis Pr g) (phi i : Nat)
    (hs : get_irn_n g phi i ∉ phis ∧ get_irn_n g phi i ≠ bl ∧
      get_irn_n g phi i < g.nodes.length ∧ arg_is_settled env g phi i) :
    dupl_inv env g0 bl phis (fun p j => Pr p j ∨ (p = phi ∧ j = i)) g :=
  { ext := h.ext
    phi_same := h.phi_same
    bl_same := h.bl_same
    todo := fun p hp j hj hn => h.todo p hp j hj (fun hpr => hn (Or.inl hpr))
    regs := h.regs
    settled := fun p hp j hj hpr => by
      rcases hpr with hpr | ⟨rfl, rfl⟩
      · exact h.settled p hp j hj hpr
      · exact hs }

theorem getD_set_other (l : List Nat) (i j v : Nat) (h : j ≠ i) :
    (l.set i v).getD j 0 = l.getD j 0 := by
  simp [List.getD_eq_getElem?_getD, List.getElem?_set, Ne.symm h]

theorem getD_set_same (l : List Nat) (i v : Nat) (h : i < l.length) :
    (l.set i v).getD i 0 = v := by
  simp [List.getD_eq_getElem?_getD, List.getElem?_set, h]

/-- Inserting a duplicate for argument `i` of `phi`. -/
theorem dupl_inv_place_dupl (env : be_chordal_env_t) (g0 : ir_graph) (bl : Nat)
    (phis : List Nat) (hr : phis_ready env g0 bl phis) (Pr : Nat → Nat → Prop) (g : ir_graph)
    (h : dupl_inv env g0 bl phis Pr g) (phi i : Nat) (hphi : phi ∈ phis)
    (hi : i < get_irn_arity g0 phi) (arg ab : Nat) (pr : Option Nat)
    (hreg0 : arch_get_irn_register g0 phi = pr) :
    dupl_inv env g0 bl phis (fun p j => Pr p j ∨ (p = phi ∧ j = i))
      (place_dupl g phi i arg ab pr bl) := by
  have hN : g0.nodes.length ≤ g.nodes.length := h.ext.1
  have hlt : ∀ p ∈ phis, p < g.nodes.length :=
    fun p hp => lt_of_lt_of_le (is_Phi_lt g0 p (hr.phi_ok p hp).1) hN
  have hbl : bl < g.nodes.length := lt_of_lt_of_le hr.bl_lt hN
  have hold := place_dupl_old g phi i arg ab pr bl
  have hnew := place_dupl_new g phi i arg ab pr bl (hlt phi hphi)
  have hlink : ∀ n < g.nodes.length,
      get_irn_link (place_dupl g phi i arg ab pr bl) n
        = get_irn_link g n := by
    intro n hn; unfold get_irn_link; rw [hold n hn]; split <;> simp_all
  have hreg : ∀ n < g.nodes.length,
      arch_get_irn_register (place_dupl g phi i arg ab pr bl) n
        = arch_get_irn_register g n := by
    intro n hn; unfold arch_get_irn_register; rw [hold n hn]; split <;> simp_all
  have harity : ∀ n < g.nodes.length,
      get_irn_arity (place_dupl g phi i arg ab pr bl) n
        = get_irn_arity g n := by
    intro n hn; unfold get_irn_arity; rw [hold n hn]; split <;> simp_all
  have hins : ∀ n < g.nodes.length, ∀ j, ¬ (n = phi ∧ j = i) →
      get_irn_n (place_dupl g phi i arg ab pr bl) n j
        = get_irn_n g n j := by
    intro n hn j hne
    unfold get_irn_n; rw [hold n hn]
    by_cases hp : n = phi
    · subst hp
      simp only [if_true]
      exact getD_set_other _ _ _ _ (fun e => hne ⟨rfl, e⟩)
    · simp [hp]
  have hi' : i < (get_node g phi).ins.length := by
    have := (h.phi_same phi hphi).2.2
    unfold get_irn_arity at this hi
    rw [this]; exact hi
  have hinew : get_irn_n (place_dupl g phi i arg ab pr bl) phi i
      = g.nodes.length := by
    unfold get_irn_n; rw [hold phi (hlt phi hphi)]
    simp only [if_true]
    exact getD_set_same _ _ _ hi'
  refine
    { ext := graph_ext_trans _ _ _ h.ext (graph_ext_place_dupl _ _ _ _ _ _ _)
      phi_same := fun p hp => ?_
      bl_same := by rw [hlink bl hbl]; exact h.bl_same
      todo := fun p hp j hj hpr => ?_
      regs := fun n hn0 hs => by
        rw [hreg n (lt_of_lt_of_le hn0 hN)]; exact h.regs n hn0 hs
      settled := fun p hp j hj hpr => ?_ }
  · obtain ⟨h1, h2, h3⟩ := h.phi_same p hp
    exact ⟨by rw [hlink p (hlt p hp)]; exact h1, by rw [hreg p (hlt p hp)]; exact h2,
      by rw [harity p (hlt p hp)]; exact h3⟩
  · rw [hins p (hlt p hp) j (fun e => hpr (Or.inr e))]
    exact h.todo p hp j hj (fun e => hpr (Or.inl e))
  · by_cases hpos : p = phi ∧ j = i
    · obtain ⟨rfl, rfl⟩ := hpos
      rw [hinew]
      refine ⟨fun hm => absurd (hlt _ hm) (lt_irrefl _), Nat.ne_of_gt hbl,
        by rw [place_dupl_length]; omega, ?_⟩
      unfold arg_is_settled
      rw [hinew]
      refine ⟨?_, Or.inl ?_⟩
      · unfold is_pinned get_irn_link; rw [hnew]; rfl
      · rw [hreg p (hlt p hp), (h.phi_same p hp).2.1, hreg0]
        unfold arch_get_irn_register
        rw [hnew]
    · have hpr' : Pr p j := by
        rcases hpr with hpr | hpr
        · exact hpr
        · exact absurd hpr hpos
      obtain ⟨h1, h2, h3, h4, h5⟩ := h.settled p hp j hj hpr'
      rw [hins p (hlt p hp) j hpos]
      refine ⟨h1, h2, by rw [place_dupl_length]; omega, ?_⟩
      unfold arg_is_settled
      rw [hins p (hlt p hp) j hpos, hreg _ h3, hreg p (hlt p hp)]
      refine ⟨?_, h5⟩
      unfold is_pinned; rw [hlink _ h3]; exact h4

theorem dupl_inv_chain (env : be_chordal_env_t) (g0 : ir_graph) (bl : Nat)
    (phis : List Nat) (hr : phis_ready env g0 bl phis) (Pr : Nat → Nat → Prop) (g : ir_graph)
    (h : dupl_inv env g0 bl phis Pr g) : phi_chain g (get_irn_link g bl) phis := by
  rw [h.bl_same]
  exact phi_seg_congr g0 g phis (fun p hp => (h.phi_same p hp).1) _ _ hr.chain

theorem other_phi_search (g : ir_graph) (i a : Nat) (ar : Option Nat) (phi bl : Nat) :
    ∀ (rest : List Nat) (s : Option Nat) (fuel : Nat),
      phi_seg g s rest none →
      (∀ p ∈ rest, is_Phi g p = true ∧ get_nodes_block g phi = get_nodes_block g p) →
      rest.length < fuel →
      ∃ st, while_loop (fun st => st.phi.isSome) (other_phi_body i a ar phi bl) fuel
          { phi := s, g := g } = .ok st ∧ (st.g = g ∨ st.g = pin_irn g a bl) := by
  intro rest
  induction rest with
  | nil =>
    intro s fuel hs _ hf
    have hnone : s = none := hs
    obtain ⟨f, rfl⟩ : ∃ f, fuel = f + 1 := ⟨fuel - 1, by omega⟩
    exact ⟨{ phi := s, g := g }, by unfold while_loop; simp [hnone], Or.inl rfl⟩
  | cons p rest ih =>
    intro s fuel hs hall hf
    obtain ⟨hsome, hrest⟩ := hs
    obtain ⟨f, rfl⟩ : ∃ f, fuel = f + 1 := ⟨fuel - 1, by omega⟩
    obtain ⟨hp1, hp2⟩ := hall p (List.mem_cons_self _ _)
    have hf' : rest.length < f := by simp at hf; omega
    unfold while_loop
    simp only [hsome, Option.isSome_some, if_true]
    unfold other_phi_body
    simp only [hp1, hp2, decide_True, Bool.and_self, if_true]
    by_cases hm : get_irn_n g p i = a ∧ arch_get_irn_register g p = ar
    · simp only [hm, and_self, if_true]
      obtain ⟨f', rfl⟩ : ∃ f', f = f' + 1 := ⟨f - 1, by omega⟩
      refine ⟨{ phi := none, g := pin_irn g a bl }, ?_, Or.inr rfl⟩
      unfold while_loop
      simp
    · simp only [hm, if_false]
      exact ih _ f hrest (fun q hq => hall q (List.mem_cons_of_mem _ hq)) hf'

theorem get_irn_n_pin (g : ir_graph) (a l n j : Nat) :
    get_irn_n (pin_irn g a l) n j = get_irn_n g n j := by
  unfold get_irn_n; rw [get_node_pin]; split <;> simp_all

theorem register_pin (g : ir_graph) (a l n : Nat) :
    arch_get_irn_register (pin_irn g a l) n = arch_get_irn_register g n := by
  unfold arch_get_irn_register; rw [get_node_pin]; split <;> simp_all

theorem is_pinned_pin_self (g : ir_graph) (a l : Nat) (h : a < g.nodes.length) :
    is_pinned (pin_irn g a l) a = true := by
  unfold is_pinned get_irn_link; rw [get_node_pin]; simp [h]

theorem get_irn_n_set_register (g : ir_graph) (a : Nat) (r : Option Nat) (n j : Nat) :
    get_irn_n (arch_set_irn_register g a r) n j = get_irn_n g n j := by
  unfold get_irn_n; rw [get_node_set_register]; split <;> simp_all

theorem register_set_register_self (g : ir_graph) (a : Nat) (r : Option Nat)
    (h : a < g.nodes.length) :
    arch_get_irn_register (arch_set_irn_register g a r) a = r := by
  unfold arch_get_irn_register; rw [get_node_set_register]; simp [h]

theorem register_set_register_other (g : ir_graph) (a : Nat) (r : Option Nat) (n : Nat)
    (h : n ≠ a) :
    arch_get_irn_register (arch_set_irn_register g a r) n = arch_get_irn_register g n := by
  unfold arch_get_irn_register; rw [get_node_set_register]; simp [h]

/-- One argument of one phi: `set_regs_arg_body` completes and settles it. -/
theorem set_regs_arg_body_step (B : Nat) (env : be_chordal_env_t) (g0 : ir_graph) (bl : Nat)
    (phis : List Nat) (hr : phis_ready env g0 bl phis) (hB : phis.length < B)
    (Pr : Nat → Nat → Prop) (g : ir_graph) (h : dupl_inv env g0 bl phis Pr g) (phi i : Nat)
    (hphi : phi ∈ phis) (hi : i < get_irn_arity g0 phi) (hnp : ¬ Pr phi i) (pr : Option Nat)
    (hreg0 : arch_get_irn_register g0 phi = pr) :
    ∃ g', set_regs_arg_body B env phi bl pr i g = .ok g' ∧
      dupl_inv env g0 bl phis (fun p j => Pr p j ∨ (p = phi ∧ j = i)) g' := by
  have hN : g0.nodes.length ≤ g.nodes.length := h.ext.1
  have ha0 : get_irn_n g phi i = get_irn_n g0 phi i := h.todo phi hphi i hi hnp
  obtain ⟨halt0, hanp, hab, hasome, hproj⟩ := hr.arg_ok phi hphi i hi
  rw [← ha0] at halt0 hanp hab hproj
  have halt : get_irn_n g phi i < g.nodes.length := lt_of_lt_of_le halt0 hN
  have hregphi : arch_get_irn_register g phi = pr := by rw [(h.phi_same phi hphi).2.1, hreg0]
  have hprsome : pr.isSome = true := by rw [← hreg0]; exact (hr.phi_ok phi hphi).2.2
  have hphia : phi ≠ get_irn_n g phi i := fun e => hanp (e ▸ hphi)
  obtain ⟨ar, har⟩ : ∃ ar, arch_get_irn_register g (get_irn_n g phi i) = some ar := by
    have := h.regs _ halt0 (by rw [ha0]; exact hasome)
    exact Option.isSome_iff_exists.mp this
  unfold set_regs_arg_body
  simp only [har]
  by_cases hA : pr = some ar ∨ env.cls.is_joker ar = true ∨ env.cls.is_virtual ar = true
  · -- same register, joker or virtual: pin
    simp only [hA, if_true]
    refine ⟨_, rfl, dupl_inv_mark env g0 bl phis Pr _
      (dupl_inv_pin env g0 bl phis Pr g h _ bl hanp hab) phi i ?_⟩
    rw [get_irn_n_pin]
    refine ⟨hanp, hab, by rw [pin_irn_length]; exact halt, ?_⟩
    unfold arg_is_settled
    rw [get_irn_n_pin, register_pin, register_pin, har, hregphi]
    refine ⟨is_pinned_pin_self _ _ _ halt, ?_⟩
    rcases hA with hA | hA
    · exact Or.inl hA.symm
    · exact Or.inr ⟨ar, rfl, hA⟩
  · simp only [hA, if_false]
    by_cases hI : env.values_interfere g phi (get_irn_n g phi i) = true
    · -- interference: duplicate
      simp only [hI, if_true]
      exact ⟨_, rfl, dupl_inv_place_dupl env g0 bl phis hr Pr g h phi i hphi hi _ _ pr hreg0⟩
    · simp only [hI, if_false, Bool.false_eq_true]
      have hP : is_Proj g (get_irn_n g phi i) = true := by
        rcases hproj with hp | hp
        · unfold is_Proj at hp ⊢
          rw [(h.ext.2 _ halt0).1]
          exact hp
        · exact absurd (hp g) hI
      simp only [hP, if_true]
      -- the search for another phi
      have hsearch : ∃ st,
          (if (!is_pinned g (get_irn_n g phi i)) = true then
            while_loop (fun st => st.phi.isSome)
              (other_phi_body i (get_irn_n g phi i) (some ar) phi bl) B
              { phi := get_irn_link g bl, g := g }
          else Except.ok { phi := none, g := g }) = .ok st ∧
          (st.g = g ∨ st.g = pin_irn g (get_irn_n g phi i) bl) := by
        split
        · refine other_phi_search g i _ (some ar) phi bl phis _ B
            (dupl_inv_chain env g0 bl phis hr Pr g h) (fun p hp => ?_) hB
          have hp0 := is_Phi_lt g0 p (hr.phi_ok p hp).1
          have hphi0 := is_Phi_lt g0 phi (hr.phi_ok phi hphi).1
          refine ⟨?_, ?_⟩
          · unfold is_Phi
            rw [(h.ext.2 p hp0).1]
            exact (hr.phi_ok p hp).1
          · unfold get_nodes_block
            rw [(h.ext.2 p hp0).2, (h.ext.2 phi hphi0).2]
            have e1 := (hr.phi_ok p hp).2.1
            have e2 := (hr.phi_ok phi hphi).2.1
            unfold get_nodes_block at e1 e2
            rw [e1, e2]
        · exact ⟨_, rfl, Or.inl rfl⟩
      obtain ⟨st, hst, hg⟩ := hsearch
      simp only [hst]
      have hinv_st : dupl_inv env g0 bl phis Pr st.g := by
        rcases hg with hg | hg
        · rw [hg]; exact h
        · rw [hg]; exact dupl_inv_pin env g0 bl phis Pr g h _ bl hanp hab
      by_cases hpin : is_pinned st.g (get_irn_n g phi i) = true
      · simp only [hpin, if_true]
        exact ⟨_, rfl, dupl_inv_place_dupl env g0 bl phis hr Pr st.g hinv_st phi i hphi hi _ _ pr
          hreg0⟩
      · simp only [hpin, if_false, Bool.false_eq_true]
        have hgeq : st.g = g := by
          rcases hg with hg | hg
          · exact hg
          · rw [hg] at hpin
            exact absurd (is_pinned_pin_self g _ bl halt) hpin
        rw [hgeq] at hpin ⊢
        have hunp : is_pinned g (get_irn_n g phi i) = false := by simpa using hpin
        refine ⟨_, rfl, dupl_inv_mark env g0 bl phis Pr _
          (dupl_inv_pin env g0 bl phis Pr _
            (dupl_inv_set_register env g0 bl phis Pr g h _ pr hanp hunp hprsome) _ bl hanp hab)
          phi i ?_⟩
        rw [get_irn_n_pin, get_irn_n_set_register]
        refine ⟨hanp, hab, by rw [pin_irn_length, set_register_length]; exact halt, ?_⟩
        unfold arg_is_settled
        rw [get_irn_n_pin, get_irn_n_set_register, register_pin, register_pin,
          register_set_register_self _ _ _ halt, register_set_register_other _ _ _ _ hphia,
          hregphi]
        exact ⟨is_pinned_pin_self _ _ _ (by rw [set_register_length]; exact halt), Or.inl rfl⟩

/-- All arguments of one phi. -/
theorem set_regs_phi_args (B : Nat) (env : be_chordal_env_t) (g0 : ir_graph) (bl : Nat)
    (phis : List Nat) (hr : phis_ready env g0 bl phis) (hB : phis.length < B)
    (Pr : Nat → Nat → Prop) (g : ir_graph) (h : dupl_inv env g0 bl phis Pr g) (phi : Nat)
    (hphi : phi ∈ phis) (hnone : ∀ j, ¬ Pr phi j) (pr : Option Nat)
    (hreg0 : arch_get_irn_register g0 phi = pr) :
    ∃ g', for_loop (set_regs_arg_body B env phi bl pr) (get_irn_arity g0 phi) g = .ok g' ∧
      dupl_inv env g0 bl phis (fun p j => Pr p j ∨ p = phi) g' := by
  obtain ⟨g', h1, h2⟩ := for_loop_total (set_regs_arg_body B env phi bl pr)
    (fun k t => dupl_inv env g0 bl phis (fun p j => Pr p j ∨ (p = phi ∧ j < k)) t)
    (get_irn_arity g0 phi) (by
      intro k t hk hI
      obtain ⟨t', ht, hI'⟩ := set_regs_arg_body_step B env g0 bl phis hr hB _ t hI phi k hphi hk
        (by rintro (hp | ⟨_, hlt⟩)
            · exact hnone k hp
            · exact lt_irrefl _ hlt) pr hreg0
      refine ⟨t', ht, dupl_inv_weaken env g0 bl phis _ _ t' hI' (fun p _ j _ => ?_)⟩
      constructor
      · rintro ((hp | ⟨e, hlt⟩) | ⟨e, rfl⟩)
        · exact Or.inl hp
        · exact Or.inr ⟨e, Nat.lt_succ_of_lt hlt⟩
        · exact Or.inr ⟨e, Nat.lt_succ_self _⟩
      · rintro (hp | ⟨e, hlt⟩)
        · exact Or.inl (Or.inl hp)
        · rcases Nat.lt_succ_iff_lt_or_eq.mp hlt with hlt | heq
          · exact Or.inl (Or.inr ⟨e, hlt⟩)
          · exact Or.inr ⟨e, heq⟩) g
    (dupl_inv_weaken env g0 bl phis _ _ g h (fun p _ j _ =>
      ⟨fun hp => Or.inl hp, fun hp => hp.elim id (fun hx => absurd hx.2 (Nat.not_lt_zero _))⟩))
  refine ⟨g', h1, dupl_inv_weaken env g0 bl phis _ _ g' h2 (fun p _ j hj => ?_)⟩
  constructor
  · rintro (hp | ⟨e, _⟩)
    · exact Or.inl hp
    · exact Or.inr e
  · rintro (hp | e)
    · exact Or.inl hp
    · exact Or.inr ⟨e, by rw [e] at hj; exact hj⟩

/-- The loop over the phi list. -/
theorem set_regs_phi_loop (B : Nat) (env : be_chordal_env_t) (g0 : ir_graph) (bl : Nat)
    (phis : List Nat) (hr : phis_ready env g0 bl phis) (hB : phis.length < B) :
    ∀ (rest done : List Nat) (st : dupl_state) (fuel : Nat),
      phis = done ++ rest → phi_seg g0 st.phi rest none →
      dupl_inv env g0 bl phis (fun p _ => p ∈ done) st.g → rest.length < fuel →
      ∃ st', while_loop (fun st => st.phi.isSome) (set_regs_phi_body B env) fuel st = .ok st' ∧
        dupl_inv env g0 bl phis (fun p _ => p ∈ phis) st'.g := by
  intro rest
  induction rest with
  | nil =>
    intro done st fuel hphis hs hinv hf
    have hnone : st.phi = none := hs
    obtain ⟨f, rfl⟩ : ∃ f, fuel = f + 1 := ⟨fuel - 1, by omega⟩
    rw [List.append_nil] at hphis
    exact ⟨st, by unfold while_loop; simp [hnone],
      dupl_inv_weaken env g0 bl phis _ _ st.g hinv (fun p _ j _ => by rw [hphis])⟩
  | cons phi rest ih =>
    intro done st fuel hphis hs hinv hf
    obtain ⟨hsome, hrest⟩ := hs
    obtain ⟨f, rfl⟩ : ∃ f, fuel = f + 1 := ⟨fuel - 1, by omega⟩
    have hphi : phi ∈ phis := by rw [hphis]; simp
    have hnd : phi ∉ done := by
      have := hr.nodup
      rw [hphis] at this
      rw [List.nodup_append] at this
      intro hmem
      exact this.2.2 hmem (List.mem_cons_self _ _)
    have hphi0 := is_Phi_lt g0 phi (hr.phi_ok phi hphi).1
    have hisphi : is_Phi st.g phi = true := by
      unfold is_Phi
      rw [(hinv.ext.2 phi hphi0).1]
      exact (hr.phi_ok phi hphi).1
    have hblock : get_nodes_block st.g phi = bl := by
      unfold get_nodes_block
      rw [(hinv.ext.2 phi hphi0).2]
      exact (hr.phi_ok phi hphi).2.1
    obtain ⟨g1, hg1, hinv1⟩ := set_regs_phi_args B env g0 bl phis hr hB _ st.g hinv phi hphi
      (fun _ => hnd) (arch_get_irn_register st.g phi) (hinv.phi_same phi hphi).2.1.symm
    have := ih (done ++ [phi]) { phi := get_irn_link g1 phi, g := g1 } f
      (by rw [hphis]; simp)
      (by rw [(hinv1.phi_same phi hphi).1]; exact hrest)
      (dupl_inv_weaken env g0 bl phis _ _ g1 hinv1 (fun p _ j _ => by simp))
      (by simp at hf; omega)
    unfold while_loop
    simp only [hsome, Option.isSome_some, if_true]
    unfold set_regs_phi_body
    simp only [hsome, hisphi, if_true, hblock, (hinv.phi_same phi hphi).2.2, hg1]
    exact this

theorem check_args_ok (env : be_chordal_env_t) (g : ir_graph) (phi : Nat) (n : Nat)
    (h : ∀ i < n, arg_is_settled env g phi i ∧
      (arch_get_irn_register g (get_irn_n g phi i) ≠ arch_get_irn_register g phi →
        env.req_ignore g (get_irn_n g phi i) = true)) :
    for_loop (check_arg_body env g phi (arch_get_irn_register g phi)) n () = .ok () := by
  obtain ⟨u, hu, _⟩ := for_loop_total (check_arg_body env g phi (arch_get_irn_register g phi))
    (fun _ _ => True) n (by
      intro k u hk _
      obtain ⟨⟨hpin, _⟩, hign⟩ := h k hk
      refine ⟨(), ?_, trivial⟩
      unfold check_arg_body
      simp only []
      by_cases hi : env.req_ignore g (get_irn_n g phi k) = true
      · simp [hi]
      · have heq : arch_get_irn_register g phi = arch_get_irn_register g (get_irn_n g phi k) := by
          by_contra hne
          exact hi (hign (fun e => hne e.symm))
        simp [hi, heq, hpin]) () trivial
  exact hu

theorem check_phi_loop_ok (env : be_chordal_env_t) (g : ir_graph) :
    ∀ (rest : List Nat) (s : Option Nat) (fuel : Nat),
      phi_seg g s rest none →
      (∀ phi ∈ rest, ∀ i < get_irn_arity g phi, arg_is_settled env g phi i ∧
        (arch_get_irn_register g (get_irn_n g phi i) ≠ arch_get_irn_register g phi →
          env.req_ignore g (get_irn_n g phi i) = true)) →
      rest.length < fuel →
      ∃ st, while_loop (fun st => st.phi.isSome) (check_phi_body env) fuel { phi := s, g := g }
        = .ok st := by
  intro rest
  induction rest with
  | nil =>
    intro s fuel hs _ hf
    have hnone : s = none := hs
    obtain ⟨f, rfl⟩ : ∃ f, fuel = f + 1 := ⟨fuel - 1, by omega⟩
    exact ⟨{ phi := s, g := g }, by unfold while_loop; simp [hnone]⟩
  | cons phi rest ih =>
    intro s fuel hs hal hf
    obtain ⟨hsome, hrest⟩ := hs
    obtain ⟨f, rfl⟩ : ∃ f, fuel = f + 1 := ⟨fuel - 1, by omega⟩
    have hargs := check_args_ok env g phi (get_irn_arity g phi)
      (hal phi (List.mem_cons_self _ _))
    unfold while_loop
    simp only [hsome, Option.isSome_some, if_true]
    unfold check_phi_body
    simp only [hsome, hargs]
    exact ih _ f hrest (fun p hp => hal p (List.mem_cons_of_mem _ hp)) (by simp at hf; omega)

/-- C4 (corrected; post-condition of phi destruction): on a well-formed phi list
(`phis_ready`) `set_regs_or_place_dupls_walker` completes, the phi list is left
as it was, and every argument of every phi of the list is pinned and has the
register of the phi, or a joker or virtual register; `ssa_destruction_check_walker`
then trips no assertion on the block provided the arguments whose register
differs from the register of the phi are exempted by an `ignore` requirement. -/
theorem set_regs_or_place_dupls_walker_settles (B : Nat) (env : be_chordal_env_t)
    (g : ir_graph) (bl : Nat) (phis : List Nat) (hr : phis_ready env g bl phis)
    (hB : phis.length < B) :
    ∃ g', set_regs_or_place_dupls_walker B env g bl = .ok g' ∧
      phi_chain g' (get_irn_link g' bl) phis ∧
      (∀ phi ∈ phis, ∀ i < get_irn_arity g' phi, arg_is_settled env g' phi i) ∧
      ((∀ phi ∈ phis, ∀ i < get_irn_arity g' phi,
          arch_get_irn_register g' (get_irn_n g' phi i) ≠ arch_get_irn_register g' phi →
          env.req_ignore g' (get_irn_n g' phi i) = true) →
        ssa_destruction_check_walker B env g' bl = .ok ()) := by
  obtain ⟨st, hst, hinv⟩ := set_regs_phi_loop B env g bl phis hr hB phis []
    { phi := get_irn_link g bl, g := g } B rfl hr.chain
    (dupl_inv_weaken env g bl phis _ _ g (dupl_inv_init env g bl phis) (fun p _ j _ => by simp))
    hB
  have hchain := dupl_inv_chain env g bl phis hr _ st.g hinv
  have hset : ∀ phi ∈ phis, ∀ i < get_irn_arity st.g phi, arg_is_settled env st.g phi i := by
    intro phi hphi i hi
    rw [(hinv.phi_same phi hphi).2.2] at hi
    exact (hinv.settled phi hphi i hi hphi).2.2.2
  refine ⟨st.g, by unfold set_regs_or_place_dupls_walker; simp only [hst], hchain, hset, ?_⟩
  intro hign
  obtain ⟨st', hst'⟩ := check_phi_loop_ok env st.g phis _ B hchain
    (fun phi hphi i hi => ⟨hset phi hphi i hi, hign phi hphi i hi⟩) hB
  unfold ssa_destruction_check_walker
  simp only [hst']

theorem set_regs_or_place_dupls_walker_settles_witness :
    ∃ g', set_regs_or_place_dupls_walker 2 env_scenario_E graph_scenario_E 0 = .ok g' ∧
      phi_chain g' (get_irn_link g' 0) [1] ∧
      (∀ phi ∈ [1], ∀ i < get_irn_arity g' phi, arg_is_settled env_scenario_E g' phi i) ∧
      ((∀ phi ∈ [1], ∀ i < get_irn_arity g' phi,
          arch_get_irn_register g' (get_irn_n g' phi i) ≠ arch_get_irn_register g' phi →
          env_scenario_E.req_ignore g' (get_irn_n g' phi i) = true) →
        ssa_destruction_check_walker 2 env_scenario_E g' 0 = .ok ()) :=
  set_regs_or_place_dupls_walker_settles 2 env_scenario_E graph_scenario_E 0 [1]
    { chain := ⟨rfl, rfl⟩
      nodup := by decide
      bl_lt := by decide
      phi_ok := by
        intro phi h
        simp only [List.mem_singleton] at h
        subst h
        exact ⟨rfl, rfl, rfl⟩
      arg_ok := by
        intro phi h i hi
        simp only [List.mem_singleton] at h
        subst h
        have hi0 : i = 0 := by
          have : i < 1 := hi
          omega
        subst hi0
        exact ⟨by decide, by decide, by decide, rfl, Or.inr (fun _ => rfl)⟩ }
    (by decide)

/-- C4, counterexample: the argument of the phi is in a joker register other
than the register of the phi.  The walker pins it and leaves its register, so
after the walker the argument does not have the register of the phi, and
`ssa_destruction_check_walker` trips the assertion of line 799. -/
theorem set_regs_joker_argument_keeps_register :
    ∃ g', set_regs_or_place_dupls_walker 2 env_joker2 graph_joker_arg 0 = .ok g' ∧
      phi_chain g' (get_irn_link g' 0) [1] ∧
      arch_get_irn_register g' (get_irn_n g' 1 0) = some 2 ∧
      arch_get_irn_register g' 1 = some 1 ∧
      ssa_destruction_check_walker 2 env_joker2 g' 0 = .error (.assertion 799) :=
  ⟨_, rfl, ⟨rfl, rfl⟩, rfl, rfl, rfl⟩

/-! ## The parallel-copy realizer: cycles -/

theorem iterate_lt (n : Nat) (P : List Nat) (hP : ∀ r < n, rd P r < n) (k x : Nat)
    (hx : x < n) : (rd P)^[k] x < n := by
  induction k generalizing x with
  | zero => exact hx
  | succ k ih => rw [Function.iterate_succ_apply]; exact ih _ (hP x hx)

theorem on_cycle_pred (n : Nat) (P : List Nat) (hP : ∀ r < n, rd P r < n) (s : Nat)
    (hs : s < n) (hc : on_cycle P s) :
    ∃ p, p < n ∧ on_cycle P p ∧ rd P p = s ∧ p ≠ s := by
  obtain ⟨hne, k, hk, hper⟩ := hc
  obtain ⟨j, rfl⟩ : ∃ j, k = j + 1 := ⟨k - 1, by omega⟩
  have hps : rd P ((rd P)^[j] s) = s := by
    rw [← Function.iterate_succ_apply' (rd P) j s]; exact hper
  have hpne : (rd P)^[j] s ≠ s := by
    intro e; rw [e] at hps; exact hne hps
  refine ⟨(rd P)^[j] s, iterate_lt n P hP j s hs, ⟨?_, j + 1, Nat.succ_pos _, ?_⟩, hps, hpne⟩
  · rw [hps]; exact Ne.symm hpne
  · rw [← Function.iterate_add_apply, Nat.add_comm, Function.iterate_add_apply, hper]

theorem on_cycle_succ (P : List Nat) (d : Nat) (hc : on_cycle P d) (hne : rd P d ≠ d) :
    on_cycle P (rd P d) := by
  obtain ⟨_, k, hk, hper⟩ := hc
  have hper' : (rd P)^[k] (rd P d) = rd P d := by
    rw [← Function.iterate_succ_apply, Function.iterate_succ_apply', hper]
  refine ⟨fun hfix => ?_, k, hk, hper'⟩
  -- if `rd P d` were a fixpoint, every later iterate of `d` would be it
  have hall : ∀ j, (rd P)^[j] (rd P d) = rd P d := by
    intro j
    induction j with
    | zero => rfl
    | succ j ih => rw [Function.iterate_succ_apply', ih, hfix]
  obtain ⟨j, rfl⟩ : ∃ j, k = j + 1 := ⟨k - 1, by omega⟩
  rw [Function.iterate_succ_apply, hall j] at hper
  exact hne hper

theorem on_cycle_inj (P : List Nat) (d d' : Nat) (hd : on_cycle P d) (hd' : on_cycle P d')
    (h : rd P d = rd P d') : d = d' := by
  obtain ⟨_, k, hk, hper⟩ := hd
  obtain ⟨_, k', hk', hper'⟩ := hd'
  exact Function.IsPeriodicPt.eq_of_apply_eq (f := rd P) hper hper' hk hk' h

theorem nonfix_set_fix (n : Nat) (perm : List Nat) (s : Nat) (hs : s < n)
    (hlen : s < perm.length) (hne : rd perm s ≠ s) :
    nonfix n (perm.set s s) + 1 = nonfix n perm := by
  unfold nonfix
  have : (Finset.range n).filter (fun x => rd (perm.set s s) x ≠ x)
      = ((Finset.range n).filter (fun x => rd perm x ≠ x)).erase s := by
    ext x
    simp only [Finset.mem_filter, Finset.mem_range, Finset.mem_erase]
    by_cases hx : x = s
    · subst hx; rw [rd_set_same _ _ _ hlen]; simp
    · rw [rd_set_other _ _ _ _ (Ne.symm hx)]; tauto
  rw [this, Finset.card_erase_of_mem (by simp [hs, hne])]
  have hpos : 0 < ((Finset.range n).filter (fun x => rd perm x ≠ x)).card :=
    Finset.card_pos.mpr ⟨s, by simp [hs, hne]⟩
  omega

theorem nonfix_le (n : Nat) (perm : List Nat) : nonfix n perm ≤ n := by
  unfold nonfix
  exact le_trans (Finset.card_filter_le _ _) (by simp)

theorem chain_walk_cond_iff (st : cyc_state) :
    chain_walk_cond st = true ↔ rd st.n_used st.i = 0 ∧ rd st.permutation st.i ≠ st.i := by
  simp [chain_walk_cond]

theorem drain_inv_cut (n : Nat) (P : List Nat) (extra : Nat → Nat) (hP : ∀ r < n, rd P r < n)
    (st : cyc_state) (hI : drain_inv n P extra st) (hi : st.i < n)
    (h0 : rd st.n_used st.i = 0) (hne : rd st.permutation st.i ≠ st.i) :
    rd st.permutation st.i < n ∧ 0 < rd st.n_used (rd st.permutation st.i) ∧
    ∀ poc out, drain_inv n P extra
      { i := rd st.permutation st.i, part_of_cycle := poc,
        permutation := st.permutation.set st.i st.i,
        n_used := st.n_used.set (rd st.permutation st.i)
          (u32_dec (rd st.n_used (rd st.permutation st.i))), out := out } := by
  obtain ⟨hlp, hln, hpc, hex, hsm, hck, hdr⟩ := hI
  generalize hsrc : rd st.permutation st.i = src at *
  generalize hs : st.i = s at *
  have hsrc_lt : src < n := by
    rcases hpc s hi with h | h
    · rw [hsrc] at h; rw [h]; exact hP s hi
    · rw [hsrc] at h; exact absurd h hne
  have hrd : 0 < readers n st.permutation src :=
    (readers_pos_iff n _ src).mpr ⟨s, hi, Ne.symm hne, hsrc⟩
  have hpos : 0 < rd st.n_used src := by rw [hex src hsrc_lt]; omega
  have hdec : u32_dec (rd st.n_used src) = rd st.n_used src - 1 :=
    u32_dec_pos _ hpos (hsm src hsrc_lt)
  refine ⟨hsrc_lt, hpos, fun poc out => ?_⟩
  have hsl : s < st.permutation.length := by rw [hlp]; exact hi
  have hsrcl : src < st.n_used.length := by rw [hln]; exact hsrc_lt
  constructor
  · simp only [List.length_set]; exact hlp
  · simp only [List.length_set]; exact hln
  · intro x hx
    simp only [rd_set _ _ _ _ hsl]
    by_cases hxs : x = s
    · simp [hxs]
    · simp only [hxs, if_false]; exact hpc x hx
  · intro x hx
    simp only [rd_set _ _ _ _ hsrcl, readers_set_cut n _ s src x hi hsl hsrc hne, hdec]
    have := hex x hx
    by_cases hxs : x = src
    · subst hxs; simp only [if_true]; omega
    · simp only [hxs, if_false]; exact this
  · intro x hx
    simp only [rd_set _ _ _ _ hsrcl, hdec]
    have := hsm x hx
    by_cases hxs : x = src
    · subst hxs; simp only [if_true]; omega
    · simp only [hxs, if_false]; exact this
  · intro x hx hcyc
    simp only [rd_set _ _ _ _ hsl]
    by_cases hxs : x = s
    · subst hxs
      exfalso
      obtain ⟨p, hp, hpc', hps, hpne⟩ := on_cycle_pred n P hP x hx hcyc
      have : 0 < readers n st.permutation x :=
        (readers_pos_iff n _ x).mpr ⟨p, hp, hpne, by rw [hck p hp hpc']; exact hps⟩
      have := hex x hx
      omega
    · simp only [hxs, if_false]; exact hck x hx hcyc
  · intro x hx
    simp only [rd_set _ _ _ _ hsl, rd_set _ _ _ _ hsrcl, hdec]
    by_cases hxs : x = s
    · subst hxs
      simp only [if_true, Ne.symm hne, if_false]
      intro _ _; exact h0
    · simp only [hxs, if_false]
      intro h1 h2
      by_cases hxr : x = src
      · subst hxr
        have := hdr x hx h1 h2
        omega
      · simp only [hxr, if_false]; exact hdr x hx h1 h2

theorem while_loop_total_dec {σ : Type} (cond : σ → Bool) (body : σ → Except Fault σ)
    (I : σ → Prop) (μ : σ → Nat)
    (hstep : ∀ s, I s → cond s = true → ∃ s', body s = .ok s' ∧ I s' ∧ μ s' < μ s)
    (fuel : Nat) (s : σ) (hI : I s) (hμ : μ s < fuel) (hc : cond s = true) :
    ∃ s', while_loop cond body fuel s = .ok s' ∧ I s' ∧ cond s' = false ∧ μ s' < μ s := by
  obtain ⟨f, rfl⟩ : ∃ f, fuel = f + 1 := ⟨fuel - 1, by omega⟩
  obtain ⟨s1, hb, hI1, hlt⟩ := hstep s hI hc
  obtain ⟨s2, hw, ⟨hI2, hle⟩, hc2⟩ :=
    while_loop_total cond body (fun t => I t ∧ μ t ≤ μ s1) μ
      (fun t ht htc => by
        obtain ⟨t', h1, h2, h3⟩ := hstep t ht.1 htc
        exact ⟨t', h1, ⟨h2, by have := ht.2; omega⟩, h3⟩)
      f s1 ⟨hI1, le_refl _⟩ (by omega)
  refine ⟨s2, ?_, hI2, hc2, by omega⟩
  rw [while_loop]
  simp only [hc, if_true, hb]
  exact hw

theorem mark_chain_body_step (n : Nat) (P : List Nat) (extra : Nat → Nat)
    (hP : ∀ r < n, rd P r < n) (r : Nat) (st : cyc_state)
    (hI : drain_inv n P extra st ∧ st.i < n ∧
      (∀ x < r, x ≠ st.i → rd st.permutation x = x ∨ 0 < rd st.n_used x) ∧
      (∀ x, rdb st.part_of_cycle x = false) ∧ st.part_of_cycle.length = n)
    (hc : chain_walk_cond st = true) :
    ∃ st', mark_cycle_parts_chain_body st = .ok st' ∧
      (drain_inv n P extra st' ∧ st'.i < n ∧
        (∀ x < r, x ≠ st'.i → rd st'.permutation x = x ∨ 0 < rd st'.n_used x) ∧
        (∀ x, rdb st'.part_of_cycle x = false) ∧ st'.part_of_cycle.length = n) ∧
      nonfix n st'.permutation < nonfix n st.permutation := by
  obtain ⟨hI, hi, hlow, hpoc, hpl⟩ := hI
  rw [chain_walk_cond_iff] at hc
  obtain ⟨h1, h2, h3⟩ := drain_inv_cut n P extra hP st hI hi hc.1 hc.2
  have hsl : st.i < st.permutation.length := by rw [hI.len_perm]; exact hi
  refine ⟨_, by simp only [mark_cycle_parts_chain_body, h2, gt_iff_lt, if_true],
    ⟨h3 (st.part_of_cycle.set st.i false) st.out, h1, ?_, ?_, ?_⟩, ?_⟩
  · intro x hx hxs
    simp only at hxs ⊢
    by_cases hxi : x = st.i
    · left; rw [hxi]; exact rd_set_same _ _ _ hsl
    · rw [rd_set_other _ _ _ _ (Ne.symm hxi), rd_set_other _ _ _ _ (Ne.symm hxs)]
      exact hlow x hx hxi
  · intro x
    simp only
    by_cases hxi : x = st.i
    · rw [hxi]; exact rdb_set_same _ _ _ (by rw [hpl]; exact hi)
    · rw [rdb_set_other _ _ _ _ (Ne.symm hxi)]; exact hpoc x
  · simp only [List.length_set]; exact hpl
  · have := nonfix_set_fix n st.permutation st.i hi hsl hc.2
    simp only; omega

theorem mark_drain_body_step (n : Nat) (P : List Nat) (extra : Nat → Nat)
    (hP : ∀ r < n, rd P r < n) (B : Nat) (hB : n < B) (st : cyc_state)
    (hI : drain_inv n P extra st ∧ st.i ≤ n ∧
      (∀ x < st.i, rd st.permutation x = x ∨ 0 < rd st.n_used x) ∧
      (∀ x, rdb st.part_of_cycle x = false) ∧ st.part_of_cycle.length = n)
    (hc : st.i < n) :
    ∃ st', mark_cycle_parts_drain_body B st = .ok st' ∧
      (drain_inv n P extra st' ∧ st'.i ≤ n ∧
        (∀ x < st'.i, rd st'.permutation x = x ∨ 0 < rd st'.n_used x) ∧
        (∀ x, rdb st'.part_of_cycle x = false) ∧ st'.part_of_cycle.length = n) ∧
      nonfix n st'.permutation + (n - st'.i) < nonfix n st.permutation + (n - st.i) := by
  obtain ⟨hI, hi, hlow, hpoc, hpl⟩ := hI
  unfold mark_cycle_parts_drain_body
  by_cases hk : rd st.permutation st.i = st.i ∨ rd st.n_used st.i > 0
  · simp only [hk, if_true]
    refine ⟨_, rfl, ⟨⟨hI.1, hI.2, hI.3, hI.4, hI.5, hI.6, hI.7⟩, hc, ?_, hpoc, hpl⟩, ?_⟩
    · intro x hx
      simp only at hx ⊢
      by_cases hxi : x = st.i
      · rw [hxi]; exact hk
      · exact hlow x (by omega)
    · simp only; omega
  · simp only [hk, if_false]
    have hcw : chain_walk_cond st = true := by
      rw [chain_walk_cond_iff]; push_neg at hk; exact ⟨by omega, hk.1⟩
    obtain ⟨t, hw, ⟨hIt, hit, hlowt, hpoct, hplt⟩, hct, hlt⟩ :=
      while_loop_total_dec chain_walk_cond mark_cycle_parts_chain_body _
        (fun t => nonfix n t.permutation)
        (mark_chain_body_step n P extra hP st.i) B st
        ⟨hI, hc, fun x hx _ => hlow x hx, hpoc, hpl⟩
        (lt_of_le_of_lt (nonfix_le n _) hB) hcw
    rw [hw]
    refine ⟨_, rfl, ⟨⟨hIt.1, hIt.2, hIt.3, hIt.4, hIt.5, hIt.6, hIt.7⟩, hi, ?_, hpoct, hplt⟩, ?_⟩
    · intro x hx
      simp only at hx ⊢
      by_cases hxi : x = t.i
      · have : ¬ (rd t.n_used t.i = 0 ∧ rd t.permutation t.i ≠ t.i) := by
          rw [← chain_walk_cond_iff, hct]; simp
        rw [hxi]
        by_cases h0 : rd t.permutation t.i = t.i
        · exact Or.inl h0
        · right; by_contra h1; exact this ⟨by omega, h0⟩
      · exact hlowt x hx hxi
    · simp only; omega

theorem periodic_of_preds (n : Nat) (f : Nat → Nat) (S : Nat → Prop) (hS : ∀ x, S x → x < n)
    (hpred : ∀ x, S x → ∃ d, S d ∧ f d = x) (x : Nat) (hx : S x) :
    ∃ k, 0 < k ∧ f^[k] x = x := by
  choose! g hg using hpred
  have hgS : ∀ k, S (g^[k] x) := by
    intro k
    induction k with
    | zero => exact hx
    | succ k ih => rw [Function.iterate_succ_apply']; exact (hg _ ih).1
  have hfg : ∀ k, f^[k] (g^[k] x) = x := by
    intro k
    induction k with
    | zero => rfl
    | succ k ih =>
      rw [Function.iterate_succ_apply, Function.iterate_succ_apply', (hg _ (hgS k)).2, ih]
  have key : ∀ i j, i < j → g^[i] x = g^[j] x → ∃ k, 0 < k ∧ f^[k] x = x := by
    intro i j hij h
    refine ⟨j - i, by omega, ?_⟩
    have h1 : f^[j] (g^[i] x) = x := by rw [h]; exact hfg j
    have hj : j = (j - i) + i := by omega
    rw [hj, Function.iterate_add_apply, hfg i] at h1
    exact h1
  obtain ⟨i, _, j, _, hne, h⟩ :=
    Finset.exists_ne_map_eq_of_card_lt_of_maps_to (s := Finset.range (n + 1))
      (t := Finset.range n) (by simp) (f := fun k => g^[k] x)
      (fun k _ => Finset.mem_range.mpr (hS _ (hgS k)))
  rcases Nat.lt_or_gt_of_ne hne with hlt | hlt
  · exact key i j hlt h
  · exact key j i hlt h.symm

theorem drained_on_cycle (n : Nat) (P : List Nat) (extra : Nat → Nat)
    (hfix : live_in_fixpoints n P extra) (st : cyc_state) (hI : drain_inv n P extra st)
    (hdone : ∀ x < n, rd st.permutation x = x ∨ 0 < rd st.n_used x) (x : Nat) (hx : x < n)
    (hne : rd st.permutation x ≠ x) : on_cycle P x := by
  have hPx : ∀ y, y < n → rd st.permutation y ≠ y → rd st.permutation y = rd P y := by
    intro y hy h
    rcases hI.perm_cases y hy with h1 | h1
    · exact h1
    · exact absurd h1 h
  refine ⟨by rw [← hPx x hx hne]; exact hne, ?_⟩
  refine periodic_of_preds n (rd P) (fun y => y < n ∧ rd st.permutation y ≠ y)
    (fun y hy => hy.1) ?_ x ⟨hx, hne⟩
  rintro y ⟨hy, hyne⟩
  have hpos : 0 < rd st.n_used y := by
    rcases hdone y hy with h | h
    · exact absurd h hyne
    · exact h
  have hex : extra y = 0 := by
    by_contra h
    have := hfix y hy (by omega)
    rw [hPx y hy hyne] at hyne
    exact hyne this
  have hr : 0 < readers n st.permutation y := by
    have := hI.exact y hy; omega
  obtain ⟨d, hd, hdy, hpd⟩ := (readers_pos_iff n _ y).mp hr
  have hdne : rd st.permutation d ≠ d := by rw [hpd]; exact Ne.symm hdy
  exact ⟨d, ⟨hd, hdne⟩, by rw [← hPx d hd hdne]; exact hpd⟩

theorem mark_drain_loop (n : Nat) (P U : List Nat) (extra : Nat → Nat)
    (hspec : parcopy_spec n P U extra) (B : Nat) (hB : 2 * n + 1 < B) :
    ∃ st, while_loop (fun st => decide (st.i < n)) (mark_cycle_parts_drain_body B) B
        { i := 0, part_of_cycle := List.replicate n false, permutation := P, n_used := U,
          out := [] } = .ok st ∧
      drain_inv n P extra st ∧
      (∀ x < n, rd st.permutation x = x ∨ 0 < rd st.n_used x) ∧
      (∀ x, rdb st.part_of_cycle x = false) ∧ st.part_of_cycle.length = n := by
  obtain ⟨hn, hlp, hlu, hP, hex, hsm⟩ := hspec
  obtain ⟨st, hw, ⟨hI, hi, hlow, hpoc, hpl⟩, hc⟩ :=
    while_loop_total (fun st => decide (st.i < n)) (mark_cycle_parts_drain_body B)
      (fun st => drain_inv n P extra st ∧ st.i ≤ n ∧
        (∀ x < st.i, rd st.permutation x = x ∨ 0 < rd st.n_used x) ∧
        (∀ x, rdb st.part_of_cycle x = false) ∧ st.part_of_cycle.length = n)
      (fun st => nonfix n st.permutation + (n - st.i))
      (fun st hI hc => mark_drain_body_step n P extra hP B (by omega) st hI (by simpa using hc))
      B { i := 0, part_of_cycle := List.replicate n false, permutation := P, n_used := U,
          out := [] }
      ⟨⟨hlp, hlu, fun x _ => Or.inl rfl, hex, hsm, fun x _ _ => rfl,
          fun x _ h1 h2 => absurd h1 h2⟩,
        Nat.zero_le _, fun x hx => absurd hx (Nat.not_lt_zero _),
        fun x => rdb_replicate_false n x, by simp⟩
      (by have := nonfix_le n P; simp only; omega)
  have hge : n ≤ st.i := by simpa using hc
  exact ⟨st, hw, hI, fun x hx => hlow x (by omega), hpoc, hpl⟩

theorem rest_inv_init (n : Nat) (P : List Nat) (extra : Nat → Nat)
    (hP : ∀ r < n, rd P r < n) (hfix : live_in_fixpoints n P extra) (st : cyc_state)
    (hI : drain_inv n P extra st)
    (hdone : ∀ x < n, rd st.permutation x = x ∨ 0 < rd st.n_used x)
    (hpoc : ∀ x, rdb st.part_of_cycle x = false) (hpl : st.part_of_cycle.length = n) (i : Nat) :
    rest_inv n P extra { st with i := i } := by
  have hcyc : ∀ d, d < n → rd st.permutation d ≠ d → on_cycle P d ∧ rd st.permutation d = rd P d :=
    fun d hd hne => ⟨drained_on_cycle n P extra hfix st hI hdone d hd hne,
      (hI.perm_cases d hd).resolve_right hne⟩
  have hex0 : ∀ x, x < n → rd P x ≠ x → extra x = 0 := by
    intro x hx hne
    by_contra h
    exact hne (hfix x hx (by omega))
  refine ⟨hI.len_perm, hpl, ?_, ?_, ?_, ?_, ?_⟩
  · intro x hx
    by_cases h : rd st.permutation x = x
    · exact Or.inl h
    · exact Or.inr ⟨(hcyc x hx h).2, (hcyc x hx h).1⟩
  · intro x hx hc
    obtain ⟨p, hp, hpc, hpx, hpne⟩ := on_cycle_pred n P hP x hx hc
    have h1 : readers n st.permutation x = 1 := by
      unfold readers
      rw [Finset.card_eq_one]
      refine ⟨p, ?_⟩
      ext d
      simp only [Finset.mem_filter, Finset.mem_range, Finset.mem_singleton]
      constructor
      · rintro ⟨hd, hdx, hpd⟩
        have hdne : rd st.permutation d ≠ d := by rw [hpd]; exact Ne.symm hdx
        obtain ⟨hdc, hdP⟩ := hcyc d hd hdne
        exact on_cycle_inj P d p hdc hpc (by rw [← hdP, hpd, hpx])
      · rintro rfl
        exact ⟨hp, hpne, by rw [hI.cyc_kept d hp hpc]; exact hpx⟩
    have := hI.exact x hx
    have := hex0 x hx hc.1
    simp only; omega
  · intro x hx hPx
    have h0 : readers n st.permutation x = 0 := by
      by_contra h
      obtain ⟨d, hd, hdx, hpd⟩ := (readers_pos_iff n st.permutation x).mp (by omega)
      have hdne : rd st.permutation d ≠ d := by rw [hpd]; exact Ne.symm hdx
      obtain ⟨hdc, hdP⟩ := hcyc d hd hdne
      have := on_cycle_succ P d hdc (by rw [← hdP]; exact hdne)
      rw [← hdP, hpd] at this
      exact this.1 hPx
    have := hI.exact x hx
    simp only; omega
  · intro x hx hne hnc
    have hfx : rd st.permutation x = x := by
      by_contra h
      exact hnc (hcyc x hx h).1
    exact hI.drained x hx hfx hne
  · intro x _ h
    simp only [hpoc x] at h
    exact absurd h (by simp)

theorem cycle_walk_cond_iff (st : cyc_state) :
    cycle_walk_cond st = true ↔ rd st.permutation st.i ≠ st.i := by
  simp [cycle_walk_cond]

theorem rdb_set_true (a : List Bool) (i x : Nat) (h : rdb a x = true) :
    rdb (a.set i true) x = true := by
  by_cases hx : x = i
  · subst hx
    by_cases hl : x < a.length
    · exact rdb_set_same _ _ _ hl
    · rw [List.set_eq_of_length_le (by omega)]; exact h
  · rw [rdb_set_other _ _ _ _ (Ne.symm hx)]; exact h

theorem mark_cycle_body_step (n : Nat) (P : List Nat) (extra : Nat → Nat)
    (hP : ∀ r < n, rd P r < n) (r : Nat) (st : cyc_state)
    (hI : rest_inv n P extra st ∧ st.i < n ∧
      (∀ x < r, on_cycle P x ∨ 0 < extra x → rdb st.part_of_cycle x = true))
    (hc : cycle_walk_cond st = true) :
    ∃ st', mark_cycle_parts_cycle_body st = .ok st' ∧
      (rest_inv n P extra st' ∧ st'.i < n ∧
        (∀ x < r, on_cycle P x ∨ 0 < extra x → rdb st'.part_of_cycle x = true)) ∧
      nonfix n st'.permutation < nonfix n st.permutation := by
  obtain ⟨hI, hi, hlow⟩ := hI
  rw [cycle_walk_cond_iff] at hc
  have hsl : st.i < st.permutation.length := by rw [hI.len_perm]; exact hi
  have hcs : rd st.permutation st.i = rd P st.i ∧ on_cycle P st.i :=
    (hI.perm_cases st.i hi).resolve_left hc
  refine ⟨_, rfl, ⟨⟨?_, ?_, ?_, hI.cyc_one, hI.fix_extra, hI.chain_zero, ?_⟩, ?_, ?_⟩, ?_⟩
  · simp only [List.length_set]; exact hI.len_perm
  · simp only [List.length_set]; exact hI.len_poc
  · intro x hx
    simp only [rd_set _ _ _ _ hsl]
    by_cases hxs : x = st.i
    · simp [hxs]
    · simp only [hxs, if_false]; exact hI.perm_cases x hx
  · intro x hx
    simp only
    by_cases hxs : x = st.i
    · intro _; rw [hxs]; exact Or.inl hcs.2
    · rw [rdb_set_other _ _ _ _ (Ne.symm hxs)]; exact hI.poc_sound x hx
  · simp only; rw [hcs.1]; exact hP _ hi
  · intro x hx h
    exact rdb_set_true _ _ _ (hlow x hx h)
  · have := nonfix_set_fix n st.permutation st.i hi hsl hc
    simp only; omega

theorem mark_rest_body_step (n : Nat) (P : List Nat) (extra : Nat → Nat)
    (hP : ∀ r < n, rd P r < n) (hfix : live_in_fixpoints n P extra) (B : Nat) (hB : n < B)
    (st : cyc_state)
    (hI : rest_inv n P extra st ∧ st.i ≤ n ∧
      (∀ x < st.i, on_cycle P x ∨ 0 < extra x → rdb st.part_of_cycle x = true))
    (hc : st.i < n) :
    ∃ st', mark_cycle_parts_rest_body B st = .ok st' ∧
      (rest_inv n P extra st' ∧ st'.i ≤ n ∧
        (∀ x < st'.i, on_cycle P x ∨ 0 < extra x → rdb st'.part_of_cycle x = true)) ∧
      nonfix n st'.permutation + (n - st'.i) < nonfix n st.permutation + (n - st.i) := by
  obtain ⟨hI, hi, hlow⟩ := hI
  unfold mark_cycle_parts_rest_body
  by_cases hk : rd st.permutation st.i = st.i
  · simp only [hk, if_true]
    have hnu : on_cycle P st.i ∨ 0 < extra st.i → 0 < rd st.n_used st.i := by
      rintro (h | h)
      · rw [hI.cyc_one _ hc h]; exact Nat.one_pos
      · rw [hI.fix_extra _ hc (hfix _ hc h)]; exact h
    have hun : 0 < rd st.n_used st.i → on_cycle P st.i ∨ 0 < extra st.i := by
      intro h
      by_cases h1 : rd P st.i = st.i
      · right; rw [← hI.fix_extra _ hc h1]; exact h
      · by_cases h2 : on_cycle P st.i
        · exact Or.inl h2
        · have := hI.chain_zero _ hc h1 h2; omega
    refine ⟨_, rfl, ⟨⟨hI.len_perm, ?_, hI.perm_cases, hI.cyc_one, hI.fix_extra, hI.chain_zero,
      ?_⟩, hc, ?_⟩, ?_⟩
    · simp only; split_ifs
      · simp only [List.length_set]; exact hI.len_poc
      · exact hI.len_poc
    · intro x hx
      simp only
      split_ifs with h0
      · by_cases hxs : x = st.i
        · intro _; rw [hxs]; exact hun h0
        · rw [rdb_set_other _ _ _ _ (Ne.symm hxs)]; exact hI.poc_sound x hx
      · exact hI.poc_sound x hx
    · intro x hx h
      simp only at hx ⊢
      by_cases hxs : x = st.i
      · rw [hxs] at h ⊢
        rw [if_pos (hnu h)]
        exact rdb_set_same _ _ _ (by rw [hI.len_poc]; exact hc)
      · have := hlow x (by omega) h
        split_ifs
        · exact rdb_set_true _ _ _ this
        · exact this
    · simp only; omega
  · simp only [hk, if_false]
    have hcs := (hI.perm_cases st.i hc).resolve_left hk
    simp only [hI.cyc_one _ hc hcs.2, if_true]
    obtain ⟨t, hw, ⟨hIt, hit, hlowt⟩, hct, hlt⟩ :=
      while_loop_total_dec cycle_walk_cond mark_cycle_parts_cycle_body _
        (fun t => nonfix n t.permutation)
        (mark_cycle_body_step n P extra hP st.i) B st
        ⟨hI, hc, hlow⟩ (lt_of_le_of_lt (nonfix_le n _) hB)
        ((cycle_walk_cond_iff st).mpr hk)
    rw [hw]
    refine ⟨_, rfl, ⟨⟨hIt.1, hIt.2, hIt.3, hIt.4, hIt.5, hIt.6, hIt.7⟩, hi, hlowt⟩, ?_⟩
    simp only; omega

theorem mark_cycle_parts_spec (n : Nat) (P U : List Nat) (extra : Nat → Nat)
    (hspec : parcopy_spec n P U extra) (hfix : live_in_fixpoints n P extra)
    (B : Nat) (hB : 2 * n + 1 < B) :
    ∃ poc, mark_cycle_parts B n P U = .ok poc ∧ poc.length = n ∧
      ∀ x < n, rdb poc x = true ↔ on_cycle P x ∨ 0 < extra x := by
  obtain ⟨st1, hw1, hI1, hdone, hpoc, hpl⟩ := mark_drain_loop n P U extra hspec B hB
  have hP := hspec.2.2.2.1
  obtain ⟨st2, hw2, ⟨hI2, hi2, hlow2⟩, hc2⟩ :=
    while_loop_total (fun st => decide (st.i < n)) (mark_cycle_parts_rest_body B)
      (fun st => rest_inv n P extra st ∧ st.i ≤ n ∧
        (∀ x < st.i, on_cycle P x ∨ 0 < extra x → rdb st.part_of_cycle x = true))
      (fun st => nonfix n st.permutation + (n - st.i))
      (fun st hI hc => mark_rest_body_step n P extra hP hfix B (by omega) st hI
        (by simpa using hc))
      B { st1 with i := 0 }
      ⟨rest_inv_init n P extra hP hfix st1 hI1 hdone hpoc hpl 0, Nat.zero_le _,
        fun x hx => absurd hx (Nat.not_lt_zero _)⟩
      (by have := nonfix_le n st1.permutation; simp only; omega)
  have hge : n ≤ st2.i := by simpa using hc2
  refine ⟨st2.part_of_cycle, ?_, hI2.len_poc, fun x hx =>
    ⟨hI2.poc_sound x hx, hlow2 x (by omega)⟩⟩
  unfold mark_cycle_parts
  simp only [hw1, hw2]

theorem while_loop_sim {σ τ : Type} (R : σ → τ → Prop) (c1 : σ → Bool)
    (b1 : σ → Except Fault σ) (c2 : τ → Bool) (b2 : τ → Except Fault τ)
    (hc : ∀ s t, R s t → c1 s = c2 t)
    (hb : ∀ s t s', R s t → c1 s = true → b1 s = .ok s' → ∃ t', b2 t = .ok t' ∧ R s' t') :
    ∀ fuel s t s', R s t → while_loop c1 b1 fuel s = .ok s' →
      ∃ t', while_loop c2 b2 fuel t = .ok t' ∧ R s' t' := by
  intro fuel
  induction fuel with
  | zero => intro s t s' _ h; simp [while_loop] at h
  | succ fuel ih =>
    intro s t s' hR h
    unfold while_loop at h ⊢
    by_cases hcs : c1 s = true
    · simp only [hcs, if_true] at h
      rw [← hc s t hR, hcs]
      simp only [if_true]
      cases hb1 : b1 s with
      | error e => rw [hb1] at h; simp at h
      | ok s1 =>
        rw [hb1] at h
        obtain ⟨t1, ht1, hR1⟩ := hb s t s1 hR hcs hb1
        rw [ht1]
        exact ih s1 t1 s' hR1 h
    · simp only [hcs] at h
      rw [← hc s t hR]
      simp only [hcs]
      injection h with h
      subst h
      exact ⟨t, rfl, hR⟩

theorem chain_body_sim (s t s' : cyc_state) (hR : same_walk s t)
    (h : mark_cycle_parts_chain_body s = .ok s') :
    ∃ t', print_parcopy_chain_body t = .ok t' ∧ same_walk s' t' := by
  obtain ⟨si, sc, sp, su, so⟩ := s
  obtain ⟨ti, tc, tp, tu, tout⟩ := t
  obtain ⟨h1, h2, h3⟩ := hR
  simp only at h1 h2 h3
  subst h1 h2 h3
  simp only [mark_cycle_parts_chain_body] at h
  simp only [print_parcopy_chain_body]
  split_ifs at h ⊢ with h0
  injection h with h
  subst h
  exact ⟨_, rfl, rfl, rfl, rfl⟩

theorem chain_cond_sim (s t : cyc_state) (hR : same_walk s t) :
    chain_walk_cond s = chain_walk_cond t := by
  obtain ⟨h1, h2, h3⟩ := hR
  unfold chain_walk_cond
  rw [h1, h2, h3]

theorem cycle_cond_sim (s t : cyc_state) (hR : same_walk s t) :
    cycle_walk_cond s = cycle_walk_cond t := by
  obtain ⟨h1, h2, h3⟩ := hR
  unfold cycle_walk_cond
  rw [h1, h2]

theorem cycle_body_sim (s t s' : cyc_state) (hR : same_walk s t)
    (h : mark_cycle_parts_cycle_body s = .ok s') :
    ∃ t', print_parcopy_cycle_body t = .ok t' ∧ same_walk s' t' := by
  obtain ⟨si, sc, sp, su, so⟩ := s
  obtain ⟨ti, tc, tp, tu, tout⟩ := t
  obtain ⟨h1, h2, h3⟩ := hR
  simp only at h1 h2 h3
  subst h1 h2 h3
  simp only [mark_cycle_parts_cycle_body] at h
  simp only [print_parcopy_cycle_body]
  injection h with h
  subst h
  exact ⟨_, rfl, rfl, rfl, rfl⟩

theorem drain_body_sim (B : Nat) (s t s' : cyc_state) (hR : same_walk s t)
    (h : mark_cycle_parts_drain_body B s = .ok s') :
    ∃ t', print_parcopy_drain_body B t = .ok t' ∧ same_walk s' t' := by
  obtain ⟨si, sc, sp, su, so⟩ := s
  obtain ⟨ti, tc, tp, tu, tout⟩ := t
  obtain ⟨h1, h2, h3⟩ := hR
  simp only at h1 h2 h3
  subst h1 h2 h3
  simp only [mark_cycle_parts_drain_body] at h
  simp only [print_parcopy_drain_body]
  by_cases hk : rd sp si = si ∨ rd su si > 0
  · simp only [hk, if_true] at h ⊢
    injection h with h
    subst h
    exact ⟨_, rfl, rfl, rfl, rfl⟩
  · simp only [hk, if_false] at h ⊢
    cases hw : while_loop chain_walk_cond mark_cycle_parts_chain_body B
        { i := si, part_of_cycle := sc, permutation := sp, n_used := su, out := so } with
    | error e => rw [hw] at h; simp at h
    | ok s1 =>
      rw [hw] at h
      injection h with h
      subst h
      obtain ⟨t1, ht1, hR1⟩ := while_loop_sim same_walk chain_walk_cond
        mark_cycle_parts_chain_body chain_walk_cond print_parcopy_chain_body
        chain_cond_sim (fun a b a' hab _ hm => chain_body_sim a b a' hab hm)
        B { i := si, part_of_cycle := sc, permutation := sp, n_used := su, out := so }
        { i := si, part_of_cycle := tc, permutation := sp, n_used := su,
              out := [si] :: tout } s1 ⟨rfl, rfl, rfl⟩ hw
      rw [ht1]
      exact ⟨_, rfl, rfl, hR1.2.1, hR1.2.2⟩

theorem rest_body_sim (B : Nat) (s t s' : cyc_state) (hR : same_walk s t)
    (h : mark_cycle_parts_rest_body B s = .ok s') :
    ∃ t', print_parcopy_rest_body B t = .ok t' ∧ same_walk s' t' := by
  obtain ⟨si, sc, sp, su, so⟩ := s
  obtain ⟨ti, tc, tp, tu, tout⟩ := t
  obtain ⟨h1, h2, h3⟩ := hR
  simp only at h1 h2 h3
  subst h1 h2 h3
  simp only [mark_cycle_parts_rest_body] at h
  simp only [print_parcopy_rest_body]
  by_cases hk : rd sp si = si
  · simp only [hk, if_true] at h ⊢
    injection h with h
    subst h
    exact ⟨_, rfl, rfl, rfl, rfl⟩
  · simp only [hk, if_false] at h ⊢
    by_cases h1u : rd su si = 1
    · simp only [h1u, if_true] at h ⊢
      cases hw : while_loop cycle_walk_cond mark_cycle_parts_cycle_body B
          { i := si, part_of_cycle := sc, permutation := sp, n_used := su, out := so } with
      | error e => rw [hw] at h; simp at h
      | ok s1 =>
        rw [hw] at h
        injection h with h
        subst h
        obtain ⟨t1, ht1, hR1⟩ := while_loop_sim same_walk cycle_walk_cond
          mark_cycle_parts_cycle_body cycle_walk_cond print_parcopy_cycle_body
          cycle_cond_sim (fun a b a' hab _ hm => cycle_body_sim a b a' hab hm)
          B { i := si, part_of_cycle := sc, permutation := sp, n_used := su, out := so }
          { i := si, part_of_cycle := tc, permutation := sp, n_used := su,
                out := [] :: tout } s1 ⟨rfl, rfl, rfl⟩ hw
        rw [ht1]
        exact ⟨_, rfl, rfl, hR1.2.1, hR1.2.2⟩
    · simp only [h1u, if_false] at h
      simp at h

theorem print_parcopy_of_mark (B n : Nat) (P U : List Nat) (poc : List Bool)
    (h : mark_cycle_parts B n P U = .ok poc) : ∃ out, print_parcopy B n P U = .ok out := by
  unfold mark_cycle_parts at h
  unfold print_parcopy
  simp only at h ⊢
  cases hw1 : while_loop (fun st => decide (st.i < n)) (mark_cycle_parts_drain_body B) B
      { i := 0, part_of_cycle := List.replicate n false, permutation := P, n_used := U,
        out := [] } with
  | error e => rw [hw1] at h; simp at h
  | ok s1 =>
    rw [hw1] at h
    simp only at h
    obtain ⟨t1, ht1, hR1⟩ := while_loop_sim same_walk (fun st => decide (st.i < n))
      (mark_cycle_parts_drain_body B) (fun st => decide (st.i < n)) (print_parcopy_drain_body B)
      (fun a b hab => by simp only [hab.1])
      (fun a b a' hab _ hm => drain_body_sim B a b a' hab hm)
      B { i := 0, part_of_cycle := List.replicate n false, permutation := P, n_used := U,
          out := [] }
      { i := 0, part_of_cycle := [], permutation := P, n_used := U, out := [] } s1
      ⟨rfl, rfl, rfl⟩ hw1
    rw [ht1]
    simp only
    cases hw2 : while_loop (fun st => decide (st.i < n)) (mark_cycle_parts_rest_body B) B
        { s1 with i := 0 } with
    | error e => rw [hw2] at h; simp at h
    | ok s2 =>
      obtain ⟨t2, ht2, hR2⟩ := while_loop_sim same_walk (fun st => decide (st.i < n))
        (mark_cycle_parts_rest_body B) (fun st => decide (st.i < n)) (print_parcopy_rest_body B)
        (fun a b hab => by simp only [hab.1])
        (fun a b a' hab _ hm => rest_body_sim B a b a' hab hm)
        B { s1 with i := 0 } { t1 with i := 0 } s2 ⟨rfl, hR1.2.1, hR1.2.2⟩ hw2
      rw [ht2]
      exact ⟨_, rfl⟩

theorem exec_restores_append {α : Type} (R : List (Nat × Nat)) (s d : Nat) (e : Nat → α) :
    exec_restores (R ++ [(s, d)]) e
      = Function.update (exec_restores R e) d (exec_restores R e s) := by
  simp [exec_restores, List.foldl_append]

theorem exec_restores_agree {α : Type} (d : Nat) (R : List (Nat × Nat))
    (hsrc : ∀ p ∈ R, p.1 ≠ d) (e e' : Nat → α) (hag : ∀ x, x ≠ d → e' x = e x) :
    ∀ x, x ≠ d → exec_restores R e' x = exec_restores R e x := by
  induction R generalizing e e' with
  | nil => exact hag
  | cons p R ih =>
    intro x hx
    simp only [exec_restores, List.foldl_cons]
    refine ih (fun q hq => hsrc q (List.mem_cons_of_mem _ hq)) _ _ ?_ x hx
    intro y hy
    have hp : p.1 ≠ d := hsrc p (List.mem_cons_self _ _)
    by_cases hyp : y = p.2
    · subst hyp; simp only [Function.update_same]; exact hag _ hp
    · simp only [Function.update_noteq hyp]; exact hag y hy

theorem exec_parcopy_set {α : Type} (Q : List Nat) (d : Nat) (σ : Nat → α) (x : Nat)
    (hx : x ≠ d) : exec_parcopy (Q.set d d) σ x = exec_parcopy Q σ x := by
  simp only [exec_parcopy, List.length_set, rd_set_other _ _ _ _ (Ne.symm hx)]

theorem sem_step (n : Nat) (P Q : List Nat) (R : List (Nat × Nat)) (s d : Nat)
    (hsem : ∀ (α : Type) (σ : Nat → α) (r : Nat), r < n →
      exec_restores R (exec_parcopy Q σ) r = σ (rd P r))
    (hs : s < n) (hsd : s ≠ d) (hsrc : ∀ p ∈ R, p.1 ≠ d) (hP : rd P s = rd P d) :
    ∀ (α : Type) (σ : Nat → α) (r : Nat), r < n →
      exec_restores (R ++ [(s, d)]) (exec_parcopy (Q.set d d) σ) r = σ (rd P r) := by
  intro α σ r hr
  have hag := exec_restores_agree d R hsrc (exec_parcopy Q σ) (exec_parcopy (Q.set d d) σ)
    (fun x hx => exec_parcopy_set Q d σ x hx)
  rw [exec_restores_append]
  by_cases hrd : r = d
  · subst hrd
    rw [Function.update_same, hag s hsd, hsem α σ s hs, hP]
  · rw [Function.update_noteq hrd, hag r hrd, hsem α σ r hr]

theorem pc_inv_init (n : Nat) (P U : List Nat) (extra : Nat → Nat)
    (hspec : parcopy_spec n P U extra) (ln r : Nat) :
    pc_inv n P extra ln { parcopy := P, n_used := U, restores := [], r := r } := by
  obtain ⟨hn, hlp, hlu, hP, hex, hsm⟩ := hspec
  refine ⟨hlp, hlu, fun x _ => Or.inl rfl, fun x _ _ => rfl, hex, hsm, ?_, ?_, ?_⟩
  · intro p hp; simp at hp
  · intro p hp; simp at hp
  · intro α σ r hr
    simp only [exec_restores, List.foldl_nil, exec_parcopy, hlp, hr, if_true]

theorem pc_inv_reroute (n : Nat) (P : List Nat) (extra : Nat → Nat) (ln : Nat) (st : pc_state)
    (hI : pc_inv n P extra ln st) (s d : Nat) (hs : s < n) (hd : d < n)
    (hne : rd st.parcopy d ≠ d) (hlt : rd st.parcopy d < n)
    (hdK : ¬ in_cycle_part P extra d)
    (hsrc : ∀ p ∈ st.restores, p.1 ≠ d) (hPs : rd P s = rd P d)
    (hsok : in_cycle_part P extra s ∨ (s ≠ d ∧ rd st.parcopy s ≠ s ∧ s = ln)) (r : Nat) :
    pc_inv n P extra ln
      { parcopy := st.parcopy.set d d,
        n_used := st.n_used.set (rd st.parcopy d) (u32_dec (rd st.n_used (rd st.parcopy d))),
        restores := st.restores ++ [(s, d)], r := r } := by
  obtain ⟨hlq, hlv, hcs, hkp, hex, hsm, hsl, hso, hsem⟩ := hI
  have hdl : d < st.parcopy.length := by rw [hlq]; exact hd
  have hfl : rd st.parcopy d < st.n_used.length := by rw [hlv]; exact hlt
  have hrd : 0 < readers n st.parcopy (rd st.parcopy d) :=
    (readers_pos_iff n _ _).mpr ⟨d, hd, Ne.symm hne, rfl⟩
  have hpos : 0 < rd st.n_used (rd st.parcopy d) := by rw [hex _ hlt]; omega
  have hdec := u32_dec_pos _ hpos (hsm _ hlt)
  have hsd : s ≠ d := by
    rcases hsok with h | h
    · intro e; rw [e] at h; exact hdK h
    · exact h.1
  have hle : ∀ x, rd (st.n_used.set (rd st.parcopy d)
      (u32_dec (rd st.n_used (rd st.parcopy d)))) x ≤ rd st.n_used x := by
    intro x
    rw [rd_set _ _ _ _ hfl, hdec]
    split_ifs with h
    · rw [h]; omega
    · exact le_refl _
  constructor
  · simp only [List.length_set]; exact hlq
  · simp only [List.length_set]; exact hlv
  · intro x hx
    simp only [rd_set _ _ _ _ hdl]
    by_cases hxd : x = d
    · simp [hxd]
    · simp only [hxd, if_false]; exact hcs x hx
  · intro x hx hK
    have hxd : x ≠ d := by intro e; rw [e] at hK; exact hdK hK
    simp only [rd_set_other _ _ _ _ (Ne.symm hxd)]
    exact hkp x hx hK
  · intro x hx
    simp only [rd_set _ _ _ _ hfl, readers_set_cut n _ d _ x hd hdl rfl hne, hdec]
    have := hex x hx
    by_cases hxs : x = rd st.parcopy d
    · rw [← hxs] at hrd ⊢; simp only [if_true]; omega
    · simp only [hxs, if_false]; exact this
  · intro x hx
    exact lt_of_le_of_lt (hle x) (hsm x hx)
  · intro p hp
    rcases List.mem_append.mp hp with h | h
    · exact hsl p h
    · simp only [List.mem_singleton] at h; rw [h]; exact hs
  · intro p hp
    simp only
    rcases List.mem_append.mp hp with h | h
    · rcases hso p h with h1 | ⟨h1, h2⟩
      · exact Or.inl h1
      · right
        have hpd : p.1 ≠ d := hsrc p h
        rw [rd_set_other _ _ _ _ (Ne.symm hpd)]
        refine ⟨h1, ?_⟩
        rcases h2 with h2 | h2
        · exact Or.inl (le_trans (hle _) h2)
        · exact Or.inr h2
    · simp only [List.mem_singleton] at h
      rw [h]
      rcases hsok with h1 | ⟨h1, h2, h3⟩
      · exact Or.inl h1
      · right
        simp only
        rw [rd_set_other _ _ _ _ (Ne.symm h1)]
        exact ⟨h2, Or.inr h3⟩
  · exact sem_step n P st.parcopy st.restores s d hsem hs hsd hsrc hPs

theorem find_new_src_spec (n : Nat) (Q : List Nat) (poc : List Bool) (from_reg : Nat)
    (hex : ∃ src, src < n ∧ rd Q src = from_reg ∧ rdb poc src = true) :
    find_new_src n Q poc from_reg < n ∧ rd Q (find_new_src n Q poc from_reg) = from_reg ∧
      rdb poc (find_new_src n Q poc from_reg) = true := by
  unfold find_new_src
  cases h : (List.range n).find?
      (fun src => decide (rd Q src = from_reg) && rdb poc src) with
  | none =>
    exfalso
    obtain ⟨src, h1, h2, h3⟩ := hex
    rw [List.find?_eq_none] at h
    have := h src (List.mem_range.mpr h1)
    simp [h2, h3] at this
  | some s =>
    have h1 := List.find?_some h
    have h2 := List.mem_range.mp (List.mem_of_find?_eq_some h)
    simp only [Bool.and_eq_true, decide_eq_true_eq] at h1
    exact ⟨h2, h1.1, h1.2⟩

theorem out_of_cycle_body_step (n : Nat) (P : List Nat) (extra : Nat → Nat)
    (hn : n < 4294967296) (hP : ∀ r < n, rd P r < n) (hfix : live_in_fixpoints n P extra)
    (poc : List Bool) (hpoc : ∀ x < n, rdb poc x = true ↔ in_cycle_part P extra x)
    (k : Nat) (st : pc_state) (hk : k < n)
    (hI : pc_inv n P extra n st ∧ cut_off P extra k st.parcopy ∧
      ∀ p ∈ st.restores, in_cycle_part P extra p.1) :
    ∃ st', out_of_cycle_body n poc k st = .ok st' ∧
      (pc_inv n P extra n st' ∧ cut_off P extra (k + 1) st'.parcopy ∧
        ∀ p ∈ st'.restores, in_cycle_part P extra p.1) := by
  obtain ⟨hI, hcut, hsK⟩ := hI
  unfold out_of_cycle_body
  have hsame : ¬ (rd st.parcopy k ≠ k ∧ in_cycle_part P extra (rd st.parcopy k) ∧
      ¬ in_cycle_part P extra k) → cut_off P extra (k + 1) st.parcopy := by
    intro hnot x hx hxK hne
    by_cases hxk : x = k
    · subst hxk
      intro hK
      exact hnot ⟨hne, hK, hxK⟩
    · exact hcut x (by omega) hxK hne
  by_cases h1 : rd st.parcopy k = k
  · simp only [h1, if_true]
    exact ⟨st, rfl, hI, hsame (fun h => h.1 h1), hsK⟩
  · simp only [h1, if_false]
    have hfl : rd st.parcopy k < n := by
      rcases hI.cases k hk with h | h
      · rw [h]; exact hP k hk
      · exact absurd h h1
    by_cases h2 : (rdb poc (rd st.parcopy k) && !rdb poc k) = true
    · simp only [h2, if_true]
      simp only [Bool.and_eq_true, Bool.not_eq_true', ← Bool.not_eq_true] at h2
      have hKf : in_cycle_part P extra (rd st.parcopy k) := (hpoc _ hfl).mp h2.1
      have hKk : ¬ in_cycle_part P extra k := fun h => h2.2 ((hpoc k hk).mpr h)
      have hex : ∃ src, src < n ∧ rd st.parcopy src = rd st.parcopy k ∧ rdb poc src = true := by
        rcases hKf with hc | he
        · obtain ⟨p, hp, hpc, hpx, _⟩ := on_cycle_pred n P hP _ hfl hc
          exact ⟨p, hp, by rw [hI.kept p hp (Or.inl hpc)]; exact hpx,
            (hpoc p hp).mpr (Or.inl hpc)⟩
        · refine ⟨rd st.parcopy k, hfl, ?_, h2.1⟩
          rw [hI.kept _ hfl (Or.inr he)]
          exact hfix _ hfl he
      obtain ⟨hs, hQs, hps⟩ := find_new_src_spec n st.parcopy poc _ hex
      have hsK' : in_cycle_part P extra (find_new_src n st.parcopy poc (rd st.parcopy k)) :=
        (hpoc _ hs).mp hps
      have hne : find_new_src n st.parcopy poc (rd st.parcopy k) ≠ UINT_MAX := by
        unfold UINT_MAX; omega
      simp only [ne_eq, hne, not_false_eq_true, if_true]
      refine ⟨_, rfl, ?_, ?_, ?_⟩
      · refine pc_inv_reroute n P extra n st hI _ k hs hk h1 hfl hKk ?_ ?_ (Or.inl hsK') st.r
        · intro p hp e
          rw [← e] at hKk
          exact hKk (hsK p hp)
        · rw [← hI.kept _ hs hsK', hQs]
          exact (hI.cases k hk).resolve_right h1
      · intro x hx hxK hne'
        simp only at hne' ⊢
        by_cases hxk : x = k
        · subst hxk
          exact absurd (rd_set_same _ _ _ (by rw [hI.len_Q]; exact hk)) hne'
        · rw [rd_set_other _ _ _ _ (Ne.symm hxk)] at hne' ⊢
          exact hcut x (by omega) hxK hne'
      · intro p hp
        rcases List.mem_append.mp hp with h | h
        · exact hsK p h
        · simp only [List.mem_singleton] at h; rw [h]; exact hsK'
    · simp only [h2]
      refine ⟨st, rfl, hI, hsame ?_, hsK⟩
      rintro ⟨_, hK1, hK2⟩
      apply h2
      simp only [Bool.and_eq_true, Bool.not_eq_true', ← Bool.not_eq_true]
      exact ⟨(hpoc _ hfl).mpr hK1, fun h => hK2 ((hpoc k hk).mp h)⟩

theorem out_of_cycle_loop (n : Nat) (P U : List Nat) (extra : Nat → Nat)
    (hspec : parcopy_spec n P U extra) (hfix : live_in_fixpoints n P extra)
    (poc : List Bool) (hpoc : ∀ x < n, rdb poc x = true ↔ in_cycle_part P extra x) :
    ∃ st, for_loop (out_of_cycle_body n poc) n
        { parcopy := P, n_used := U, restores := [], r := 0 } = .ok st ∧
      pc_inv n P extra n st ∧ cut_off P extra n st.parcopy := by
  obtain ⟨st, h, hI, hcut, _⟩ :=
    for_loop_total (out_of_cycle_body n poc)
      (fun k st => pc_inv n P extra n st ∧ cut_off P extra k st.parcopy ∧
        ∀ p ∈ st.restores, in_cycle_part P extra p.1) n
      (fun k st hk hI => out_of_cycle_body_step n P extra hspec.1 hspec.2.2.2.1 hfix poc hpoc
        k st hk hI)
      { parcopy := P, n_used := U, restores := [], r := 0 }
      ⟨pc_inv_init n P U extra hspec n 0, fun x hx => absurd hx (Nat.not_lt_zero _),
        fun p hp => by simp at hp⟩
  exact ⟨st, h, hI, hcut⟩

theorem exists_rank (n : Nat) (P : List Nat) (hP : ∀ r < n, rd P r < n) :
    ∃ rk : Nat → Nat, (∀ x < n, rk x ≤ n) ∧
      ∀ x < n, rd P x ≠ x → ¬ on_cycle P x → rk (rd P x) < rk x := by
  classical
  have hex : ∀ x, x < n → ∃ i, i ≤ n ∧ ∃ k, 0 < k ∧ (rd P)^[k] ((rd P)^[i] x) = (rd P)^[i] x := by
    intro x hx
    obtain ⟨i, hi, j, hj, hne, h⟩ :=
      Finset.exists_ne_map_eq_of_card_lt_of_maps_to (s := Finset.range (n + 1))
        (t := Finset.range n) (by simp) (f := fun k => (rd P)^[k] x)
        (fun k _ => Finset.mem_range.mpr (iterate_lt n P hP k x hx))
    simp only [Finset.mem_coe, Finset.mem_range] at hi hj h
    have key : ∀ a b, a < b → b < n + 1 → (rd P)^[a] x = (rd P)^[b] x →
        ∃ i, i ≤ n ∧ ∃ k, 0 < k ∧ (rd P)^[k] ((rd P)^[i] x) = (rd P)^[i] x := by
      intro a b hab hb e
      refine ⟨a, by omega, b - a, by omega, ?_⟩
      rw [← Function.iterate_add_apply, Nat.sub_add_cancel (le_of_lt hab)]
      exact e.symm
    rcases Nat.lt_or_gt_of_ne hne with hlt | hlt
    · exact key i j hlt hj h
    · exact key j i hlt hi h.symm
  refine ⟨fun x => if h : ∃ i, ∃ k, 0 < k ∧ (rd P)^[k] ((rd P)^[i] x) = (rd P)^[i] x
    then Nat.find h else 0, ?_, ?_⟩
  · intro x hx
    obtain ⟨i, hi, hper⟩ := hex x hx
    simp only
    rw [dif_pos ⟨i, hper⟩]
    exact le_trans (Nat.find_min' _ hper) hi
  · intro x hx hne hnc
    have h1 : ∃ i, ∃ k, 0 < k ∧ (rd P)^[k] ((rd P)^[i] x) = (rd P)^[i] x := by
      obtain ⟨i, _, hper⟩ := hex x hx
      exact ⟨i, hper⟩
    have h2 : ∃ i, ∃ k, 0 < k ∧ (rd P)^[k] ((rd P)^[i] (rd P x)) = (rd P)^[i] (rd P x) := by
      obtain ⟨i, _, hper⟩ := hex (rd P x) (hP x hx)
      exact ⟨i, hper⟩
    simp only
    rw [dif_pos h1, dif_pos h2]
    have hspec := Nat.find_spec h1
    obtain ⟨m, hm⟩ : ∃ m, Nat.find h1 = m + 1 := by
      refine ⟨Nat.find h1 - 1, ?_⟩
      have : Nat.find h1 ≠ 0 := by
        intro e
        rw [e] at hspec
        exact hnc ⟨hne, hspec⟩
      omega
    rw [hm] at hspec ⊢
    simp only [Function.iterate_succ_apply] at hspec
    exact Nat.lt_succ_of_le (Nat.find_min' h2 hspec)

theorem unmarked_facts (n : Nat) (P : List Nat) (extra : Nat → Nat)
    (hP : ∀ r < n, rd P r < n) (hfix : live_in_fixpoints n P extra) (ln : Nat) (st : pc_state)
    (hI : pc_inv n P extra ln st) :
    (∀ x < n, rd st.parcopy x < n) ∧
    (∀ x < n, rd st.parcopy x ≠ x → rd st.parcopy x = rd P x ∧ extra x = 0) ∧
    (∀ x < n, rd st.parcopy x ≠ x → rd st.n_used x = 0 → ¬ in_cycle_part P extra x) ∧
    (∀ x < n, ¬ in_cycle_part P extra x → rd st.n_used x = readers n st.parcopy x) ∧
    (∀ x < n, ¬ in_cycle_part P extra x → ∀ y < n, y ≠ x → rd st.parcopy y = x →
      ¬ in_cycle_part P extra y) := by
  have h2 : ∀ x < n, rd st.parcopy x ≠ x → rd st.parcopy x = rd P x ∧ extra x = 0 := by
    intro x hx hne
    have hQ := (hI.cases x hx).resolve_right hne
    refine ⟨hQ, ?_⟩
    by_contra h
    exact hne (by rw [hQ]; exact hfix x hx (by omega))
  refine ⟨?_, h2, ?_, ?_, ?_⟩
  · intro x hx
    rcases hI.cases x hx with h | h
    · rw [h]; exact hP x hx
    · rw [h]; exact hx
  · intro x hx hne h0 hK
    rcases hK with hc | he
    · obtain ⟨p, hp, hpc, hpx, hpne⟩ := on_cycle_pred n P hP x hx hc
      have : 0 < readers n st.parcopy x :=
        (readers_pos_iff n st.parcopy x).mpr
          ⟨p, hp, hpne, by rw [hI.kept p hp (Or.inl hpc)]; exact hpx⟩
      have := hI.exact x hx
      omega
    · have := (h2 x hx hne).2; omega
  · intro x hx hK
    have : extra x = 0 := by
      by_contra h
      exact hK (Or.inr (by omega))
    rw [hI.exact x hx, this, Nat.add_zero]
  · intro x hx hK y hy hyx hQy hKy
    have hne : rd st.parcopy y ≠ y := by rw [hQy]; exact Ne.symm hyx
    rcases hKy with hc | he
    · apply hK
      left
      have := on_cycle_succ P y hc hc.1
      rw [← (h2 y hy hne).1, hQy] at this
      exact this
    · have := (h2 y hy hne).2; omega

theorem forest_of_inv (n : Nat) (P : List Nat) (extra : Nat → Nat) (hn : n < 4294967296)
    (hP : ∀ r < n, rd P r < n) (hfix : live_in_fixpoints n P extra) (rk : Nat → Nat)
    (hrk1 : ∀ x < n, rk x ≤ n)
    (hrk2 : ∀ x < n, rd P x ≠ x → ¬ on_cycle P x → rk (rd P x) < rk x)
    (ln : Nat) (st : pc_state)
    (hI : pc_inv n P extra ln st) (hcut : cut_off P extra n st.parcopy) :
    forest n P extra st.parcopy st.n_used rk := by
  obtain ⟨h1, h2, h3, h4, h5⟩ := unmarked_facts n P extra hP hfix ln st hI
  refine ⟨hn, h1, ?_, hrk1, h3, ?_⟩
  · intro x hx hK hne
    refine ⟨hcut x hx hK hne, ?_⟩
    rw [(h2 x hx hne).1]
    exact hrk2 x hx (by rw [← (h2 x hx hne).1]; exact hne) (fun hc => hK (Or.inl hc))
  · intro x hx hK hpos
    rw [h4 x hx hK] at hpos
    obtain ⟨y, hy, hyx, hQy⟩ := (readers_pos_iff n st.parcopy x).mp hpos
    exact ⟨y, hy, hyx, hQy, h5 x hx hK y hy hyx hQy⟩

theorem leaf_below (n : Nat) (P : List Nat) (extra : Nat → Nat) (Q V : List Nat)
    (rk : Nat → Nat) (hF : forest n P extra Q V rk) :
    ∀ m x, x < n → ¬ in_cycle_part P extra x → rd Q x ≠ x → n - rk x ≤ m →
      ∃ tr, tr < n ∧ rd Q tr ≠ tr ∧ rd V tr = 0 ∧ ∃ j, (rd Q)^[j] tr = x := by
  intro m
  induction m with
  | zero =>
    intro x hx hK hne hm
    by_cases h0 : rd V x = 0
    · exact ⟨x, hx, hne, h0, 0, rfl⟩
    · obtain ⟨y, hy, hyx, hQy, hKy⟩ := hF.reader x hx hK (by omega)
      have := (hF.down y hy hKy (by rw [hQy]; exact Ne.symm hyx)).2
      rw [hQy] at this
      have := hF.rk_le y hy
      omega
  | succ m ih =>
    intro x hx hK hne hm
    by_cases h0 : rd V x = 0
    · exact ⟨x, hx, hne, h0, 0, rfl⟩
    · obtain ⟨y, hy, hyx, hQy, hKy⟩ := hF.reader x hx hK (by omega)
      have hyne : rd Q y ≠ y := by rw [hQy]; exact Ne.symm hyx
      have := (hF.down y hy hKy hyne).2
      rw [hQy] at this
      have := hF.rk_le y hy
      obtain ⟨tr, h1, h2, h3, j, h4⟩ := ih y hy hKy hyne (by omega)
      exact ⟨tr, h1, h2, h3, j + 1, by rw [Function.iterate_succ_apply', h4, hQy]⟩

theorem find_longest_chain_cond_iff (Q : List Nat) (st : flc_state) :
    find_longest_chain_cond Q st = true ↔ st.broke = false ∧ st.r ≠ rd Q st.r := by
  simp [find_longest_chain_cond]

theorem iterate_fixed (f : Nat → Nat) (x : Nat) (h : f x = x) (k : Nat) : f^[k] x = x := by
  induction k with
  | zero => rfl
  | succ k ih => rw [Function.iterate_succ_apply, h, ih]

theorem flc_walk_step (n : Nat) (P : List Nat) (extra : Nat → Nat) (Q V : List Nat)
    (rk : Nat → Nat) (hF : forest n P extra Q V rk) (f : Nat) (A R : Prop) (st : flc_state)
    (hI : st.r < n ∧ ¬ in_cycle_part P extra st.r ∧ (st.broke = false → st.len + rk st.r ≤ n) ∧
      flc_good n Q f st ∧ (A → 0 < st.max_len) ∧
      (R → 0 < st.max_len ∨ (st.broke = false ∧ st.r ≠ f ∧ ∃ k, 0 < k ∧ (rd Q)^[k] st.r = f)))
    (hc : find_longest_chain_cond Q st = true) :
    ∃ st', find_longest_chain_walk_body Q f st = .ok st' ∧
      (st'.r < n ∧ ¬ in_cycle_part P extra st'.r ∧
        (st'.broke = false → st'.len + rk st'.r ≤ n) ∧
        flc_good n Q f st' ∧ (A → 0 < st'.max_len) ∧
        (R → 0 < st'.max_len ∨
          (st'.broke = false ∧ st'.r ≠ f ∧ ∃ k, 0 < k ∧ (rd Q)^[k] st'.r = f))) ∧
      (if st'.broke then 0 else rk st'.r + 1) < (if st.broke then 0 else rk st.r + 1) := by
  obtain ⟨hr, hK, hlen, hgood, hA, hR⟩ := hI
  rw [find_longest_chain_cond_iff] at hc
  obtain ⟨hb, hne⟩ := hc
  have hdown := hF.down st.r hr hK (Ne.symm hne)
  have hlen' := hlen hb
  have hn := hF.n_lt
  have hinc : u32_inc st.len = st.len + 1 := u32_inc_lt _ (by omega)
  unfold find_longest_chain_walk_body
  simp only [hinc]
  by_cases hk : rd Q st.r = f ∧ st.len + 1 > st.max_len
  · simp only [hk, and_self, if_true]
    refine ⟨_, rfl, ⟨hr, hK, ?_, ?_, ?_, ?_⟩, ?_⟩
    · intro h; simp at h
    · right
      exact ⟨Nat.succ_pos _, hr, hk.1, by rw [← hk.1]; exact hne⟩
    · intro _; exact Nat.succ_pos _
    · intro _; exact Or.inl (Nat.succ_pos _)
    · simp only [hb, if_true]; simp
  · rw [if_neg hk]
    refine ⟨_, rfl, ⟨hF.lt _ hr, hdown.1, ?_, hgood, hA, ?_⟩, ?_⟩
    · intro _; simp only; omega
    · intro hRR
      rcases hR hRR with h | ⟨_, hrf, k, hk0, hkf⟩
      · exact Or.inl h
      · simp only
        by_cases hsf : rd Q st.r = f
        · left
          have : ¬ st.len + 1 > st.max_len := fun h => hk ⟨hsf, h⟩
          omega
        · right
          refine ⟨hb, hsf, k - 1, ?_, ?_⟩
          · by_contra h0
            have : k = 1 := by omega
            rw [this] at hkf
            exact hsf hkf
          · obtain ⟨k', rfl⟩ : ∃ k', k = k' + 1 := ⟨k - 1, by omega⟩
            rw [Function.iterate_succ_apply] at hkf
            simpa using hkf
    · simp only [hb, if_false]; simp only [Bool.false_eq_true, if_false]; omega

theorem flc_body_step (n : Nat) (P : List Nat) (extra : Nat → Nat) (Q V : List Nat)
    (rk : Nat → Nat) (hF : forest n P extra Q V rk) (f : Nat) (hVf : 1 < rd V f)
    (B : Nat) (hB : n + 1 < B) (j : Nat) (st : flc_state) (hj : j < n)
    (hI : flc_good n Q f st ∧
      ((∃ tr, tr < j ∧ rd Q tr ≠ tr ∧ rd V tr = 0 ∧ ∃ k, 0 < k ∧ (rd Q)^[k] tr = f) →
        0 < st.max_len)) :
    ∃ st', find_longest_chain_body B Q V f j st = .ok st' ∧
      (flc_good n Q f st' ∧
        ((∃ tr, tr < j + 1 ∧ rd Q tr ≠ tr ∧ rd V tr = 0 ∧ ∃ k, 0 < k ∧ (rd Q)^[k] tr = f) →
          0 < st'.max_len)) := by
  obtain ⟨hgood, hfound⟩ := hI
  unfold find_longest_chain_body
  by_cases hk : rd Q j = j ∨ rd V j > 0
  · simp only [hk, if_true]
    refine ⟨st, rfl, hgood, ?_⟩
    rintro ⟨tr, htr, h1, h2, h3⟩
    by_cases htj : tr = j
    · subst htj
      rcases hk with h | h
      · exact absurd h h1
      · omega
    · exact hfound ⟨tr, by omega, h1, h2, h3⟩
  · simp only [hk, if_false]
    push_neg at hk
    have hV0 : rd V j = 0 := by omega
    have hKj := hF.leaf j hj hk.1 hV0
    have hjf : j ≠ f := by intro e; rw [e] at hV0; omega
    obtain ⟨t, hw, ⟨_, _, _, hg, hA, hR⟩, hct⟩ :=
      while_loop_total (find_longest_chain_cond Q) (find_longest_chain_walk_body Q f)
        (fun t => t.r < n ∧ ¬ in_cycle_part P extra t.r ∧
          (t.broke = false → t.len + rk t.r ≤ n) ∧
          flc_good n Q f t ∧ (0 < st.max_len → 0 < t.max_len) ∧
          ((∃ k, 0 < k ∧ (rd Q)^[k] j = f) → 0 < t.max_len ∨
            (t.broke = false ∧ t.r ≠ f ∧ ∃ k, 0 < k ∧ (rd Q)^[k] t.r = f)))
        (fun t => if t.broke then 0 else rk t.r + 1)
        (fun t hI hc => flc_walk_step n P extra Q V rk hF f _ _ t hI hc)
        B { st with r := j, len := 0, broke := false }
        ⟨hj, hKj, fun _ => by simp only [Nat.zero_add]; exact hF.rk_le j hj, hgood,
          fun h => h, fun h => Or.inr ⟨rfl, hjf, h⟩⟩
        (by simp only [Bool.false_eq_true, if_false]; have := hF.rk_le j hj; omega)
    refine ⟨t, hw, hg, ?_⟩
    have hexit : ¬ (t.broke = false ∧ t.r ≠ rd Q t.r) := by
      rw [← find_longest_chain_cond_iff, hct]; simp
    rintro ⟨tr, htr, h1, h2, h3⟩
    by_cases htj : tr = j
    · subst htj
      rcases hR h3 with h | ⟨hb, hrf, k, _, hkf⟩
      · exact h
      · exfalso
        have hfixr : rd Q t.r = t.r := by
          by_contra h
          exact hexit ⟨hb, Ne.symm h⟩
        rw [iterate_fixed _ _ hfixr k] at hkf
        exact hrf hkf
    · exact hA (hfound ⟨tr, by omega, h1, h2, h3⟩)

theorem find_longest_chain_spec (n : Nat) (P : List Nat) (extra : Nat → Nat) (Q V : List Nat)
    (rk : Nat → Nat) (hF : forest n P extra Q V rk) (f : Nat) (hf : f < n)
    (hKf : ¬ in_cycle_part P extra f) (hVf : 1 < rd V f) (B : Nat) (hB : n + 1 < B) :
    ∃ ln, find_longest_chain B n Q V f = .ok ln ∧ ln < n ∧ rd Q ln = f ∧ ln ≠ f := by
  obtain ⟨st, hfl, hgood, hfound⟩ :=
    for_loop_total (find_longest_chain_body B Q V f)
      (fun j st => flc_good n Q f st ∧
        ((∃ tr, tr < j ∧ rd Q tr ≠ tr ∧ rd V tr = 0 ∧ ∃ k, 0 < k ∧ (rd Q)^[k] tr = f) →
          0 < st.max_len)) n
      (fun j st hj hI => flc_body_step n P extra Q V rk hF f hVf B hB j st hj hI)
      { r := 0, len := 0, max_len := 0, max_dst := UINT_MAX, broke := false }
      ⟨Or.inl ⟨rfl, rfl⟩, by rintro ⟨tr, htr, _⟩; exact absurd htr (Nat.not_lt_zero _)⟩
  obtain ⟨y, hy, hyf, hQy, hKy⟩ := hF.reader f hf hKf (by omega)
  have hyne : rd Q y ≠ y := by rw [hQy]; exact Ne.symm hyf
  obtain ⟨tr, h1, h2, h3, j, h4⟩ := leaf_below n P extra Q V rk hF n y hy hKy hyne (by omega)
  have hpos := hfound ⟨tr, h1, h2, h3, j + 1, Nat.succ_pos _,
    by rw [Function.iterate_succ_apply', h4, hQy]⟩
  unfold find_longest_chain
  simp only [gt_iff_lt, hVf, if_true, hfl]
  rcases hgood with ⟨h0, _⟩ | ⟨_, h5, h6, h7⟩
  · omega
  · exact ⟨_, rfl, h5, h6, h7⟩

theorem pc_inv_open (n : Nat) (P : List Nat) (extra : Nat → Nat) (ln r : Nat) (st : pc_state)
    (hI : pc_inv n P extra n st) :
    pc_inv n P extra ln { st with r := r } := by
  obtain ⟨h1, h2, h3, h4, h5, h6, h7, h8, h9⟩ := hI
  refine ⟨h1, h2, h3, h4, h5, h6, h7, ?_, h9⟩
  intro p hp
  rcases h8 p hp with h | ⟨ha, hb | hb⟩
  · exact Or.inl h
  · exact Or.inr ⟨ha, Or.inl hb⟩
  · have := h7 p hp; omega

theorem pc_inv_close (n : Nat) (P : List Nat) (extra : Nat → Nat) (ln : Nat) (st : pc_state)
    (hI : pc_inv n P extra ln st) (hln : rd st.n_used (rd st.parcopy ln) ≤ 1) :
    pc_inv n P extra n st := by
  obtain ⟨h1, h2, h3, h4, h5, h6, h7, h8, h9⟩ := hI
  refine ⟨h1, h2, h3, h4, h5, h6, h7, ?_, h9⟩
  intro p hp
  rcases h8 p hp with h | ⟨ha, hb | hb⟩
  · exact Or.inl h
  · exact Or.inr ⟨ha, Or.inl hb⟩
  · exact Or.inr ⟨ha, Or.inl (by rw [hb]; exact hln)⟩

theorem cut_off_set (P : List Nat) (extra : Nat → Nat) (Q : List Nat) (d : Nat)
    (hd : d < Q.length) (hcut : cut_off P extra n Q) : cut_off P extra n (Q.set d d) := by
  intro x hx hK hne
  by_cases hxd : x = d
  · subst hxd
    exact absurd (rd_set_same _ _ _ hd) hne
  · rw [rd_set_other _ _ _ _ (Ne.symm hxd)] at hne ⊢
    exact hcut x hx hK hne

theorem reroute_body_step (n : Nat) (P : List Nat) (extra : Nat → Nat)
    (hP : ∀ r < n, rd P r < n) (hfix : live_in_fixpoints n P extra) (ln r : Nat)
    (hln : ln < n) (hr : r < n) (hKr : ¬ in_cycle_part P extra r) (hlr : ln ≠ r)
    (j : Nat) (st : pc_state) (hj : j < n)
    (hI : pc_inv n P extra ln st ∧ cut_off P extra n st.parcopy ∧ rd st.parcopy ln = r ∧
      st.r = r ∧ ∀ dst < j, dst ≠ ln → dst ≠ r → rd st.parcopy dst ≠ r) :
    ∃ st', reroute_body ln r j st = .ok st' ∧
      (pc_inv n P extra ln st' ∧ cut_off P extra n st'.parcopy ∧ rd st'.parcopy ln = r ∧
        st'.r = r ∧ ∀ dst < j + 1, dst ≠ ln → dst ≠ r → rd st'.parcopy dst ≠ r) := by
  obtain ⟨hI, hcut, hQl, hsr, hdone⟩ := hI
  obtain ⟨_, h2, _, h4, h5⟩ := unmarked_facts n P extra hP hfix ln st hI
  unfold reroute_body
  by_cases hk : j ≠ ln ∧ j ≠ r ∧ rd st.parcopy j = r
  · simp only [hk, ne_eq, not_false_eq_true, and_self, if_true]
    obtain ⟨hjl, hjr, hQj⟩ := hk
    have hjne : rd st.parcopy j ≠ j := by rw [hQj]; exact Ne.symm hjr
    have hlne : rd st.parcopy ln ≠ ln := by rw [hQl]; exact Ne.symm hlr
    have hKj : ¬ in_cycle_part P extra j := h5 r hr hKr j hj hjr hQj
    have hV2 : 1 < rd st.n_used r := by
      rw [h4 r hr hKr]
      unfold readers
      rw [Finset.one_lt_card]
      exact ⟨ln, by simp [hln, hlr, hQl], j, by simp [hj, hjr, hQj], Ne.symm hjl⟩
    have hsrc : ∀ p ∈ st.restores, p.1 ≠ j := by
      intro p hp e
      rcases hI.src_ok p hp with h | ⟨_, h | h⟩
      · rw [e] at h; exact hKj h
      · rw [e, hQj] at h; omega
      · rw [e] at h; exact hjl h
    have hinv := pc_inv_reroute n P extra ln st hI ln j hln hj hjne (by rw [hQj]; exact hr) hKj
      hsrc (by rw [← (h2 ln hln hlne).1, ← (h2 j hj hjne).1, hQl, hQj])
      (Or.inr ⟨Ne.symm hjl, hlne, rfl⟩) st.r
    rw [hQj] at hinv
    have hjlen : j < st.parcopy.length := by rw [hI.len_Q]; exact hj
    refine ⟨_, rfl, hinv, cut_off_set P extra _ j hjlen hcut, ?_, hsr, ?_⟩
    · simp only; rw [rd_set_other _ _ _ _ hjl]; exact hQl
    · intro dst hdst h1 h2'
      simp only
      by_cases hdj : dst = j
      · rw [hdj, rd_set_same _ _ _ hjlen]; exact hjr
      · rw [rd_set_other _ _ _ _ (Ne.symm hdj)]
        exact hdone dst (by omega) h1 h2'
  · rw [if_neg hk]
    refine ⟨st, rfl, hI, hcut, hQl, hsr, ?_⟩
    intro dst hdst h1 h2' h3
    by_cases hdj : dst = j
    · subst hdj; exact hk ⟨h1, h2', h3⟩
    · exact hdone dst (by omega) h1 h2' h3

theorem reroute_loop (n : Nat) (P : List Nat) (extra : Nat → Nat)
    (hP : ∀ r < n, rd P r < n) (hfix : live_in_fixpoints n P extra) (ln r : Nat)
    (hln : ln < n) (hr : r < n) (hKr : ¬ in_cycle_part P extra r) (hlr : ln ≠ r)
    (st : pc_state) (hI : pc_inv n P extra n st) (hcut : cut_off P extra n st.parcopy)
    (hQl : rd st.parcopy ln = r) :
    ∃ st', for_loop (reroute_body ln r) n { st with r := r } = .ok st' ∧
      pc_inv n P extra n st' ∧ cut_off P extra n st'.parcopy ∧ st'.r = r := by
  obtain ⟨st', hfl, hI', hcut', hQl', hsr', hdone⟩ :=
    for_loop_total (reroute_body ln r)
      (fun j st => pc_inv n P extra ln st ∧ cut_off P extra n st.parcopy ∧
        rd st.parcopy ln = r ∧ st.r = r ∧
        ∀ dst < j, dst ≠ ln → dst ≠ r → rd st.parcopy dst ≠ r) n
      (fun j st hj hI => reroute_body_step n P extra hP hfix ln r hln hr hKr hlr j st hj hI)
      { st with r := r }
      ⟨pc_inv_open n P extra ln r st hI, hcut, hQl, rfl,
        fun dst hd => absurd hd (Nat.not_lt_zero _)⟩
  refine ⟨st', hfl, pc_inv_close n P extra ln st' hI' ?_, hcut', hsr'⟩
  obtain ⟨_, _, _, h4, _⟩ := unmarked_facts n P extra hP hfix ln st' hI'
  rw [hQl', h4 r hr hKr]
  apply le_of_eq
  unfold readers
  rw [Finset.card_eq_one]
  refine ⟨ln, ?_⟩
  ext d
  simp only [Finset.mem_filter, Finset.mem_range, Finset.mem_singleton]
  constructor
  · rintro ⟨hd, hdr, hQd⟩
    by_contra hne
    exact hdone d hd hne hdr hQd
  · rintro rfl
    exact ⟨hln, hlr, hQl'⟩

theorem fork_walk_body_step (n : Nat) (P : List Nat) (extra : Nat → Nat)
    (hn : n < 4294967296) (hP : ∀ r < n, rd P r < n) (hfix : live_in_fixpoints n P extra)
    (rk : Nat → Nat) (hrk1 : ∀ x < n, rk x ≤ n)
    (hrk2 : ∀ x < n, rd P x ≠ x → ¬ on_cycle P x → rk (rd P x) < rk x)
    (B : Nat) (hB : n + 1 < B) (st : pc_state)
    (hI : pc_inv n P extra n st ∧ cut_off P extra n st.parcopy ∧ st.r < n ∧
      ¬ in_cycle_part P extra st.r)
    (hc : st.r ≠ rd st.parcopy st.r) :
    ∃ st', fork_walk_body B n st = .ok st' ∧
      (pc_inv n P extra n st' ∧ cut_off P extra n st'.parcopy ∧ st'.r < n ∧
        ¬ in_cycle_part P extra st'.r) ∧ rk st'.r < rk st.r := by
  obtain ⟨hI, hcut, hr, hK⟩ := hI
  have hF := forest_of_inv n P extra hn hP hfix rk hrk1 hrk2 n st hI hcut
  have hdown := hF.down st.r hr hK (Ne.symm hc)
  have hlt := hF.lt st.r hr
  unfold fork_walk_body
  by_cases hk : rd st.n_used (rd st.parcopy st.r) > 1
  · simp only [hk, if_true]
    obtain ⟨ln, hflc, hln, hQl, hlf⟩ :=
      find_longest_chain_spec n P extra st.parcopy st.n_used rk hF _ hlt hdown.1 hk B hB
    rw [hflc]
    obtain ⟨st', hfl, hI', hcut', hsr'⟩ :=
      reroute_loop n P extra hP hfix ln _ hln hlt hdown.1 hlf st hI hcut hQl
    refine ⟨st', hfl, ⟨hI', hcut', ?_, ?_⟩, ?_⟩
    · rw [hsr']; exact hlt
    · rw [hsr']; exact hdown.1
    · rw [hsr']; exact hdown.2
  · rw [if_neg hk]
    exact ⟨_, rfl, ⟨pc_inv_open n P extra n _ st hI, hcut, hlt, hdown.1⟩, hdown.2⟩

theorem fork_body_step (n : Nat) (P : List Nat) (extra : Nat → Nat)
    (hn : n < 4294967296) (hP : ∀ r < n, rd P r < n) (hfix : live_in_fixpoints n P extra)
    (rk : Nat → Nat) (hrk1 : ∀ x < n, rk x ≤ n)
    (hrk2 : ∀ x < n, rd P x ≠ x → ¬ on_cycle P x → rk (rd P x) < rk x)
    (B : Nat) (hB : n + 1 < B) (k : Nat) (st : pc_state) (hk : k < n)
    (hI : pc_inv n P extra n st ∧ cut_off P extra n st.parcopy) :
    ∃ st', fork_body B n k st = .ok st' ∧
      (pc_inv n P extra n st' ∧ cut_off P extra n st'.parcopy) := by
  obtain ⟨hI, hcut⟩ := hI
  unfold fork_body
  by_cases hc : rd st.parcopy k = k ∨ rd st.n_used k > 0
  · simp only [hc, if_true]
    exact ⟨st, rfl, hI, hcut⟩
  · simp only [hc, if_false]
    push_neg at hc
    have hF := forest_of_inv n P extra hn hP hfix rk hrk1 hrk2 n st hI hcut
    have hKk := hF.leaf k hk hc.1 (by omega)
    obtain ⟨t, hw, ⟨hIt, hcutt, _, _⟩, _⟩ :=
      while_loop_total (fun t => decide (t.r ≠ rd t.parcopy t.r)) (fork_walk_body B n)
        (fun t => pc_inv n P extra n t ∧ cut_off P extra n t.parcopy ∧ t.r < n ∧
          ¬ in_cycle_part P extra t.r)
        (fun t => rk t.r)
        (fun t hIt hct => fork_walk_body_step n P extra hn hP hfix rk hrk1 hrk2 B hB t hIt
          (by simpa using hct))
        B { st with r := k } ⟨pc_inv_open n P extra n k st hI, hcut, hk, hKk⟩
        (by have := hrk1 k hk; simp only; omega)
    exact ⟨t, hw, hIt, hcutt⟩

theorem fork_loop (n : Nat) (P : List Nat) (extra : Nat → Nat)
    (hn : n < 4294967296) (hP : ∀ r < n, rd P r < n) (hfix : live_in_fixpoints n P extra)
    (B : Nat) (hB : n + 1 < B) (st : pc_state)
    (hI : pc_inv n P extra n st) (hcut : cut_off P extra n st.parcopy) :
    ∃ st', for_loop (fork_body B n) n st = .ok st' ∧ pc_inv n P extra n st' := by
  obtain ⟨rk, hrk1, hrk2⟩ := exists_rank n P hP
  obtain ⟨st', h, hI', _⟩ :=
    for_loop_total (fork_body B n)
      (fun _ st => pc_inv n P extra n st ∧ cut_off P extra n st.parcopy) n
      (fun k st hk hI => fork_body_step n P extra hn hP hfix rk hrk1 hrk2 B hB k st hk hI)
      st ⟨hI, hcut⟩
  exact ⟨st', h, hI'⟩

/-! ## C1: the parallel-copy realizer -/

/-- C1 (amended): for every parallel-copy specification `(parcopy, n_used)` over
`n_regs` registers that satisfies the data-model invariant and in which every
register holding a live-in source is a fixpoint of `parcopy`, `impl_parallel_copy`
(run with a step budget above `2 * n_regs + 1`) returns, and for every initial
register file `σ`, executing the residual `parcopy` as one atomic parallel copy
and then the recorded restores in recorded order leaves every register `r`
holding `σ[parcopy_in[r]]`. -/
theorem impl_parallel_copy_correct (B n_regs : Nat) (parcopy n_used : List Nat)
    (extra : Nat → Nat) (hspec : parcopy_spec n_regs parcopy n_used extra)
    (hfix : live_in_fixpoints n_regs parcopy extra) (hB : 2 * n_regs + 1 < B) :
    ∃ st, impl_parallel_copy B n_regs parcopy n_used = .ok st ∧
      ∀ (α : Type) (σ : Nat → α) (r : Nat), r < n_regs →
        exec_restores st.restores (exec_parcopy st.parcopy σ) r = σ (rd parcopy r) := by
  have hn := hspec.1
  have hP := hspec.2.2.2.1
  obtain ⟨poc, hmark, _, hpoc⟩ := mark_cycle_parts_spec n_regs parcopy n_used extra hspec hfix B hB
  obtain ⟨st1, hl1, hI1, hcut1⟩ := out_of_cycle_loop n_regs parcopy n_used extra hspec hfix poc hpoc
  obtain ⟨st2, hl2, hI2⟩ :=
    fork_loop n_regs parcopy extra hn hP hfix B (by omega) st1 hI1 hcut1
  have hspec2 : parcopy_spec n_regs st2.parcopy st2.n_used extra := by
    refine ⟨hn, hI2.len_Q, hI2.len_V, ?_, hI2.exact, hI2.small⟩
    intro x hx
    rcases hI2.cases x hx with h | h
    · rw [h]; exact hP x hx
    · rw [h]; exact hx
  have hfix2 : live_in_fixpoints n_regs st2.parcopy extra := by
    intro x hx he
    rcases hI2.cases x hx with h | h
    · rw [h]; exact hfix x hx he
    · exact h
  obtain ⟨poc2, hmark2, _, _⟩ :=
    mark_cycle_parts_spec n_regs st2.parcopy st2.n_used extra hspec2 hfix2 B hB
  obtain ⟨out, hprint⟩ := print_parcopy_of_mark B n_regs st2.parcopy st2.n_used poc2 hmark2
  refine ⟨st2, ?_, hI2.sem⟩
  unfold impl_parallel_copy
  simp only [hmark, hl1, hl2, hprint]

theorem impl_parallel_copy_correct_witness :
    parcopy_spec 3 [1, 0, 0] [2, 1, 0] (fun _ => 0) ∧
    live_in_fixpoints 3 [1, 0, 0] (fun _ => 0) ∧
    ∃ st, impl_parallel_copy 8 3 [1, 0, 0] [2, 1, 0] = .ok st ∧
      ∀ (α : Type) (σ : Nat → α) (r : Nat), r < 3 →
        exec_restores st.restores (exec_parcopy st.parcopy σ) r = σ (rd [1, 0, 0] r) :=
  have h1 : parcopy_spec 3 [1, 0, 0] [2, 1, 0] (fun _ => 0) := by
    unfold parcopy_spec; decide
  have h2 : live_in_fixpoints 3 [1, 0, 0] (fun _ => 0) := by
    unfold live_in_fixpoints; decide
  ⟨h1, h2, impl_parallel_copy_correct 8 3 [1, 0, 0] [2, 1, 0] (fun _ => 0) h1 h2 (by decide)⟩

/-- C1 (counterexample): the specification `parcopy = [0, 0, 1]`,
`n_used = [1, 2, 0]` over 3 registers satisfies the data-model invariant
(register 1 is read once and holds a live-in source, which gives the extra
count), and `impl_parallel_copy` ends in the failed assertion of line 259. -/
theorem impl_parallel_copy_live_in_overwritten :
    parcopy_spec 3 [0, 0, 1] [1, 2, 0] (fun r => if r = 1 then 1 else 0) ∧
    impl_parallel_copy 8 3 [0, 0, 1] [1, 2, 0] = .error (.assertion 259) :=
  ⟨by unfold parcopy_spec; decide, rfl⟩

/-! ## C11, C12: RN finiteness and the frame of back-propagation -/

theorem vector_get_min_top_iff (vec : vector_t) :
    vector_get_min vec = INF_COSTS ↔ ∀ i < vec.length, vector_get vec i = ⊤ := by
  by_cases hne : vec = []
  · subst hne
    simp [vector_get_min, INF_COSTS]
  · have hlt := vector_get_min_index_lt vec hne
    rw [vector_get_min_eq vec hne]
    constructor
    · intro h i hi
      have := vector_get_min_index_le vec i hi
      rw [h] at this
      exact top_le_iff.mp this
    · intro h
      exact h _ hlt

theorem back_propagate_RN_working_vector (pbqp : pbqp_t) (node : Nat) :
    ∃ vec, for_loop (back_propagate_RN_body pbqp node) (pbqp_node_get_degree pbqp node)
        (pbqp.nodes node).costs = .ok vec ∧
      vec.length = (pbqp.nodes node).costs.length ∧
      ∀ i < (pbqp.nodes node).costs.length, vector_get vec i = local_cost pbqp node i := by
  obtain ⟨vec, h1, h2, h3⟩ := back_propagate_RN_vec pbqp node (pbqp.nodes node).edges.length
    (le_refl _)
  refine ⟨vec, h1, h2, fun i hi => ?_⟩
  rw [h3 i hi, List.take_length]
  rfl

/-- C11 (RN finiteness): `back_propagate_RN` either stores a solution or fails
the assertion of line 162; the assertion fails if and only if every entry of
the working vector (the cost of the choice plus the selected entry of every
incident edge matrix, `local_cost`) is `+∞`; when it passes, the stored
solution is the argmin of the working vector, an index of the cost vector
whose accumulated cost is finite. -/
theorem back_propagate_RN_finiteness (pbqp : pbqp_t) (node : Nat) :
    (back_propagate_RN pbqp node = .error (.assertion 162) ↔
      ∀ i < (pbqp.nodes node).costs.length, local_cost pbqp node i = ⊤) ∧
    (∀ q, back_propagate_RN pbqp node = .ok q →
      (q.nodes node).solution < (pbqp.nodes node).costs.length ∧
      local_cost pbqp node (q.nodes node).solution ≠ ⊤ ∧
      ∀ i < (pbqp.nodes node).costs.length,
        local_cost pbqp node (q.nodes node).solution ≤ local_cost pbqp node i) ∧
    ((∃ q, back_propagate_RN pbqp node = .ok q) ∨
      back_propagate_RN pbqp node = .error (.assertion 162)) := by
  obtain ⟨vec, hloop, hlen, hget⟩ := back_propagate_RN_working_vector pbqp node
  have hiff : vector_get_min vec = INF_COSTS ↔
      ∀ i < (pbqp.nodes node).costs.length, local_cost pbqp node i = ⊤ := by
    rw [vector_get_min_top_iff, hlen]
    constructor
    · intro h i hi; rw [← hget i hi]; exact h i hi
    · intro h i hi; rw [hget i hi]; exact h i hi
  unfold back_propagate_RN
  simp only [hloop]
  by_cases hmin : vector_get_min vec = INF_COSTS
  · simp only [hmin, ne_eq, not_true_eq_false, if_false]
    refine ⟨⟨fun _ => hiff.mp hmin, fun _ => trivial⟩, ?_, Or.inr trivial⟩
    intro q h
    simp at h
  · simp only [ne_eq, hmin, not_false_eq_true, if_true]
    refine ⟨⟨fun h => by simp at h, fun h => absurd (hiff.mpr h) hmin⟩, ?_, Or.inl ⟨_, rfl⟩⟩
    intro q h
    injection h with h
    subst h
    rw [set_solution_sol]
    have hne : vec ≠ [] := by
      intro e
      apply hmin
      subst e
      simp [vector_get_min, INF_COSTS]
    have hlt := vector_get_min_index_lt vec hne
    rw [hlen] at hlt
    refine ⟨hlt, ?_, ?_⟩
    · rw [← hget _ hlt, ← vector_get_min_eq vec hne]
      exact hmin
    · intro i hi
      rw [← hget _ hlt, ← hget i hi]
      exact vector_get_min_index_le vec i (by rw [hlen]; exact hi)

/-- C12 (frame of back-propagation): a call of `back_propagate_ld` that returns
changes nothing but the `solution` field of the nodes in `reduced_bucket`: the
edges (endpoints and cost matrices) are the same, every node keeps its cost
vector, its edge list and its index, and every node outside the bucket keeps
its solution.  The bucket is only read, and the node store has the same
nodes. -/
theorem back_propagate_ld_frame (reduced_bucket : List Nat) (pbqp pbqp' : pbqp_t)
    (hrun : back_propagate_ld reduced_bucket pbqp = .ok pbqp') :
    pbqp'.edges = pbqp.edges ∧
    ∀ m, (pbqp'.nodes m).costs = (pbqp.nodes m).costs ∧
      (pbqp'.nodes m).edges = (pbqp.nodes m).edges ∧
      (pbqp'.nodes m).index = (pbqp.nodes m).index ∧
      (m ∉ reduced_bucket → (pbqp'.nodes m).solution = (pbqp.nodes m).solution) := by
  have h := back_propagate_ld_loop_same reduced_bucket reduced_bucket.length (le_refl _)
    pbqp pbqp' hrun
  rw [List.take_length] at h
  exact h

theorem back_propagate_ld_frame_witness :
    ∃ q, back_propagate_ld scenario_F_bucket scenario_F = .ok q ∧
      q.edges = scenario_F.edges ∧
      ∀ m, (q.nodes m).costs = (scenario_F.nodes m).costs ∧
        (q.nodes m).edges = (scenario_F.nodes m).edges ∧
        (q.nodes m).index = (scenario_F.nodes m).index ∧
        (m ∉ scenario_F_bucket → (q.nodes m).solution = (scenario_F.nodes m).solution) :=
  match h : back_propagate_ld scenario_F_bucket scenario_F with
  | .ok q => ⟨q, rfl, back_propagate_ld_frame scenario_F_bucket scenario_F q h⟩
  | .error e => by
    have hok : (match back_propagate_ld scenario_F_bucket scenario_F with
      | .ok _ => true | .error _ => false) = true := by decide
    rw [h] at hok
    exact absurd hok (by simp)

/-! ## C13: the route of `be_ssa_destruction` -/

theorem run_planner_graph (B : Nat) (env : be_chordal_env_t) (blocks : List Nat)
    (g g2 : ir_graph) (h : run_planner B env blocks g = .ok g2) : g2 = g := by
  unfold run_planner irg_block_walk_graph at h
  induction blocks generalizing g with
  | nil => simp only [List.foldlM_nil, pure, Except.pure] at h; injection h with h; exact h.symm
  | cons bl rest ih =>
    simp only [List.foldlM_cons, bind, Except.bind] at h
    cases hb : analyze_parallel_copies_walker B env g bl with
    | error e => rw [hb] at h; simp at h
    | ok u =>
      rw [hb] at h
      exact ih g h

/-- C13 (amended): `be_ssa_destruction` has one route.  `use_paper_method` is the
constant `true`, so the planner and the realizer always run: a fault in them is
the fault of the pass.  When they return, the graph is the one they were given,
and the perm-placement walker `insert_all_perms_walker` and then
`set_regs_or_place_dupls_walker` run on it, whatever the planner did. -/
theorem be_ssa_destruction_single_route (B : Nat) (env : be_chordal_env_t)
    (visits : List walk_event) (blocks : List Nat) (g : ir_graph) :
    (∀ e, run_planner B env blocks
        (irg_walk_graph visits clear_link (collect_phis_walker env) g) = .error e →
      be_ssa_destruction B env visits blocks g = .error e) ∧
    (∀ g2, run_planner B env blocks
        (irg_walk_graph visits clear_link (collect_phis_walker env) g) = .ok g2 →
      g2 = irg_walk_graph visits clear_link (collect_phis_walker env) g ∧
      be_ssa_destruction B env visits blocks g =
        match irg_block_walk_graph blocks (insert_all_perms_walker B env) g2 with
        | .error e => .error e
        | .ok g3 => irg_block_walk_graph blocks (set_regs_or_place_dupls_walker B env) g3) := by
  constructor
  · intro e h
    unfold run_planner at h
    unfold be_ssa_destruction
    simp only [if_true, h]
  · intro g2 h
    have hg := run_planner_graph B env blocks _ g2 h
    refine ⟨hg, ?_⟩
    unfold run_planner at h
    unfold be_ssa_destruction
    simp only [if_true, h]

/-- C13 (counterexample): on Scenario E without liveness the planner builds the
specification `parcopy = [0, 0, 2]`, `n_used = [1, 0, 0]` for the edge into
block `0` and the realizer runs on it; the pass then returns a graph in which
node `6` is the `Perm` that `insert_all_perms_walker` placed in the predecessor
block and the phi reads its `Proj`. -/
theorem be_ssa_destruction_perm_placed_after_planner :
    analyze_parallel_copies_build 10 env_quiet
      (irg_walk_graph visits_scenario_E clear_link (collect_phis_walker env_quiet)
        graph_scenario_E) 0 0 = .ok ([0, 0, 2], [1, 0, 0]) ∧
    (∃ g2, run_planner 10 env_quiet [0, 5]
      (irg_walk_graph visits_scenario_E clear_link (collect_phis_walker env_quiet)
        graph_scenario_E) = .ok g2) ∧
    ∃ g', be_ssa_destruction 10 env_quiet visits_scenario_E [0, 5] graph_scenario_E = .ok g' ∧
      (get_node g' 6).op = .Perm ∧ (get_node g' 7).op = .Proj ∧ get_irn_n g' 1 0 = 7 :=
  ⟨rfl, ⟨_, rfl⟩, _, rfl, by decide, by decide, by decide⟩

/-! ## The phases of `impl_parallel_copy` -/

theorem impl_parallel_copy_phases (B n : Nat) (P U : List Nat) :
    impl_parallel_copy B n P U =
      match out_of_cycle_phase B n P U with
      | .error e => .error e
      | .ok st1 =>
        match fork_phase B n st1 with
        | .error e => .error e
        | .ok st2 =>
          match print_parcopy B n st2.parcopy st2.n_used with
          | .error e => .error e
          | .ok _ => .ok st2 := by
  unfold impl_parallel_copy out_of_cycle_phase fork_phase
  cases mark_cycle_parts B n P U with
  | error e => rfl
  | ok poc => rfl

theorem fork_loop_cut (n : Nat) (P : List Nat) (extra : Nat → Nat)
    (hn : n < 4294967296) (hP : ∀ r < n, rd P r < n) (hfix : live_in_fixpoints n P extra)
    (B : Nat) (hB : n + 1 < B) (st : pc_state)
    (hI : pc_inv n P extra n st) (hcut : cut_off P extra n st.parcopy) :
    ∃ st', for_loop (fork_body B n) n st = .ok st' ∧ pc_inv n P extra n st' ∧
      cut_off P extra n st'.parcopy := by
  obtain ⟨rk, hrk1, hrk2⟩ := exists_rank n P hP
  exact for_loop_total (fork_body B n)
      (fun _ st => pc_inv n P extra n st ∧ cut_off P extra n st.parcopy) n
      (fun k st hk hI => fork_body_step n P extra hn hP hfix rk hrk1 hrk2 B hB k st hk hI)
      st ⟨hI, hcut⟩

theorem pc_inv_spec (n : Nat) (P : List Nat) (extra : Nat → Nat) (hn : n < 4294967296)
    (hP : ∀ r < n, rd P r < n) (hfix : live_in_fixpoints n P extra) (ln : Nat) (st : pc_state)
    (hI : pc_inv n P extra ln st) :
    parcopy_spec n st.parcopy st.n_used extra ∧ live_in_fixpoints n st.parcopy extra := by
  refine ⟨⟨hn, hI.len_Q, hI.len_V, ?_, hI.exact, hI.small⟩, ?_⟩
  · intro x hx
    rcases hI.cases x hx with h | h
    · rw [h]; exact hP x hx
    · rw [h]; exact hx
  · intro x hx he
    rcases hI.cases x hx with h | h
    · rw [h]; exact hfix x hx he
    · exact h

theorem impl_parallel_copy_run (B n : Nat) (P U : List Nat) (extra : Nat → Nat)
    (hspec : parcopy_spec n P U extra) (hfix : live_in_fixpoints n P extra)
    (hB : 2 * n + 1 < B) :
    ∃ poc st1 st2 out,
      mark_cycle_parts B n P U = .ok poc ∧
      (∀ x < n, rdb poc x = true ↔ in_cycle_part P extra x) ∧
      for_loop (out_of_cycle_body n poc) n
        { parcopy := P, n_used := U, restores := [], r := 0 } = .ok st1 ∧
      out_of_cycle_phase B n P U = .ok st1 ∧
      pc_inv n P extra n st1 ∧ cut_off P extra n st1.parcopy ∧
      fork_phase B n st1 = .ok st2 ∧
      pc_inv n P extra n st2 ∧ cut_off P extra n st2.parcopy ∧
      print_parcopy B n st2.parcopy st2.n_used = .ok out ∧
      impl_parallel_copy B n P U = .ok st2 := by
  have hn := hspec.1
  have hP := hspec.2.2.2.1
  obtain ⟨poc, hmark, _, hpoc⟩ := mark_cycle_parts_spec n P U extra hspec hfix B hB
  obtain ⟨st1, hl1, hI1, hcut1⟩ := out_of_cycle_loop n P U extra hspec hfix poc hpoc
  obtain ⟨st2, hl2, hI2, hcut2⟩ :=
    fork_loop_cut n P extra hn hP hfix B (by omega) st1 hI1 hcut1
  obtain ⟨hspec2, hfix2⟩ := pc_inv_spec n P extra hn hP hfix n st2 hI2
  obtain ⟨poc2, hmark2, _, _⟩ :=
    mark_cycle_parts_spec n st2.parcopy st2.n_used extra hspec2 hfix2 B hB
  obtain ⟨out, hprint⟩ := print_parcopy_of_mark B n st2.parcopy st2.n_used poc2 hmark2
  have hph1 : out_of_cycle_phase B n P U = .ok st1 := by
    unfold out_of_cycle_phase
    simp only [hmark, hl1]
  refine ⟨poc, st1, st2, out, hmark, hpoc, hl1, hph1, hI1, hcut1, hl2, hI2, hcut2, hprint, ?_⟩
  have hph2 : fork_phase B n st1 = .ok st2 := hl2
  rw [impl_parallel_copy_phases, hph1]
  simp only [hph2, hprint]

/-! ## C19, C20: cycle identification and the assertions of the realizer -/

/-- C19 (amended): for every specification `(parcopy, n_used)` that satisfies the
data-model invariant and in which every register holding a live-in source is a
fixpoint, `mark_cycle_parts` returns and sets `part_of_cycle[r]` to true exactly
for the registers that lie on a cycle of length at least 2 or hold a live-in
source (have an extra count), and to false for every other register; without
live-in sources these are exactly the registers on a cycle. -/
theorem mark_cycle_parts_marks (B n_regs : Nat) (parcopy n_used : List Nat)
    (extra : Nat → Nat) (hspec : parcopy_spec n_regs parcopy n_used extra)
    (hfix : live_in_fixpoints n_regs parcopy extra) (hB : 2 * n_regs + 1 < B) :
    ∃ part_of_cycle, mark_cycle_parts B n_regs parcopy n_used = .ok part_of_cycle ∧
      part_of_cycle.length = n_regs ∧
      (∀ r < n_regs, rdb part_of_cycle r = true ↔ on_cycle parcopy r ∨ 0 < extra r) ∧
      ((∀ r < n_regs, extra r = 0) →
        ∀ r < n_regs, rdb part_of_cycle r = true ↔ on_cycle parcopy r) := by
  obtain ⟨poc, h1, h2, h3⟩ := mark_cycle_parts_spec n_regs parcopy n_used extra hspec hfix B hB
  refine ⟨poc, h1, h2, h3, fun h0 r hr => ?_⟩
  rw [h3 r hr, h0 r hr]
  simp

theorem mark_cycle_parts_marks_witness :
    parcopy_spec 3 [1, 0, 0] [2, 1, 0] (fun _ => 0) ∧
    live_in_fixpoints 3 [1, 0, 0] (fun _ => 0) ∧
    mark_cycle_parts 8 3 [1, 0, 0] [2, 1, 0] = .ok [true, true, false] ∧
    ∃ part_of_cycle, mark_cycle_parts 8 3 [1, 0, 0] [2, 1, 0] = .ok part_of_cycle ∧
      part_of_cycle.length = 3 ∧
      (∀ r < 3, rdb part_of_cycle r = true ↔ on_cycle [1, 0, 0] r ∨ 0 < (fun _ => 0) r) ∧
      ((∀ r < 3, (fun _ => 0) r = 0) →
        ∀ r < 3, rdb part_of_cycle r = true ↔ on_cycle [1, 0, 0] r) :=
  have h1 : parcopy_spec 3 [1, 0, 0] [2, 1, 0] (fun _ => 0) := by
    unfold parcopy_spec; decide
  have h2 : live_in_fixpoints 3 [1, 0, 0] (fun _ => 0) := by
    unfold live_in_fixpoints; decide
  ⟨h1, h2, rfl, mark_cycle_parts_marks 8 3 [1, 0, 0] [2, 1, 0] (fun _ => 0) h1 h2 (by decide)⟩

/-- C19 (counterexample): in the specification `parcopy = [0, 0]`,
`n_used = [2, 0]` register 0 is a fixpoint that is read once and holds a live-in
source; the data-model invariant holds, register 0 lies on no cycle of length at
least 2, and `mark_cycle_parts` sets `part_of_cycle[0]` to true. -/
theorem mark_cycle_parts_marks_live_in_fixpoint :
    parcopy_spec 2 [0, 0] [2, 0] (fun r => if r = 0 then 1 else 0) ∧
    live_in_fixpoints 2 [0, 0] (fun r => if r = 0 then 1 else 0) ∧
    ¬ on_cycle [0, 0] 0 ∧
    mark_cycle_parts 8 2 [0, 0] [2, 0] = .ok [true, false] :=
  ⟨by unfold parcopy_spec; decide, by unfold live_in_fixpoints; decide,
    fun h => h.1 rfl, rfl⟩

theorem while_loop_no_assertion {σ : Type} (cond : σ → Bool) (body : σ → Except Fault σ)
    (hb : ∀ s line, body s ≠ .error (.assertion line)) :
    ∀ fuel s line, while_loop cond body fuel s ≠ .error (.assertion line) := by
  intro fuel
  induction fuel with
  | zero => intro s line h; simp [while_loop] at h
  | succ fuel ih =>
    intro s line h
    unfold while_loop at h
    by_cases hc : cond s = true
    · simp only [hc, if_true] at h
      cases hbs : body s with
      | error e =>
        rw [hbs] at h
        simp only at h
        injection h with h
        exact hb s line (by rw [hbs, h])
      | ok s1 =>
        rw [hbs] at h
        exact ih s1 line h
    · simp only [hc] at h
      simp at h

theorem for_loop_no_assertion {σ : Type} (body : Nat → σ → Except Fault σ)
    (hb : ∀ k s line, body k s ≠ .error (.assertion line)) :
    ∀ n s line, for_loop body n s ≠ .error (.assertion line) := by
  intro n
  induction n with
  | zero => intro s line h; simp [for_loop] at h
  | succ n ih =>
    intro s line h
    simp only [for_loop] at h
    cases h1 : for_loop body n s with
    | error e =>
      rw [h1] at h
      simp only at h
      injection h with h
      exact ih s line (by rw [h1, h])
    | ok s1 =>
      rw [h1] at h
      exact hb n s1 line h

theorem fork_walk_body_no_assertion (B n : Nat) (st : pc_state) (line : Nat) :
    fork_walk_body B n st ≠ .error (.assertion line) := by
  intro h
  unfold fork_walk_body at h
  by_cases hk : rd st.n_used (rd st.parcopy st.r) > 1
  · simp only [hk, if_true] at h
    cases hf : find_longest_chain B n st.parcopy st.n_used (rd st.parcopy st.r) with
    | error e =>
      rw [hf] at h
      simp only at h
      injection h with h
      subst h
      unfold find_longest_chain at hf
      simp only [hk, if_true] at hf
      cases hl : for_loop (find_longest_chain_body B st.parcopy st.n_used (rd st.parcopy st.r)) n
          { r := 0, len := 0, max_len := 0, max_dst := UINT_MAX, broke := false } with
      | ok t => rw [hl] at hf; simp at hf
      | error e =>
        rw [hl] at hf
        simp only at hf
        injection hf with hf
        subst hf
        refine for_loop_no_assertion _ ?_ n _ line hl
        intro k s l hb
        unfold find_longest_chain_body at hb
        simp only at hb
        split_ifs at hb
        refine while_loop_no_assertion _ _ ?_ B _ l hb
        intro t l' ht
        unfold find_longest_chain_walk_body at ht
        simp only at ht
        split_ifs at ht
    | ok ln =>
      rw [hf] at h
      simp only at h
      refine for_loop_no_assertion _ ?_ n _ line h
      intro k s l hb
      unfold reroute_body at hb
      split_ifs at hb
  · simp only [hk, if_false] at h
    simp at h

/-- C20 (assertions never fire): for every specification that satisfies the
data-model invariant and in which every register holding a live-in source is a
fixpoint, `mark_cycle_parts`, the out-of-cycle phase and the whole of
`impl_parallel_copy` (with `find_longest_chain` and the final `print_parcopy`)
return without a failed assertion when the step budget is above
`2 * n_regs + 1`; every recorded restore source, be it a new source of an
out-of-cycle propagation or a result of `find_longest_chain`, is a register
index; and in no state does the chain walk of the fork phase end in a failed
assertion, since `find_longest_chain` is only called on a register with
`n_used > 1`. -/
theorem impl_parallel_copy_assertions (B n_regs : Nat) (parcopy n_used : List Nat)
    (extra : Nat → Nat) (hspec : parcopy_spec n_regs parcopy n_used extra)
    (hfix : live_in_fixpoints n_regs parcopy extra) (hB : 2 * n_regs + 1 < B) :
    (∃ part_of_cycle, mark_cycle_parts B n_regs parcopy n_used = .ok part_of_cycle) ∧
    (∃ st1, out_of_cycle_phase B n_regs parcopy n_used = .ok st1) ∧
    (∃ st, impl_parallel_copy B n_regs parcopy n_used = .ok st ∧
      (∀ p ∈ st.restores, p.1 < n_regs) ∧
      ∃ out, print_parcopy B n_regs st.parcopy st.n_used = .ok out) ∧
    (∀ st line, fork_walk_body B n_regs st ≠ .error (.assertion line)) := by
  obtain ⟨poc, st1, st2, out, h1, _, _, h4, _, _, _, h8, _, h10, h11⟩ :=
    impl_parallel_copy_run B n_regs parcopy n_used extra hspec hfix hB
  exact ⟨⟨poc, h1⟩, ⟨st1, h4⟩, ⟨st2, h11, h8.src_lt, out, h10⟩,
    fun st line => fork_walk_body_no_assertion B n_regs st line⟩

theorem impl_parallel_copy_assertions_witness :
    parcopy_spec 3 [0, 0, 0] [2, 0, 0] (fun _ => 0) ∧
    live_in_fixpoints 3 [0, 0, 0] (fun _ => 0) ∧
    (∃ part_of_cycle, mark_cycle_parts 8 3 [0, 0, 0] [2, 0, 0] = .ok part_of_cycle) ∧
    (∃ st1, out_of_cycle_phase 8 3 [0, 0, 0] [2, 0, 0] = .ok st1) ∧
    (∃ st, impl_parallel_copy 8 3 [0, 0, 0] [2, 0, 0] = .ok st ∧
      (∀ p ∈ st.restores, p.1 < 3) ∧
      ∃ out, print_parcopy 8 3 st.parcopy st.n_used = .ok out) ∧
    (∀ st line, fork_walk_body 8 3 st ≠ .error (.assertion line)) :=
  have h1 : parcopy_spec 3 [0, 0, 0] [2, 0, 0] (fun _ => 0) := by
    unfold parcopy_spec; decide
  have h2 : live_in_fixpoints 3 [0, 0, 0] (fun _ => 0) := by
    unfold live_in_fixpoints; decide
  ⟨h1, h2, impl_parallel_copy_assertions 8 3 [0, 0, 0] [2, 0, 0] (fun _ => 0) h1 h2 (by decide)⟩

/-! ## C16: specifications without forks -/

theorem rd_ge (a : List Nat) (i : Nat) (h : a.length ≤ i) : rd a i = 0 := by
  simp [rd, List.getD_eq_getElem?_getD, List.getElem?_eq_none h]

theorem out_of_cycle_body_idle (n : Nat) (P U : List Nat)
    (hspec : parcopy_spec n P U (fun _ => 0)) (hle : ∀ r < n, rd U r ≤ 1)
    (poc : List Bool) (hpoc : ∀ x < n, rdb poc x = true ↔ in_cycle_part P (fun _ => 0) x)
    (k : Nat) (hk : k < n) (st st' : pc_state) (hQ : st.parcopy = P)
    (h : out_of_cycle_body n poc k st = .ok st') : st' = st := by
  obtain ⟨hn, hlp, hlu, hP, hex, hsm⟩ := hspec
  unfold out_of_cycle_body at h
  rw [hQ] at h
  by_cases h1 : rd P k = k
  · simp only [h1, if_true] at h
    injection h with h
    exact h.symm
  · simp only [h1, if_false] at h
    have hnot : ¬ ((rdb poc (rd P k) && !rdb poc k) = true) := by
      intro hc
      simp only [Bool.and_eq_true, Bool.not_eq_true', ← Bool.not_eq_true] at hc
      have hfl := hP k hk
      have hKf := (hpoc _ hfl).mp hc.1
      have hKk : ¬ in_cycle_part P (fun _ => 0) k := fun hh => hc.2 ((hpoc k hk).mpr hh)
      have hcf : on_cycle P (rd P k) := hKf.resolve_right (by simp)
      obtain ⟨p, hp, hpc, hpx, hpne⟩ := on_cycle_pred n P hP _ hfl hcf
      have hcard : readers n P (rd P k) ≤ 1 := by
        have := hex _ hfl
        have := hle _ hfl
        omega
      unfold readers at hcard
      rw [Finset.card_le_one_iff] at hcard
      have hpk : p = k := hcard
        (Finset.mem_filter.mpr ⟨Finset.mem_range.mpr hp, hpne, hpx⟩)
        (Finset.mem_filter.mpr ⟨Finset.mem_range.mpr hk, Ne.symm h1, rfl⟩)
      rw [hpk] at hpc
      exact hKk (Or.inl hpc)
    simp only [hnot] at h
    injection h with h
    exact h.symm

theorem fork_body_idle (B n : Nat) (P U : List Nat) (hU : ∀ x, rd U x ≤ 1)
    (k : Nat) (st st' : pc_state)
    (hI : st.parcopy = P ∧ st.n_used = U ∧ st.restores = [])
    (h : fork_body B n k st = .ok st') :
    st'.parcopy = P ∧ st'.n_used = U ∧ st'.restores = [] := by
  unfold fork_body at h
  simp only at h
  split_ifs at h with hc
  · injection h with h
    rw [← h]; exact hI
  · refine (while_loop_inv (fun t => decide (t.r ≠ rd t.parcopy t.r)) (fork_walk_body B n)
      (fun t => t.parcopy = P ∧ t.n_used = U ∧ t.restores = []) ?_ B { st with r := k } st' hI
      h).1
    intro t t' ht _ hb
    unfold fork_walk_body at hb
    have : ¬ rd t.n_used (rd t.parcopy t.r) > 1 := by
      rw [ht.2.1]
      have := hU (rd t.parcopy t.r)
      omega
    simp only [this, if_false] at hb
    injection hb with hb
    rw [← hb]
    exact ht

/-- C16 (no restore without forks): for every specification in which `n_used`
is the exact reader count and no register is read more than once (every
`n_used[r] <= 1`), `impl_parallel_copy` returns, records no restore copy and
leaves `parcopy` and `n_used` exactly as they were on entry. -/
theorem impl_parallel_copy_no_fork (B n_regs : Nat) (parcopy n_used : List Nat)
    (hspec : parcopy_spec n_regs parcopy n_used (fun _ => 0))
    (hle : ∀ r < n_regs, rd n_used r ≤ 1) (hB : 2 * n_regs + 1 < B) :
    ∃ st, impl_parallel_copy B n_regs parcopy n_used = .ok st ∧
      st.restores = [] ∧ st.parcopy = parcopy ∧ st.n_used = n_used := by
  have hfix : live_in_fixpoints n_regs parcopy (fun _ => 0) := by
    intro r _ h
    simp at h
  obtain ⟨poc, st1, st2, out, _, hpoc, hl1, _, _, _, hl2, _, _, _, hrun⟩ :=
    impl_parallel_copy_run B n_regs parcopy n_used (fun _ => 0) hspec hfix hB
  have hU : ∀ x, rd n_used x ≤ 1 := by
    intro x
    by_cases hx : x < n_regs
    · exact hle x hx
    · rw [rd_ge _ _ (by rw [hspec.2.2.1]; omega)]
      exact Nat.zero_le _
  have h1 : st1 = { parcopy := parcopy, n_used := n_used, restores := [], r := 0 } :=
    for_loop_inv (out_of_cycle_body n_regs poc)
      (fun _ st => st = { parcopy := parcopy, n_used := n_used, restores := [], r := 0 })
      n_regs
      (fun k st st' hk hst hb => by
        rw [out_of_cycle_body_idle n_regs parcopy n_used hspec hle poc hpoc k hk st st'
          (by rw [hst]) hb]
        exact hst)
      _ st1 rfl hl1
  have h2 := for_loop_inv (fork_body B n_regs)
      (fun _ st => st.parcopy = parcopy ∧ st.n_used = n_used ∧ st.restores = []) n_regs
      (fun k st st' _ hst hb => fork_body_idle B n_regs parcopy n_used hU k st st' hst hb)
      st1 st2 (by rw [h1]; exact ⟨rfl, rfl, rfl⟩) hl2
  exact ⟨st2, hrun, h2.2.2, h2.1, h2.2.1⟩

theorem impl_parallel_copy_no_fork_witness :
    parcopy_spec 3 [1, 2, 2] [0, 1, 1] (fun _ => 0) ∧
    (∀ r < 3, rd [0, 1, 1] r ≤ 1) ∧
    impl_parallel_copy 8 3 [1, 0, 2] [1, 1, 0]
      = .ok { parcopy := [1, 0, 2], n_used := [1, 1, 0], restores := [], r := 0 } ∧
    ∃ st, impl_parallel_copy 8 3 [1, 2, 2] [0, 1, 1] = .ok st ∧
      st.restores = [] ∧ st.parcopy = [1, 2, 2] ∧ st.n_used = [0, 1, 1] :=
  have h1 : parcopy_spec 3 [1, 2, 2] [0, 1, 1] (fun _ => 0) := by
    unfold parcopy_spec; decide
  have h2 : ∀ r < 3, rd [0, 1, 1] r ≤ 1 := by decide
  ⟨h1, h2, rfl, impl_parallel_copy_no_fork 8 3 [1, 2, 2] [0, 1, 1] h1 h2 (by decide)⟩

/-! ## C18: the shape of the residual -/

theorem on_cycle_iterate (P : List Nat) (r : Nat) (hc : on_cycle P r) (j : Nat) :
    on_cycle P ((rd P)^[j] r) := by
  induction j with
  | zero => exact hc
  | succ j ih =>
    rw [Function.iterate_succ_apply']
    exact on_cycle_succ P _ ih ih.1

theorem on_cycle_kept (n : Nat) (P : List Nat) (extra : Nat → Nat) (hP : ∀ r < n, rd P r < n)
    (ln : Nat) (st : pc_state) (hI : pc_inv n P extra ln st) (r : Nat) (hr : r < n)
    (hc : on_cycle P r) : on_cycle st.parcopy r := by
  have hit : ∀ j, (rd st.parcopy)^[j] r = (rd P)^[j] r := by
    intro j
    induction j with
    | zero => rfl
    | succ j ih =>
      rw [Function.iterate_succ_apply', Function.iterate_succ_apply', ih]
      exact hI.kept _ (iterate_lt n P hP j r hr) (Or.inl (on_cycle_iterate P r hc j))
  obtain ⟨hne, k, hk, hper⟩ := hc
  refine ⟨?_, k, hk, by rw [hit k]; exact hper⟩
  rw [hI.kept r hr (Or.inl ⟨hne, k, hk, hper⟩)]
  exact hne

theorem chain_reaches_fixpoint (n : Nat) (P : List Nat) (extra : Nat → Nat) (Q V : List Nat)
    (rk : Nat → Nat) (hF : forest n P extra Q V rk) :
    ∀ m x, x < n → ¬ in_cycle_part P extra x → rk x ≤ m →
      ∃ k, rd Q ((rd Q)^[k] x) = (rd Q)^[k] x := by
  intro m
  induction m with
  | zero =>
    intro x hx hK hm
    by_cases hfx : rd Q x = x
    · exact ⟨0, hfx⟩
    · have := (hF.down x hx hK hfx).2
      omega
  | succ m ih =>
    intro x hx hK hm
    by_cases hfx : rd Q x = x
    · exact ⟨0, hfx⟩
    · have hd := hF.down x hx hK hfx
      obtain ⟨k, hk⟩ := ih (rd Q x) (hF.lt x hx) hd.1 (by omega)
      exact ⟨k + 1, by rw [Function.iterate_succ_apply]; exact hk⟩

/-- C18 (amended): for every specification that satisfies the data-model
invariant and in which every register holding a live-in source is a fixpoint,
the `parcopy` left by `impl_parallel_copy` consists of fixpoints, cycles and
chains that end in a fixpoint: every register `r` with `parcopy[r] != r` lies on
a cycle of the residual, or following `parcopy` from `r` reaches a fixpoint (so
no chain leads into a cycle). -/
theorem impl_parallel_copy_residual_shape (B n_regs : Nat) (parcopy n_used : List Nat)
    (extra : Nat → Nat) (hspec : parcopy_spec n_regs parcopy n_used extra)
    (hfix : live_in_fixpoints n_regs parcopy extra) (hB : 2 * n_regs + 1 < B) :
    ∃ st, impl_parallel_copy B n_regs parcopy n_used = .ok st ∧
      ∀ r < n_regs, rd st.parcopy r ≠ r →
        on_cycle st.parcopy r ∨
        ∃ k, rd st.parcopy ((rd st.parcopy)^[k] r) = (rd st.parcopy)^[k] r := by
  have hn := hspec.1
  have hP := hspec.2.2.2.1
  obtain ⟨poc, st1, st2, out, _, _, _, _, _, _, _, hI2, hcut2, _, hrun⟩ :=
    impl_parallel_copy_run B n_regs parcopy n_used extra hspec hfix hB
  refine ⟨st2, hrun, fun r hr hne => ?_⟩
  by_cases hK : in_cycle_part parcopy extra r
  · left
    rcases hK with hc | he
    · exact on_cycle_kept n_regs parcopy extra hP n_regs st2 hI2 r hr hc
    · exfalso
      rcases hI2.cases r hr with h | h
      · exact hne (by rw [h]; exact hfix r hr he)
      · exact hne h
  · right
    obtain ⟨rk, hrk1, hrk2⟩ := exists_rank n_regs parcopy hP
    have hF := forest_of_inv n_regs parcopy extra hn hP hfix rk hrk1 hrk2 n_regs st2 hI2 hcut2
    exact chain_reaches_fixpoint n_regs parcopy extra st2.parcopy st2.n_used rk hF (rk r) r hr hK
      (le_refl _)

theorem impl_parallel_copy_residual_shape_witness :
    parcopy_spec 3 [1, 0, 0] [2, 1, 0] (fun _ => 0) ∧
    live_in_fixpoints 3 [1, 0, 0] (fun _ => 0) ∧
    ∃ st, impl_parallel_copy 8 3 [1, 0, 0] [2, 1, 0] = .ok st ∧
      ∀ r < 3, rd st.parcopy r ≠ r →
        on_cycle st.parcopy r ∨
        ∃ k, rd st.parcopy ((rd st.parcopy)^[k] r) = (rd st.parcopy)^[k] r :=
  have h1 : parcopy_spec 3 [1, 0, 0] [2, 1, 0] (fun _ => 0) := by
    unfold parcopy_spec; decide
  have h2 : live_in_fixpoints 3 [1, 0, 0] (fun _ => 0) := by
    unfold live_in_fixpoints; decide
  ⟨h1, h2,
    impl_parallel_copy_residual_shape 8 3 [1, 0, 0] [2, 1, 0] (fun _ => 0) h1 h2 (by decide)⟩

/-- C18 (counterexample): on Scenario A, the chain `parcopy = [1, 2, 2]`,
`n_used = [0, 1, 1]`, `impl_parallel_copy` leaves `parcopy` as it is; register 0
has `parcopy[0] = 1` and lies on no cycle, since no register reads from it. -/
theorem impl_parallel_copy_residual_chain :
    parcopy_spec 3 [1, 2, 2] [0, 1, 1] (fun _ => 0) ∧
    impl_parallel_copy 8 3 [1, 2, 2] [0, 1, 1]
      = .ok { parcopy := [1, 2, 2], n_used := [0, 1, 1], restores := [], r := 2 } ∧
    rd [1, 2, 2] 0 ≠ 0 ∧ ¬ on_cycle [1, 2, 2] 0 := by
  refine ⟨by unfold parcopy_spec; decide, rfl, by decide, fun h => ?_⟩
  obtain ⟨p, hp, _, hp0, _⟩ := on_cycle_pred 3 [1, 2, 2] (by decide) 0 (by decide) h
  interval_cases p <;> simp [rd] at hp0

/-! ## C14: the out-of-cycle propagations -/

theorem find_new_src_found (n : Nat) (Q : List Nat) (poc : List Bool) (f : Nat)
    (h : find_new_src n Q poc f ≠ UINT_MAX) :
    find_new_src n Q poc f < n ∧ rd Q (find_new_src n Q poc f) = f ∧
      rdb poc (find_new_src n Q poc f) = true := by
  unfold find_new_src at h ⊢
  cases hf : (List.range n).find? (fun src => decide (rd Q src = f) && rdb poc src) with
  | none => rw [hf] at h; exact absurd rfl h
  | some s =>
    have h1 := List.find?_some hf
    have h2 := List.mem_range.mp (List.mem_of_find?_eq_some hf)
    simp only [Bool.and_eq_true, decide_eq_true_eq] at h1
    exact ⟨h2, h1.1, h1.2⟩

theorem out_of_cycle_body_shape (n : Nat) (poc : List Bool) (k : Nat) (st st' : pc_state)
    (h : out_of_cycle_body n poc k st = .ok st') :
    st' = st ∨
    (rd st.parcopy k ≠ k ∧ rdb poc (rd st.parcopy k) = true ∧ rdb poc k = false ∧
      ∃ s, s < n ∧ rd st.parcopy s = rd st.parcopy k ∧ rdb poc s = true ∧
        st' = { parcopy := st.parcopy.set k k,
                n_used := st.n_used.set (rd st.parcopy k)
                  (u32_dec (rd st.n_used (rd st.parcopy k))),
                restores := st.restores ++ [(s, k)], r := st.r }) := by
  unfold out_of_cycle_body at h
  by_cases h1 : rd st.parcopy k = k
  · simp only [h1, if_true] at h
    injection h with h
    exact Or.inl h.symm
  · simp only [h1, if_false] at h
    by_cases h2 : (rdb poc (rd st.parcopy k) && !rdb poc k) = true
    · simp only [h2, if_true] at h
      by_cases h3 : find_new_src n st.parcopy poc (rd st.parcopy k) ≠ UINT_MAX
      · rw [if_pos h3] at h
        injection h with h
        obtain ⟨hs1, hs2, hs3⟩ := find_new_src_found n st.parcopy poc _ h3
        simp only [Bool.and_eq_true, Bool.not_eq_true'] at h2
        exact Or.inr ⟨h1, h2.1, h2.2, _, hs1, hs2, hs3, h.symm⟩
      · rw [if_neg h3] at h
        simp at h
    · simp only [h2] at h
      injection h with h
      exact Or.inl h.symm

theorem ooc_inv_step (n : Nat) (P : List Nat) (extra : Nat → Nat)
    (hn : n < 4294967296) (hP : ∀ r < n, rd P r < n) (hfix : live_in_fixpoints n P extra)
    (poc : List Bool) (hpoc : ∀ x < n, rdb poc x = true ↔ in_cycle_part P extra x)
    (k : Nat) (st st' : pc_state) (hk : k < n) (hI : ooc_inv n P extra k st)
    (h : out_of_cycle_body n poc k st = .ok st') : ooc_inv n P extra (k + 1) st' := by
  obtain ⟨st'', hb, hinv, hcut, hsK⟩ :=
    out_of_cycle_body_step n P extra hn hP hfix poc hpoc k st hk ⟨hI.inv, hI.cut, hI.srcK⟩
  rw [h] at hb
  injection hb with hb
  subst hb
  have hQk := hI.later k (le_refl _)
  have hklen : k < st.parcopy.length := by rw [hI.inv.len_Q]; exact hk
  refine ⟨hinv, hcut, hsK, ?_, ?_, ?_, ?_⟩
  · intro d hd
    rcases out_of_cycle_body_shape n poc k st st' h with e | ⟨_, _, _, s, _, _, _, e⟩
    · rw [e]; exact hI.later d (by omega)
    · rw [e]
      simp only
      rw [rd_set_other _ _ _ _ (by omega)]
      exact hI.later d (by omega)
  · intro d hd
    rcases out_of_cycle_body_shape n poc k st st' h with e | ⟨h1, h2, h3, s, hs, hQs, hps, e⟩
    · rw [e]
      by_cases hdk : d = k
      · rw [hdk]; exact Or.inl hQk
      · exact hI.done d (by omega)
    · rw [e]
      simp only
      by_cases hdk : d = k
      · right
        rw [hdk, rd_set_same _ _ _ hklen]
        have hfl : rd st.parcopy k < n := by rw [hQk]; exact hP k hk
        have hKs : in_cycle_part P extra s := (hpoc s hs).mp hps
        refine ⟨by rw [← hQk]; exact h1, rfl, ?_, ?_, s, ?_, ?_⟩
        · rw [← hQk]; exact (hpoc _ hfl).mp h2
        · intro hK
          rw [(hpoc k hk).mpr hK] at h3
          exact absurd h3 (by simp)
        · exact List.mem_append.mpr (Or.inr (List.mem_singleton.mpr rfl))
        · rw [← hI.inv.kept s hs hKs, hQs, hQk]
      · rw [rd_set_other _ _ _ _ (Ne.symm hdk)]
        rcases hI.done d (by omega) with hl | ⟨a1, a2, a3, a4, s', a5, a6⟩
        · exact Or.inl hl
        · exact Or.inr ⟨a1, a2, a3, a4, s', List.mem_append.mpr (Or.inl a5), a6⟩
  · intro p hp
    rcases out_of_cycle_body_shape n poc k st st' h with e | ⟨h1, _, _, s, _, _, _, e⟩
    · rw [e] at hp ⊢
      obtain ⟨a1, a2, a3⟩ := hI.dsts p hp
      exact ⟨by omega, a2, a3⟩
    · rw [e] at hp ⊢
      simp only at hp ⊢
      rcases List.mem_append.mp hp with hp | hp
      · obtain ⟨a1, a2, a3⟩ := hI.dsts p hp
        refine ⟨by omega, a2, ?_⟩
        rw [rd_set_other _ _ _ _ (by omega)]
        exact a3
      · simp only [List.mem_singleton] at hp
        rw [hp]
        exact ⟨Nat.lt_succ_self k, by rw [← hQk]; exact h1, rd_set_same _ _ _ hklen⟩
  · rcases out_of_cycle_body_shape n poc k st st' h with e | ⟨_, _, _, s, _, _, _, e⟩
    · rw [e]; exact hI.nodup
    · rw [e]
      simp only [List.map_append, List.map_cons, List.map_nil]
      rw [List.nodup_append]
      refine ⟨hI.nodup, List.nodup_singleton k, ?_⟩
      intro a ha hak
      simp only [List.mem_singleton] at hak
      obtain ⟨p, hp, hpa⟩ := List.mem_map.mp ha
      have := (hI.dsts p hp).1
      rw [hpa, hak] at this
      exact absurd this (Nat.lt_irrefl k)

theorem readers_removed (n : Nat) (P Q : List Nat)
    (hcs : ∀ x < n, rd Q x = rd P x ∨ rd Q x = x) (r : Nat) :
    readers n P r = readers n Q r +
      ((Finset.range n).filter (fun d => rd P d = r ∧ rd Q d ≠ rd P d)).card := by
  unfold readers
  rw [← Finset.filter_card_add_filter_neg_card_eq_card (fun d => rd Q d = rd P d)]
  congr 1
  · congr 1
    ext d
    simp only [Finset.mem_filter, Finset.mem_range]
    constructor
    · rintro ⟨⟨hd, hdr, hPd⟩, hQd⟩
      exact ⟨hd, hdr, by rw [hQd]; exact hPd⟩
    · rintro ⟨hd, hdr, hQd⟩
      have hQP : rd Q d = rd P d := by
        rcases hcs d hd with h | h
        · exact h
        · rw [hQd] at h; exact absurd h.symm hdr
      exact ⟨⟨hd, hdr, by rw [← hQP]; exact hQd⟩, hQP⟩
  · congr 1
    ext d
    simp only [Finset.mem_filter, Finset.mem_range]
    constructor
    · rintro ⟨⟨hd, _, hPd⟩, hQd⟩
      exact ⟨hd, hPd, hQd⟩
    · rintro ⟨hd, hPd, hQd⟩
      refine ⟨⟨hd, ?_, hPd⟩, hQd⟩
      intro hdr
      rcases hcs d hd with h | h
      · exact hQd h
      · apply hQd
        rw [h, hPd, hdr]

/-- C14 (amended): for every specification that satisfies the data-model
invariant and in which every register holding a live-in source is a fixpoint,
the first phase of `impl_parallel_copy` returns, and after it no register
outside a cycle reads a register on a cycle.  Every entry of `parcopy` is as on
entry or belongs to a removed demand `from_reg -> to_reg` from a marked register
(on a cycle or holding a live-in source) to an unmarked one: then
`parcopy[to_reg] == to_reg` and a restore `(new_src -> to_reg)` is recorded with
`new_src` a marked register that read `from_reg` on entry (a cycle member when
there are no live-in sources, else possibly the fixpoint `from_reg` itself).
Every restore belongs to a removed demand, no destination is recorded twice,
and `n_used[r]` is decremented once for every removed demand from `r`. -/
theorem out_of_cycle_phase_spec (B n_regs : Nat) (parcopy n_used : List Nat)
    (extra : Nat → Nat) (hspec : parcopy_spec n_regs parcopy n_used extra)
    (hfix : live_in_fixpoints n_regs parcopy extra) (hB : 2 * n_regs + 1 < B) :
    ∃ st, out_of_cycle_phase B n_regs parcopy n_used = .ok st ∧
      (∀ x < n_regs, ¬ on_cycle parcopy x → rd st.parcopy x ≠ x →
        ¬ on_cycle parcopy (rd st.parcopy x)) ∧
      (∀ d < n_regs, rd st.parcopy d = rd parcopy d ∨
        (rd parcopy d ≠ d ∧ rd st.parcopy d = d ∧ in_cycle_part parcopy extra (rd parcopy d) ∧
          ¬ in_cycle_part parcopy extra d ∧
          ∃ s, (s, d) ∈ st.restores ∧ s < n_regs ∧ in_cycle_part parcopy extra s ∧
            rd parcopy s = rd parcopy d)) ∧
      (∀ p ∈ st.restores, p.2 < n_regs ∧ rd parcopy p.2 ≠ p.2 ∧ rd st.parcopy p.2 = p.2) ∧
      (st.restores.map Prod.snd).Nodup ∧
      (∀ r < n_regs, rd st.n_used r +
        ((Finset.range n_regs).filter
          (fun d => rd parcopy d = r ∧ rd st.parcopy d ≠ rd parcopy d)).card = rd n_used r) ∧
      ((∀ r < n_regs, extra r = 0) → ∀ p ∈ st.restores, on_cycle parcopy p.1) := by
  obtain ⟨poc, st1, _, _, _, hpoc, hl1, hph1, _, _, _, _, _, _, _⟩ :=
    impl_parallel_copy_run B n_regs parcopy n_used extra hspec hfix hB
  have hI : ooc_inv n_regs parcopy extra n_regs st1 :=
    for_loop_inv (out_of_cycle_body n_regs poc) (fun k st => ooc_inv n_regs parcopy extra k st)
      n_regs
      (fun k st st' hk hst hb => ooc_inv_step n_regs parcopy extra hspec.1 hspec.2.2.2.1 hfix
        poc hpoc k st st' hk hst hb)
      _ st1
      ⟨pc_inv_init n_regs parcopy n_used extra hspec n_regs 0,
        fun x hx => absurd hx (Nat.not_lt_zero _), fun p hp => by simp at hp,
        fun d _ => rfl, fun d hd => absurd hd (Nat.not_lt_zero _),
        fun p hp => by simp at hp, by simp⟩
      hl1
  refine ⟨st1, hph1, ?_, ?_, hI.dsts, hI.nodup, ?_, ?_⟩
  · intro x hx hnc hne hc
    have hK : ¬ in_cycle_part parcopy extra x := by
      rintro (h | h)
      · exact hnc h
      · rcases hI.inv.cases x hx with h' | h'
        · exact hne (by rw [h']; exact hfix x hx h)
        · exact hne h'
    exact hI.cut x hx hK hne (Or.inl hc)
  · intro d hd
    rcases hI.done d hd with h | ⟨a1, a2, a3, a4, s, a5, a6⟩
    · exact Or.inl h
    · exact Or.inr ⟨a1, a2, a3, a4, s, a5, hI.inv.src_lt _ a5, hI.srcK _ a5, a6⟩
  · intro r hr
    have h1 := hI.inv.exact r hr
    have h2 := hspec.2.2.2.2.1 r hr
    have h3 := readers_removed n_regs parcopy st1.parcopy hI.inv.cases r
    omega
  · intro h0 p hp
    rcases hI.srcK p hp with h | h
    · exact h
    · have := h0 p.1 (hI.inv.src_lt p hp)
      omega

theorem out_of_cycle_phase_spec_witness :
    parcopy_spec 3 [1, 0, 0] [2, 1, 0] (fun _ => 0) ∧
    live_in_fixpoints 3 [1, 0, 0] (fun _ => 0) ∧
    out_of_cycle_phase 8 3 [1, 0, 0] [2, 1, 0]
      = .ok { parcopy := [1, 0, 2], n_used := [1, 1, 0], restores := [(1, 2)], r := 0 } ∧
    ∃ st, out_of_cycle_phase 8 3 [1, 0, 0] [2, 1, 0] = .ok st ∧
      (∀ x < 3, ¬ on_cycle [1, 0, 0] x → rd st.parcopy x ≠ x →
        ¬ on_cycle [1, 0, 0] (rd st.parcopy x)) ∧
      (∀ d < 3, rd st.parcopy d = rd [1, 0, 0] d ∨
        (rd [1, 0, 0] d ≠ d ∧ rd st.parcopy d = d ∧
          in_cycle_part [1, 0, 0] (fun _ => 0) (rd [1, 0, 0] d) ∧
          ¬ in_cycle_part [1, 0, 0] (fun _ => 0) d ∧
          ∃ s, (s, d) ∈ st.restores ∧ s < 3 ∧ in_cycle_part [1, 0, 0] (fun _ => 0) s ∧
            rd [1, 0, 0] s = rd [1, 0, 0] d)) ∧
      (∀ p ∈ st.restores, p.2 < 3 ∧ rd [1, 0, 0] p.2 ≠ p.2 ∧ rd st.parcopy p.2 = p.2) ∧
      (st.restores.map Prod.snd).Nodup ∧
      (∀ r < 3, rd st.n_used r +
        ((Finset.range 3).filter
          (fun d => rd [1, 0, 0] d = r ∧ rd st.parcopy d ≠ rd [1, 0, 0] d)).card
          = rd [2, 1, 0] r) ∧
      ((∀ r < 3, (fun _ => 0) r = 0) → ∀ p ∈ st.restores, on_cycle [1, 0, 0] p.1) :=
  have h1 : parcopy_spec 3 [1, 0, 0] [2, 1, 0] (fun _ => 0) := by
    unfold parcopy_spec; decide
  have h2 : live_in_fixpoints 3 [1, 0, 0] (fun _ => 0) := by
    unfold live_in_fixpoints; decide
  ⟨h1, h2, rfl, out_of_cycle_phase_spec 8 3 [1, 0, 0] [2, 1, 0] (fun _ => 0) h1 h2 (by decide)⟩

/-- C14 (counterexample): in the specification `parcopy = [0, 0]`,
`n_used = [2, 0]` register 0 is a fixpoint that holds a live-in source and is
read by register 1.  The first phase removes the demand `r0 -> r1` and records
the restore `r0 -> r1`: the new source is register 0 itself, which lies on no
cycle. -/
theorem out_of_cycle_phase_live_in_source :
    parcopy_spec 2 [0, 0] [2, 0] (fun r => if r = 0 then 1 else 0) ∧
    live_in_fixpoints 2 [0, 0] (fun r => if r = 0 then 1 else 0) ∧
    out_of_cycle_phase 8 2 [0, 0] [2, 0]
      = .ok { parcopy := [0, 1], n_used := [1, 0], restores := [(0, 1)], r := 0 } ∧
    ¬ on_cycle [0, 0] 0 :=
  ⟨by unfold parcopy_spec; decide, by unfold live_in_fixpoints; decide, rfl, fun h => h.1 rfl⟩

/-! ## C17: no fork is left -/

theorem cut_rel_refl (st : pc_state) : cut_rel st st :=
  ⟨fun _ => Or.inl rfl, fun _ => le_refl _, fun _ h => h⟩

theorem cut_rel_r (st : pc_state) (r : Nat) : cut_rel st { st with r := r } :=
  ⟨fun _ => Or.inl rfl, fun _ => le_refl _, fun _ h => h⟩

theorem cut_rel_trans (a b c : pc_state) (h1 : cut_rel a b) (h2 : cut_rel b c) : cut_rel a c := by
  refine ⟨fun x => ?_, fun x => le_trans (h2.used_le x) (h1.used_le x),
    fun x h => h1.used_zero x (h2.used_zero x h)⟩
  rcases h2.perm x with h | h
  · rw [h]; exact h1.perm x
  · exact Or.inr h

theorem cut_rel_of_reroute (r : Nat) (st st' : pc_state) (h : reroute_rel r st st') :
    cut_rel st st' := by
  refine ⟨fun x => ?_, fun x => ?_, fun x hx => ?_⟩
  · rcases h.perm x with h1 | h1
    · exact Or.inl h1
    · exact Or.inr h1.1
  · by_cases hx : x = r
    · rw [hx, h.one]; exact h.pos
    · rw [h.used x hx]
  · by_cases hxr : x = r
    · rw [hxr, h.one] at hx; exact absurd hx (by decide)
    · rw [← h.used x hxr]; exact hx

theorem reaches_mono (Q Q' : List Nat) (hp : ∀ x, rd Q' x = rd Q x ∨ rd Q' x = x) (a b : Nat)
    (h : reaches Q' a b) : reaches Q a b := by
  obtain ⟨j, hj⟩ := h
  subst hj
  induction j with
  | zero => exact ⟨0, rfl⟩
  | succ j ih =>
    obtain ⟨j', hj'⟩ := ih
    rw [Function.iterate_succ_apply']
    rcases hp ((rd Q')^[j] a) with h | h
    · exact ⟨j' + 1, by rw [Function.iterate_succ_apply', hj', h]⟩
    · exact ⟨j', by rw [hj', h]⟩

theorem reaches_step (Q : List Nat) (a u : Nat) (h : reaches Q a u) (hne : u ≠ a) :
    reaches Q (rd Q a) u := by
  obtain ⟨j, hj⟩ := h
  cases j with
  | zero => exact absurd hj.symm hne
  | succ j => exact ⟨j, by rw [← Function.iterate_succ_apply]; exact hj⟩

theorem reaches_fixed (Q : List Nat) (a u : Nat) (h : reaches Q a u) (hfx : rd Q a = a) :
    u = a := by
  obtain ⟨j, hj⟩ := h
  rw [iterate_fixed _ _ hfx j] at hj
  exact hj.symm

theorem forks_done_mono (k : Nat) (st st' : pc_state) (h : cut_rel st st')
    (hd : forks_done k st) : forks_done k st' := by
  intro e he hne h0 u hu
  have hQe : rd st.parcopy e ≠ e := by
    rcases h.perm e with h1 | h1
    · rw [← h1]; exact hne
    · exact absurd h1 hne
  exact le_trans (h.used_le u)
    (hd e he hQe (h.used_zero e h0) u (reaches_mono st.parcopy st'.parcopy h.perm e u hu))

theorem reroute_body_frame (n : Nat) (P : List Nat) (extra : Nat → Nat) (ln r j : Nat)
    (st0 st st' : pc_state) (hI : pc_inv n P extra ln st) (hj : j < n)
    (hF : (∀ x, rd st.parcopy x = rd st0.parcopy x ∨
        (rd st.parcopy x = x ∧ rd st0.parcopy x = r ∧ x ≠ r)) ∧
      (∀ x, x ≠ r → rd st.n_used x = rd st0.n_used x))
    (hb : reroute_body ln r j st = .ok st') :
    (∀ x, rd st'.parcopy x = rd st0.parcopy x ∨
        (rd st'.parcopy x = x ∧ rd st0.parcopy x = r ∧ x ≠ r)) ∧
      (∀ x, x ≠ r → rd st'.n_used x = rd st0.n_used x) := by
  unfold reroute_body at hb
  by_cases hk : j ≠ ln ∧ j ≠ r ∧ rd st.parcopy j = r
  · rw [if_pos hk] at hb
    injection hb with hb
    subst hb
    simp only
    have hl : j < st.parcopy.length := by rw [hI.len_Q]; exact hj
    refine ⟨fun x => ?_, fun x hx => ?_⟩
    · by_cases hxj : x = j
      · right
        subst hxj
        rw [rd_set_same _ _ _ hl]
        refine ⟨rfl, ?_, hk.2.1⟩
        rcases hF.1 x with h | h
        · rw [← h]; exact hk.2.2
        · rw [h.1] at hk; exact absurd hk.2.2 hk.2.1
      · rw [rd_set_other _ _ _ _ (Ne.symm hxj)]
        exact hF.1 x
    · rw [rd_set_other _ _ _ _ (Ne.symm hx)]
      exact hF.2 x hx
  · rw [if_neg hk] at hb
    injection hb with hb
    subst hb
    exact hF

theorem reroute_loop_frame (n : Nat) (P : List Nat) (extra : Nat → Nat)
    (hP : ∀ r < n, rd P r < n) (hfix : live_in_fixpoints n P extra) (ln r : Nat)
    (hln : ln < n) (hr : r < n) (hKr : ¬ in_cycle_part P extra r) (hlr : ln ≠ r)
    (st : pc_state) (hI : pc_inv n P extra n st) (hcut : cut_off P extra n st.parcopy)
    (hQl : rd st.parcopy ln = r) :
    ∃ st', for_loop (reroute_body ln r) n { st with r := r } = .ok st' ∧
      pc_inv n P extra n st' ∧ cut_off P extra n st'.parcopy ∧ st'.r = r ∧
      reroute_rel r st st' := by
  obtain ⟨st', hfl, ⟨hI', hcut', hQl', hsr', hdone⟩, hF1, hF2⟩ :=
    for_loop_total (reroute_body ln r)
      (fun j t => (pc_inv n P extra ln t ∧ cut_off P extra n t.parcopy ∧
        rd t.parcopy ln = r ∧ t.r = r ∧
        ∀ dst < j, dst ≠ ln → dst ≠ r → rd t.parcopy dst ≠ r) ∧
        (∀ x, rd t.parcopy x = rd st.parcopy x ∨
          (rd t.parcopy x = x ∧ rd st.parcopy x = r ∧ x ≠ r)) ∧
        (∀ x, x ≠ r → rd t.n_used x = rd st.n_used x)) n
      (fun j t hj hI => by
        obtain ⟨t', hb, hold⟩ :=
          reroute_body_step n P extra hP hfix ln r hln hr hKr hlr j t hj hI.1
        exact ⟨t', hb, hold,
          reroute_body_frame n P extra ln r j st t t' hI.1.1 hj hI.2 hb⟩)
      { st with r := r }
      ⟨⟨pc_inv_open n P extra ln r st hI, hcut, hQl, rfl,
        fun dst hd => absurd hd (Nat.not_lt_zero _)⟩, fun x => Or.inl rfl, fun x _ => rfl⟩
  obtain ⟨_, _, _, h4, _⟩ := unmarked_facts n P extra hP hfix ln st' hI'
  obtain ⟨_, _, _, h4', _⟩ := unmarked_facts n P extra hP hfix n st hI
  have hone : rd st'.n_used r = 1 := by
    rw [h4 r hr hKr]
    unfold readers
    rw [Finset.card_eq_one]
    refine ⟨ln, ?_⟩
    ext d
    simp only [Finset.mem_filter, Finset.mem_range, Finset.mem_singleton]
    constructor
    · rintro ⟨hd, hdr, hQd⟩
      by_contra hne
      exact hdone d hd hne hdr hQd
    · rintro rfl
      exact ⟨hln, hlr, hQl'⟩
  have hpos : 0 < rd st.n_used r := by
    rw [h4' r hr hKr]
    exact (readers_pos_iff n st.parcopy r).mpr ⟨ln, hln, hlr, hQl⟩
  exact ⟨st', hfl, pc_inv_close n P extra ln st' hI' (by rw [hQl', hone]), hcut', hsr',
    ⟨hF1, hF2, hone, hpos⟩⟩

theorem forest_iterate (n : Nat) (P : List Nat) (extra : Nat → Nat) (Q V : List Nat)
    (rk : Nat → Nat) (hF : forest n P extra Q V rk) (r : Nat) (hr : r < n)
    (hK : ¬ in_cycle_part P extra r) (j : Nat) :
    (rd Q)^[j] r < n ∧ ¬ in_cycle_part P extra ((rd Q)^[j] r) ∧ rk ((rd Q)^[j] r) ≤ rk r := by
  induction j with
  | zero => exact ⟨hr, hK, le_refl _⟩
  | succ j ih =>
    rw [Function.iterate_succ_apply']
    by_cases hfx : rd Q ((rd Q)^[j] r) = (rd Q)^[j] r
    · rw [hfx]; exact ih
    · have hd := hF.down _ ih.1 ih.2.1 hfx
      exact ⟨hF.lt _ ih.1, hd.1, by have := ih.2.2; omega⟩

theorem reroute_path (n : Nat) (P : List Nat) (extra : Nat → Nat) (Q V : List Nat)
    (rk : Nat → Nat) (hF : forest n P extra Q V rk) (r : Nat) (hr : r < n)
    (hK : ¬ in_cycle_part P extra r) (Q' : List Nat)
    (hp : ∀ x, rd Q' x = rd Q x ∨ (rd Q' x = x ∧ rd Q x = r ∧ x ≠ r)) (j : Nat) :
    (rd Q')^[j] r = (rd Q)^[j] r := by
  induction j with
  | zero => rfl
  | succ j ih =>
    rw [Function.iterate_succ_apply', Function.iterate_succ_apply', ih]
    obtain ⟨h1, h2, h3⟩ := forest_iterate n P extra Q V rk hF r hr hK j
    rcases hp ((rd Q)^[j] r) with h | ⟨_, hQ, hne⟩
    · exact h
    · exfalso
      have hd := hF.down _ h1 h2 (by rw [hQ]; exact Ne.symm hne)
      rw [hQ] at hd
      omega

theorem fork_walk_body_forks (n : Nat) (P : List Nat) (extra : Nat → Nat)
    (hn : n < 4294967296) (hP : ∀ r < n, rd P r < n) (hfix : live_in_fixpoints n P extra)
    (rk : Nat → Nat) (hrk1 : ∀ x < n, rk x ≤ n)
    (hrk2 : ∀ x < n, rd P x ≠ x → ¬ on_cycle P x → rk (rd P x) < rk x)
    (B : Nat) (hB : n + 1 < B) (k : Nat) (st0 st : pc_state)
    (hI : (pc_inv n P extra n st ∧ cut_off P extra n st.parcopy ∧ st.r < n ∧
      ¬ in_cycle_part P extra st.r) ∧ cut_rel st0 st ∧ forks_ahead k st)
    (hc : st.r ≠ rd st.parcopy st.r) :
    ∃ st', fork_walk_body B n st = .ok st' ∧
      ((pc_inv n P extra n st' ∧ cut_off P extra n st'.parcopy ∧ st'.r < n ∧
        ¬ in_cycle_part P extra st'.r) ∧ cut_rel st0 st' ∧ forks_ahead k st') ∧
      rk st'.r < rk st.r := by
  obtain ⟨⟨hI, hcut, hr, hK⟩, hrel0, hW⟩ := hI
  have hF := forest_of_inv n P extra hn hP hfix rk hrk1 hrk2 n st hI hcut
  have hdown := hF.down st.r hr hK (Ne.symm hc)
  have hlt := hF.lt st.r hr
  unfold fork_walk_body
  by_cases hk : rd st.n_used (rd st.parcopy st.r) > 1
  · simp only [hk, if_true]
    obtain ⟨ln, hflc, hln, hQl, hlf⟩ :=
      find_longest_chain_spec n P extra st.parcopy st.n_used rk hF _ hlt hdown.1 hk B hB
    rw [hflc]
    obtain ⟨st', hfl, hI', hcut', hsr', hrr⟩ :=
      reroute_loop_frame n P extra hP hfix ln _ hln hlt hdown.1 hlf st hI hcut hQl
    have hrel := cut_rel_of_reroute _ st st' hrr
    refine ⟨st', hfl, ⟨⟨hI', hcut', ?_, ?_⟩, cut_rel_trans st0 st st' hrel0 hrel, ?_⟩, ?_⟩
    · rw [hsr']; exact hlt
    · rw [hsr']; exact hdown.1
    · intro u hu hv
      have hu' := reaches_mono st.parcopy st'.parcopy hrel.perm k u hu
      have hv' : 1 < rd st.n_used u := lt_of_lt_of_le hv (hrel.used_le u)
      obtain ⟨hne, hru⟩ := hW u hu' hv'
      have hne' : u ≠ rd st.parcopy st.r := by
        intro e
        rw [e, hrr.one] at hv
        exact absurd hv (by decide)
      rw [hsr']
      refine ⟨hne', ?_⟩
      obtain ⟨j, hj⟩ := reaches_step st.parcopy st.r u hru hne
      exact ⟨j, by
        rw [reroute_path n P extra st.parcopy st.n_used rk hF _ hlt hdown.1 st'.parcopy
          hrr.perm j]
        exact hj⟩
    · rw [hsr']; exact hdown.2
  · rw [if_neg hk]
    refine ⟨_, rfl, ⟨⟨pc_inv_open n P extra n _ st hI, hcut, hlt, hdown.1⟩,
      ⟨hrel0.perm, hrel0.used_le, hrel0.used_zero⟩, ?_⟩, hdown.2⟩
    intro u hu hv
    obtain ⟨hne, hru⟩ := hW u hu hv
    refine ⟨?_, reaches_step st.parcopy st.r u hru hne⟩
    intro e
    simp only at hv e
    rw [e] at hv
    omega

theorem fork_body_forks (n : Nat) (P : List Nat) (extra : Nat → Nat)
    (hn : n < 4294967296) (hP : ∀ r < n, rd P r < n) (hfix : live_in_fixpoints n P extra)
    (rk : Nat → Nat) (hrk1 : ∀ x < n, rk x ≤ n)
    (hrk2 : ∀ x < n, rd P x ≠ x → ¬ on_cycle P x → rk (rd P x) < rk x)
    (B : Nat) (hB : n + 1 < B) (k : Nat) (st : pc_state) (hk : k < n)
    (hI : pc_inv n P extra n st ∧ cut_off P extra n st.parcopy ∧ forks_done k st) :
    ∃ st', fork_body B n k st = .ok st' ∧
      (pc_inv n P extra n st' ∧ cut_off P extra n st'.parcopy ∧ forks_done (k + 1) st') := by
  obtain ⟨hI, hcut, hdone⟩ := hI
  unfold fork_body
  by_cases hc : rd st.parcopy k = k ∨ rd st.n_used k > 0
  · simp only [hc, if_true]
    refine ⟨st, rfl, hI, hcut, ?_⟩
    intro e he hne h0 u hu
    by_cases hek : e = k
    · subst hek
      rcases hc with h | h
      · exact absurd h hne
      · omega
    · exact hdone e (by omega) hne h0 u hu
  · simp only [hc, if_false]
    push_neg at hc
    have hV0 : rd st.n_used k = 0 := by omega
    have hF := forest_of_inv n P extra hn hP hfix rk hrk1 hrk2 n st hI hcut
    have hKk := hF.leaf k hk hc.1 hV0
    obtain ⟨t, hw, ⟨⟨hIt, hcutt, _, _⟩, hrel, hW⟩, hct⟩ :=
      while_loop_total (fun t => decide (t.r ≠ rd t.parcopy t.r)) (fork_walk_body B n)
        (fun t => (pc_inv n P extra n t ∧ cut_off P extra n t.parcopy ∧ t.r < n ∧
          ¬ in_cycle_part P extra t.r) ∧ cut_rel st t ∧ forks_ahead k t)
        (fun t => rk t.r)
        (fun t hIt hct => fork_walk_body_forks n P extra hn hP hfix rk hrk1 hrk2 B hB k st t hIt
          (by simpa using hct))
        B { st with r := k }
        ⟨⟨pc_inv_open n P extra n k st hI, hcut, hk, hKk⟩, cut_rel_r st k,
          fun u hu hv => ⟨by intro e; rw [e] at hv; simp only at hv; omega, hu⟩⟩
        (by have := hrk1 k hk; simp only; omega)
    refine ⟨t, hw, hIt, hcutt, ?_⟩
    have hfx : rd t.parcopy t.r = t.r := by
      have : ¬ (t.r ≠ rd t.parcopy t.r) := by simpa using hct
      push_neg at this
      exact this.symm
    intro e he hne h0 u hu
    by_cases hek : e = k
    · subst hek
      by_contra hv
      obtain ⟨hne', hru⟩ := hW u hu (by omega)
      exact hne' (reaches_fixed t.parcopy t.r u hru hfx)
    · exact forks_done_mono k st t hrel hdone e (by omega) hne h0 u hu

theorem fork_loop_forks (n : Nat) (P : List Nat) (extra : Nat → Nat)
    (hn : n < 4294967296) (hP : ∀ r < n, rd P r < n) (hfix : live_in_fixpoints n P extra)
    (B : Nat) (hB : n + 1 < B) (st : pc_state)
    (hI : pc_inv n P extra n st) (hcut : cut_off P extra n st.parcopy) :
    ∃ st', for_loop (fork_body B n) n st = .ok st' ∧ pc_inv n P extra n st' ∧
      cut_off P extra n st'.parcopy ∧ forks_done n st' := by
  obtain ⟨rk, hrk1, hrk2⟩ := exists_rank n P hP
  exact for_loop_total (fork_body B n)
      (fun k st => pc_inv n P extra n st ∧ cut_off P extra n st.parcopy ∧ forks_done k st) n
      (fun k st hk hI => fork_body_forks n P extra hn hP hfix rk hrk1 hrk2 B hB k st hk hI)
      st ⟨hI, hcut, fun e he => absurd he (Nat.not_lt_zero _)⟩

theorem readers_le_one (n : Nat) (P : List Nat) (extra : Nat → Nat)
    (hn : n < 4294967296) (hP : ∀ r < n, rd P r < n) (hfix : live_in_fixpoints n P extra)
    (st : pc_state) (hI : pc_inv n P extra n st) (hcut : cut_off P extra n st.parcopy)
    (hdone : forks_done n st) (r : Nat) (hr : r < n) : readers n st.parcopy r ≤ 1 := by
  obtain ⟨rk, hrk1, hrk2⟩ := exists_rank n P hP
  have hF := forest_of_inv n P extra hn hP hfix rk hrk1 hrk2 n st hI hcut
  obtain ⟨_, h2, _, h4, _⟩ := unmarked_facts n P extra hP hfix n st hI
  by_cases hK : in_cycle_part P extra r
  · unfold readers
    rw [Finset.card_le_one_iff]
    have key : ∀ a, a < n → a ≠ r → rd st.parcopy a = r → on_cycle P a ∧ rd P a = r := by
      intro a ha har hQa
      have hne : rd st.parcopy a ≠ a := by rw [hQa]; exact Ne.symm har
      have hKa : in_cycle_part P extra a := by
        by_contra hnK
        exact hcut a ha hnK hne (by rw [hQa]; exact hK)
      refine ⟨hKa.resolve_right ?_, by rw [← hI.kept a ha hKa]; exact hQa⟩
      have := (h2 a ha hne).2
      omega
    intro a b ha hb
    simp only [Finset.mem_filter, Finset.mem_range] at ha hb
    obtain ⟨ha1, ha2⟩ := key a ha.1 ha.2.1 ha.2.2
    obtain ⟨hb1, hb2⟩ := key b hb.1 hb.2.1 hb.2.2
    exact on_cycle_inj P a b ha1 hb1 (by rw [ha2, hb2])
  · rw [← h4 r hr hK]
    by_contra hv
    obtain ⟨y, hy, hyr, hQy, hKy⟩ := hF.reader r hr hK (by omega)
    have hyne : rd st.parcopy y ≠ y := by rw [hQy]; exact Ne.symm hyr
    obtain ⟨e, he, hne, h0, j, hj⟩ :=
      leaf_below n P extra st.parcopy st.n_used rk hF n y hy hKy hyne (by omega)
    exact hv (hdone e he hne h0 r ⟨j + 1, by rw [Function.iterate_succ_apply', hj, hQy]⟩)

/-- C17 (forks are eliminated): for every specification that satisfies the
data-model invariant and in which every register holding a live-in source is a
fixpoint, `impl_parallel_copy` returns, and in the `parcopy` that the
out-of-cycle and fork phases leave each register is read at most once as a
source: for every register `r` there is at most one `d != r` with
`parcopy[d] == r`. -/
theorem impl_parallel_copy_no_fork_left (B n_regs : Nat) (parcopy n_used : List Nat)
    (extra : Nat → Nat) (hspec : parcopy_spec n_regs parcopy n_used extra)
    (hfix : live_in_fixpoints n_regs parcopy extra) (hB : 2 * n_regs + 1 < B) :
    ∃ st, impl_parallel_copy B n_regs parcopy n_used = .ok st ∧
      (∀ r < n_regs, readers n_regs st.parcopy r ≤ 1) ∧
      ∀ r d d', d < n_regs → d' < n_regs → d ≠ r → d' ≠ r →
        rd st.parcopy d = r → rd st.parcopy d' = r → d = d' := by
  have hn := hspec.1
  have hP := hspec.2.2.2.1
  obtain ⟨poc, st1, st2, out, _, _, _, _, hI1, hcut1, hl2, hI2, hcut2, _, hrun⟩ :=
    impl_parallel_copy_run B n_regs parcopy n_used extra hspec hfix hB
  obtain ⟨st', hl', _, _, hdone⟩ :=
    fork_loop_forks n_regs parcopy extra hn hP hfix B (by omega) st1 hI1 hcut1
  have heq : st' = st2 := by
    have h : fork_phase B n_regs st1 = .ok st' := hl'
    rw [hl2] at h
    injection h with h
    exact h.symm
  subst heq
  have hle := readers_le_one n_regs parcopy extra hn hP hfix st' hI2 hcut2 hdone
  refine ⟨st', hrun, hle, ?_⟩
  intro r d d' hd hd' hdr hdr' hQd hQd'
  have hr : r < n_regs := by
    rw [← hQd]
    rcases hI2.cases d hd with h | h
    · rw [h]; exact hP d hd
    · rw [h]; exact hd
  have := hle r hr
  unfold readers at this
  rw [Finset.card_le_one_iff] at this
  exact this (Finset.mem_filter.mpr ⟨Finset.mem_range.mpr hd, hdr, hQd⟩)
    (Finset.mem_filter.mpr ⟨Finset.mem_range.mpr hd', hdr', hQd'⟩)

theorem impl_parallel_copy_no_fork_left_witness :
    parcopy_spec 3 [0, 0, 0] [2, 0, 0] (fun _ => 0) ∧
    live_in_fixpoints 3 [0, 0, 0] (fun _ => 0) ∧
    ∃ st, impl_parallel_copy 8 3 [0, 0, 0] [2, 0, 0] = .ok st ∧
      (∀ r < 3, readers 3 st.parcopy r ≤ 1) ∧
      ∀ r d d', d < 3 → d' < 3 → d ≠ r → d' ≠ r →
        rd st.parcopy d = r → rd st.parcopy d' = r → d = d' :=
  have h1 : parcopy_spec 3 [0, 0, 0] [2, 0, 0] (fun _ => 0) := by
    unfold parcopy_spec; decide
  have h2 : live_in_fixpoints 3 [0, 0, 0] (fun _ => 0) := by
    unfold live_in_fixpoints; decide
  ⟨h1, h2,
    impl_parallel_copy_no_fork_left 8 3 [0, 0, 0] [2, 0, 0] (fun _ => 0) h1 h2 (by decide)⟩

/-! ## C15: the choice of `find_longest_chain` -/

theorem chain_length_unique (Q : List Nat) (e f L L' : Nat) (h : chain_length Q e f L)
    (h' : chain_length Q e f L') : L = L' := by
  rcases Nat.lt_trichotomy L L' with hlt | heq | hgt
  · exact absurd h.1 (h'.2 L hlt)
  · exact heq
  · exact absurd h'.1 (h.2 L' hgt)

theorem chain_length_of_reaches (Q : List Nat) (e f k : Nat) (h : (rd Q)^[k] e = f) :
    ∃ L, L ≤ k ∧ chain_length Q e f L := by
  classical
  have hex : ∃ L, (rd Q)^[L] e = f := ⟨k, h⟩
  refine ⟨Nat.find hex, Nat.find_min' hex h, Nat.find_spec hex, fun i hi => ?_⟩
  exact Nat.find_min hex hi

theorem flc_walk_exact_step (n : Nat) (P : List Nat) (extra : Nat → Nat) (Q V : List Nat)
    (rk : Nat → Nat) (hF : forest n P extra Q V rk) (f j m0 d0 : Nat) (t : flc_state)
    (hI : flc_walk_inv n P extra Q rk f j m0 d0 t)
    (hc : find_longest_chain_cond Q t = true) :
    ∃ t', find_longest_chain_walk_body Q f t = .ok t' ∧
      flc_walk_inv n P extra Q rk f j m0 d0 t' ∧
      (if t'.broke then 0 else rk t'.r + 1) < (if t.broke then 0 else rk t.r + 1) := by
  rw [find_longest_chain_cond_iff] at hc
  obtain ⟨hb, hne⟩ := hc
  have hdown := hF.down t.r hI.r_lt hI.r_un (Ne.symm hne)
  have hlen := hI.len_le hb
  have hpos := hI.pos hb
  have hranks := hI.ranks hb
  obtain ⟨hm, hd, hnohit⟩ := hI.nohit hb
  have hn := hF.n_lt
  have hinc : u32_inc t.len = t.len + 1 := u32_inc_lt _ (by omega)
  have hsrc : rd Q t.r = (rd Q)^[t.len + 1] j := by
    rw [Function.iterate_succ_apply', ← hpos]
  unfold find_longest_chain_walk_body
  simp only [hinc]
  by_cases hk : rd Q t.r = f ∧ t.len + 1 > t.max_len
  · simp only [hk, and_self, if_true]
    refine ⟨_, rfl, ⟨hI.r_lt, hI.r_un, fun h => by simp at h, fun h => by simp at h,
      fun h => by simp at h, fun h => by simp at h, fun _ => ?_⟩, ?_⟩
    · simp only
      refine ⟨by omega, ⟨by rw [← hsrc]; exact hk.1, fun i hi => ?_⟩, ?_, hI.r_lt, hk.1, ?_⟩
      · have hrf : rk f < rk t.r := by rw [← hk.1]; exact hdown.2
        by_cases hil : i < t.len
        · intro e
          have := hranks i hil
          rw [e] at this
          omega
        · have : i = t.len := by omega
          rw [this, ← hpos]
          intro e
          rw [e] at hrf
          omega
      · rw [Nat.add_sub_cancel]; exact hpos.symm
      · intro e
        have hrf : rk f < rk t.r := by rw [← hk.1]; exact hdown.2
        rw [e] at hrf
        omega
    · simp only [hb, if_true]; simp
  · rw [if_neg hk]
    refine ⟨_, rfl, ⟨hF.lt _ hI.r_lt, hdown.1, fun _ => hsrc, fun _ => ?_, fun _ i hi => ?_,
      fun _ => ⟨hm, hd, fun i hi hif => ?_⟩, fun h => ?_⟩, ?_⟩
    · simp only; omega
    · simp only at hi ⊢
      by_cases hil : i < t.len
      · have := hranks i hil; omega
      · have : i = t.len := by omega
        rw [this, ← hpos]
        exact hdown.2
    · simp only at hi
      by_cases hil : i ≤ t.len
      · exact hnohit i hil hif
      · have hi' : i = t.len + 1 := by omega
        rw [hi', ← hsrc] at hif
        have : ¬ t.len + 1 > t.max_len := fun h => hk ⟨hif, h⟩
        omega
    · simp only at h
      rw [hb] at h
      exact absurd h (by simp)
    · simp only [hb, if_false]; simp only [Bool.false_eq_true, if_false]; omega

theorem flc_body_exact (n : Nat) (P : List Nat) (extra : Nat → Nat) (Q V : List Nat)
    (rk : Nat → Nat) (hF : forest n P extra Q V rk) (f : Nat) (hVf : 1 < rd V f)
    (B : Nat) (hB : n + 1 < B) (j : Nat) (st : flc_state) (hj : j < n)
    (hI : flc_inv n Q V f j st) :
    ∃ st', find_longest_chain_body B Q V f j st = .ok st' ∧ flc_inv n Q V f (j + 1) st' := by
  unfold find_longest_chain_body
  by_cases hk : rd Q j = j ∨ rd V j > 0
  · simp only [hk, if_true]
    refine ⟨st, rfl, ?_⟩
    have hnot : ¬ chain_end n Q V j := by
      rintro ⟨_, h1, h2⟩
      rcases hk with h | h
      · exact h1 h
      · omega
    rcases hI with ⟨h1, h2, h3⟩ | ⟨e, he, h1, h2, h3, h4, h5, h6, h7⟩
    · left
      refine ⟨h1, h2, fun e he hce => ?_⟩
      by_cases hej : e = j
      · rw [hej] at hce; exact absurd hce hnot
      · exact h3 e (by omega) hce
    · right
      refine ⟨e, by omega, h1, h2, h3, h4, h5, h6, fun e' he' hce => ?_⟩
      by_cases hej : e' = j
      · rw [hej] at hce; exact absurd hce hnot
      · exact h7 e' (by omega) hce
  · simp only [hk, if_false]
    push_neg at hk
    have hV0 : rd V j = 0 := by omega
    have hKj := hF.leaf j hj hk.1 hV0
    have hjf : j ≠ f := by intro e; rw [e] at hV0; omega
    have hce : chain_end n Q V j := ⟨hj, hk.1, hV0⟩
    obtain ⟨t, hw, hIt, hct⟩ :=
      while_loop_total (find_longest_chain_cond Q) (find_longest_chain_walk_body Q f)
        (flc_walk_inv n P extra Q rk f j st.max_len st.max_dst)
        (fun t => if t.broke then 0 else rk t.r + 1)
        (fun t hI hc => flc_walk_exact_step n P extra Q V rk hF f j _ _ t hI hc)
        B { st with r := j, len := 0, broke := false }
        ⟨hj, hKj, fun _ => rfl, fun _ => by simp only [Nat.zero_add]; exact hF.rk_le j hj,
          fun _ i hi => absurd hi (Nat.not_lt_zero _),
          fun _ => ⟨rfl, rfl, fun i hi hif => by
            simp only [Nat.le_zero] at hi
            rw [hi] at hif
            exact absurd hif hjf⟩,
          fun h => by simp at h⟩
        (by simp only [Bool.false_eq_true, if_false]; have := hF.rk_le j hj; omega)
    refine ⟨t, hw, ?_⟩
    have hexit : ¬ (t.broke = false ∧ t.r ≠ rd Q t.r) := by
      rw [← find_longest_chain_cond_iff, hct]; simp
    by_cases hb : t.broke = true
    · obtain ⟨a1, a2, a3, a4, a5, a6⟩ := hIt.hit hb
      right
      refine ⟨j, Nat.lt_succ_self j, hce, a2, a3, a4, a5, a6, fun e' he' hce' L' hL' => ?_⟩
      by_cases hej : e' = j
      · rw [hej] at hL' ⊢
        have := chain_length_unique Q j f L' t.max_len hL' a2
        exact ⟨le_of_eq this, fun _ => le_refl _⟩
      · rcases hI with ⟨_, _, h3⟩ | ⟨e, he, _, _, _, _, _, _, h7⟩
        · exact absurd hL' (h3 e' (by omega) hce' L')
        · have := (h7 e' (by omega) hce' L' hL').1
          exact ⟨by omega, fun h => by omega⟩
    · have hbf : t.broke = false := by simpa using hb
      obtain ⟨hm, hd, hnohit⟩ := hIt.nohit hbf
      have hfx : rd Q t.r = t.r := by
        by_contra h
        exact hexit ⟨hbf, Ne.symm h⟩
      have hpos := hIt.pos hbf
      have hjl : ∀ L', chain_length Q j f L' → L' ≤ st.max_len := by
        intro L' hL'
        have hle : L' ≤ t.len := by
          by_contra hgt
          have h1 := hL'.2 t.len (by omega)
          have h2 : (rd Q)^[L'] j = t.r := by
            have : L' = (L' - t.len) + t.len := by omega
            rw [this, Function.iterate_add_apply, ← hpos, iterate_fixed _ _ hfx]
          rw [← hpos, ← h2] at h1
          exact h1 hL'.1
        exact hnohit L' hle hL'.1
      rcases hI with ⟨h1, h2, h3⟩ | ⟨e, he, h1, h2, h3, h4, h5, h6, h7⟩
      · left
        refine ⟨by rw [hm]; exact h1, by rw [hd]; exact h2, fun e' he' hce' L' hL' => ?_⟩
        by_cases hej : e' = j
        · rw [hej] at hL'
          have := hjl L' hL'
          have h0 : L' = 0 := by omega
          rw [h0] at hL'
          exact hjf hL'.1
        · exact h3 e' (by omega) hce' L' hL'
      · right
        rw [hm, hd]
        refine ⟨e, by omega, h1, h2, h3, h4, h5, h6, fun e' he' hce' L' hL' => ?_⟩
        by_cases hej : e' = j
        · rw [hej] at hL' ⊢
          exact ⟨hjl L' hL', fun _ => le_of_lt he⟩
        · exact h7 e' (by omega) hce' L' hL'

theorem find_longest_chain_exact (n : Nat) (P : List Nat) (extra : Nat → Nat) (Q V : List Nat)
    (rk : Nat → Nat) (hF : forest n P extra Q V rk) (f : Nat) (hf : f < n)
    (hKf : ¬ in_cycle_part P extra f) (hVf : 1 < rd V f) (B : Nat) (hB : n + 1 < B) :
    ∃ d, find_longest_chain B n Q V f = .ok d ∧ d < n ∧ d ≠ f ∧ rd Q d = f ∧
      ∃ e L, chain_end n Q V e ∧ chain_length Q e f L ∧ (rd Q)^[L - 1] e = d ∧
        ∀ e' L', chain_end n Q V e' → chain_length Q e' f L' → L' ≤ L ∧ (L' = L → e ≤ e') := by
  obtain ⟨st, hfl, hI⟩ :=
    for_loop_total (find_longest_chain_body B Q V f) (fun j st => flc_inv n Q V f j st) n
      (fun j st hj hI => flc_body_exact n P extra Q V rk hF f hVf B hB j st hj hI)
      { r := 0, len := 0, max_len := 0, max_dst := UINT_MAX, broke := false }
      (Or.inl ⟨rfl, rfl, fun e he => absurd he (Nat.not_lt_zero _)⟩)
  obtain ⟨y, hy, hyf, hQy, hKy⟩ := hF.reader f hf hKf (by omega)
  have hyne : rd Q y ≠ y := by rw [hQy]; exact Ne.symm hyf
  obtain ⟨e0, h1, h2, h3, j, h4⟩ := leaf_below n P extra Q V rk hF n y hy hKy hyne (by omega)
  obtain ⟨L0, _, hL0⟩ := chain_length_of_reaches Q e0 f (j + 1)
    (by rw [Function.iterate_succ_apply', h4, hQy])
  unfold find_longest_chain
  simp only [gt_iff_lt, hVf, if_true, hfl]
  rcases hI with ⟨_, _, h3'⟩ | ⟨e, he, a1, a2, a3, a4, a5, a6, a7⟩
  · exact absurd hL0 (h3' e0 h1 ⟨h1, h2, h3⟩ L0)
  · exact ⟨_, rfl, a4, a6, a5, e, st.max_len, a1, a2, a3,
      fun e' L' hce hL' => a7 e' hce.1 hce L' hL'⟩

/-- C15 (amended): let `(parcopy, n_used)` be a specification as the
out-of-cycle phase leaves it (data-model invariant, live-in sources in
fixpoints, no unmarked register reads a marked one) and `fork_reg` an unmarked
register with `n_used[fork_reg] > 1`.  Then `find_longest_chain` returns a
destination `d != fork_reg` with `parcopy[d] == fork_reg` that lies on a chain
of maximal length: `d` is the reader of `fork_reg` on the chain of a chain end
`e` that reaches `fork_reg` after `L` demands, no chain end reaches `fork_reg`
after more demands, and among the chain ends that reach it after `L` demands
`e` has the lowest register index (the tie is decided by the index of the chain
end, not of the destination). -/
theorem find_longest_chain_choice (B n_regs : Nat) (parcopy n_used : List Nat)
    (extra : Nat → Nat) (fork_reg : Nat) (hspec : parcopy_spec n_regs parcopy n_used extra)
    (hfix : live_in_fixpoints n_regs parcopy extra)
    (hcut : cut_off parcopy extra n_regs parcopy) (hf : fork_reg < n_regs)
    (hun : ¬ in_cycle_part parcopy extra fork_reg) (hfork : 1 < rd n_used fork_reg)
    (hB : n_regs + 1 < B) :
    ∃ d, find_longest_chain B n_regs parcopy n_used fork_reg = .ok d ∧ d < n_regs ∧
      d ≠ fork_reg ∧ rd parcopy d = fork_reg ∧
      ∃ e L, chain_end n_regs parcopy n_used e ∧ chain_length parcopy e fork_reg L ∧
        (rd parcopy)^[L - 1] e = d ∧
        ∀ e' L', chain_end n_regs parcopy n_used e' → chain_length parcopy e' fork_reg L' →
          L' ≤ L ∧ (L' = L → e ≤ e') := by
  have hn := hspec.1
  have hP := hspec.2.2.2.1
  obtain ⟨rk, hrk1, hrk2⟩ := exists_rank n_regs parcopy hP
  have hF := forest_of_inv n_regs parcopy extra hn hP hfix rk hrk1 hrk2 n_regs
    { parcopy := parcopy, n_used := n_used, restores := [], r := 0 }
    (pc_inv_init n_regs parcopy n_used extra hspec n_regs 0) hcut
  exact find_longest_chain_exact n_regs parcopy extra parcopy n_used rk hF fork_reg hf hun hfork
    B hB

theorem find_longest_chain_choice_witness :
    find_longest_chain 8 3 [0, 0, 0] [2, 0, 0] 0 = .ok 1 ∧
    impl_parallel_copy 8 3 [0, 0, 0] [2, 0, 0]
      = .ok { parcopy := [0, 0, 2], n_used := [1, 0, 0], restores := [(1, 2)], r := 0 } ∧
    ∃ d, find_longest_chain 8 3 [0, 0, 0] [2, 0, 0] 0 = .ok d ∧ d < 3 ∧
      d ≠ 0 ∧ rd [0, 0, 0] d = 0 ∧
      ∃ e L, chain_end 3 [0, 0, 0] [2, 0, 0] e ∧ chain_length [0, 0, 0] e 0 L ∧
        (rd [0, 0, 0])^[L - 1] e = d ∧
        ∀ e' L', chain_end 3 [0, 0, 0] [2, 0, 0] e' → chain_length [0, 0, 0] e' 0 L' →
          L' ≤ L ∧ (L' = L → e ≤ e') :=
  ⟨rfl, rfl,
    find_longest_chain_choice 8 3 [0, 0, 0] [2, 0, 0] (fun _ => 0) 0
      (by unfold parcopy_spec; decide) (by unfold live_in_fixpoints; decide)
      (by
        intro x hx _ _ h
        rcases h with h | h
        · interval_cases x <;> exact h.1 rfl
        · exact absurd h (Nat.lt_irrefl 0))
      (by decide)
      (by
        rintro (h | h)
        · exact h.1 rfl
        · exact absurd h (by decide))
      (by decide) (by decide)⟩

/-- C15 (counterexample): in `parcopy = [0, 0, 0, 2, 1]`,
`n_used = [2, 1, 1, 0, 0]` the fork is register 0 with the destinations 1 and 2.
The chains `r4 -> r1 -> r0` and `r3 -> r2 -> r0` both reach the fork after 2
demands, which is the maximal length, so the destinations tie; the destination
with the lower index is 1, and `find_longest_chain` returns 2, the destination
on the chain of the lower chain end 3. -/
theorem find_longest_chain_tie_by_chain_end :
    parcopy_spec 5 [0, 0, 0, 2, 1] [2, 1, 1, 0, 0] (fun _ => 0) ∧
    find_longest_chain 12 5 [0, 0, 0, 2, 1] [2, 1, 1, 0, 0] 0 = .ok 2 ∧
    (chain_end 5 [0, 0, 0, 2, 1] [2, 1, 1, 0, 0] 4 ∧ chain_length [0, 0, 0, 2, 1] 4 0 2 ∧
      (rd [0, 0, 0, 2, 1])^[1] 4 = 1 ∧ rd [0, 0, 0, 2, 1] 1 = 0) ∧
    (chain_end 5 [0, 0, 0, 2, 1] [2, 1, 1, 0, 0] 3 ∧ chain_length [0, 0, 0, 2, 1] 3 0 2 ∧
      (rd [0, 0, 0, 2, 1])^[1] 3 = 2 ∧ rd [0, 0, 0, 2, 1] 2 = 0) ∧
    ∀ e L, chain_end 5 [0, 0, 0, 2, 1] [2, 1, 1, 0, 0] e →
      chain_length [0, 0, 0, 2, 1] e 0 L → L ≤ 2 := by
  refine ⟨by unfold parcopy_spec; decide, rfl,
    ⟨by unfold chain_end; decide, by unfold chain_length; decide, rfl, rfl⟩,
    ⟨by unfold chain_end; decide, by unfold chain_length; decide, rfl, rfl⟩, ?_⟩
  intro e L hce hL
  by_contra hgt
  have h2 := hL.2 2 (by omega)
  obtain ⟨he, h1, h0⟩ := hce
  interval_cases e
  · exact h1 rfl
  · exact absurd h0 (by decide)
  · exact absurd h0 (by decide)
  · exact h2 rfl
  · exact h2 rfl

/-! ## C27: R2 and the order of the edges -/

theorem vector_ext (v w : vector_t) (hl : v.length = w.length)
    (h : ∀ i < v.length, vector_get v i = vector_get w i) : v = w := by
  apply List.ext_getElem hl
  intro i h1 h2
  have := h i h1
  simp only [vector_get, List.getD_eq_getElem?_getD, List.getElem?_eq_getElem h1,
    List.getElem?_eq_getElem h2, Option.getD_some] at this
  exact this

theorem vector_add_edge_comm (p : pbqp_t) (node : Nat) (vec : vector_t) (a b : Nat) :
    vector_add_edge p node (vector_add_edge p node vec a) b
      = vector_add_edge p node (vector_add_edge p node vec b) a := by
  apply vector_ext
  · simp only [vector_add_edge_length]
  · intro i hi
    simp only [vector_add_edge_length] at hi
    rw [vector_add_edge_get _ _ _ _ _ (by rw [vector_add_edge_length]; exact hi),
      vector_add_edge_get _ _ _ _ _ hi,
      vector_add_edge_get _ _ _ _ _ (by rw [vector_add_edge_length]; exact hi),
      vector_add_edge_get _ _ _ _ _ hi]
    exact add_right_comm _ _ _

theorem exchange_edges_node (p : pbqp_t) (node m : Nat) :
    ((exchange_edges p node).nodes m).solution = (p.nodes m).solution ∧
    ((exchange_edges p node).nodes m).index = (p.nodes m).index ∧
    ((exchange_edges p node).nodes m).costs = (p.nodes m).costs := by
  unfold exchange_edges
  by_cases h : m = node
  · subst h; simp
  · simp [Function.update_noteq h]

theorem exchange_edges_edge (p : pbqp_t) (node : Nat) :
    node_edge (exchange_edges p node) node 0 = node_edge p node 1 ∧
    node_edge (exchange_edges p node) node 1 = node_edge p node 0 := by
  simp [exchange_edges, node_edge]

theorem exchange_edges_add (p : pbqp_t) (node : Nat) (vec : vector_t) (e : Nat) :
    vector_add_edge (exchange_edges p node) node vec e = vector_add_edge p node vec e := by
  unfold vector_add_edge
  have h1 : (exchange_edges p node).edges = p.edges := rfl
  rw [h1, (exchange_edges_node p node _).1, (exchange_edges_node p node _).1]

/-- C27 (R2 is independent of the edge order): `back_propagate_RII` stores the
argmin of the cost vector of the node plus the contributions of `edges[0]` and
`edges[1]`, whether or not the swap by neighbour index is taken, and stores the
same solution when `edges[0]` and `edges[1]` of the node are exchanged; the
contribution of an edge to choice `i` is the entry of its matrix selected by
`i` and the solution of the neighbour on that edge (`edge_cost`: row `i` and
the column of the target's solution when the node is the `src` of the edge,
column `i` and the row of the source's solution when it is the `tgt`). -/
theorem back_propagate_RII_edge_order (pbqp : pbqp_t) (node : Nat) :
    ((back_propagate_RII pbqp node).nodes node).solution
      = vector_get_min_index (vector_add_edge pbqp node
          (vector_add_edge pbqp node (pbqp.nodes node).costs (node_edge pbqp node 0))
          (node_edge pbqp node 1)) ∧
    ((back_propagate_RII (exchange_edges pbqp node) node).nodes node).solution
      = ((back_propagate_RII pbqp node).nodes node).solution ∧
    ∀ i < (pbqp.nodes node).costs.length,
      vector_get (vector_add_edge pbqp node
          (vector_add_edge pbqp node (pbqp.nodes node).costs (node_edge pbqp node 0))
          (node_edge pbqp node 1)) i
        = vector_get (pbqp.nodes node).costs i
          + edge_cost pbqp node i (node_edge pbqp node 0)
          + edge_cost pbqp node i (node_edge pbqp node 1) := by
  have hp : ((back_propagate_RII pbqp node).nodes node).solution
      = vector_get_min_index (vector_add_edge pbqp node
          (vector_add_edge pbqp node (pbqp.nodes node).costs (node_edge pbqp node 0))
          (node_edge pbqp node 1)) := by
    rw [back_propagate_RII_solution]
    split_ifs
    · rw [vector_add_edge_comm]
    · rfl
  refine ⟨hp, ?_, ?_⟩
  · rw [hp, back_propagate_RII_solution]
    simp only [(exchange_edges_edge pbqp node).1, (exchange_edges_edge pbqp node).2,
      exchange_edges_add, (exchange_edges_node pbqp node _).2.2]
    split_ifs
    · rfl
    · rw [vector_add_edge_comm]
  · intro i hi
    rw [vector_add_edge_get _ _ _ _ _ (by rw [vector_add_edge_length]; exact hi),
      vector_add_edge_get _ _ _ _ _ hi]

/-! ## C26: the scan of `be_parse_asm_constraints` and the terminator -/

theorem comment_loop_reads (mem : Nat → Nat) (x : Nat) (fuel : Nat) (st t : parse_state)
    (hx : x ∈ st.reads) (h : while_loop (comment_cond mem) comment_body fuel st = .ok t) :
    x ∈ t.reads := by
  refine (while_loop_inv (comment_cond mem) comment_body (fun s => x ∈ s.reads) ?_
    fuel st t hx h).1
  intro s s' hI _ hb
  simp only [comment_body, Except.ok.injEq] at hb
  subst hb
  exact List.mem_append_left _ hI

theorem parse_body_reads (B : Nat) (env : asm_constraint_env) (mem : Nat → Nat) (x : Nat)
    (st t : parse_state) (hx : x ∈ st.reads ∨ x = st.c) (h : parse_body B env mem st = .ok t) :
    x ∈ t.reads := by
  have hx1 : x ∈ st.reads ++ [st.c] := by
    rcases hx with hx | hx
    · exact List.mem_append_left _ hx
    · exact List.mem_append_right _ (by simp [hx])
  unfold parse_body at h
  simp only at h
  split_ifs at h with h35
  · cases hw : while_loop (comment_cond mem) comment_body B
        ({ st with reads := st.reads ++ [st.c] } : parse_state) with
    | error e => simp only [hw] at h; cases h
    | ok u =>
      simp only [hw, Except.ok.injEq] at h
      subst h
      exact List.mem_append_left _ (comment_loop_reads mem x B _ u hx1 hw)
  · simp only [Except.ok.injEq] at h
    subst h
    exact hx1

theorem parse_loop_reads (B : Nat) (env : asm_constraint_env) (mem : Nat → Nat) (x : Nat) :
    ∀ (fuel : Nat) (st t : parse_state), (x ∈ st.reads ∨ x = st.c) →
      while_loop (parse_cond mem) (parse_body B env mem) fuel st = .ok t →
      x ∈ t.reads ∨ x = t.c := by
  intro fuel
  induction fuel with
  | zero => intro st t _ h; simp [while_loop] at h
  | succ fuel ih =>
    intro st t hx h
    unfold while_loop at h
    by_cases hc : parse_cond mem st = true
    · simp only [hc, if_true] at h
      cases hb : parse_body B env mem st with
      | error e => simp only [hb] at h; cases h
      | ok u =>
        simp only [hb] at h
        exact ih u t (Or.inl (parse_body_reads B env mem x st u hx hb)) h
    · simp only [hc] at h
      simp only [Bool.false_eq_true, if_false, Except.ok.injEq] at h
      subst h
      exact hx

theorem parse_body_comment_at_end (B : Nat) (env : asm_constraint_env) (mem : Nat → Nat)
    (st t : parse_state) (h0 : mem st.c = 35) (h1 : mem (st.c + 1) = 0)
    (h : parse_body B env mem st = .ok t) : t.c = st.c + 2 := by
  unfold parse_body at h
  simp only [h0, if_true] at h
  cases B with
  | zero => simp [while_loop] at h
  | succ B =>
    unfold while_loop at h
    have hc : comment_cond mem ({ st with reads := st.reads ++ [st.c] } : parse_state)
        = true := by
      simp [comment_cond, h0]
    simp only [hc, if_true, comment_body] at h
    cases B with
    | zero => simp [while_loop] at h
    | succ B =>
      unfold while_loop at h
      have hc2 : comment_cond mem
          ({ c := st.c + 1, flags := st.flags,
             reads := (st.reads ++ [st.c]) ++ [st.c] } : parse_state) = false := by
        simp [comment_cond, h1]
      simp only [hc2, Bool.false_eq_true, if_false, Except.ok.injEq] at h
      subst h
      rfl

/-- C26 (no read past the terminator): the claim fails.  For every memory that
holds the string `#` (the character 35 at offset 0, the terminating `NUL` at
offset 1), every call of `be_parse_asm_constraints` that returns has read the
character at offset 2, behind the terminator: the `break` after the comment
loop leaves only the `switch`, and the `++c` of the `for` steps over the `NUL`.
The flags depend on that character: with the string `#` followed by `NUL`s the
call returns the flags `1`, with the same string followed by the letter `r`
behind its terminator it returns `5`. -/
theorem be_parse_asm_constraints_reads_past_nul :
    (∀ (B : Nat) (env : asm_constraint_env) (mem : Nat → Nat) (r : Nat × List Nat),
      mem 0 = 35 → mem 1 = 0 → be_parse_asm_constraints B env mem = .ok r → 2 ∈ r.2) ∧
    first_nul (string_mem [35]) 8 = some 1 ∧
    first_nul (string_mem [35, 0, 114]) 8 = some 1 ∧
    (∀ k ≤ 1, string_mem [35, 0, 114] k = string_mem [35] k) ∧
    be_parse_asm_constraints 8 asm_env_r (string_mem [35]) = .ok (1, [0, 0, 0, 1, 2]) ∧
    be_parse_asm_constraints 8 asm_env_r (string_mem [35, 0, 114])
      = .ok (5, [0, 0, 0, 1, 2, 3]) := by
  refine ⟨?_, by decide, by decide, by decide, rfl, rfl⟩
  intro B env mem r h0 h1 h
  unfold be_parse_asm_constraints at h
  simp only [h0, show (35 : Nat) ≠ 61 by decide, show (35 : Nat) ≠ 43 by decide,
    if_false] at h
  cases B with
  | zero => simp [while_loop] at h
  | succ B =>
    unfold while_loop at h
    have hc : parse_cond mem
        ({ c := 0, flags := env.ASM_CONSTRAINT_FLAG_MODIFIER_READ, reads := [0] } :
          parse_state) = true := by
      simp [parse_cond, h0]
    simp only [hc, if_true] at h
    cases hb : parse_body (B + 1) env mem
        ({ c := 0, flags := env.ASM_CONSTRAINT_FLAG_MODIFIER_READ, reads := [0] } :
          parse_state) with
    | error e => simp only [hb] at h; cases h
    | ok u =>
      simp only [hb] at h
      have hu : u.c = 2 := parse_body_comment_at_end (B + 1) env mem _ u h0 h1 hb
      cases hw : while_loop (parse_cond mem) (parse_body (B + 1) env mem) B u with
      | error e => simp only [hw] at h; cases h
      | ok t =>
        simp only [hw, Except.ok.injEq] at h
        subst h
        have := parse_loop_reads (B + 1) env mem 2 B u t (Or.inr hu.symm) hw
        rcases this with h2 | h2
        · exact List.mem_append_left _ h2
        · exact List.mem_append_right _ (by simp [h2])

/-! ## C25: the restore buffers -/

theorem rd_set_fix (Q : List Nat) (d x : Nat) (h : rd Q x = x) : rd (Q.set d d) x = x := by
  by_cases hx : x = d
  · subst hx
    by_cases hl : x < Q.length
    · exact rd_set_same Q x x hl
    · rw [List.set_eq_of_length_le (by omega)]
      exact h
  · rw [rd_set_other Q d x d (fun e => hx e.symm)]
    exact h

theorem apply_restores_append (Q : List Nat) (R : List (Nat × Nat)) (p : Nat × Nat) :
    apply_restores Q (R ++ [p]) = (apply_restores Q R).set p.2 p.2 := by
  simp [apply_restores, List.foldl_append]

theorem apply_restores_length (R : List (Nat × Nat)) :
    ∀ Q : List Nat, (apply_restores Q R).length = Q.length := by
  induction R with
  | nil => intro Q; rfl
  | cons p R ih =>
    intro Q
    show (apply_restores (Q.set p.2 p.2) R).length = Q.length
    rw [ih, List.length_set]

theorem apply_restores_fix (R : List (Nat × Nat)) :
    ∀ (Q : List Nat) (x : Nat), rd Q x = x → rd (apply_restores Q R) x = x := by
  induction R with
  | nil => intro Q x h; exact h
  | cons p R ih =>
    intro Q x h
    show rd (apply_restores (Q.set p.2 p.2) R) x = x
    exact ih _ x (rd_set_fix Q p.2 x h)

theorem apply_restores_take_succ (Q : List Nat) (R : List (Nat × Nat)) (i : Nat)
    (p : Nat × Nat) (h : R[i]? = some p) :
    apply_restores Q (R.take (i + 1)) = (apply_restores Q (R.take i)).set p.2 p.2 := by
  rw [List.take_succ, h]
  exact apply_restores_append Q (R.take i) p

theorem restore_log_congr (n : Nat) (P : List Nat) (st st' : pc_state)
    (hQ : st'.parcopy = st.parcopy) (hR : st'.restores = st.restores)
    (h : restore_log n P st) : restore_log n P st' := by
  obtain ⟨h1, h2, h3, h4, h5, h6⟩ := h
  refine ⟨?_, ?_, ?_, ?_, ?_, ?_⟩
  · rw [hQ]; exact h1
  · rw [hQ, hR]; exact h2
  · rw [hR]; exact h3
  · rw [hQ, hR]; exact h4
  · rw [hR]; exact h5
  · rw [hQ, hR]; exact h6

theorem restore_log_record (n : Nat) (P : List Nat) (st st' : pc_state) (s d : Nat)
    (h : restore_log n P st) (hd : d < n) (hne : rd st.parcopy d ≠ d)
    (hQ : st'.parcopy = st.parcopy.set d d) (hR : st'.restores = st.restores ++ [(s, d)]) :
    restore_log n P st' := by
  obtain ⟨h1, h2, h3, h4, h5, h6⟩ := h
  have hdl : d < st.parcopy.length := by omega
  refine ⟨?_, ?_, ?_, ?_, ?_, ?_⟩
  · rw [hQ, List.length_set]; exact h1
  · rw [hQ, hR, apply_restores_append, ← h2]
  · intro i p hp
    rw [hR] at hp ⊢
    by_cases hi : i < st.restores.length
    · rw [List.getElem?_append_left hi] at hp
      rw [List.take_append_of_le_length (by omega)]
      exact h3 i p hp
    · by_cases hi2 : i = st.restores.length
      · subst hi2
        rw [List.getElem?_append_right (le_refl _)] at hp
        simp only [Nat.sub_self, List.getElem?_cons_zero, Option.some.injEq] at hp
        subst hp
        rw [List.take_left, ← h2]
        exact ⟨hd, hne⟩
      · rw [List.getElem?_eq_none (by simp; omega)] at hp
        cases hp
  · intro p hp
    rw [hR] at hp
    rw [hQ]
    rcases List.mem_append.mp hp with hp | hp
    · exact rd_set_fix _ d p.2 (h4 p hp)
    · simp only [List.mem_singleton] at hp
      subst hp
      exact rd_set_same _ d d hdl
  · rw [hR, List.map_append, List.nodup_append]
    refine ⟨h5, by simp, ?_⟩
    intro a ha hb
    simp only [List.map_cons, List.map_nil, List.mem_singleton] at hb
    subst hb
    obtain ⟨p, hp, hpa⟩ := List.mem_map.mp ha
    have := h4 p hp
    rw [hpa] at this
    exact hne this
  · rw [hR, hQ, List.length_append, List.length_singleton]
    have := nonfix_set_fix n st.parcopy d hd hdl hne
    omega

theorem restore_log_init (n : Nat) (P U : List Nat) (hlen : P.length = n) :
    restore_log n P { parcopy := P, n_used := U, restores := [], r := 0 } := by
  refine ⟨hlen, rfl, ?_, ?_, List.nodup_nil, ?_⟩
  · intro i p hp; simp at hp
  · intro p hp; simp at hp
  · simp

theorem out_of_cycle_body_log (n : Nat) (P : List Nat) (poc : List Bool) (k : Nat)
    (hk : k < n) (st st' : pc_state) (hI : restore_log n P st)
    (h : out_of_cycle_body n poc k st = .ok st') : restore_log n P st' := by
  unfold out_of_cycle_body at h
  simp only at h
  split_ifs at h with h1 h2 h3
  · cases h; exact hI
  · simp only [Except.ok.injEq] at h
    subst h
    exact restore_log_record n P st _ _ k hI hk h1 rfl rfl
  · cases h; exact hI

theorem reroute_body_log (n : Nat) (P : List Nat) (ln r k : Nat)
    (hk : k < n) (st st' : pc_state) (hI : restore_log n P st)
    (h : reroute_body ln r k st = .ok st') : restore_log n P st' := by
  unfold reroute_body at h
  split_ifs at h with h1
  · simp only [Except.ok.injEq] at h
    subst h
    refine restore_log_record n P st _ ln k hI hk ?_ rfl rfl
    rw [h1.2.2]
    exact fun e => h1.2.1 e.symm
  · cases h; exact hI

theorem fork_walk_body_log (B n : Nat) (P : List Nat) (st st' : pc_state)
    (hI : restore_log n P st) (h : fork_walk_body B n st = .ok st') :
    restore_log n P st' := by
  unfold fork_walk_body at h
  simp only at h
  split_ifs at h with h1
  · cases hf : find_longest_chain B n st.parcopy st.n_used (rd st.parcopy st.r) with
    | error e => simp only [hf] at h; cases h
    | ok ln =>
      simp only [hf] at h
      exact for_loop_inv (reroute_body ln (rd st.parcopy st.r))
        (fun _ s => restore_log n P s) n
        (fun k s s' hk hs hb => reroute_body_log n P ln _ k hk s s' hs hb)
        { st with r := rd st.parcopy st.r } st'
        (restore_log_congr n P st _ rfl rfl hI) h
  · simp only [Except.ok.injEq] at h
    subst h
    exact restore_log_congr n P st _ rfl rfl hI

theorem fork_body_log (B n : Nat) (P : List Nat) (k : Nat) (st st' : pc_state)
    (hI : restore_log n P st) (h : fork_body B n k st = .ok st') :
    restore_log n P st' := by
  unfold fork_body at h
  simp only at h
  split_ifs at h with h1
  · cases h; exact hI
  · exact (while_loop_inv _ (fork_walk_body B n) (fun s => restore_log n P s)
      (fun s s' hs _ hb => fork_walk_body_log B n P s s' hs hb) B { st with r := k } st'
      (restore_log_congr n P st _ rfl rfl hI) h).1

theorem impl_parallel_copy_log (B n : Nat) (P U : List Nat) (st : pc_state)
    (hlen : P.length = n) (h : impl_parallel_copy B n P U = .ok st) :
    restore_log n P st := by
  unfold impl_parallel_copy at h
  cases hm : mark_cycle_parts B n P U with
  | error e => simp only [hm] at h; cases h
  | ok poc =>
    simp only [hm] at h
    cases h1 : for_loop (out_of_cycle_body n poc) n
        { parcopy := P, n_used := U, restores := [], r := 0 } with
    | error e => simp only [h1] at h; cases h
    | ok st1 =>
      simp only [h1] at h
      cases h2 : for_loop (fork_body B n) n st1 with
      | error e => simp only [h2] at h; cases h
      | ok st2 =>
        simp only [h2] at h
        cases h3 : print_parcopy B n st2.parcopy st2.n_used with
        | error e => simp only [h3] at h; cases h
        | ok out =>
          simp only [h3, Except.ok.injEq] at h
          subst h
          have hI1 := for_loop_inv (out_of_cycle_body n poc) (fun _ s => restore_log n P s) n
            (fun k s s' hk hs hb => out_of_cycle_body_log n P poc k hk s s' hs hb) _ st1
            (restore_log_init n P U hlen) h1
          exact for_loop_inv (fork_body B n) (fun _ s => restore_log n P s) n
            (fun k s s' _ hs hb => fork_body_log B n P k s s' hs hb) st1 st2 hI1 h2

/-- C25 (restore buffer bound): on every array `parcopy` of `n_regs` entries on
which `impl_parallel_copy` returns, the final `parcopy` is the input with the
recorded restores replayed, so `parcopy` changes only where a restore is
recorded; the destination of the `i`-th restore is a register whose entry was
not the identity immediately before the restore was recorded and is the
identity immediately afterwards; no entry changes from the identity to
something else; the destinations are pairwise distinct; and the number of
restores plus the number of entries left that are not the identity is the
number of such entries of the input, so `num_restores` is at most that number,
which is at most `n_regs`, and every write to `restore_srcs` and
`restore_dsts` is at an index below `n_regs`. -/
theorem impl_parallel_copy_restore_bound (B n_regs : Nat) (parcopy n_used : List Nat)
    (st : pc_state) (hlen : parcopy.length = n_regs)
    (h : impl_parallel_copy B n_regs parcopy n_used = .ok st) :
    st.parcopy = apply_restores parcopy st.restores ∧
    (∀ i p, st.restores[i]? = some p →
      i < n_regs ∧ p.2 < n_regs ∧
      rd (apply_restores parcopy (st.restores.take i)) p.2 ≠ p.2 ∧
      rd (apply_restores parcopy (st.restores.take (i + 1))) p.2 = p.2) ∧
    (∀ i x, rd (apply_restores parcopy (st.restores.take i)) x = x →
      rd (apply_restores parcopy (st.restores.take (i + 1))) x = x) ∧
    (st.restores.map Prod.snd).Nodup ∧
    st.restores.length + nonfix n_regs st.parcopy = nonfix n_regs parcopy ∧
    st.restores.length ≤ nonfix n_regs parcopy ∧
    nonfix n_regs parcopy ≤ n_regs := by
  obtain ⟨h1, h2, h3, h4, h5, h6⟩ := impl_parallel_copy_log B n_regs parcopy n_used st hlen h
  have hle := nonfix_le n_regs parcopy
  refine ⟨h2, ?_, ?_, h5, h6, by omega, hle⟩
  · intro i p hp
    obtain ⟨ha, hb⟩ := h3 i p hp
    have hi : i < st.restores.length := by
      by_contra hc
      rw [List.getElem?_eq_none (by omega)] at hp
      cases hp
    refine ⟨by omega, ha, hb, ?_⟩
    rw [apply_restores_take_succ parcopy st.restores i p hp]
    refine rd_set_same _ _ _ ?_
    rw [apply_restores_length, hlen]
    exact ha
  · intro i x hx
    cases hp : st.restores[i]? with
    | none =>
      rw [List.take_succ, hp]
      simpa using hx
    | some p =>
      rw [apply_restores_take_succ parcopy st.restores i p hp]
      exact rd_set_fix _ _ _ hx

theorem impl_parallel_copy_restore_bound_witness :
    ([0, 0, 0, 0] : List Nat).length = 4 ∧
    impl_parallel_copy 12 4 [0, 0, 0, 0] [3, 0, 0, 0]
      = .ok { parcopy := [0, 0, 2, 3], n_used := [1, 0, 0, 0],
              restores := [(1, 2), (1, 3)], r := 0 } ∧
    ([0, 0, 2, 3] : List Nat) = apply_restores [0, 0, 0, 0] [(1, 2), (1, 3)] ∧
    (∀ i p, ([(1, 2), (1, 3)] : List (Nat × Nat))[i]? = some p →
      i < 4 ∧ p.2 < 4 ∧
      rd (apply_restores [0, 0, 0, 0] (([(1, 2), (1, 3)] : List (Nat × Nat)).take i)) p.2
        ≠ p.2 ∧
      rd (apply_restores [0, 0, 0, 0] (([(1, 2), (1, 3)] : List (Nat × Nat)).take (i + 1))) p.2
        = p.2) ∧
    (∀ i x, rd (apply_restores [0, 0, 0, 0] (([(1, 2), (1, 3)] : List (Nat × Nat)).take i)) x
        = x →
      rd (apply_restores [0, 0, 0, 0] (([(1, 2), (1, 3)] : List (Nat × Nat)).take (i + 1))) x
        = x) ∧
    (([(1, 2), (1, 3)] : List (Nat × Nat)).map Prod.snd).Nodup ∧
    ([(1, 2), (1, 3)] : List (Nat × Nat)).length + nonfix 4 [0, 0, 2, 3]
      = nonfix 4 [0, 0, 0, 0] ∧
    ([(1, 2), (1, 3)] : List (Nat × Nat)).length ≤ nonfix 4 [0, 0, 0, 0] ∧
    nonfix 4 [0, 0, 0, 0] ≤ 4 :=
  ⟨rfl, rfl,
    impl_parallel_copy_restore_bound 12 4 [0, 0, 0, 0] [3, 0, 0, 0]
      { parcopy := [0, 0, 2, 3], n_used := [1, 0, 0, 0], restores := [(1, 2), (1, 3)], r := 0 }
      rfl rfl⟩

/-! ## C24: termination of the realizer -/

theorem fixpoint_off_cycle (Q : List Nat) (e k : Nat)
    (hk : rd Q ((rd Q)^[k] e) = (rd Q)^[k] e) (j : Nat) : ¬ on_cycle Q ((rd Q)^[j] e) := by
  intro hc
  by_cases hjk : j ≤ k
  · have h1 := on_cycle_iterate Q _ hc (k - j)
    rw [← Function.iterate_add_apply, Nat.sub_add_cancel hjk] at h1
    exact h1.1 hk
  · have h2 : (rd Q)^[j] e = (rd Q)^[k] e := by
      have : j = (j - k) + k := by omega
      rw [this, Function.iterate_add_apply]
      exact iterate_fixed (rd Q) _ hk (j - k)
    rw [h2] at hc
    exact hc.1 hk

theorem find_longest_chain_total (n : Nat) (P : List Nat) (extra : Nat → Nat) (Q V : List Nat)
    (rk : Nat → Nat) (hF : forest n P extra Q V rk) (f : Nat) (hVf : 1 < rd V f)
    (B : Nat) (hB : n + 1 < B) : ∃ d, find_longest_chain B n Q V f = .ok d := by
  obtain ⟨st, hst, _⟩ := for_loop_total (find_longest_chain_body B Q V f)
    (fun j st => flc_good n Q f st ∧
      ((∃ tr, tr < j ∧ rd Q tr ≠ tr ∧ rd V tr = 0 ∧ ∃ k, 0 < k ∧ (rd Q)^[k] tr = f) →
        0 < st.max_len)) n
    (fun j st hj hI => flc_body_step n P extra Q V rk hF f hVf B hB j st hj hI)
    { r := 0, len := 0, max_len := 0, max_dst := UINT_MAX, broke := false }
    ⟨Or.inl ⟨rfl, rfl⟩, fun ⟨tr, htr, _⟩ => absurd htr (Nat.not_lt_zero tr)⟩
  refine ⟨st.max_dst, ?_⟩
  unfold find_longest_chain
  rw [if_pos hVf, hst]

theorem chain_walks_end (n : Nat) (P : List Nat) (extra : Nat → Nat)
    (hn : n < 4294967296) (hP : ∀ r < n, rd P r < n) (hfix : live_in_fixpoints n P extra)
    (B : Nat) (hB : n + 1 < B) (st : pc_state)
    (hI : pc_inv n P extra n st) (hcut : cut_off P extra n st.parcopy) :
    (∀ e < n, rd st.parcopy e ≠ e → rd st.n_used e = 0 →
      (∃ k, rd st.parcopy ((rd st.parcopy)^[k] e) = (rd st.parcopy)^[k] e) ∧
      ∀ j, ¬ on_cycle st.parcopy ((rd st.parcopy)^[j] e)) ∧
    (∀ f, 1 < rd st.n_used f → ∃ d, find_longest_chain B n st.parcopy st.n_used f = .ok d) ∧
    (∀ e < n, ∃ st', fork_body B n e st = .ok st') := by
  obtain ⟨rk, hrk1, hrk2⟩ := exists_rank n P hP
  have hF := forest_of_inv n P extra hn hP hfix rk hrk1 hrk2 n st hI hcut
  refine ⟨?_, ?_, ?_⟩
  · intro e he hne h0
    have hK := hF.leaf e he hne h0
    obtain ⟨k, hk⟩ := chain_reaches_fixpoint n P extra st.parcopy st.n_used rk hF
      (rk e) e he hK (le_refl _)
    exact ⟨⟨k, hk⟩, fixpoint_off_cycle st.parcopy e k hk⟩
  · intro f hf
    exact find_longest_chain_total n P extra st.parcopy st.n_used rk hF f hf B hB
  · intro e he
    obtain ⟨st', h, _⟩ := fork_body_step n P extra hn hP hfix rk hrk1 hrk2 B hB e st he
      ⟨hI, hcut⟩
    exact ⟨st', h⟩

/-- C24 (termination of the realizer): on every specification that satisfies
the data-model invariant and in which every live-in source register is a
fixpoint, with a step budget above `2 * n_regs + 1`, `mark_cycle_parts` and
`impl_parallel_copy` return.  In the state after the out-of-cycle phase and in
the state after the fork phase, the chain walk `while (r != parcopy[r])` from
every chain end (a register that is not a fixpoint and has no reader) reaches
a fixpoint and meets no register on a cycle, `find_longest_chain` returns for
every fork register, and the body of the fork loop returns for every
register. -/
theorem impl_parallel_copy_terminates (B n_regs : Nat) (parcopy n_used : List Nat)
    (extra : Nat → Nat) (hspec : parcopy_spec n_regs parcopy n_used extra)
    (hfix : live_in_fixpoints n_regs parcopy extra) (hB : 2 * n_regs + 1 < B) :
    (∃ part_of_cycle, mark_cycle_parts B n_regs parcopy n_used = .ok part_of_cycle) ∧
    (∃ st, impl_parallel_copy B n_regs parcopy n_used = .ok st) ∧
    ∃ st1 st2, out_of_cycle_phase B n_regs parcopy n_used = .ok st1 ∧
      fork_phase B n_regs st1 = .ok st2 ∧
      ∀ s, s = st1 ∨ s = st2 →
        (∀ e < n_regs, rd s.parcopy e ≠ e → rd s.n_used e = 0 →
          (∃ k, rd s.parcopy ((rd s.parcopy)^[k] e) = (rd s.parcopy)^[k] e) ∧
          ∀ j, ¬ on_cycle s.parcopy ((rd s.parcopy)^[j] e)) ∧
        (∀ f, 1 < rd s.n_used f →
          ∃ d, find_longest_chain B n_regs s.parcopy s.n_used f = .ok d) ∧
        (∀ e < n_regs, ∃ s', fork_body B n_regs e s = .ok s') := by
  obtain ⟨poc, st1, st2, out, hm, _, _, h1, hI1, hc1, h2, hI2, hc2, _, himpl⟩ :=
    impl_parallel_copy_run B n_regs parcopy n_used extra hspec hfix hB
  obtain ⟨hn, _, _, hP, _, _⟩ := hspec
  refine ⟨⟨poc, hm⟩, ⟨st2, himpl⟩, st1, st2, h1, h2, ?_⟩
  intro s hs
  rcases hs with hs | hs
  · subst hs
    exact chain_walks_end n_regs parcopy extra hn hP hfix B (by omega) s hI1 hc1
  · subst hs
    exact chain_walks_end n_regs parcopy extra hn hP hfix B (by omega) s hI2 hc2

theorem impl_parallel_copy_terminates_witness :
    parcopy_spec 4 [0, 0, 0, 2] [2, 0, 1, 0] (fun _ => 0) ∧
    live_in_fixpoints 4 [0, 0, 0, 2] (fun _ => 0) ∧
    (∃ part_of_cycle, mark_cycle_parts 12 4 [0, 0, 0, 2] [2, 0, 1, 0] = .ok part_of_cycle) ∧
    (∃ st, impl_parallel_copy 12 4 [0, 0, 0, 2] [2, 0, 1, 0] = .ok st) ∧
    ∃ st1 st2, out_of_cycle_phase 12 4 [0, 0, 0, 2] [2, 0, 1, 0] = .ok st1 ∧
      fork_phase 12 4 st1 = .ok st2 ∧
      ∀ s, s = st1 ∨ s = st2 →
        (∀ e < 4, rd s.parcopy e ≠ e → rd s.n_used e = 0 →
          (∃ k, rd s.parcopy ((rd s.parcopy)^[k] e) = (rd s.parcopy)^[k] e) ∧
          ∀ j, ¬ on_cycle s.parcopy ((rd s.parcopy)^[j] e)) ∧
        (∀ f, 1 < rd s.n_used f →
          ∃ d, find_longest_chain 12 4 s.parcopy s.n_used f = .ok d) ∧
        (∀ e < 4, ∃ s', fork_body 12 4 e s = .ok s') :=
  have h1 : parcopy_spec 4 [0, 0, 0, 2] [2, 0, 1, 0] (fun _ => 0) := by
    unfold parcopy_spec; decide
  have h2 : live_in_fixpoints 4 [0, 0, 0, 2] (fun _ => 0) := by
    unfold live_in_fixpoints; decide
  ⟨h1, h2,
    impl_parallel_copy_terminates 12 4 [0, 0, 0, 2] [2, 0, 1, 0] (fun _ => 0) h1 h2 (by decide)⟩

/-! ## C21: pinned values keep their register -/

theorem is_pinned_lt (g : ir_graph) (n : Nat) (h : is_pinned g n = true) :
    n < g.nodes.length := by
  by_contra hc
  have := get_node_default g n (by omega)
  simp [is_pinned, get_irn_link, this] at h
  exact absurd h (by decide)

theorem pin_frame_refl (g : ir_graph) : pin_frame g g := fun _ h => ⟨h, rfl⟩

theorem pin_frame_trans (g h k : ir_graph) (h1 : pin_frame g h) (h2 : pin_frame h k) :
    pin_frame g k := by
  intro n hn
  obtain ⟨a, b⟩ := h1 n hn
  obtain ⟨c, d⟩ := h2 n a
  exact ⟨c, d.trans b⟩

theorem pinned_more_refl (g : ir_graph) : pinned_more g g :=
  ⟨rfl, fun n => ⟨⟨(get_node g n).link, rfl⟩, fun h => h⟩⟩

theorem pinned_more_trans (g h k : ir_graph) (h1 : pinned_more g h) (h2 : pinned_more h k) :
    pinned_more g k := by
  refine ⟨h2.1.trans h1.1, fun n => ?_⟩
  obtain ⟨⟨l1, e1⟩, p1⟩ := h1.2 n
  obtain ⟨⟨l2, e2⟩, p2⟩ := h2.2 n
  refine ⟨⟨l2, ?_⟩, fun hp => p2 (p1 hp)⟩
  rw [e2, e1]

theorem pinned_more_pin (g : ir_graph) (a l : Nat) : pinned_more g (pin_irn g a l) := by
  refine ⟨pin_irn_length g a l, fun n => ?_⟩
  by_cases hn : n = a ∧ a < g.nodes.length
  · have hna : n = a := hn.1
    subst hna
    refine ⟨⟨some l, ?_⟩, fun _ => ?_⟩
    · rw [get_node_pin, if_pos hn]
    · simp [is_pinned, get_irn_link, get_node_pin, hn]
  · refine ⟨⟨(get_node g n).link, ?_⟩, fun hp => ?_⟩
    · rw [get_node_pin, if_neg hn]
    · simpa [is_pinned, get_irn_link, get_node_pin, hn] using hp

theorem pin_frame_of_pinned_more (g h : ir_graph) (hm : pinned_more g h) : pin_frame g h := by
  intro n hn
  obtain ⟨⟨l, e⟩, p⟩ := hm.2 n
  refine ⟨p hn, ?_⟩
  simp [arch_get_irn_register, e]

theorem pin_frame_place_dupl (g : ir_graph) (phi i arg ab : Nat) (pr : Option Nat) (pb : Nat) :
    pin_frame g (place_dupl g phi i arg ab pr pb) := by
  intro n hn
  have hlt := is_pinned_lt g n hn
  have hold := place_dupl_old g phi i arg ab pr pb n hlt
  by_cases hp : n = phi
  · subst hp
    rw [if_pos rfl] at hold
    refine ⟨?_, ?_⟩
    · simpa [is_pinned, get_irn_link, hold] using hn
    · simp [arch_get_irn_register, hold]
  · rw [if_neg hp] at hold
    refine ⟨?_, ?_⟩
    · simpa [is_pinned, get_irn_link, hold] using hn
    · simp [arch_get_irn_register, hold]

theorem pin_frame_set_register (g : ir_graph) (a : Nat) (r : Option Nat)
    (h : is_pinned g a = false) : pin_frame g (arch_set_irn_register g a r) := by
  intro n hn
  have hna : n ≠ a := by
    intro e
    rw [e, h] at hn
    cases hn
  have hg : get_node (arch_set_irn_register g a r) n = get_node g n := by
    rw [get_node_set_register, if_neg (fun c => hna c.1)]
  refine ⟨?_, ?_⟩
  · simpa [is_pinned, get_irn_link, hg] using hn
  · simp [arch_get_irn_register, hg]

theorem other_phi_loop_pinned (i arg : Nat) (ar : Option Nat) (phi pb : Nat) (g : ir_graph)
    (fuel : Nat) (st st' : dupl_state) (h0 : pinned_more g st.g)
    (h : while_loop (fun st => st.phi.isSome) (other_phi_body i arg ar phi pb) fuel st
      = .ok st') : pinned_more g st'.g := by
  refine (while_loop_inv _ (other_phi_body i arg ar phi pb) (fun s => pinned_more g s.g) ?_
    fuel st st' h0 h).1
  intro s s' hs _ hb
  unfold other_phi_body at hb
  cases hp : s.phi with
  | none =>
    simp only [hp, Except.ok.injEq] at hb
    subst hb
    exact hs
  | some op =>
    simp only [hp] at hb
    split_ifs at hb with h1 h2
    · simp only [Except.ok.injEq] at hb
      subst hb
      exact pinned_more_trans g s.g _ hs (pinned_more_pin s.g arg pb)
    · simp only [Except.ok.injEq] at hb
      subst hb
      exact hs

theorem set_regs_arg_body_cases (B : Nat) (env : be_chordal_env_t) (phi pb : Nat)
    (pr : Option Nat) (i : Nat) (g g' : ir_graph)
    (h : set_regs_arg_body B env phi pb pr i g = .ok g') :
    g' = pin_irn g (get_irn_n g phi i) pb ∨
    (∃ k, pinned_more g k ∧
      g' = place_dupl k phi i (get_irn_n g phi i) (get_Block_cfgpred_block g pb i) pr pb) ∨
    (∃ k, pinned_more g k ∧ is_Proj g (get_irn_n g phi i) = true ∧
      is_pinned k (get_irn_n g phi i) = false ∧
      g' = pin_irn (arch_set_irn_register k (get_irn_n g phi i) pr) (get_irn_n g phi i) pb) := by
  unfold set_regs_arg_body at h
  simp only at h
  cases hr : arch_get_irn_register g (get_irn_n g phi i) with
  | none => simp only [hr] at h; cases h
  | some ar =>
    simp only [hr] at h
    split_ifs at h with h1 h2 h3 h4
    · simp only [Except.ok.injEq] at h
      exact Or.inl h.symm
    · simp only [Except.ok.injEq] at h
      exact Or.inr (Or.inl ⟨g, pinned_more_refl g, h.symm⟩)
    · cases hw : while_loop (fun st => st.phi.isSome)
          (other_phi_body i (get_irn_n g phi i) (some ar) phi pb) B
          { phi := get_irn_link g pb, g := g } with
      | error e => simp only [hw] at h; cases h
      | ok st =>
        simp only [hw] at h
        have hm := other_phi_loop_pinned i (get_irn_n g phi i) (some ar) phi pb g B _ st
          (pinned_more_refl g) hw
        split_ifs at h with h5
        · simp only [Except.ok.injEq] at h
          exact Or.inr (Or.inl ⟨st.g, hm, h.symm⟩)
        · simp only [Except.ok.injEq] at h
          exact Or.inr (Or.inr ⟨st.g, hm, h3, by simpa using h5, h.symm⟩)
    · simp only at h
      split_ifs at h with h5
      · simp only [Except.ok.injEq] at h
        exact Or.inr (Or.inl ⟨g, pinned_more_refl g, h.symm⟩)
      · simp only [Except.ok.injEq] at h
        exact Or.inr (Or.inr ⟨g, pinned_more_refl g, h3, by simpa using h5, h.symm⟩)

theorem set_regs_arg_body_frame (B : Nat) (env : be_chordal_env_t) (phi pb : Nat)
    (pr : Option Nat) (i : Nat) (g g' : ir_graph)
    (h : set_regs_arg_body B env phi pb pr i g = .ok g') : pin_frame g g' := by
  rcases set_regs_arg_body_cases B env phi pb pr i g g' h with h1 | ⟨k, hk, h2⟩ | ⟨k, hk, _, hp, h3⟩
  · rw [h1]
    exact pin_frame_of_pinned_more g _ (pinned_more_pin g _ pb)
  · rw [h2]
    exact pin_frame_trans g k _ (pin_frame_of_pinned_more g k hk)
      (pin_frame_place_dupl k phi i _ _ pr pb)
  · rw [h3]
    exact pin_frame_trans g k _ (pin_frame_of_pinned_more g k hk)
      (pin_frame_trans k _ _ (pin_frame_set_register k _ pr hp)
        (pin_frame_of_pinned_more _ _ (pinned_more_pin _ _ pb)))

theorem register_of_pinned_more (g k : ir_graph) (hk : pinned_more g k) (n : Nat) :
    arch_get_irn_register k n = arch_get_irn_register g n := by
  obtain ⟨⟨l, e⟩, _⟩ := hk.2 n
  simp [arch_get_irn_register, e]

theorem register_lt (g : ir_graph) (n : Nat) (r : Nat) (h : arch_get_irn_register g n = some r) :
    n < g.nodes.length := by
  by_contra hc
  have := get_node_default g n (by omega)
  simp [arch_get_irn_register, this] at h

theorem register_place_dupl_ne (g : ir_graph) (phi i arg ab : Nat) (pr : Option Nat)
    (pb n : Nat) (hn : n ≠ g.nodes.length) :
    arch_get_irn_register (place_dupl g phi i arg ab pr pb) n = arch_get_irn_register g n := by
  by_cases hlt : n < g.nodes.length
  · have hold := place_dupl_old g phi i arg ab pr pb n hlt
    by_cases hp : n = phi
    · subst hp
      rw [if_pos rfl] at hold
      simp [arch_get_irn_register, hold]
    · rw [if_neg hp] at hold
      simp [arch_get_irn_register, hold]
  · have h1 := get_node_default g n (by omega)
    have h2 := get_node_default (place_dupl g phi i arg ab pr pb) n
      (by rw [place_dupl_length]; omega)
    simp [arch_get_irn_register, h1, h2]

theorem set_regs_arg_body_writes (B : Nat) (env : be_chordal_env_t) (phi pb : Nat)
    (pr : Option Nat) (i : Nat) (g g' : ir_graph)
    (h : set_regs_arg_body B env phi pb pr i g = .ok g') (irn : Nat)
    (hne : arch_get_irn_register g' irn ≠ arch_get_irn_register g irn) :
    is_pinned g irn = false ∧
      ((irn = g.nodes.length ∧ g'.nodes.length = g.nodes.length + 1) ∨
        irn = get_irn_n g phi i) := by
  rcases set_regs_arg_body_cases B env phi pb pr i g g' h with h1 | ⟨k, hk, h2⟩ | ⟨k, hk, _, hp, h3⟩
  · rw [h1, register_pin] at hne
    exact absurd rfl hne
  · by_cases hn : irn = k.nodes.length
    · have hlen : k.nodes.length = g.nodes.length := hk.1
      refine ⟨?_, Or.inl ⟨hn.trans hlen, ?_⟩⟩
      · cases hpin : is_pinned g irn with
        | false => rfl
        | true =>
          have := is_pinned_lt g irn hpin
          omega
      · rw [h2, place_dupl_length, hlen]
    · rw [h2, register_place_dupl_ne k phi i _ _ pr pb irn hn,
        register_of_pinned_more g k hk] at hne
      exact absurd rfl hne
  · by_cases hn : irn = get_irn_n g phi i
    · refine ⟨?_, Or.inr hn⟩
      cases hpin : is_pinned g irn with
      | false => rfl
      | true =>
        have := (hk.2 irn).2 hpin
        rw [hn, hp] at this
        cases this
    · rw [h3, register_pin, register_set_register_other k _ pr irn hn,
        register_of_pinned_more g k hk] at hne
      exact absurd rfl hne

theorem set_regs_phi_body_frame (B : Nat) (env : be_chordal_env_t) (st st' : dupl_state)
    (h : set_regs_phi_body B env st = .ok st') : pin_frame st.g st'.g := by
  unfold set_regs_phi_body at h
  cases hp : st.phi with
  | none =>
    simp only [hp, Except.ok.injEq] at h
    subst h
    exact pin_frame_refl _
  | some phi =>
    simp only [hp] at h
    split_ifs at h with h1
    cases hf : for_loop (set_regs_arg_body B env phi (get_nodes_block st.g phi)
        (arch_get_irn_register st.g phi)) (get_irn_arity st.g phi) st.g with
    | error e => simp only [hf] at h; cases h
    | ok g1 =>
      simp only [hf, Except.ok.injEq] at h
      subst h
      exact for_loop_inv _ (fun _ g => pin_frame st.g g) _
        (fun k s s' _ hs hb => pin_frame_trans st.g s s' hs
          (set_regs_arg_body_frame B env phi _ _ k s s' hb)) st.g g1 (pin_frame_refl _) hf

theorem set_regs_walker_frame (B : Nat) (env : be_chordal_env_t) (bl : Nat) (g g' : ir_graph)
    (h : set_regs_or_place_dupls_walker B env g bl = .ok g') : pin_frame g g' := by
  unfold set_regs_or_place_dupls_walker at h
  cases hw : while_loop (fun st => st.phi.isSome) (set_regs_phi_body B env) B
      { phi := get_irn_link g bl, g := g } with
  | error e => simp only [hw] at h; cases h
  | ok st =>
    simp only [hw, Except.ok.injEq] at h
    subst h
    exact (while_loop_inv _ (set_regs_phi_body B env) (fun s => pin_frame g s.g)
      (fun s s' hs _ hb => pin_frame_trans g s.g s'.g hs (set_regs_phi_body_frame B env s s' hb))
      B { phi := get_irn_link g bl, g := g } st (pin_frame_refl g) hw).1

theorem set_regs_walk_frame (B : Nat) (env : be_chordal_env_t) :
    ∀ (blocks : List Nat) (g g' : ir_graph),
      irg_block_walk_graph blocks (set_regs_or_place_dupls_walker B env) g = .ok g' →
      pin_frame g g' := by
  intro blocks
  induction blocks with
  | nil =>
    intro g g' h
    simp only [irg_block_walk_graph, List.foldlM_nil] at h
    cases h
    exact pin_frame_refl g
  | cons bl rest ih =>
    intro g g' h
    simp only [irg_block_walk_graph, List.foldlM_cons] at h
    cases hb : set_regs_or_place_dupls_walker B env g bl with
    | error e =>
      rw [hb] at h
      cases h
    | ok g1 =>
      rw [hb] at h
      exact pin_frame_trans g g1 g' (set_regs_walker_frame B env bl g g1 hb) (ih g1 g' h)

/-- C21 (pinning invariant): in `set_regs_or_place_dupls_walker`, the work on
one argument of a phi leaves every node that is pinned before it pinned and
with its register; a node whose register it changes is not pinned before it and
is the freshly created duplicate (a node the graph did not have) or the
argument.  Hence the work on one phi, a call of the walker and the walk over
all blocks leave every node that is pinned at their start pinned and with its
register: no later phi rewrites the register of a pinned value. -/
theorem set_regs_or_place_dupls_walker_pinned (B : Nat) (env : be_chordal_env_t) :
    (∀ (phi phi_block : Nat) (phi_reg : Option Nat) (i : Nat) (g g' : ir_graph),
      set_regs_arg_body B env phi phi_block phi_reg i g = .ok g' →
      pin_frame g g' ∧
      ∀ irn, arch_get_irn_register g' irn ≠ arch_get_irn_register g irn →
        is_pinned g irn = false ∧
          ((irn = g.nodes.length ∧ g'.nodes.length = g.nodes.length + 1) ∨
            irn = get_irn_n g phi i)) ∧
    (∀ st st', set_regs_phi_body B env st = .ok st' → pin_frame st.g st'.g) ∧
    (∀ bl g g', set_regs_or_place_dupls_walker B env g bl = .ok g' → pin_frame g g') ∧
    (∀ blocks g g',
      irg_block_walk_graph blocks (set_regs_or_place_dupls_walker B env) g = .ok g' →
      pin_frame g g') :=
  ⟨fun phi pb pr i g g' h => ⟨set_regs_arg_body_frame B env phi pb pr i g g' h,
      fun irn hne => set_regs_arg_body_writes B env phi pb pr i g g' h irn hne⟩,
    fun st st' h => set_regs_phi_body_frame B env st st' h,
    fun bl g g' h => set_regs_walker_frame B env bl g g' h,
    fun blocks g g' h => set_regs_walk_frame B env blocks g g' h⟩

theorem set_regs_or_place_dupls_walker_pinned_witness :
    ∃ g1 g2,
      set_regs_arg_body 8 env_quiet 1 0 (some 1) 0 graph_shared_proj = .ok g1 ∧
      is_pinned graph_shared_proj 3 = false ∧ is_pinned g1 3 = true ∧
      arch_get_irn_register g1 3 = some 1 ∧
      set_regs_or_place_dupls_walker 8 env_quiet g1 0 = .ok g2 ∧
      g2.nodes.length = g1.nodes.length + 1 ∧
      pin_frame g1 g2 ∧ arch_get_irn_register g2 3 = some 1 :=
  ⟨_, _, rfl, rfl, rfl, rfl, rfl, rfl,
    (set_regs_or_place_dupls_walker_pinned 8 env_quiet).2.2.1 0 _ _ rfl, rfl⟩

/-! ## C22: the duplicates and their registers -/

theorem copies_inv_pinned_more (g0 : ir_graph) (phi : Nat) (pr : Option Nat) (k : Nat)
    (g h : ir_graph) (hI : copies_inv g0 phi pr k g) (hm : pinned_more g h) :
    copies_inv g0 phi pr k h := by
  obtain ⟨h1, h2, h3, h4, h5, h6⟩ := hI
  obtain ⟨⟨l, e⟩, _⟩ := hm.2 phi
  refine ⟨by rw [hm.1]; exact h1, h2, ?_, ?_, ?_, ?_⟩
  · simpa [is_Phi, e] using h3
  · simpa [arch_get_irn_register, e] using h4
  · simpa [get_irn_arity, e] using h5
  · intro c hc1 hc2
    rw [hm.1] at hc2
    obtain ⟨a, b, p, j, hj, hjc⟩ := h6 c hc1 hc2
    obtain ⟨⟨lc, ec⟩, pc⟩ := hm.2 c
    refine ⟨?_, ?_, pc p, j, hj, ?_⟩
    · simpa [ec] using a
    · simpa [arch_get_irn_register, ec] using b
    · simpa [get_irn_n, e] using hjc

theorem copies_inv_mono (g0 : ir_graph) (phi : Nat) (pr : Option Nat) (k : Nat)
    (g : ir_graph) (hI : copies_inv g0 phi pr k g) : copies_inv g0 phi pr (k + 1) g := by
  obtain ⟨h1, h2, h3, h4, h5, h6⟩ := hI
  refine ⟨h1, h2, h3, h4, h5, fun c hc1 hc2 => ?_⟩
  obtain ⟨a, b, p, j, hj, hjc⟩ := h6 c hc1 hc2
  exact ⟨a, b, p, j, by omega, hjc⟩

theorem place_dupl_input (g : ir_graph) (phi i arg ab : Nat) (pr : Option Nat) (pb : Nat)
    (hphi : phi < g.nodes.length) (hi : i < get_irn_arity g phi) :
    get_irn_n (place_dupl g phi i arg ab pr pb) phi i = g.nodes.length ∧
    (∀ j, j ≠ i → get_irn_n (place_dupl g phi i arg ab pr pb) phi j = get_irn_n g phi j) ∧
    get_irn_arity (place_dupl g phi i arg ab pr pb) phi = get_irn_arity g phi ∧
    is_Phi (place_dupl g phi i arg ab pr pb) phi = is_Phi g phi ∧
    arch_get_irn_register (place_dupl g phi i arg ab pr pb) phi
      = arch_get_irn_register g phi := by
  have hold := place_dupl_old g phi i arg ab pr pb phi hphi
  rw [if_pos rfl] at hold
  unfold get_irn_arity at hi
  refine ⟨?_, ?_, ?_, ?_, ?_⟩
  · simp [get_irn_n, hold, List.getD_eq_getElem?_getD, List.getElem?_set, hi]
  · intro j hj
    simp [get_irn_n, hold, List.getD_eq_getElem?_getD, List.getElem?_set, Ne.symm hj]
  · simp [get_irn_arity, hold]
  · simp [is_Phi, hold]
  · simp [arch_get_irn_register, hold]

theorem copies_inv_place_dupl (g0 : ir_graph) (phi : Nat) (pr : Option Nat) (k : Nat)
    (g : ir_graph) (hI : copies_inv g0 phi pr k g) (hk : k < get_irn_arity g0 phi)
    (arg ab pb : Nat) : copies_inv g0 phi pr (k + 1) (place_dupl g phi k arg ab pr pb) := by
  obtain ⟨h1, h2, h3, h4, h5, h6⟩ := hI
  have hphi : phi < g.nodes.length := by omega
  obtain ⟨i1, i2, i3, i4, i5⟩ := place_dupl_input g phi k arg ab pr pb hphi (by omega)
  refine ⟨by rw [place_dupl_length]; omega, h2, by rw [i4]; exact h3, by rw [i5]; exact h4,
    by rw [i3]; exact h5, ?_⟩
  intro c hc1 hc2
  rw [place_dupl_length] at hc2
  by_cases hc : c = g.nodes.length
  · subst hc
    have hnew := place_dupl_new g phi k arg ab pr pb hphi
    refine ⟨by rw [hnew], by simp [arch_get_irn_register, hnew],
      by simp [is_pinned, get_irn_link, hnew], k, by omega, i1⟩
  · have hlt : c < g.nodes.length := by omega
    obtain ⟨a, b, p, j, hj, hjc⟩ := h6 c hc1 hlt
    have hold := place_dupl_old g phi k arg ab pr pb c hlt
    rw [if_neg (by omega)] at hold
    refine ⟨by rw [hold]; exact a, by simpa [arch_get_irn_register, hold] using b,
      by simpa [is_pinned, get_irn_link, hold] using p, j, by omega, ?_⟩
    rw [i2 j (by omega)]
    exact hjc

theorem copies_inv_set_register (g0 : ir_graph) (phi : Nat) (pr : Option Nat) (k : Nat)
    (g : ir_graph) (hI : copies_inv g0 phi pr k g) (arg : Nat) (hproj : is_Proj g arg = true) :
    copies_inv g0 phi pr k (arch_set_irn_register g arg pr) := by
  obtain ⟨h1, h2, h3, h4, h5, h6⟩ := hI
  have hne : ∀ n, (get_node g n).op ≠ .Proj →
      get_node (arch_set_irn_register g arg pr) n = get_node g n := by
    intro n hn
    rw [get_node_set_register, if_neg]
    intro hc
    rw [hc.1] at hn
    simp [is_Proj] at hproj
    exact hn hproj
  have hphi : get_node (arch_set_irn_register g arg pr) phi = get_node g phi := by
    apply hne
    simp [is_Phi] at h3
    rw [h3]
    decide
  refine ⟨by rw [set_register_length]; exact h1, h2, ?_, ?_, ?_, ?_⟩
  · simpa [is_Phi, hphi] using h3
  · simpa [arch_get_irn_register, hphi] using h4
  · simpa [get_irn_arity, hphi] using h5
  · intro c hc1 hc2
    rw [set_register_length] at hc2
    obtain ⟨a, b, p, j, hj, hjc⟩ := h6 c hc1 hc2
    have hcn : get_node (arch_set_irn_register g arg pr) c = get_node g c := by
      apply hne
      rw [a]
      decide
    refine ⟨by rw [hcn]; exact a, by simpa [arch_get_irn_register, hcn] using b,
      by simpa [is_pinned, get_irn_link, hcn] using p, j, hj, ?_⟩
    simpa [get_irn_n, hphi] using hjc

theorem is_Proj_pinned_more (g k : ir_graph) (hk : pinned_more g k) (n : Nat) :
    is_Proj k n = is_Proj g n := by
  obtain ⟨⟨l, e⟩, _⟩ := hk.2 n
  simp [is_Proj, e]

theorem set_regs_arg_body_copies (B : Nat) (env : be_chordal_env_t) (g0 : ir_graph)
    (phi pb : Nat) (pr : Option Nat) (k : Nat) (g g' : ir_graph)
    (hI : copies_inv g0 phi pr k g) (hk : k < get_irn_arity g0 phi)
    (h : set_regs_arg_body B env phi pb pr k g = .ok g') :
    copies_inv g0 phi pr (k + 1) g' := by
  rcases set_regs_arg_body_cases B env phi pb pr k g g' h with
    h1 | ⟨m, hm, h2⟩ | ⟨m, hm, hproj, _, h3⟩
  · rw [h1]
    exact copies_inv_mono g0 phi pr k _
      (copies_inv_pinned_more g0 phi pr k g _ hI (pinned_more_pin g _ pb))
  · rw [h2]
    exact copies_inv_place_dupl g0 phi pr k m
      (copies_inv_pinned_more g0 phi pr k g m hI hm) hk _ _ pb
  · rw [h3]
    refine copies_inv_mono g0 phi pr k _
      (copies_inv_pinned_more g0 phi pr k _ _ ?_ (pinned_more_pin _ _ pb))
    refine copies_inv_set_register g0 phi pr k m
      (copies_inv_pinned_more g0 phi pr k g m hI hm) _ ?_
    rw [is_Proj_pinned_more g m hm]
    exact hproj

theorem set_regs_arg_body_register (B : Nat) (env : be_chordal_env_t) (phi pb : Nat)
    (pr : Option Nat) (i : Nat) (g g' : ir_graph)
    (h : set_regs_arg_body B env phi pb pr i g = .ok g') :
    ∃ ar, arch_get_irn_register g (get_irn_n g phi i) = some ar := by
  unfold set_regs_arg_body at h
  simp only at h
  cases hr : arch_get_irn_register g (get_irn_n g phi i) with
  | none => simp only [hr] at h; cases h
  | some ar => exact ⟨ar, rfl⟩

theorem set_regs_arg_body_interfere (B : Nat) (env : be_chordal_env_t) (phi pb : Nat)
    (pr : Option Nat) (i : Nat) (g : ir_graph) (ar : Nat)
    (hr : arch_get_irn_register g (get_irn_n g phi i) = some ar) (hne : pr ≠ some ar)
    (hj : env.cls.is_joker ar = false) (hv : env.cls.is_virtual ar = false)
    (hint : env.values_interfere g phi (get_irn_n g phi i) = true) :
    set_regs_arg_body B env phi pb pr i g
      = .ok (place_dupl g phi i (get_irn_n g phi i) (get_Block_cfgpred_block g pb i) pr pb) := by
  unfold set_regs_arg_body
  simp only [hr]
  rw [if_neg (by simp [hne, hj, hv]), if_pos hint]

theorem set_regs_phi_body_copies (B : Nat) (env : be_chordal_env_t) (st st' : dupl_state)
    (phi : Nat) (hp : st.phi = some phi) (h : set_regs_phi_body B env st = .ok st') :
    copies_inv st.g phi (arch_get_irn_register st.g phi) (get_irn_arity st.g phi) st'.g := by
  unfold set_regs_phi_body at h
  simp only [hp] at h
  split_ifs at h with h1
  cases hf : for_loop (set_regs_arg_body B env phi (get_nodes_block st.g phi)
      (arch_get_irn_register st.g phi)) (get_irn_arity st.g phi) st.g with
  | error e => simp only [hf] at h; cases h
  | ok g1 =>
    simp only [hf, Except.ok.injEq] at h
    subst h
    refine for_loop_inv _
      (fun k g => copies_inv st.g phi (arch_get_irn_register st.g phi) k g) _
      (fun k s s' hk hs hb => set_regs_arg_body_copies B env st.g phi _ _ k s s' hs hk hb)
      st.g g1 ?_ hf
    exact ⟨le_refl _, is_Phi_lt st.g phi h1, h1, rfl, rfl, fun c hc1 hc2 => by omega⟩

/-- C22 (duplicate insertion and register agreement): in
`set_regs_or_place_dupls_walker`, for a phi and an argument index `i` whose
argument has a register other than the one of the phi that is neither a joker
nor a virtual register, and interferes with the phi, the work on the argument
adds one node, a copy of the argument in the block of predecessor `i`, makes it
the `i`-th input of the phi, gives it the register of the phi and pins it to
the phi block; the argument keeps its register and no other node changes.
Whenever the work on an argument adds a node, in the interference case and in
the case of an argument that is pinned already, it adds exactly one, which is
such a copy.  After the work on a phi, the phi has the register it had, and
every node that was added is a pinned copy that is an input of the phi and has
the register of the phi. -/
theorem set_regs_arg_body_places_dupl (B : Nat) (env : be_chordal_env_t) :
    (∀ (phi phi_block : Nat) (phi_reg : Option Nat) (i : Nat) (g : ir_graph) (ar : Nat),
      phi < g.nodes.length → i < get_irn_arity g phi →
      arch_get_irn_register g (get_irn_n g phi i) = some ar → phi_reg ≠ some ar →
      env.cls.is_joker ar = false → env.cls.is_virtual ar = false →
      env.values_interfere g phi (get_irn_n g phi i) = true →
      ∃ g', set_regs_arg_body B env phi phi_block phi_reg i g = .ok g' ∧
        g'.nodes.length = g.nodes.length + 1 ∧
        get_node g' g.nodes.length
          = ⟨.Copy, get_Block_cfgpred_block g phi_block i, [get_irn_n g phi i], phi_reg,
              some phi_block, 0⟩ ∧
        get_irn_n g' phi i = g.nodes.length ∧
        arch_get_irn_register g' (get_irn_n g phi i) = some ar ∧
        get_node g' phi
          = { get_node g phi with ins := (get_node g phi).ins.set i g.nodes.length } ∧
        ∀ n < g.nodes.length, n ≠ phi → get_node g' n = get_node g n) ∧
    (∀ (phi phi_block : Nat) (phi_reg : Option Nat) (i : Nat) (g g' : ir_graph),
      phi < g.nodes.length → i < get_irn_arity g phi →
      set_regs_arg_body B env phi phi_block phi_reg i g = .ok g' →
      g'.nodes.length = g.nodes.length ∨
      (g'.nodes.length = g.nodes.length + 1 ∧
        get_node g' g.nodes.length
          = ⟨.Copy, get_Block_cfgpred_block g phi_block i, [get_irn_n g phi i], phi_reg,
              some phi_block, 0⟩ ∧
        get_irn_n g' phi i = g.nodes.length ∧
        arch_get_irn_register g' phi = arch_get_irn_register g phi ∧
        arch_get_irn_register g' (get_irn_n g phi i)
          = arch_get_irn_register g (get_irn_n g phi i))) ∧
    (∀ (st st' : dupl_state) (phi : Nat), st.phi = some phi →
      set_regs_phi_body B env st = .ok st' →
      arch_get_irn_register st'.g phi = arch_get_irn_register st.g phi ∧
      ∀ c, st.g.nodes.length ≤ c → c < st'.g.nodes.length →
        (get_node st'.g c).op = .Copy ∧ is_pinned st'.g c = true ∧
        arch_get_irn_register st'.g c = arch_get_irn_register st'.g phi ∧
        ∃ i < get_irn_arity st'.g phi, get_irn_n st'.g phi i = c) := by
  refine ⟨?_, ?_, ?_⟩
  · intro phi pb pr i g ar hphi hi hr hne hj hv hint
    refine ⟨_, set_regs_arg_body_interfere B env phi pb pr i g ar hr hne hj hv hint,
      place_dupl_length _ _ _ _ _ _ _, place_dupl_new _ _ _ _ _ _ _ hphi,
      (place_dupl_input g phi i _ _ pr pb hphi hi).1, ?_, ?_, ?_⟩
    · rw [register_place_dupl_ne g phi i _ _ pr pb _
        (Nat.ne_of_lt (register_lt g _ ar hr))]
      exact hr
    · have := place_dupl_old g phi i (get_irn_n g phi i) (get_Block_cfgpred_block g pb i)
        pr pb phi hphi
      rw [if_pos rfl] at this
      exact this
    · intro n hn hnp
      have := place_dupl_old g phi i (get_irn_n g phi i) (get_Block_cfgpred_block g pb i)
        pr pb n hn
      rw [if_neg hnp] at this
      exact this
  · intro phi pb pr i g g' hphi hi h
    obtain ⟨ar, hr⟩ := set_regs_arg_body_register B env phi pb pr i g g' h
    rcases set_regs_arg_body_cases B env phi pb pr i g g' h with
      h1 | ⟨m, hm, h2⟩ | ⟨m, hm, _, _, h3⟩
    · left
      rw [h1, pin_irn_length]
    · right
      have hlen : m.nodes.length = g.nodes.length := hm.1
      have hphim : phi < m.nodes.length := by omega
      obtain ⟨⟨l, e⟩, _⟩ := hm.2 phi
      have him : i < get_irn_arity m phi := by simpa [get_irn_arity, e] using hi
      obtain ⟨i1, _, _, _, i5⟩ := place_dupl_input m phi i (get_irn_n g phi i)
        (get_Block_cfgpred_block g pb i) pr pb hphim him
      refine ⟨by rw [h2, place_dupl_length, hlen], ?_, ?_, ?_, ?_⟩
      · rw [h2, ← hlen]
        exact place_dupl_new _ _ _ _ _ _ _ hphim
      · rw [h2, i1, hlen]
      · rw [h2, i5, register_of_pinned_more g m hm]
      · rw [h2, register_place_dupl_ne m phi i _ _ pr pb _
          (by rw [hlen]; exact Nat.ne_of_lt (register_lt g _ ar hr)),
          register_of_pinned_more g m hm]
    · left
      rw [h3, pin_irn_length, set_register_length]
      exact hm.1
  · intro st st' phi hp h
    obtain ⟨h1, h2, h3, h4, h5, h6⟩ := set_regs_phi_body_copies B env st st' phi hp h
    refine ⟨h4, fun c hc1 hc2 => ?_⟩
    obtain ⟨a, b, p, j, hj, hjc⟩ := h6 c hc1 hc2
    exact ⟨a, p, b.trans h4.symm, j, by rw [h5]; exact hj, hjc⟩

theorem set_regs_arg_body_places_dupl_witness :
    ∃ g', set_regs_arg_body 8 env_scenario_E 1 0 (some 1) 0 graph_scenario_E = .ok g' ∧
      g'.nodes.length = graph_scenario_E.nodes.length + 1 ∧
      get_node g' graph_scenario_E.nodes.length
        = ⟨.Copy, get_Block_cfgpred_block graph_scenario_E 0 0,
            [get_irn_n graph_scenario_E 1 0], some 1, some 0, 0⟩ ∧
      get_irn_n g' 1 0 = graph_scenario_E.nodes.length ∧
      arch_get_irn_register g' (get_irn_n graph_scenario_E 1 0) = some 0 ∧
      get_node g' 1
        = { get_node graph_scenario_E 1 with
            ins := (get_node graph_scenario_E 1).ins.set 0 graph_scenario_E.nodes.length } ∧
      ∀ n < graph_scenario_E.nodes.length, n ≠ 1 →
        get_node g' n = get_node graph_scenario_E n :=
  (set_regs_arg_body_places_dupl 8 env_scenario_E).1 1 0 (some 1) 0 graph_scenario_E 0
    (by decide) (by decide) rfl (by decide) rfl rfl rfl

/-! ## C23: the Perm of a predecessor edge -/

theorem arg_set_from_append (l : List Nat) (a : Nat) :
    ∀ k, arg_set_from k (l ++ [a]) = arg_set_from k l ++ [⟨a, k + l.length, 0⟩] := by
  induction l with
  | nil => intro k; simp [arg_set_from]
  | cons b l ih =>
    intro k
    have e : k + 1 + l.length = k + (l.length + 1) := by omega
    show arg_set_from k (b :: (l ++ [a])) = _
    simp only [arg_set_from, ih (k + 1), List.length_cons, e, List.cons_append]

theorem arg_set_from_args (l : List Nat) :
    ∀ k, (arg_set_from k l).map (fun pp => pp.arg) = l := by
  induction l with
  | nil => intro k; rfl
  | cons b l ih => intro k; simp [arg_set_from, ih (k + 1)]

theorem arg_set_from_length (l : List Nat) : ∀ k, (arg_set_from k l).length = l.length := by
  induction l with
  | nil => intro k; rfl
  | cons b l ih => intro k; simp [arg_set_from, ih (k + 1)]

theorem arg_set_find_none (l : List Nat) (a : Nat) :
    ∀ k, (arg_set_find (arg_set_from k l) a).isNone = true ↔ a ∉ l := by
  induction l with
  | nil => intro k; simp [arg_set_from, arg_set_find]
  | cons b l ih =>
    intro k
    have := ih (k + 1)
    unfold arg_set_find at this ⊢
    by_cases hb : b = a
    · subst hb
      simp [arg_set_from, List.find?_cons]
    · have hab : ¬ a = b := fun e => hb e.symm
      simp [arg_set_from, List.find?_cons, hb, hab, this]

theorem perm_args_mem (env : be_chordal_env_t) (g : ir_graph) (bl i : Nat) (rest : List Nat) :
    ∀ (acc : List Nat) (a : Nat), a ∈ perm_args env g bl i acc rest ↔
      a ∈ acc ∨ ∃ phi ∈ rest, get_irn_n g phi i = a ∧ env.is_live_in g bl a = false := by
  induction rest with
  | nil => intro acc a; simp [perm_args]
  | cons phi rest ih =>
    intro acc a
    unfold perm_args
    split_ifs with h
    · rw [ih]
      constructor
      · rintro (h1 | ⟨q, hq, h2⟩)
        · rcases List.mem_append.mp h1 with h1 | h1
          · exact Or.inl h1
          · simp only [List.mem_singleton] at h1
            subst h1
            exact Or.inr ⟨phi, List.mem_cons_self _ _, rfl, h.2⟩
        · exact Or.inr ⟨q, List.mem_cons_of_mem _ hq, h2⟩
      · rintro (h1 | ⟨q, hq, h2, h3⟩)
        · exact Or.inl (List.mem_append_left _ h1)
        · rcases List.mem_cons.mp hq with hq | hq
          · subst hq
            exact Or.inl (List.mem_append_right _ (by simp [h2]))
          · exact Or.inr ⟨q, hq, h2, h3⟩
    · rw [ih]
      constructor
      · rintro (h1 | ⟨q, hq, h2⟩)
        · exact Or.inl h1
        · exact Or.inr ⟨q, List.mem_cons_of_mem _ hq, h2⟩
      · rintro (h1 | ⟨q, hq, h2, h3⟩)
        · exact Or.inl h1
        · rcases List.mem_cons.mp hq with hq | hq
          · subst hq
            left
            by_contra hc
            exact h ⟨by rw [h2]; exact hc, by rw [h2]; exact h3⟩
          · exact Or.inr ⟨q, hq, h2, h3⟩

theorem perm_args_nodup (env : be_chordal_env_t) (g : ir_graph) (bl i : Nat) (rest : List Nat) :
    ∀ acc : List Nat, acc.Nodup → (perm_args env g bl i acc rest).Nodup := by
  induction rest with
  | nil => intro acc h; exact h
  | cons phi rest ih =>
    intro acc hacc
    unfold perm_args
    split_ifs with h
    · apply ih
      rw [List.nodup_append]
      refine ⟨hacc, List.nodup_singleton _, ?_⟩
      intro a ha hb
      simp only [List.mem_singleton] at hb
      subst hb
      exact h.1 ha
    · exact ih acc hacc

theorem collect_loop (env : be_chordal_env_t) (g : ir_graph) (bl i : Nat) :
    ∀ (rest : List Nat) (s : Option Nat) (acc : List Nat) (fuel : Nat),
      phi_seg g s rest none → rest.length < fuel →
      while_loop (fun st => st.phi.isSome) (collect_args_body env bl i) fuel
          { phi := s, arg_set := arg_set_from 0 acc, n_projs := acc.length, g := g }
        = .ok { phi := none, arg_set := arg_set_from 0 (perm_args env g bl i acc rest),
                n_projs := (perm_args env g bl i acc rest).length, g := g } := by
  intro rest
  induction rest with
  | nil =>
    intro s acc fuel hs hf
    simp only [phi_seg] at hs
    subst hs
    cases fuel with
    | zero => simp at hf
    | succ fuel => simp [while_loop, perm_args]
  | cons phi rest ih =>
    intro s acc fuel hs hf
    obtain ⟨hs1, hs2⟩ := hs
    subst hs1
    cases fuel with
    | zero => simp at hf
    | succ fuel =>
      simp only [List.length_cons, Nat.add_lt_add_iff_right] at hf
      unfold while_loop
      simp only [Option.isSome_some, if_true, collect_args_body]
      by_cases hc : get_irn_n g phi i ∉ acc ∧ env.is_live_in g bl (get_irn_n g phi i) = false
      · have h1 : ((arg_set_find (arg_set_from 0 acc) (get_irn_n g phi i)).isNone &&
            !env.is_live_in g bl (get_irn_n g phi i)) = true := by
          rw [Bool.and_eq_true]
          exact ⟨(arg_set_find_none acc _ 0).mpr hc.1, by simp [hc.2]⟩
        rw [if_pos h1]
        simp only
        have h2 := ih (get_irn_link g phi) (acc ++ [get_irn_n g phi i]) fuel hs2 hf
        rw [arg_set_from_append, List.length_append, List.length_singleton, Nat.zero_add] at h2
        rw [h2]
        simp only [perm_args, if_pos hc]
      · have h1 : ¬ ((arg_set_find (arg_set_from 0 acc) (get_irn_n g phi i)).isNone &&
            !env.is_live_in g bl (get_irn_n g phi i)) = true := by
          rw [Bool.and_eq_true]
          intro hh
          apply hc
          refine ⟨(arg_set_find_none acc _ 0).mp hh.1, ?_⟩
          simpa using hh.2
        rw [if_neg h1]
        simp only
        rw [ih (get_irn_link g phi) acc fuel hs2 hf]
        simp only [perm_args, if_neg hc]

theorem get_node_append_old (h : ir_graph) (xs : List ir_node) (n : Nat)
    (hn : n < h.nodes.length) :
    get_node { nodes := h.nodes ++ xs } n = get_node h n := by
  simp [get_node, List.getD_eq_getElem?_getD, List.getElem?_append_left hn]

theorem get_node_append_new (h : ir_graph) (xs : List ir_node) (k : Nat) :
    get_node { nodes := h.nodes ++ xs } (h.nodes.length + k) = xs.getD k default := by
  simp [get_node, List.getD_eq_getElem?_getD, List.getElem?_append_right]

theorem set_register_appended (h : ir_graph) (x : ir_node) (r : Option Nat) :
    arch_set_irn_register { nodes := h.nodes ++ [x] } h.nodes.length r
      = { nodes := h.nodes ++ [{ x with reg := r }] } := by
  have h1 : get_node { nodes := h.nodes ++ [x] } h.nodes.length = x := by
    have := get_node_append_new h [x] 0
    simpa using this
  unfold arch_set_irn_register set_node
  rw [h1]
  simp [List.set_append_right]

theorem make_projs_spec (pb perm : Nat) (rg : Nat → Option Nat) :
    ∀ (l : List Nat) (k : Nat) (h : ir_graph), perm < h.nodes.length →
      get_nodes_block h perm = pb →
      (∀ a ∈ l, arch_get_irn_register h a = rg a ∧ (rg a).isSome = true) →
      make_projs perm (arg_set_from k l) h
        = .ok (proj_set_from k h.nodes.length l,
            { nodes := h.nodes ++ proj_nodes pb perm rg k l }) := by
  intro l
  induction l with
  | nil =>
    intro k h _ _ _
    simp [arg_set_from, make_projs, proj_set_from, proj_nodes]
  | cons a l ih =>
    intro k h hperm hpb hreg
    obtain ⟨ha1, ha2⟩ := hreg a (List.mem_cons_self _ _)
    obtain ⟨r, hr⟩ := Option.isSome_iff_exists.mp ha2
    have halt : a < h.nodes.length := register_lt h a r (ha1.trans hr)
    have hg1 : arch_get_irn_register
        { nodes := h.nodes ++ [⟨.Proj, get_nodes_block h perm, [perm], none, none, k⟩] } a
          = some r := by
      unfold arch_get_irn_register
      rw [get_node_append_old h _ a halt]
      exact ha1.trans hr
    have hstep := ih (k + 1)
      { nodes := h.nodes ++ [⟨.Proj, pb, [perm], some r, none, k⟩] }
      (by simp; omega)
      (by
        unfold get_nodes_block
        rw [get_node_append_old h _ perm hperm]
        exact hpb)
      (by
        intro b hb
        obtain ⟨hb1, hb2⟩ := hreg b (List.mem_cons_of_mem _ hb)
        obtain ⟨rb, hrb⟩ := Option.isSome_iff_exists.mp hb2
        have hblt : b < h.nodes.length := register_lt h b rb (hb1.trans hrb)
        refine ⟨?_, hb2⟩
        unfold arch_get_irn_register
        rw [get_node_append_old h _ b hblt]
        exact hb1)
    simp only [arg_set_from, make_projs, new_r_Proj, new_ir_node, hg1]
    rw [set_register_appended, hpb]
    simp only
    rw [hstep]
    simp [proj_set_from, proj_nodes, hr]

theorem proj_nodes_length (pb perm : Nat) (rg : Nat → Option Nat) (l : List Nat) :
    ∀ k, (proj_nodes pb perm rg k l).length = l.length := by
  induction l with
  | nil => intro k; rfl
  | cons a l ih => intro k; simp [proj_nodes, ih (k + 1)]

theorem proj_nodes_get (pb perm : Nat) (rg : Nat → Option Nat) (l : List Nat) :
    ∀ k j, j < l.length →
      (proj_nodes pb perm rg k l).getD j default
        = ⟨.Proj, pb, [perm], rg (rd l j), none, k + j⟩ := by
  induction l with
  | nil => intro k j hj; simp at hj
  | cons a l ih =>
    intro k j hj
    cases j with
    | zero => simp [proj_nodes, rd]
    | succ j =>
      simp only [List.length_cons, Nat.add_lt_add_iff_right] at hj
      have := ih (k + 1) j hj
      simp only [proj_nodes, List.getD_cons_succ, this, rd]
      congr 1
      omega

theorem proj_set_find (l : List Nat) (a : Nat) :
    ∀ k b, (a ∉ l → arg_set_find (proj_set_from k b l) a = none) ∧
      (a ∈ l → ∃ j < l.length, rd l j = a ∧
        arg_set_find (proj_set_from k b l) a = some ⟨a, k + j, b + j⟩) := by
  induction l with
  | nil => intro k b; simp [proj_set_from, arg_set_find]
  | cons c l ih =>
    intro k b
    obtain ⟨ih1, ih2⟩ := ih (k + 1) (b + 1)
    unfold arg_set_find at ih1 ih2 ⊢
    by_cases hc : c = a
    · subst hc
      refine ⟨fun h => absurd (List.mem_cons_self _ _) h, fun _ => ⟨0, by simp, ?_, ?_⟩⟩
      · simp [rd]
      · simp [proj_set_from, List.find?_cons]
    · refine ⟨fun h => ?_, fun h => ?_⟩
      · have hl : a ∉ l := fun hm => h (List.mem_cons_of_mem _ hm)
        simp [proj_set_from, List.find?_cons, hc, ih1 hl]
      · have hl : a ∈ l := by
          rcases List.mem_cons.mp h with h | h
          · exact absurd h.symm hc
          · exact h
        obtain ⟨j, hj, hj1, hj2⟩ := ih2 hl
        refine ⟨j + 1, by simp; omega, by simpa [rd] using hj1, ?_⟩
        simp only [proj_set_from, List.find?_cons, hc, decide_False, hj2]
        simp only [Option.some.injEq, perm_proj_t.mk.injEq, true_and]
        omega

theorem get_node_set_irn_n (g : ir_graph) (n i v m : Nat) :
    get_node (set_irn_n g n i v) m
      = if m = n ∧ n < g.nodes.length then
          { get_node g n with ins := (get_node g n).ins.set i v }
        else get_node g m := by
  unfold set_irn_n
  exact get_node_set_node g n m _

theorem get_irn_link_set_irn_n (g : ir_graph) (n i v m : Nat) :
    get_irn_link (set_irn_n g n i v) m = get_irn_link g m := by
  unfold get_irn_link
  rw [get_node_set_irn_n]
  split_ifs with h
  · rw [h.1]
  · rfl

theorem rewire_loop (i : Nat) (A : List perm_proj_t) (np : Nat) :
    ∀ (rest : List Nat) (s : Option Nat) (h : ir_graph) (fuel : Nat),
      phi_seg h s rest none → rest.Nodup → (∀ phi ∈ rest, phi < h.nodes.length) →
      rest.length < fuel →
      ∃ st', while_loop (fun st => st.phi.isSome) (rewire_body i) fuel
          { phi := s, arg_set := A, n_projs := np, g := h } = .ok st' ∧
        st'.g.nodes.length = h.nodes.length ∧
        (∀ n, n ∉ rest → get_node st'.g n = get_node h n) ∧
        ∀ phi ∈ rest,
          (arg_set_find A (get_irn_n h phi i) = none ∧ get_node st'.g phi = get_node h phi) ∨
          ∃ pp, arg_set_find A (get_irn_n h phi i) = some pp ∧
            get_node st'.g phi
              = { get_node h phi with ins := (get_node h phi).ins.set i pp.proj } := by
  intro rest
  induction rest with
  | nil =>
    intro s h fuel hs _ _ hf
    simp only [phi_seg] at hs
    subst hs
    cases fuel with
    | zero => simp at hf
    | succ fuel =>
      refine ⟨{ phi := none, arg_set := A, n_projs := np, g := h }, by simp [while_loop], rfl,
        fun _ _ => rfl, fun phi hphi => ?_⟩
      simp at hphi
  | cons phi rest ih =>
    intro s h fuel hs hnd hlt hf
    obtain ⟨hs1, hs2⟩ := hs
    subst hs1
    have hphi_lt := hlt phi (List.mem_cons_self _ _)
    have hphi_notin : phi ∉ rest := (List.nodup_cons.mp hnd).1
    have hnd2 : rest.Nodup := (List.nodup_cons.mp hnd).2
    cases fuel with
    | zero => simp at hf
    | succ fuel =>
      simp only [List.length_cons, Nat.add_lt_add_iff_right] at hf
      unfold while_loop
      simp only [Option.isSome_some, if_true, rewire_body]
      cases hfind : arg_set_find A (get_irn_n h phi i) with
      | none =>
        simp only
        obtain ⟨st', h1, h2, h3, h4⟩ := ih (get_irn_link h phi) h fuel hs2 hnd2
          (fun q hq => hlt q (List.mem_cons_of_mem _ hq)) hf
        refine ⟨st', h1, h2, fun n hn => h3 n (fun hm => hn (List.mem_cons_of_mem _ hm)),
          fun q hq => ?_⟩
        rcases List.mem_cons.mp hq with hq | hq
        · subst hq
          exact Or.inl ⟨hfind, h3 q hphi_notin⟩
        · exact h4 q hq
      | some pp =>
        simp only
        have hseg : phi_seg (set_irn_n h phi i pp.proj)
            (get_irn_link (set_irn_n h phi i pp.proj) phi) rest none := by
          rw [get_irn_link_set_irn_n]
          exact phi_seg_congr h _ rest (fun p _ => get_irn_link_set_irn_n h phi i pp.proj p)
            _ _ hs2
        have hlen : (set_irn_n h phi i pp.proj).nodes.length = h.nodes.length := by
          unfold set_irn_n
          exact set_node_length _ _ _
        obtain ⟨st', h1, h2, h3, h4⟩ := ih _ (set_irn_n h phi i pp.proj) fuel hseg hnd2
          (fun q hq => by rw [hlen]; exact hlt q (List.mem_cons_of_mem _ hq)) hf
        have hother : ∀ n, n ≠ phi →
            get_node (set_irn_n h phi i pp.proj) n = get_node h n := by
          intro n hn
          rw [get_node_set_irn_n, if_neg (fun c => hn c.1)]
        refine ⟨st', h1, h2.trans hlen, fun n hn => ?_, fun q hq => ?_⟩
        · rw [h3 n (fun hm => hn (List.mem_cons_of_mem _ hm))]
          exact hother n (fun e => hn (by rw [e]; exact List.mem_cons_self _ _))
        · rcases List.mem_cons.mp hq with hq | hq
          · subst hq
            refine Or.inr ⟨pp, hfind, ?_⟩
            rw [h3 q hphi_notin, get_node_set_irn_n, if_pos ⟨rfl, hphi_lt⟩]
          · have hqp : q ≠ phi := fun e => hphi_notin (by rw [← e]; exact hq)
            have hn : get_irn_n (set_irn_n h phi i pp.proj) q i = get_irn_n h q i := by
              unfold get_irn_n
              rw [hother q hqp]
            rcases h4 q hq with ⟨a, b⟩ | ⟨pq, a, b⟩
            · exact Or.inl ⟨by rw [← hn]; exact a, by rw [b]; exact hother q hqp⟩
            · refine Or.inr ⟨pq, by rw [← hn]; exact a, ?_⟩
              rw [b, hother q hqp]

theorem insert_all_perms_pred_none (B : Nat) (env : be_chordal_env_t) (bl i : Nat)
    (g : ir_graph) (phis : List Nat) (hchain : phi_chain g (get_irn_link g bl) phis)
    (hB : phis.length < B) (hL : perm_args env g bl i [] phis = []) :
    insert_all_perms_pred B env bl i g = .ok g := by
  have hcol : while_loop (fun st => st.phi.isSome) (collect_args_body env bl i) B
      { phi := get_irn_link g bl, arg_set := [], n_projs := 0, g := g }
        = .ok { phi := none, arg_set := arg_set_from 0 (perm_args env g bl i [] phis),
                n_projs := (perm_args env g bl i [] phis).length, g := g } :=
    collect_loop env g bl i phis (get_irn_link g bl) [] B hchain hB
  unfold insert_all_perms_pred
  simp only [hcol, hL, List.length_nil, ne_eq, not_true_eq_false, if_false]

theorem insert_all_perms_pred_some (B : Nat) (env : be_chordal_env_t) (bl i : Nat)
    (g : ir_graph) (phis : List Nat) (hchain : phi_chain g (get_irn_link g bl) phis)
    (hnodup : phis.Nodup) (hlt : ∀ phi ∈ phis, phi < g.nodes.length)
    (hB : phis.length < B) (L : List Nat) (hL : perm_args env g bl i [] phis = L)
    (hne : L ≠ [])
    (hreg : ∀ a ∈ L, (arch_get_irn_register g a).isSome = true) :
    ∃ g', insert_all_perms_pred B env bl i g = .ok g' ∧
      g'.nodes.length = g.nodes.length + 1 + L.length ∧
      (∀ n, n ∉ phis →
        get_node g' n = get_node
          { nodes := g.nodes ++ (⟨.Perm, get_Block_cfgpred_block g bl i, L, none, none, 0⟩ ::
              proj_nodes (get_Block_cfgpred_block g bl i) g.nodes.length
                (arch_get_irn_register g) 0 L) } n) ∧
      ∀ phi ∈ phis,
        (arg_set_find (proj_set_from 0 (g.nodes.length + 1) L) (get_irn_n g phi i) = none ∧
          get_node g' phi = get_node g phi) ∨
        ∃ pp, arg_set_find (proj_set_from 0 (g.nodes.length + 1) L) (get_irn_n g phi i)
            = some pp ∧
          get_node g' phi = { get_node g phi with ins := (get_node g phi).ins.set i pp.proj } := by
  have hcol : while_loop (fun st => st.phi.isSome) (collect_args_body env bl i) B
      { phi := get_irn_link g bl, arg_set := [], n_projs := 0, g := g }
        = .ok { phi := none, arg_set := arg_set_from 0 (perm_args env g bl i [] phis),
                n_projs := (perm_args env g bl i [] phis).length, g := g } :=
    collect_loop env g bl i phis (get_irn_link g bl) [] B hchain hB
  rw [hL] at hcol
  have hlen0 : L.length ≠ 0 := fun h => hne (List.length_eq_zero.mp h)
  obtain ⟨pm, hpm⟩ : ∃ pm : ir_node,
      pm = ⟨.Perm, get_Block_cfgpred_block g bl i, L, none, none, 0⟩ := ⟨_, rfl⟩
  obtain ⟨pj, hpj⟩ : ∃ pj : List ir_node,
      pj = proj_nodes (get_Block_cfgpred_block g bl i) g.nodes.length
        (arch_get_irn_register g) 0 L := ⟨_, rfl⟩
  have hmk : make_projs g.nodes.length (arg_set_from 0 L) { nodes := g.nodes ++ [pm] }
      = .ok (proj_set_from 0 (g.nodes.length + 1) L, { nodes := g.nodes ++ pm :: pj }) := by
    rw [make_projs_spec (get_Block_cfgpred_block g bl i) g.nodes.length
      (arch_get_irn_register g) L 0 { nodes := g.nodes ++ [pm] }
      (by simp)
      (by
        unfold get_nodes_block
        have := get_node_append_new g [pm] 0
        simp only [Nat.add_zero] at this
        rw [this, hpm]
        rfl)
      (by
        intro a ha
        have hs := hreg a ha
        obtain ⟨r, hr⟩ := Option.isSome_iff_exists.mp hs
        refine ⟨?_, hs⟩
        unfold arch_get_irn_register
        rw [get_node_append_old g _ a (register_lt g a r hr)])]
    simp [hpj]
  have hold : ∀ n < g.nodes.length,
      get_node { nodes := g.nodes ++ pm :: pj } n = get_node g n :=
    fun n hn => get_node_append_old g _ n hn
  have hphis : phis ≠ [] := by
    intro he
    rw [he] at hL
    exact hne (by rw [← hL]; rfl)
  have hblink : get_irn_link { nodes := g.nodes ++ pm :: pj } bl = get_irn_link g bl := by
    by_cases hn : bl < g.nodes.length
    · unfold get_irn_link
      rw [hold bl hn]
    · exfalso
      have h : get_irn_link g bl = none := by
        unfold get_irn_link
        rw [get_node_default g bl (by omega)]
        rfl
      cases phis with
      | nil => exact hphis rfl
      | cons p ps =>
        have := hchain.1
        rw [h] at this
        cases this
  have hseg : phi_seg { nodes := g.nodes ++ pm :: pj }
      (get_irn_link { nodes := g.nodes ++ pm :: pj } bl) phis none := by
    rw [hblink]
    refine phi_seg_congr g _ phis (fun p hp => ?_) _ _ hchain
    unfold get_irn_link
    rw [hold p (hlt p hp)]
  obtain ⟨st', h1, h2, h3, h4⟩ := rewire_loop i (proj_set_from 0 (g.nodes.length + 1) L)
    L.length phis _ _ B hseg hnodup
    (fun p hp => by
      have := hlt p hp
      simp only [List.length_append, List.length_cons]
      omega) hB
  rw [← hpm, ← hpj]
  refine ⟨st'.g, ?_, ?_, h3, fun phi hphi => ?_⟩
  · unfold insert_all_perms_pred
    simp only [hcol, ne_eq, hlen0, not_false_eq_true, if_true, be_new_Perm, new_ir_node,
      arg_set_from_args, ← hpm, hmk, h1]
  · rw [h2]
    simp only [List.length_append, List.length_cons, hpj, proj_nodes_length]
    omega
  · have hn : get_irn_n { nodes := g.nodes ++ pm :: pj } phi i = get_irn_n g phi i := by
      unfold get_irn_n
      rw [hold phi (hlt phi hphi)]
    rcases h4 phi hphi with ⟨a, b⟩ | ⟨pp, a, b⟩
    · exact Or.inl ⟨by rw [← hn]; exact a, by rw [b]; exact hold phi (hlt phi hphi)⟩
    · refine Or.inr ⟨pp, by rw [← hn]; exact a, ?_⟩
      rw [b, hold phi (hlt phi hphi)]

/-- C23 (Perm placement): for a block `bl` whose phi list holds the pairwise
distinct phis `phis` and a predecessor index `i` below their arities, where
every `i`-th argument that is not live-in at the block has a register,
`insert_all_perms_walker` handles the edge as follows.  When every `i`-th
argument is live-in at the block it inserts nothing and leaves the graph as it
is.  When some `i`-th argument is not live-in it appends one Perm in the
predecessor block whose inputs `ins` are exactly the `i`-th arguments that are
not live-in, each once, followed by one Proj per input: the Proj of position
`k` has the number `k`, the Perm as predecessor and the register of the
argument `ins[k]`.  The `i`-th input of a phi whose argument is an input of the
Perm becomes the Proj of that argument, a phi whose argument is live-in and
every other node stay as they are. -/
theorem insert_all_perms_pred_spec (B : Nat) (env : be_chordal_env_t) (bl i : Nat)
    (g : ir_graph) (phis : List Nat) (hchain : phi_chain g (get_irn_link g bl) phis)
    (hnodup : phis.Nodup) (hlt : ∀ phi ∈ phis, phi < g.nodes.length)
    (harity : ∀ phi ∈ phis, i < get_irn_arity g phi)
    (hreg : ∀ phi ∈ phis, env.is_live_in g bl (get_irn_n g phi i) = false →
      (arch_get_irn_register g (get_irn_n g phi i)).isSome = true)
    (hB : phis.length < B) :
    ((∀ phi ∈ phis, env.is_live_in g bl (get_irn_n g phi i) = true) →
      insert_all_perms_pred B env bl i g = .ok g) ∧
    ((∃ phi ∈ phis, env.is_live_in g bl (get_irn_n g phi i) = false) →
      ∃ g' ins, insert_all_perms_pred B env bl i g = .ok g' ∧
        ins ≠ [] ∧ ins.Nodup ∧
        (∀ a, a ∈ ins ↔
          ∃ phi ∈ phis, get_irn_n g phi i = a ∧ env.is_live_in g bl a = false) ∧
        g'.nodes.length = g.nodes.length + 1 + ins.length ∧
        get_node g' g.nodes.length
          = ⟨.Perm, get_Block_cfgpred_block g bl i, ins, none, none, 0⟩ ∧
        (∀ k < ins.length, get_node g' (g.nodes.length + 1 + k)
          = ⟨.Proj, get_Block_cfgpred_block g bl i, [g.nodes.length],
              arch_get_irn_register g (rd ins k), none, k⟩) ∧
        (∀ phi ∈ phis,
          (env.is_live_in g bl (get_irn_n g phi i) = true →
            get_node g' phi = get_node g phi) ∧
          (env.is_live_in g bl (get_irn_n g phi i) = false →
            ∃ k < ins.length, rd ins k = get_irn_n g phi i ∧
              get_irn_n g' phi i = g.nodes.length + 1 + k ∧
              get_node g' phi = { get_node g phi with
                ins := (get_node g phi).ins.set i (g.nodes.length + 1 + k) })) ∧
        ∀ n < g.nodes.length, n ∉ phis → get_node g' n = get_node g n) := by
  have hmem : ∀ a, a ∈ perm_args env g bl i [] phis ↔
      ∃ phi ∈ phis, get_irn_n g phi i = a ∧ env.is_live_in g bl a = false := by
    intro a
    rw [perm_args_mem]
    simp
  refine ⟨fun hall => ?_, fun hex => ?_⟩
  · refine insert_all_perms_pred_none B env bl i g phis hchain hB ?_
    rw [List.eq_nil_iff_forall_not_mem]
    intro a ha
    obtain ⟨phi, hphi, h1, h2⟩ := (hmem a).mp ha
    have := hall phi hphi
    rw [h1, h2] at this
    cases this
  · obtain ⟨L, hL⟩ : ∃ L, perm_args env g bl i [] phis = L := ⟨_, rfl⟩
    rw [hL] at hmem
    have hne : L ≠ [] := by
      obtain ⟨phi, hphi, h1⟩ := hex
      intro he
      have := (hmem (get_irn_n g phi i)).mpr ⟨phi, hphi, rfl, h1⟩
      rw [he] at this
      cases this
    have hnd : L.Nodup := by
      rw [← hL]
      exact perm_args_nodup env g bl i phis [] List.nodup_nil
    obtain ⟨g', h1, h2, h3, h4⟩ := insert_all_perms_pred_some B env bl i g phis hchain hnodup
      hlt hB L hL hne
      (fun a ha => by
        obtain ⟨phi, hphi, e1, e2⟩ := (hmem a).mp ha
        rw [← e1]
        exact hreg phi hphi (by rw [e1]; exact e2))
    have hout : ∀ n, g.nodes.length ≤ n → n ∉ phis := by
      intro n hn hm
      have := hlt n hm
      omega
    refine ⟨g', L, h1, hne, hnd, hmem, h2, ?_, ?_, ?_, ?_⟩
    · rw [h3 _ (hout _ (le_refl _))]
      have := get_node_append_new g
        (⟨.Perm, get_Block_cfgpred_block g bl i, L, none, none, 0⟩ ::
          proj_nodes (get_Block_cfgpred_block g bl i) g.nodes.length
            (arch_get_irn_register g) 0 L) 0
      simpa using this
    · intro k hk
      rw [h3 _ (hout _ (by omega)), Nat.add_assoc, get_node_append_new,
        Nat.add_comm 1 k, List.getD_cons_succ, proj_nodes_get _ _ _ _ _ _ hk, Nat.zero_add]
    · intro phi hphi
      obtain ⟨f1, f2⟩ := proj_set_find L (get_irn_n g phi i) 0 (g.nodes.length + 1)
      refine ⟨fun hlive => ?_, fun hdead => ?_⟩
      · have hnot : get_irn_n g phi i ∉ L := by
          intro hin
          obtain ⟨_, _, _, e2⟩ := (hmem _).mp hin
          rw [hlive] at e2
          cases e2
        rcases h4 phi hphi with ⟨_, b⟩ | ⟨pp, a, _⟩
        · exact b
        · rw [f1 hnot] at a
          cases a
      · have hin : get_irn_n g phi i ∈ L := (hmem _).mpr ⟨phi, hphi, rfl, hdead⟩
        obtain ⟨j, hj, hj1, hj2⟩ := f2 hin
        rcases h4 phi hphi with ⟨a, _⟩ | ⟨pp, a, b⟩
        · rw [hj2] at a
          cases a
        · rw [hj2] at a
          simp only [Option.some.injEq] at a
          subst a
          simp only [Nat.zero_add] at b
          refine ⟨j, hj, hj1, ?_, b⟩
          have hi := harity phi hphi
          unfold get_irn_arity at hi
          simp [get_irn_n, b, List.getD_eq_getElem?_getD, List.getElem?_set, hi]
    · intro n hn hnp
      rw [h3 n hnp]
      exact get_node_append_old g _ n hn

theorem insert_all_perms_pred_spec_witness :
    ∃ g' ins, insert_all_perms_pred 8 env_quiet 0 0 graph_shared_arg = .ok g' ∧
      ins ≠ [] ∧ ins.Nodup ∧
      (∀ a, a ∈ ins ↔
        ∃ phi ∈ [1, 2], get_irn_n graph_shared_arg phi 0 = a ∧
          env_quiet.is_live_in graph_shared_arg 0 a = false) ∧
      g'.nodes.length = graph_shared_arg.nodes.length + 1 + ins.length ∧
      get_node g' graph_shared_arg.nodes.length
        = ⟨.Perm, get_Block_cfgpred_block graph_shared_arg 0 0, ins, none, none, 0⟩ ∧
      (∀ k < ins.length, get_node g' (graph_shared_arg.nodes.length + 1 + k)
        = ⟨.Proj, get_Block_cfgpred_block graph_shared_arg 0 0,
            [graph_shared_arg.nodes.length],
            arch_get_irn_register graph_shared_arg (rd ins k), none, k⟩) ∧
      (∀ phi ∈ [1, 2],
        (env_quiet.is_live_in graph_shared_arg 0 (get_irn_n graph_shared_arg phi 0) = true →
          get_node g' phi = get_node graph_shared_arg phi) ∧
        (env_quiet.is_live_in graph_shared_arg 0 (get_irn_n graph_shared_arg phi 0) = false →
          ∃ k < ins.length, rd ins k = get_irn_n graph_shared_arg phi 0 ∧
            get_irn_n g' phi 0 = graph_shared_arg.nodes.length + 1 + k ∧
            get_node g' phi = { get_node graph_shared_arg phi with
              ins := (get_node graph_shared_arg phi).ins.set 0
                (graph_shared_arg.nodes.length + 1 + k) })) ∧
      ∀ n < graph_shared_arg.nodes.length, n ∉ [1, 2] →
        get_node g' n = get_node graph_shared_arg n :=
  (insert_all_perms_pred_spec 8 env_quiet 0 0 graph_shared_arg [1, 2] ⟨rfl, rfl, rfl⟩
    (by decide) (by decide) (by decide) (by decide) (by decide)).2 ⟨1, by decide, rfl⟩

/-- C23 (counterexample): in `graph_shared_arg` under `env_live3` the block `0`
has one predecessor and two phis, whose argument, node `3`, is live-in at the
block.  `insert_all_perms_walker` returns the graph as it is: it inserts no
Perm for the edge. -/
theorem insert_all_perms_walker_live_in_no_perm :
    is_Block graph_shared_arg 0 = true ∧ get_irn_arity graph_shared_arg 0 = 1 ∧
    phi_chain graph_shared_arg (get_irn_link graph_shared_arg 0) [1, 2] ∧
    (∀ phi ∈ [1, 2],
      env_live3.is_live_in graph_shared_arg 0 (get_irn_n graph_shared_arg phi 0) = true) ∧
    insert_all_perms_pred 8 env_live3 0 0 graph_shared_arg = .ok graph_shared_arg ∧
    insert_all_perms_walker 8 env_live3 graph_shared_arg 0 = .ok graph_shared_arg ∧
    graph_shared_arg.nodes.all (fun v => decide (v.op ≠ .Perm)) = true :=
  ⟨rfl, rfl, ⟨rfl, rfl, rfl⟩, by decide, rfl, rfl, rfl⟩

end Firm
